import Mathlib

/-! # Verification development for the `bigarray` package

A shallow embedding of the fixed-width value codec, the resident (in-memory)
arrays, the paged disk-backed array with its page cache, and the two
iterator implementations, followed by theorems about them.

Conventions of the embedding.

* Machine integers are natural numbers; every place where the Go code can
  wrap (`uint64` products and sums, `uintN(value)` conversions, the `uint32`
  reference count) carries an explicit `%`.
* A Go call either returns or panics. `Res σ α` records both outcomes
  together with the state of the receiver at that moment, so that "nothing
  was changed before the panic" can be stated.
* Recoverable errors are values of type `Option Error` (`none` is `nil`).
* A `*cachePage` is represented by the key under which the page lives in the
  cache of its array, the cache being the only place that holds pages.
-/

namespace bigarray

/-! ## Outcomes -/

/-- Names an optional or refused operation of the backing store, as in
`NotImplementedError{Op: ...}`. -/
inductive Op where
  | WriteAt
  | Truncate
  | Sync
  deriving DecidableEq

/-- Recoverable errors, returned as ordinary values. -/
inductive Error where
  /-- The end-of-range condition `io.EOF`. -/
  | EOF
  /-- The value `ErrClosedIterator`. -/
  | ErrClosedIterator
  /-- The value `&NotImplementedError{Op: op}`. -/
  | NotImplementedError (op : Op)
  /-- The store refuses an offset or length whose `int64` value is negative. -/
  | negativeOffset
  /-- The store has been closed. -/
  | fileClosed
  deriving DecidableEq

/-- Contract violations: every reason for which the code stops with a panic. -/
inductive Panic where
  /-- The message "BigArray is read-only". -/
  | readOnly
  /-- The message "value out of range". -/
  | valueOutOfRange
  /-- The message "big arrays are not equal in size". -/
  | notEqualInSize
  /-- The message "cannot grow a big array". -/
  | cannotGrow
  /-- The message "Truncate() with live iterators is undefined behavior". -/
  | liveIterators
  /-- The message "BigArray.Close called with outstanding iterators". -/
  | outstandingIterators
  /-- The message of `Iterate` and `ReverseIterate` when `i > j`. -/
  | invertedRange
  /-- The message "must call Next() before ...". -/
  | notPrimed
  /-- The message "must not call ... after Next() returns false". -/
  | exhausted
  /-- The message of `Skip` when `iter.pos > iter.num`. -/
  | posPastNum
  /-- The message "cannot dispose of a dirty page". -/
  | dirtyPage
  /-- The message "BUG" (a width other than 1, 2, 4, 8). -/
  | BUG
  /-- The messages of `options.populate`. -/
  | badOptions
  /-- Go run-time panic: slice bounds or index out of range. -/
  | outOfRange
  /-- Go run-time panic: integer division by zero. -/
  | divideByZero
  /-- Go run-time panic: nil pointer dereference. -/
  | nilPointer
  /-- The loop models ran out of their iteration budget (never happens for a
  budget above the length of the range, see the theorems). -/
  | outOfFuel
  deriving DecidableEq

/-- Outcome of a call on a stateful receiver: it returns `a` leaving the state
`s`, or it panics with the state `s` reached at that moment. -/
inductive Res (σ : Type) (α : Type) where
  | ok (s : σ) (a : α)
  | panic (s : σ) (p : Panic)
  deriving DecidableEq

/-- The "no value" sentinel `^uint64(0)`. -/
def noValue : Nat := 2 ^ 64 - 1

/-! ## Value codec (`ondisk.go`, `util.go`) -/

/-- Value of a little-endian byte string, as `binary.LittleEndian.UintN`
computes it from the bytes it is given. -/
def leValue : List Nat → Nat
  | [] => 0
  | b :: bs => b + 256 * leValue bs

/-- The `w` little-endian bytes of `v`, as `binary.LittleEndian.PutUintN`
stores them: byte `k` is `byte(v >> (8*k))`. -/
def leBytes : Nat → Nat → List Nat
  | 0, _ => []
  | w + 1, v => v % 256 :: leBytes w (v / 256)

/-- Models `binary.LittleEndian.Uint16/32/64` (and `data[0]` for one byte):
reads the first `w` bytes, with Go's bounds check. -/
def leUint (w : Nat) (data : List Nat) : Except Panic Nat :=
  if data.length < w then .error .outOfRange else .ok (leValue (data.take w))

/-- Models `binary.LittleEndian.PutUint16/32/64` (and `data[0] = byte(v)`):
overwrites the first `w` bytes of `data` with the bytes of `v`, which the
caller has already converted to the `w`-byte unsigned type. -/
def lePutUint (w : Nat) (data : List Nat) (v : Nat) : Except Panic (List Nat) :=
  if data.length < w then .error .outOfRange else .ok (leBytes w v ++ data.drop w)

/-- Models `bpvDecode`. -/
def bpvDecode (bpv : Nat) (data : List Nat) : Except Panic Nat :=
  match bpv with
  | 1 => leUint 1 data
  | 2 => leUint 2 data
  | 4 => leUint 4 data
  | 8 => leUint 8 data
  | _ => .error .BUG

/-- Models `bpvEncode`; the result is the new content of the slice `data`. -/
def bpvEncode (bpv : Nat) (data : List Nat) (value : Nat) : Except Panic (List Nat) :=
  match bpv with
  | 1 => lePutUint 1 data (value % 2 ^ 8)
  | 2 => lePutUint 2 data (value % 2 ^ 16)
  | 4 => lePutUint 4 data (value % 2 ^ 32)
  | 8 => lePutUint 8 data (value % 2 ^ 64)
  | _ => .error .BUG

/-- Models `calcMaxToBPV`. -/
def calcMaxToBPV (max : Nat) : Nat :=
  if max ≤ 2 ^ 8 - 1 then 1
  else if max ≤ 2 ^ 16 - 1 then 2
  else if max ≤ 2 ^ 32 - 1 then 4
  else 8

/-- Models `calcBPVToMax`. -/
def calcBPVToMax (bpv : Nat) : Except Panic Nat :=
  match bpv with
  | 1 => .ok (2 ^ 8 - 1)
  | 2 => .ok (2 ^ 16 - 1)
  | 4 => .ok (2 ^ 32 - 1)
  | 8 => .ok (2 ^ 64 - 1)
  | _ => .error .BUG

/-! ## The backing store (`file.go`)

`File` is an interface of the package; its implementations are outside of it.
The model is a random-access byte string with the behaviour of an operating
system file: reads stop at the end of the store, writes past the end extend
it with zero bytes, a negative `int64` offset is refused. `readOnly` selects
the behaviour of `wrappedReaderAt`, which refuses every write. An offset is
passed as the `uint64` the code computes; `int64(x)` is negative exactly when
`2^63 ≤ x`. -/

/-- The backing store: its bytes, whether it is a `wrappedReaderAt`, and whether
it has been closed or removed. -/
structure File where
  bytes : List Nat
  readOnly : Bool
  closed : Bool
  removed : Bool
  deriving DecidableEq

/-- Models `ReadAt(p, off)` for a buffer `p` of `n` bytes: the bytes read, and
`io.EOF` when fewer than `n` were available. -/
def File.ReadAt (f : File) (n : Nat) (off : Nat) : List Nat × Option Error :=
  if f.closed then ([], some .fileClosed)
  else if 2 ^ 63 ≤ off then ([], some .negativeOffset)
  else
    let got := (f.bytes.drop off).take n
    (got, if got.length < n then some .EOF else none)

/-- Models `WriteAt(data, off)`. Writing no bytes changes nothing. -/
def File.WriteAt (f : File) (data : List Nat) (off : Nat) : File × Option Error :=
  if f.readOnly then (f, some (.NotImplementedError .WriteAt))
  else if f.closed then (f, some .fileClosed)
  else if 2 ^ 63 ≤ off then (f, some .negativeOffset)
  else if data.length = 0 then (f, none)
  else
    ({ f with bytes := f.bytes.take off ++ List.replicate (off - f.bytes.length) 0
                        ++ data ++ f.bytes.drop (off + data.length) }, none)

/-- Models `Truncate(n)`: shrinks, or extends with zero bytes. -/
def File.Truncate (f : File) (n : Nat) : File × Option Error :=
  if f.readOnly then (f, some (.NotImplementedError .Truncate))
  else if f.closed then (f, some .fileClosed)
  else if 2 ^ 63 ≤ n then (f, some .negativeOffset)
  else ({ f with bytes := f.bytes.take n ++ List.replicate (n - f.bytes.length) 0 }, none)

/-- Models the dynamic query `ba.f.(flusher)`: only `wrappedReaderAt` has a
`Flush` method, and it returns nil. -/
def File.Flush (f : File) : Option (Option Error) :=
  if f.readOnly then some none else none

/-- Models the dynamic query `ba.f.(syncer)`: an operating system file has a
`Sync` method, `wrappedReaderAt` has none. -/
def File.Sync (f : File) : Option (Option Error) :=
  if f.readOnly then none
  else if f.closed then some (some .fileClosed)
  else some none

/-- Models `Close()`: a no-op returning nil on `wrappedReaderAt`. -/
def File.Close (f : File) : File × Option Error :=
  if f.readOnly then (f, none)
  else if f.closed then (f, some .fileClosed)
  else ({ f with closed := true }, none)

/-- Models `removeFile`: removes the name, then closes the handle. The type
assertion `file.(namer)` fails on a `wrappedReaderAt`, which has no name. -/
def removeFile (f : File) : Res File (Option Error) :=
  if f.readOnly then .panic f .nilPointer
  else if f.removed then
    let r := f.Close
    .ok r.1 (some .fileClosed)
  else
    let r := ({ f with removed := true } : File).Close
    .ok r.1 r.2

/-! ## The buffer pool

A `sync.Pool` of byte slices with a `New` function that allocates `newCap`
zero bytes. The model is one valid behaviour of the pool: last in, first
out. A pooled slice has its length equal to its capacity. -/

/-- The recycling pool: the buffers it holds and the size `New` allocates. -/
structure Pool where
  free : List (List Nat)
  newCap : Nat
  deriving DecidableEq

/-- Models `p.Get().([]byte)`. -/
def Pool.Get (p : Pool) : List Nat × Pool :=
  match p.free with
  | b :: rest => (b, { p with free := rest })
  | [] => (List.replicate p.newCap 0, p)

/-- Models `p.Put(b)`. -/
def Pool.Put (p : Pool) (b : List Nat) : Pool :=
  { p with free := b :: p.free }

/-! ## Slices -/

/-- Models the slice expression `s[lo:hi]` on a slice whose capacity is the
length of `mem`: `none` is the run-time panic. -/
def slice (mem : List Nat) (lo hi : Nat) : Option (List Nat) :=
  if lo ≤ hi ∧ hi ≤ mem.length then some ((mem.drop lo).take (hi - lo)) else none

/-- Writes `cell` over `mem` from position `lo` on (the effect of writing
through the slice `mem[lo:lo+len(cell)]`). -/
def patch (mem : List Nat) (lo : Nat) (cell : List Nat) : List Nat :=
  mem.take lo ++ cell ++ mem.drop (lo + cell.length)

/-! ## The page cache (`ondisk.go`) -/

/-- The struct `cachePage`. The Go slice `data` is kept as the memory behind it
up to its capacity (`data`) and its length (`len`): Go allows `data[lo:hi]`
for `hi` up to the capacity, and the code relies on it. `buf` is the pooled
buffer the page was carved from (`none` is nil). -/
structure cachePage where
  buf : Option (List Nat)
  data : List Nat
  len : Nat
  off : Nat
  refcnt : Nat
  dirty : Bool
  deriving DecidableEq

/-- The value `cachePage{}`. -/
def cachePage.zero : cachePage :=
  { buf := none, data := [], len := 0, off := 0, refcnt := 0, dirty := false }

/-- Models `cachePage.contains`. -/
def cachePage.contains (page : cachePage) (i j : Nat) : Bool :=
  decide (page.off ≤ i ∧ j ≤ (page.off + page.len) % 2 ^ 64)

/-- The map `map[uint64]*cachePage`, as an association list. -/
abbrev Cache := List (Nat × cachePage)

/-- Map lookup `cache[k]`. -/
def cacheGet : Cache → Nat → Option cachePage
  | [], _ => none
  | (k1, pg) :: rest, k => if k1 = k then some pg else cacheGet rest k

/-- Map removal `delete(cache, k)`. -/
def cacheDel (c : Cache) (k : Nat) : Cache :=
  c.filter (fun e => decide (e.1 ≠ k))

/-- Map assignment `cache[k] = pg`. -/
def cacheSet (c : Cache) (k : Nat) (pg : cachePage) : Cache :=
  (k, pg) :: cacheDel c k

/-- A write through the page pointer held under key `k`. -/
def cacheModify : Cache → Nat → (cachePage → cachePage) → Cache
  | [], _, _ => []
  | (k1, pg) :: rest, k, g => (k1, if k1 = k then g pg else pg) :: cacheModify rest k g

/-! ## The paged disk-backed array (`ondisk.go`) -/

/-- The struct `onDiskArray`. -/
structure onDiskArray where
  f : File
  p : Option Pool
  cache : Cache
  num : Nat
  max : Nat
  psz : Nat
  bpv : Nat
  ro : Bool
  doc : Bool
  deriving DecidableEq

/-- The page object behind the pointer `k`. A pointer to a page that has left
the cache sees the zeroed object `disposePage` leaves behind. -/
def onDiskArray.pageAt (ba : onDiskArray) (k : Nat) : cachePage :=
  (cacheGet ba.cache k).getD cachePage.zero

/-- Models `onDiskArray.Frozen`. -/
def onDiskArray.Frozen (ba : onDiskArray) : Bool := ba.ro

/-- Models `onDiskArray.MaxValue`. -/
def onDiskArray.MaxValue (ba : onDiskArray) : Nat := ba.max

/-- Models `onDiskArray.Len`. -/
def onDiskArray.Len (ba : onDiskArray) : Nat := ba.num

/-- Models `onDiskArray.compute`: the start of the page and the offset in the
page of the cell of `index`; `none` is the division by a zero page size. -/
def onDiskArray.compute (ba : onDiskArray) (index : Nat) : Option (Nat × Nat) :=
  if ba.psz = 0 then none
  else
    let offset := (index * ba.bpv) % 2 ^ 64
    let rounded := (offset / ba.psz) * ba.psz
    some (rounded, offset - rounded)

/-- Models `onDiskArray.ValueAt`. -/
def onDiskArray.ValueAt (ba : onDiskArray) (index : Nat) : Res onDiskArray (Nat × Option Error) :=
  if ba.Len ≤ index then .ok ba (noValue, some .EOF)
  else
    match ba.compute index with
    | none => .panic ba .divideByZero
    | some (pageStart, offsetInPage) =>
      match cacheGet ba.cache pageStart with
      | some page =>
        match slice page.data offsetInPage ((offsetInPage + ba.bpv) % 2 ^ 64) with
        | none => .panic ba .outOfRange
        | some data =>
          match bpvDecode ba.bpv data with
          | .error p => .panic ba p
          | .ok v => .ok ba (v, none)
      | none =>
        if 8 < ba.bpv then .panic ba .outOfRange
        else
          let r := ba.f.ReadAt ba.bpv ((index * ba.bpv) % 2 ^ 64)
          match r.2 with
          | some e => .ok ba (noValue, some e)
          | none =>
            match bpvDecode ba.bpv r.1 with
            | .error p => .panic ba p
            | .ok v => .ok ba (v, none)

/-- Models `onDiskArray.SetValueAt`. -/
def onDiskArray.SetValueAt (ba : onDiskArray) (index value : Nat) : Res onDiskArray (Option Error) :=
  if ba.ro then .panic ba .readOnly
  else if ba.MaxValue < value then .panic ba .valueOutOfRange
  else if ba.Len ≤ index then .ok ba (some .EOF)
  else if 8 < ba.bpv then .panic ba .outOfRange
  else
    let offset := (index * ba.bpv) % 2 ^ 64
    match bpvEncode ba.bpv (List.replicate ba.bpv 0) value with
    | .error p => .panic ba p
    | .ok data =>
      match ba.compute index with
      | none => .panic ba .divideByZero
      | some (pageStart, offsetInPage) =>
        match cacheGet ba.cache pageStart with
        | some page =>
          match slice page.data offsetInPage ((offsetInPage + ba.bpv) % 2 ^ 64) with
          | none => .panic ba .outOfRange
          | some _ =>
            let g : cachePage → cachePage :=
              fun pg => { pg with data := patch pg.data offsetInPage data }
            let ba1 := { ba with cache := cacheModify ba.cache pageStart g }
            let r := ba1.f.WriteAt data offset
            .ok { ba1 with f := r.1 } r.2
        | none =>
          let r := ba.f.WriteAt data offset
          .ok { ba with f := r.1 } r.2

/-- Models `flushPage`. -/
def flushPage (ba : onDiskArray) (page : Option Nat) : onDiskArray × Option Error :=
  match page with
  | none => (ba, none)
  | some k =>
    let pg := ba.pageAt k
    if pg.dirty then
      let r := ba.f.WriteAt (pg.data.take pg.len) pg.off
      match r.2 with
      | some e => ({ ba with f := r.1 }, some e)
      | none =>
        ({ ba with f := r.1,
                   cache := cacheModify ba.cache k (fun p => { p with dirty := false }) }, none)
    else (ba, none)

/-- Models `onDiskArray.acquirePage`; the page returned is its key. -/
def onDiskArray.acquirePage (ba : onDiskArray) (off : Nat) : onDiskArray × Option Nat × Option Error :=
  match cacheGet ba.cache off with
  | some _ =>
    let g : cachePage → cachePage := fun pg => { pg with refcnt := (pg.refcnt + 1) % 2 ^ 32 }
    ({ ba with cache := cacheModify ba.cache off g }, some off, none)
  | none =>
    let got : Option (List Nat) × Option Pool :=
      match ba.p with
      | some p => (some p.Get.1, some p.Get.2)
      | none => (none, none)
    let bb := got.1
    let b : List Nat :=
      if ba.psz ≤ (bb.getD []).length then bb.getD [] else List.replicate ba.psz 0
    let r := ba.f.ReadAt ba.psz off
    if r.2 ≠ none ∧ r.2 ≠ some .EOF then
      ({ ba with p := got.2 }, none, r.2)
    else
      let page : cachePage :=
        { buf := bb, data := r.1 ++ b.drop r.1.length, len := r.1.length,
          off := off, refcnt := 1, dirty := false }
      ({ ba with p := got.2, cache := cacheSet ba.cache off page }, some off, none)

/-- Models `onDiskArray.disposePage`. -/
def onDiskArray.disposePage (ba : onDiskArray) (page : Option Nat) : Res onDiskArray Unit :=
  match page with
  | none => .ok ba ()
  | some k =>
    let pg := ba.pageAt k
    if pg.dirty then .panic ba .dirtyPage
    else
      let rc := (pg.refcnt + 2 ^ 32 - 1) % 2 ^ 32
      if 0 < rc then
        .ok { ba with cache := cacheModify ba.cache k (fun q => { q with refcnt := rc }) } ()
      else
        let pool : Option Pool :=
          match ba.p, pg.buf with
          | some p, some bb => some (p.Put (if ba.psz ≤ bb.length then pg.data else bb))
          | p, _ => p
        .ok { ba with cache := cacheModify (cacheDel ba.cache pg.off) k (fun _ => cachePage.zero),
                      p := pool } ()

/-- Models `onDiskArray.Truncate`. -/
def onDiskArray.Truncate (ba : onDiskArray) (length : Nat) : Res onDiskArray (Option Error) :=
  if ba.ro then .panic ba .readOnly
  else if ba.Len < length then .panic ba .cannotGrow
  else if ba.cache.length ≠ 0 then .panic ba .liveIterators
  else
    let lengthBytes := (length * ba.bpv) % 2 ^ 64
    let r := ba.f.Truncate lengthBytes
    .ok { ba with num := length, f := r.1 } r.2

/-- The loop of `onDiskArray.Flush` over the pages of the cache. -/
def flushPages : List Nat → onDiskArray → Option Error → onDiskArray × Option Error
  | [], ba, finalError => (ba, finalError)
  | k :: ks, ba, finalError =>
    let r := flushPage ba (some k)
    flushPages ks r.1 (if r.2 ≠ none ∧ finalError = none then r.2 else finalError)

/-- Models `onDiskArray.Flush`. -/
def onDiskArray.Flush (ba : onDiskArray) : onDiskArray × Option Error :=
  let r := flushPages (ba.cache.map Prod.fst) ba none
  match r.1.f.Flush with
  | some err => (r.1, if r.2 = none then err else r.2)
  | none => r

/-- Models `onDiskArray.Freeze`. -/
def onDiskArray.Freeze (ba : onDiskArray) : onDiskArray × Option Error :=
  ({ ba with ro := true } : onDiskArray).Flush

/-- Models `onDiskArray.Sync`. -/
def onDiskArray.Sync (ba : onDiskArray) : onDiskArray × Option Error :=
  let r := ba.Flush
  match r.2 with
  | some e => (r.1, some e)
  | none =>
    match r.1.f.Sync with
    | some e => (r.1, e)
    | none => (r.1, some (.NotImplementedError .Sync))

/-- Models `onDiskArray.Close`, its deferred function included: when the call
panics the handle is still closed (or the file removed) on the way out. -/
def onDiskArray.Close (ba : onDiskArray) : Res onDiskArray (Option Error) :=
  if ba.cache.length ≠ 0 then
    if ba.doc then
      match removeFile ba.f with
      | .ok f1 _ => .panic { ba with f := f1 } .outstandingIterators
      | .panic f1 p => .panic { ba with f := f1 } p
    else .panic { ba with f := ba.f.Close.1 } .outstandingIterators
  else if ba.doc then
    match removeFile ba.f with
    | .ok f1 e => .ok { ba with f := f1 } e
    | .panic f1 p => .panic { ba with f := f1 } p
  else .ok { ba with f := ba.f.Close.1 } ba.f.Close.2

/-! ## The iterator of the paged disk-backed array (`ondisk.go`) -/

/-- The struct `onDiskIterator`, without its pointer to the array: every
method takes the array as an argument. `page` is the key of the attached
page. -/
structure onDiskIterator where
  page : Option Nat
  err : Option Error
  base : Nat
  pos : Nat
  num : Nat
  val : Nat
  primed : Bool
  down : Bool
  deriving DecidableEq

/-- Models `onDiskArray.Iterate`. -/
def onDiskArray.Iterate (_ba : onDiskArray) (i j : Nat) : Except Panic onDiskIterator :=
  if j < i then .error .invertedRange
  else .ok { page := none, err := none, base := i, pos := 0, num := j - i, val := noValue,
             primed := false, down := false }

/-- Models `onDiskArray.ReverseIterate`. -/
def onDiskArray.ReverseIterate (_ba : onDiskArray) (i j : Nat) : Except Panic onDiskIterator :=
  if j < i then .error .invertedRange
  else .ok { page := none, err := none, base := i, pos := 0, num := j - i, val := noValue,
             primed := false, down := true }

/-- Models `onDiskIterator.Err`. -/
def onDiskIterator.Err (iter : onDiskIterator) : Option Error := iter.err

/-- Models `onDiskIterator.Index`. -/
def onDiskIterator.Index (iter : onDiskIterator) : Except Panic Nat :=
  if iter.primed = false then .error .notPrimed
  else if iter.num ≤ iter.pos then .error .exhausted
  else if iter.down then .ok ((iter.base + (iter.num - iter.pos - 1)) % 2 ^ 64)
  else .ok ((iter.base + iter.pos) % 2 ^ 64)

/-- Models `onDiskIterator.Value`. -/
def onDiskIterator.Value (iter : onDiskIterator) : Except Panic Nat :=
  if iter.primed = false then .error .notPrimed
  else if iter.num ≤ iter.pos then .error .exhausted
  else .ok iter.val

/-- Models `onDiskIterator.SetValue`. -/
def onDiskIterator.SetValue (ba : onDiskArray) (iter : onDiskIterator) (value : Nat) :
    Res (onDiskArray × onDiskIterator) Unit :=
  if iter.primed = false then .panic (ba, iter) .notPrimed
  else if iter.num ≤ iter.pos then .panic (ba, iter) .exhausted
  else if ba.ro then .panic (ba, iter) .readOnly
  else if ba.MaxValue < value then .panic (ba, iter) .valueOutOfRange
  else if iter.err ≠ none then .ok (ba, iter) ()
  else
    match iter.Index with
    | .error p => .panic (ba, iter) p
    | .ok index =>
      match iter.page with
      | none => .panic (ba, iter) .nilPointer
      | some k =>
        let offset := ((index * ba.bpv) % 2 ^ 64 + 2 ^ 64 - (ba.pageAt k).off) % 2 ^ 64
        match slice (ba.pageAt k).data offset ((offset + ba.bpv) % 2 ^ 64) with
        | none => .panic (ba, iter) .outOfRange
        | some data =>
          match bpvEncode ba.bpv data value with
          | .error p => .panic (ba, iter) p
          | .ok cell =>
            let g : cachePage → cachePage :=
              fun pg => { pg with data := patch pg.data offset cell, dirty := true }
            .ok ({ ba with cache := cacheModify ba.cache k g }, iter) ()

/-- The first part of the page change in `Skip`: when a page is attached and it
is not the page at `pageOffset`, flush it and release it. An early return of
`Skip` is the `error` case. -/
def onDiskIterator.detach (ba : onDiskArray) (iter : onDiskIterator) (pageOffset : Nat) :
    Except (Res (onDiskArray × onDiskIterator) Bool) (onDiskArray × onDiskIterator) :=
  match iter.page with
  | none => .ok (ba, iter)
  | some k =>
    if (ba.pageAt k).off ≠ pageOffset then
      let r := flushPage ba (some k)
      match r.2 with
      | some e => .error (.ok (r.1, { iter with err := some e, val := noValue }) false)
      | none =>
        match r.1.disposePage (some k) with
        | .panic s p => .error (.panic (s, iter) p)
        | .ok s _ => .ok (s, { iter with page := none })
    else .ok (ba, iter)

/-- The second part of the page change in `Skip`: when no page is attached,
acquire the page at `pageOffset`. -/
def onDiskIterator.attach (ba : onDiskArray) (iter : onDiskIterator) (pageOffset : Nat) :
    Except (Res (onDiskArray × onDiskIterator) Bool) (onDiskArray × onDiskIterator) :=
  match iter.page with
  | some _ => .ok (ba, iter)
  | none =>
    let r := ba.acquirePage pageOffset
    match r.2.2 with
    | some e => .error (.ok (r.1, { iter with err := some e, val := noValue }) false)
    | none => .ok (r.1, { iter with page := r.2.1 })

/-- Models `onDiskIterator.Skip`. The addition `iter.pos += n` cannot wrap: it
is reached only for `n < iter.num - iter.pos`. -/
def onDiskIterator.Skip (ba : onDiskArray) (iter : onDiskIterator) (n : Nat) :
    Res (onDiskArray × onDiskIterator) Bool :=
  if iter.num < iter.pos then .panic (ba, iter) .posPastNum
  else if n = 0 ∧ iter.primed = false then .panic (ba, iter) .notPrimed
  else if iter.err ≠ none then .ok (ba, iter) false
  else
    let n1 := if iter.primed then n else n - 1
    let it1 := { iter with primed := true }
    if it1.num - it1.pos ≤ n1 then .ok (ba, { it1 with pos := it1.num, val := noValue }) false
    else
      let it2 := { it1 with pos := it1.pos + n1 }
      match it2.Index with
      | .error p => .panic (ba, it2) p
      | .ok index =>
        let offset := (index * ba.bpv) % 2 ^ 64
        if ba.psz = 0 then .panic (ba, it2) .divideByZero
        else
          let pageOffset := (offset / ba.psz) * ba.psz
          match onDiskIterator.detach ba it2 pageOffset with
          | .error r => r
          | .ok (ba3, it3) =>
            match onDiskIterator.attach ba3 it3 pageOffset with
            | .error r => r
            | .ok (ba4, it4) =>
              match it4.page with
              | none => .panic (ba4, it4) .nilPointer
              | some k =>
                let o := (offset + 2 ^ 64 - (ba4.pageAt k).off) % 2 ^ 64
                match slice (ba4.pageAt k).data o ((o + ba4.bpv) % 2 ^ 64) with
                | none => .panic (ba4, it4) .outOfRange
                | some data =>
                  match bpvDecode ba4.bpv data with
                  | .error p => .panic (ba4, it4) p
                  | .ok v => .ok (ba4, { it4 with val := v }) true

/-- Models `onDiskIterator.Next`. -/
def onDiskIterator.Next (ba : onDiskArray) (iter : onDiskIterator) :
    Res (onDiskArray × onDiskIterator) Bool :=
  onDiskIterator.Skip ba iter 1

/-- Models `onDiskIterator.Flush`. -/
def onDiskIterator.Flush (ba : onDiskArray) (iter : onDiskIterator) : onDiskArray × Option Error :=
  flushPage ba iter.page

/-- The value `onDiskIterator{err: ErrClosedIterator}`. -/
def onDiskIterator.closed : onDiskIterator :=
  { page := none, err := some .ErrClosedIterator, base := 0, pos := 0, num := 0, val := 0,
    primed := false, down := false }

/-- Models `onDiskIterator.Close`. -/
def onDiskIterator.Close (ba : onDiskArray) (iter : onDiskIterator) :
    Res (onDiskArray × onDiskIterator) (Option Error) :=
  let r := onDiskIterator.Flush ba iter
  let err := if iter.err ≠ none then iter.err else r.2
  match r.1.disposePage iter.page with
  | .panic s p => .panic (s, iter) p
  | .ok s _ => .ok (s, onDiskIterator.closed) err

/-! ## The resident arrays (`inmem8.go`, `inmem16.go`, `inmem32.go`, `inmem64.go`)

The four files differ only in the element type. `bpv` names the variant:
1 for `inMemoryArray8`, 2 for `inMemoryArray16`, 4 for `inMemoryArray32`,
8 for `inMemoryArray64`; the conversion `uintN(value)` is `value % 2^(8*bpv)`. -/

/-- The structs `inMemoryArray8/16/32/64`. -/
structure inMemoryArray where
  bpv : Nat
  data : List Nat
  max : Nat
  ro : Bool
  deriving DecidableEq

/-- Models `inMemoryArrayN.Frozen`. -/
def inMemoryArray.Frozen (ba : inMemoryArray) : Bool := ba.ro

/-- Models `inMemoryArrayN.MaxValue`. -/
def inMemoryArray.MaxValue (ba : inMemoryArray) : Nat := ba.max

/-- Models `inMemoryArrayN.Len`. -/
def inMemoryArray.Len (ba : inMemoryArray) : Nat := ba.data.length

/-- Models `inMemoryArrayN.ValueAt`. -/
def inMemoryArray.ValueAt (ba : inMemoryArray) (index : Nat) : Res inMemoryArray (Nat × Option Error) :=
  if ba.Len ≤ index then .ok ba (noValue, some .EOF)
  else .ok ba (ba.data.getD index 0, none)

/-- Models `inMemoryArrayN.SetValueAt`. -/
def inMemoryArray.SetValueAt (ba : inMemoryArray) (index value : Nat) : Res inMemoryArray (Option Error) :=
  if ba.ro then .panic ba .readOnly
  else if ba.MaxValue < value then .panic ba .valueOutOfRange
  else if ba.Len ≤ index then .ok ba (some .EOF)
  else .ok { ba with data := ba.data.set index (value % 2 ^ (8 * ba.bpv)) } none

/-- Models `inMemoryArrayN.Truncate`. -/
def inMemoryArray.Truncate (ba : inMemoryArray) (n : Nat) : Res inMemoryArray (Option Error) :=
  if ba.ro then .panic ba .readOnly
  else if ba.Len < n then .panic ba .cannotGrow
  else .ok { ba with data := ba.data.take n } none

/-- Models `inMemoryArrayN.Freeze`. -/
def inMemoryArray.Freeze (ba : inMemoryArray) : inMemoryArray × Option Error :=
  ({ ba with ro := true }, none)

/-- Models `inMemoryArrayN.Flush`. -/
def inMemoryArray.Flush (ba : inMemoryArray) : inMemoryArray × Option Error := (ba, none)

/-- Models `inMemoryArrayN.Close`. -/
def inMemoryArray.Close (ba : inMemoryArray) : Res inMemoryArray (Option Error) := .ok ba none

/-! ## The iterator of the resident arrays (`inmem_iter.go`) -/

/-- The struct `inMemoryIterator`, without its pointer to the array. -/
structure inMemoryIterator where
  err : Option Error
  base : Nat
  pos : Nat
  num : Nat
  val : Nat
  primed : Bool
  down : Bool
  deriving DecidableEq

/-- Models `inMemoryArrayN.Iterate`. -/
def inMemoryArray.Iterate (_ba : inMemoryArray) (i j : Nat) : Except Panic inMemoryIterator :=
  if j < i then .error .invertedRange
  else .ok { err := none, base := i, pos := 0, num := j - i, val := noValue,
             primed := false, down := false }

/-- Models `inMemoryArrayN.ReverseIterate`. -/
def inMemoryArray.ReverseIterate (_ba : inMemoryArray) (i j : Nat) : Except Panic inMemoryIterator :=
  if j < i then .error .invertedRange
  else .ok { err := none, base := i, pos := 0, num := j - i, val := noValue,
             primed := false, down := true }

/-- Models `inMemoryIterator.Err`. -/
def inMemoryIterator.Err (iter : inMemoryIterator) : Option Error := iter.err

/-- Models `inMemoryIterator.Index`. -/
def inMemoryIterator.Index (iter : inMemoryIterator) : Except Panic Nat :=
  if iter.primed = false then .error .notPrimed
  else if iter.num ≤ iter.pos then .error .exhausted
  else if iter.down then .ok ((iter.base + (iter.num - iter.pos - 1)) % 2 ^ 64)
  else .ok ((iter.base + iter.pos) % 2 ^ 64)

/-- Models `inMemoryIterator.Value`. -/
def inMemoryIterator.Value (iter : inMemoryIterator) : Except Panic Nat :=
  if iter.primed = false then .error .notPrimed
  else if iter.num ≤ iter.pos then .error .exhausted
  else .ok iter.val

/-- Models `inMemoryIterator.SetValue`. -/
def inMemoryIterator.SetValue (ba : inMemoryArray) (iter : inMemoryIterator) (value : Nat) :
    Res (inMemoryArray × inMemoryIterator) Unit :=
  if iter.primed = false then .panic (ba, iter) .notPrimed
  else if iter.num ≤ iter.pos then .panic (ba, iter) .exhausted
  else if iter.err ≠ none then .ok (ba, iter) ()
  else
    let it1 := { iter with val := value }
    match it1.Index with
    | .error p => .panic (ba, it1) p
    | .ok index =>
      match ba.SetValueAt index value with
      | .panic s p => .panic (s, it1) p
      | .ok s e => .ok (s, { it1 with err := e }) ()

/-- Models `inMemoryIterator.Skip`. The addition `iter.pos += n` cannot wrap: it
is reached only for `n < iter.num - iter.pos`. -/
def inMemoryIterator.Skip (ba : inMemoryArray) (iter : inMemoryIterator) (n : Nat) :
    Res (inMemoryArray × inMemoryIterator) Bool :=
  if iter.num < iter.pos then .panic (ba, iter) .posPastNum
  else if n = 0 ∧ iter.primed = false then .panic (ba, iter) .notPrimed
  else if iter.err ≠ none then .ok (ba, iter) false
  else
    let n1 := if iter.primed then n else n - 1
    let it1 := { iter with primed := true }
    if it1.num - it1.pos ≤ n1 then .ok (ba, { it1 with pos := it1.num, val := noValue }) false
    else
      let it2 := { it1 with pos := it1.pos + n1 }
      match it2.Index with
      | .error p => .panic (ba, it2) p
      | .ok index =>
        match ba.ValueAt index with
        | .panic s p => .panic (s, it2) p
        | .ok s r =>
          match r.2 with
          | some e => .ok (s, { it2 with val := noValue, err := some e }) false
          | none => .ok (s, { it2 with val := r.1, err := none }) true

/-- Models `inMemoryIterator.Next`. -/
def inMemoryIterator.Next (ba : inMemoryArray) (iter : inMemoryIterator) :
    Res (inMemoryArray × inMemoryIterator) Bool :=
  inMemoryIterator.Skip ba iter 1

/-- Models `inMemoryIterator.Flush`. -/
def inMemoryIterator.Flush (_iter : inMemoryIterator) : Option Error := none

/-- The value `inMemoryIterator{err: ErrClosedIterator}`. -/
def inMemoryIterator.closed : inMemoryIterator :=
  { err := some .ErrClosedIterator, base := 0, pos := 0, num := 0, val := 0,
    primed := false, down := false }

/-- Models `inMemoryIterator.Close`. -/
def inMemoryIterator.Close (iter : inMemoryIterator) : inMemoryIterator × Option Error :=
  (inMemoryIterator.closed, iter.err)

/-! ## The interfaces `BigArray` and `Iterator` (`interface.go`) -/

/-- A value of the interface `BigArray`: one of the two backings. -/
inductive BigArray where
  | mem (ba : inMemoryArray)
  | disk (ba : onDiskArray)
  deriving DecidableEq

/-- A value of the interface `Iterator`: the iterator struct together with the
array its `ba` field points to. -/
inductive Iterator where
  | mem (ba : inMemoryArray) (iter : inMemoryIterator)
  | disk (ba : onDiskArray) (iter : onDiskIterator)
  deriving DecidableEq

/-- Dispatch of `Frozen`. -/
def BigArray.Frozen : BigArray → Bool
  | .mem a => a.Frozen
  | .disk a => a.Frozen

/-- Dispatch of `MaxValue`. -/
def BigArray.MaxValue : BigArray → Nat
  | .mem a => a.MaxValue
  | .disk a => a.MaxValue

/-- Dispatch of `Len`. -/
def BigArray.Len : BigArray → Nat
  | .mem a => a.Len
  | .disk a => a.Len

/-- Dispatch of `ValueAt`. -/
def BigArray.ValueAt : BigArray → Nat → Res BigArray (Nat × Option Error)
  | .mem a, i =>
    match a.ValueAt i with
    | .ok s r => .ok (.mem s) r
    | .panic s p => .panic (.mem s) p
  | .disk a, i =>
    match a.ValueAt i with
    | .ok s r => .ok (.disk s) r
    | .panic s p => .panic (.disk s) p

/-- Dispatch of `SetValueAt`. -/
def BigArray.SetValueAt : BigArray → Nat → Nat → Res BigArray (Option Error)
  | .mem a, i, v =>
    match a.SetValueAt i v with
    | .ok s r => .ok (.mem s) r
    | .panic s p => .panic (.mem s) p
  | .disk a, i, v =>
    match a.SetValueAt i v with
    | .ok s r => .ok (.disk s) r
    | .panic s p => .panic (.disk s) p

/-- Dispatch of `Truncate`. -/
def BigArray.Truncate : BigArray → Nat → Res BigArray (Option Error)
  | .mem a, n =>
    match a.Truncate n with
    | .ok s r => .ok (.mem s) r
    | .panic s p => .panic (.mem s) p
  | .disk a, n =>
    match a.Truncate n with
    | .ok s r => .ok (.disk s) r
    | .panic s p => .panic (.disk s) p

/-- Dispatch of `Freeze`. -/
def BigArray.Freeze : BigArray → BigArray × Option Error
  | .mem a => (.mem a.Freeze.1, a.Freeze.2)
  | .disk a => (.disk a.Freeze.1, a.Freeze.2)

/-- Dispatch of `Flush`. -/
def BigArray.Flush : BigArray → BigArray × Option Error
  | .mem a => (.mem a.Flush.1, a.Flush.2)
  | .disk a => (.disk a.Flush.1, a.Flush.2)

/-- Dispatch of `Close`. -/
def BigArray.Close : BigArray → Res BigArray (Option Error)
  | .mem a =>
    match a.Close with
    | .ok s r => .ok (.mem s) r
    | .panic s p => .panic (.mem s) p
  | .disk a =>
    match a.Close with
    | .ok s r => .ok (.disk s) r
    | .panic s p => .panic (.disk s) p

/-- Dispatch of `Iterate`. -/
def BigArray.Iterate : BigArray → Nat → Nat → Except Panic Iterator
  | .mem a, i, j => (a.Iterate i j).map (Iterator.mem a)
  | .disk a, i, j => (a.Iterate i j).map (Iterator.disk a)

/-- Dispatch of `ReverseIterate`. -/
def BigArray.ReverseIterate : BigArray → Nat → Nat → Except Panic Iterator
  | .mem a, i, j => (a.ReverseIterate i j).map (Iterator.mem a)
  | .disk a, i, j => (a.ReverseIterate i j).map (Iterator.disk a)

/-- The array an iterator points to. -/
def Iterator.array : Iterator → BigArray
  | .mem a _ => .mem a
  | .disk a _ => .disk a

/-- Dispatch of `Err`. -/
def Iterator.Err : Iterator → Option Error
  | .mem _ it => it.Err
  | .disk _ it => it.Err

/-- Dispatch of `Index`. -/
def Iterator.Index : Iterator → Except Panic Nat
  | .mem _ it => it.Index
  | .disk _ it => it.Index

/-- Dispatch of `Value`. -/
def Iterator.Value : Iterator → Except Panic Nat
  | .mem _ it => it.Value
  | .disk _ it => it.Value

/-- Dispatch of `Skip`. -/
def Iterator.Skip : Iterator → Nat → Res Iterator Bool
  | .mem a it, n =>
    match inMemoryIterator.Skip a it n with
    | .ok s b => .ok (.mem s.1 s.2) b
    | .panic s p => .panic (.mem s.1 s.2) p
  | .disk a it, n =>
    match onDiskIterator.Skip a it n with
    | .ok s b => .ok (.disk s.1 s.2) b
    | .panic s p => .panic (.disk s.1 s.2) p

/-- Dispatch of `Next`. -/
def Iterator.Next : Iterator → Res Iterator Bool
  | .mem a it =>
    match inMemoryIterator.Next a it with
    | .ok s b => .ok (.mem s.1 s.2) b
    | .panic s p => .panic (.mem s.1 s.2) p
  | .disk a it =>
    match onDiskIterator.Next a it with
    | .ok s b => .ok (.disk s.1 s.2) b
    | .panic s p => .panic (.disk s.1 s.2) p

/-- Dispatch of `SetValue`. -/
def Iterator.SetValue : Iterator → Nat → Res Iterator Unit
  | .mem a it, v =>
    match inMemoryIterator.SetValue a it v with
    | .ok s b => .ok (.mem s.1 s.2) b
    | .panic s p => .panic (.mem s.1 s.2) p
  | .disk a it, v =>
    match onDiskIterator.SetValue a it v with
    | .ok s b => .ok (.disk s.1 s.2) b
    | .panic s p => .panic (.disk s.1 s.2) p

/-- Dispatch of `Flush`. -/
def Iterator.Flush : Iterator → Iterator × Option Error
  | .mem a it => (.mem a it, it.Flush)
  | .disk a it => (.disk (onDiskIterator.Flush a it).1 it, (onDiskIterator.Flush a it).2)

/-- Dispatch of `Close`. -/
def Iterator.Close : Iterator → Res Iterator (Option Error)
  | .mem a it => .ok (.mem a it.Close.1) it.Close.2
  | .disk a it =>
    match onDiskIterator.Close a it with
    | .ok s e => .ok (.disk s.1 s.2) e
    | .panic s p => .panic (.disk s.1 s.2) p

/-! ## Copying and traversal helpers (`util.go`, `foreach.go`) -/

/-- A deferred `Close()` whose result is dropped: the array afterwards, and the
panic of the call if it panicked. -/
def Iterator.deferredClose (it : Iterator) : BigArray × Option Panic :=
  match it.Close with
  | .ok s _ => (s.array, none)
  | .panic s p => (s.array, some p)

/-- The loop `for srcIter.Next() && dstIter.Next() { dstIter.SetValue(srcIter.Value()) }`
of `copyFromImpl`, with an iteration budget. The state is `(dstIter, srcIter)`. -/
def copyLoop : Nat → Iterator → Iterator → Res (Iterator × Iterator) Unit
  | 0, d, s => .panic (d, s) .outOfFuel
  | fuel + 1, d, s =>
    match s.Next with
    | .panic s1 p => .panic (d, s1) p
    | .ok s1 false => .ok (d, s1) ()
    | .ok s1 true =>
      match d.Next with
      | .panic d1 p => .panic (d1, s1) p
      | .ok d1 false => .ok (d1, s1) ()
      | .ok d1 true =>
        match s1.Value with
        | .error p => .panic (d1, s1) p
        | .ok v =>
          match d1.SetValue v with
          | .panic d2 p => .panic (d2, s1) p
          | .ok d2 _ => copyLoop fuel d2 s1

/-- Models `copyFromImpl` for two distinct arrays; the state is `(dst, src)`.
The deferred closes run when the body panics or returns early; a panic of a
deferred close replaces the panic in flight. -/
def copyFromImpl (dst src : BigArray) : Res (BigArray × BigArray) (Option Error) :=
  match src.Iterate 0 src.Len with
  | .error p => .panic (dst, src) p
  | .ok srcIter =>
    match dst.Iterate 0 dst.Len with
    | .error p =>
      let cs := srcIter.deferredClose
      .panic (dst, cs.1) (cs.2.getD p)
    | .ok dstIter =>
      match copyLoop (src.Len + 1) dstIter srcIter with
      | .panic st p =>
        let cd := st.1.deferredClose
        let cs := st.2.deferredClose
        .panic (cd.1, cs.1) (cs.2.getD (cd.2.getD p))
      | .ok st _ =>
        match st.1.Close with
        | .panic d1 p =>
          let cs := st.2.deferredClose
          .panic (d1.array, cs.1) (cs.2.getD p)
        | .ok d1 (some e) =>
          let cs := st.2.deferredClose
          match cs.2 with
          | some p => .panic (d1.array, cs.1) p
          | none => .ok (d1.array, cs.1) (some e)
        | .ok d1 none =>
          match st.2.Close with
          | .panic s1 p => .panic (d1.array, s1.array) p
          | .ok s1 e => .ok (d1.array, s1.array) e

/-- Models `inMemoryArrayN.CopyFrom`; the state is `(dst, src)`. The type
assertion `src.(*inMemoryArrayN)` succeeds for a resident source of the same
variant, and `copy` then copies as many elements as both slices have. -/
def inMemoryArray.CopyFrom (ba : inMemoryArray) (src : BigArray) :
    Res (BigArray × BigArray) (Option Error) :=
  if ba.ro then .panic (.mem ba, src) .readOnly
  else if src.Len ≠ ba.Len then .panic (.mem ba, src) .notEqualInSize
  else
    match src with
    | .mem x =>
      if x.bpv = ba.bpv then
        let n := min ba.data.length x.data.length
        .ok (.mem { ba with data := x.data.take n ++ ba.data.drop n }, src) none
      else copyFromImpl (.mem ba) src
    | .disk _ => copyFromImpl (.mem ba) src

/-- Models `onDiskArray.CopyFrom`; the state is `(dst, src)`. -/
def onDiskArray.CopyFrom (ba : onDiskArray) (src : BigArray) :
    Res (BigArray × BigArray) (Option Error) :=
  if ba.ro then .panic (.disk ba, src) .readOnly
  else if src.Len ≠ ba.Len then .panic (.disk ba, src) .notEqualInSize
  else copyFromImpl (.disk ba) src

/-- Dispatch of `CopyFrom`. -/
def BigArray.CopyFrom : BigArray → BigArray → Res (BigArray × BigArray) (Option Error)
  | .mem a, src => a.CopyFrom src
  | .disk a, src => a.CopyFrom src

/-- The loop of `ForEach` and `ReverseForEach`, with an iteration budget. The
callback is a state transformer on the variables it captures. -/
def forEachLoop {α : Type} (fn : α → Nat → Nat → α × Option Error) :
    Nat → Iterator → α → Res (Iterator × α) (Option Error)
  | 0, it, acc => .panic (it, acc) .outOfFuel
  | fuel + 1, it, acc =>
    match it.Next with
    | .panic it1 p => .panic (it1, acc) p
    | .ok it1 false =>
      match it1.Close with
      | .panic it2 p => .panic (it2, acc) p
      | .ok it2 e => .ok (it2, acc) e
    | .ok it1 true =>
      match it1.Index, it1.Value with
      | .ok i, .ok v =>
        let r := fn acc i v
        match r.2 with
        | some e =>
          match it1.Close with
          | .panic it2 p => .panic (it2, r.1) p
          | .ok it2 _ => .ok (it2, r.1) (some e)
        | none => forEachLoop fn fuel it1 r.1
      | .error p, _ => .panic (it1, acc) p
      | _, .error p => .panic (it1, acc) p

/-- Models `ForEach`. -/
def ForEach {α : Type} (ba : BigArray) (fn : α → Nat → Nat → α × Option Error) (init : α) :
    Res (BigArray × α) (Option Error) :=
  match ba.Iterate 0 ba.Len with
  | .error p => .panic (ba, init) p
  | .ok it =>
    match forEachLoop fn (ba.Len + 1) it init with
    | .ok s e => .ok (s.1.array, s.2) e
    | .panic s p => .panic (s.1.array, s.2) p

/-- Models `ReverseForEach`. -/
def ReverseForEach {α : Type} (ba : BigArray) (fn : α → Nat → Nat → α × Option Error) (init : α) :
    Res (BigArray × α) (Option Error) :=
  match ba.ReverseIterate 0 ba.Len with
  | .error p => .panic (ba, init) p
  | .ok it =>
    match forEachLoop fn (ba.Len + 1) it init with
    | .ok s e => .ok (s.1.array, s.2) e
    | .panic s p => .panic (s.1.array, s.2) p

/-- The write loop of the usage pattern `for iter.Next() { ... iter.SetValue(...) }`
(as in `RunBigArrayBasicTests`, with `f(index)` for the value written), with
an iteration budget. -/
def setLoop (f : Nat → Nat) : Nat → Iterator → Res Iterator Unit
  | 0, it => .panic it .outOfFuel
  | fuel + 1, it =>
    match it.Next with
    | .panic it1 p => .panic it1 p
    | .ok it1 false => .ok it1 ()
    | .ok it1 true =>
      match it1.Index with
      | .error p => .panic it1 p
      | .ok index =>
        match it1.SetValue (f index) with
        | .panic it2 p => .panic it2 p
        | .ok it2 _ => setLoop f fuel it2

/-- Ascending iteration over `[0, Len)` that calls `SetValue(f(Index()))` at
each step and then `Close()`. -/
def fillWith (ba : BigArray) (f : Nat → Nat) : Res BigArray (Option Error) :=
  match ba.Iterate 0 ba.Len with
  | .error p => .panic ba p
  | .ok it =>
    match setLoop f (ba.Len + 1) it with
    | .panic it1 p => .panic it1.array p
    | .ok it1 _ =>
      match it1.Close with
      | .panic it2 p => .panic it2.array p
      | .ok it2 e => .ok it2.array e

/-- A callback for `ForEach` that records every `(index, value)` it is given. -/
def record (acc : List (Nat × Nat)) (index value : Nat) : List (Nat × Nat) × Option Error :=
  (acc ++ [(index, value)], none)

/-- Calls `Next()` up to `k` times and records what each call returned together
with the result of `Index()` right after it. -/
def nextTrace : Nat → Iterator → List (Bool × Except Panic Nat)
  | 0, _ => []
  | k + 1, it =>
    match it.Next with
    | .panic _ _ => []
    | .ok it1 b => (b, it1.Index) :: nextTrace k it1

/-! ## Construction (`options.go`, `interface.go`) -/

/-- The constant `defaultPageSize`. -/
def defaultPageSize : Nat := 16384

/-- The constant `defaultOnDiskThreshold`. -/
def defaultOnDiskThreshold : Nat := 268435456

/-- The struct `options`. -/
structure options where
  numValues : Nat
  maxValue : Nat
  diskThreshold : Nat
  backingFile : Option File
  bufferPool : Option Pool
  pageSize : Nat
  bytesPerValue : Nat
  diskThresholdIsSet : Bool
  isReadOnly : Bool
  deriving DecidableEq

/-- The zero value `var o options`. -/
def options.zero : options :=
  { numValues := 0, maxValue := 0, diskThreshold := 0, backingFile := none, bufferPool := none,
    pageSize := 0, bytesPerValue := 0, diskThresholdIsSet := false, isReadOnly := false }

/-- The type `Option` of the package: a function that changes the options. -/
abbrev OptionFn := options → options

/-- Models `NumValues`. -/
def NumValues (size : Nat) : OptionFn := fun o => { o with numValues := size }

/-- Models `MaxValue`. -/
def MaxValue (max : Nat) : OptionFn := fun o => { o with maxValue := max }

/-- Models `BytesPerValue`, which panics on a width outside 0, 1, 2, 4, 8. -/
def BytesPerValue (bpv : Nat) : Except Panic OptionFn :=
  if bpv ≠ 0 ∧ bpv ≠ 1 ∧ bpv ≠ 2 ∧ bpv ≠ 4 ∧ bpv ≠ 8 then .error .badOptions
  else .ok (fun o => { o with bytesPerValue := bpv })

/-- Models `OnDiskThreshold`. -/
def OnDiskThreshold (size : Nat) : OptionFn :=
  fun o => { o with diskThreshold := size, diskThresholdIsSet := true }

/-- Models `PageSize`. -/
def PageSize (size : Nat) : OptionFn := fun o => { o with pageSize := size }

/-- Models `WithPool`. -/
def WithPool (pool : Pool) : OptionFn := fun o => { o with bufferPool := some pool }

/-- Models `WithFile`. -/
def WithFile (file : File) : OptionFn := fun o => { o with backingFile := some file }

/-- Models `WithReadOnlyFile`: the reader is wrapped in a `wrappedReaderAt`. -/
def WithReadOnlyFile (file : File) : OptionFn :=
  fun o => { o with backingFile := some { file with readOnly := true }, isReadOnly := true }

/-- Models `options.apply`. -/
def options.apply (o : options) (opts : List OptionFn) : options :=
  opts.foldl (fun acc opt => opt acc) o

/-- Models `options.populate`. -/
def options.populate (o : options) : Except Panic options :=
  let step1 : Except Panic options :=
    if o.maxValue = 0 ∧ o.bytesPerValue = 0 then .error .badOptions
    else if o.maxValue = 0 ∧ o.bytesPerValue ≠ 0 then
      match calcBPVToMax o.bytesPerValue with
      | .error p => .error p
      | .ok m => .ok { o with maxValue := m }
    else if o.bytesPerValue = 0 then .ok { o with bytesPerValue := calcMaxToBPV o.maxValue }
    else
      match calcBPVToMax o.bytesPerValue with
      | .error p => .error p
      | .ok maxmax => if maxmax < o.maxValue then .error .badOptions else .ok o
  match step1 with
  | .error p => .error p
  | .ok o1 =>
    let o2 := if o1.diskThresholdIsSet then o1 else { o1 with diskThreshold := defaultOnDiskThreshold }
    let o3 := if o2.pageSize = 0 then { o2 with pageSize := defaultPageSize } else o2
    if o3.pageSize < o3.bytesPerValue then .error .badOptions
    else .ok { o3 with pageSize := (o3.pageSize / o3.bytesPerValue) * o3.bytesPerValue }

/-- The file `ioutil.TempFile` creates: empty, writable, open. -/
def tempFile : File := { bytes := [], readOnly := false, closed := false, removed := false }

/-- Models `New`. The result is the pair `(BigArray, error)`, `none` being nil. -/
def New (opts : List OptionFn) : Except Panic (Option BigArray × Option Error) :=
  match (options.zero.apply opts).populate with
  | .error p => .error p
  | .ok o =>
    let numBytes := (o.numValues * o.bytesPerValue) % 2 ^ 64
    if o.backingFile = none ∧ numBytes < o.diskThreshold then
      match o.bytesPerValue with
      | 1 => .ok (some (.mem { bpv := 1, data := List.replicate o.numValues 0,
                               max := o.maxValue % 2 ^ 8, ro := o.isReadOnly }), none)
      | 2 => .ok (some (.mem { bpv := 2, data := List.replicate o.numValues 0,
                               max := o.maxValue % 2 ^ 16, ro := o.isReadOnly }), none)
      | 4 => .ok (some (.mem { bpv := 4, data := List.replicate o.numValues 0,
                               max := o.maxValue % 2 ^ 32, ro := o.isReadOnly }), none)
      | 8 => .ok (some (.mem { bpv := 8, data := List.replicate o.numValues 0,
                               max := o.maxValue, ro := o.isReadOnly }), none)
      | _ => .error .BUG
    else
      let opened : Except (Option BigArray × Option Error) (File × Bool) :=
        match o.backingFile with
        | some f => .ok (f, false)
        | none =>
          let r := tempFile.Truncate numBytes
          match r.2 with
          | some e => .error (none, some e)
          | none => .ok (r.1, true)
      match opened with
      | .error r => .ok r
      | .ok (f, doc) =>
        .ok (some (.disk { f := f, p := o.bufferPool, cache := [], num := o.numValues,
                           max := o.maxValue, psz := o.pageSize, bpv := o.bytesPerValue,
                           ro := o.isReadOnly, doc := doc }), none)

/-! ## Representation invariants

What `New` establishes, for a paged-disk array over a file the caller supplies
only when that file already holds the `N * W` bytes of the array, and what
every operation maintains. The theorems about "every array" are about the
arrays that satisfy them; `exampleShort` is an array `New` returns that does
not. -/

/-- Typing of a resident array: the variant is one of the four, the bound and
every element fit the element type, and the length fits a Go slice. -/
def inMemoryArray.Valid (ba : inMemoryArray) : Prop :=
  (ba.bpv = 1 ∨ ba.bpv = 2 ∨ ba.bpv = 4 ∨ ba.bpv = 8) ∧
  ba.max < 2 ^ (8 * ba.bpv) ∧
  ba.data.length < 2 ^ 63 ∧
  ∀ x ∈ ba.data, x < 2 ^ (8 * ba.bpv)

/-- What holds of a page cached under key `k`: it is stored under its own offset,
which is a multiple of the page size; its capacity is at least one page; its
window is the part of the store that lies in that page; and unless it is
dirty its window equals the store there. -/
def onDiskArray.PageOK (ba : onDiskArray) (k : Nat) (pg : cachePage) : Prop :=
  pg.off = k ∧ k % ba.psz = 0 ∧ ba.psz ≤ pg.data.length ∧
  k < 2 ^ 63 ∧ pg.len = min ba.psz (ba.f.bytes.length - k) ∧
  (pg.dirty = false → ∀ q, q < pg.len → pg.data.getD q 0 = ba.f.bytes.getD (k + q) 0) ∧
  (ba.f.readOnly = true → pg.dirty = false)

/-- The representation invariant of the paged disk-backed array: the width is one
of 1, 2, 4, 8; the bound fits the width; the page size is a positive multiple
of the width; the store is open, holds the `num * bpv` bytes of the array and
has a size that fits a signed 64-bit offset; a store that refuses writes
belongs to a frozen array; the cache holds one page per key and every cached
page satisfies `PageOK`. -/
def onDiskArray.Valid (ba : onDiskArray) : Prop :=
  (ba.bpv = 1 ∨ ba.bpv = 2 ∨ ba.bpv = 4 ∨ ba.bpv = 8) ∧
  ba.max < 2 ^ (8 * ba.bpv) ∧
  0 < ba.psz ∧ ba.psz % ba.bpv = 0 ∧
  ba.f.closed = false ∧
  ba.num * ba.bpv ≤ ba.f.bytes.length ∧
  ba.f.bytes.length < 2 ^ 63 ∧
  (ba.f.readOnly = true → ba.ro = true) ∧
  (ba.cache.map Prod.fst).Nodup ∧
  ∀ e ∈ ba.cache, ba.PageOK e.1 e.2

/-- The representation invariant of a `BigArray`. -/
def BigArray.Valid : BigArray → Prop
  | .mem a => a.Valid
  | .disk a => a.Valid

instance (ba : inMemoryArray) : Decidable ba.Valid := by
  unfold inMemoryArray.Valid; infer_instance

instance (ba : onDiskArray) (k : Nat) (pg : cachePage) : Decidable (ba.PageOK k pg) := by
  unfold onDiskArray.PageOK; infer_instance

instance (ba : onDiskArray) : Decidable ba.Valid := by
  unfold onDiskArray.Valid; infer_instance

instance (ba : BigArray) : Decidable ba.Valid := by
  cases ba <;> unfold BigArray.Valid <;> infer_instance

/-! ## The content of an array, as its accessors see it -/

/-- The byte of a disk-backed array at absolute position `p`, as the accessors
see it: taken from the cached page that covers `p` when there is one, from
the store otherwise. -/
def onDiskArray.byteAt (ba : onDiskArray) (p : Nat) : Nat :=
  match cacheGet ba.cache (p / ba.psz * ba.psz) with
  | some pg => pg.data.getD (p - p / ba.psz * ba.psz) 0
  | none => ba.f.bytes.getD p 0

/-- The start of the page that holds the cell of index `i`. -/
def onDiskArray.pageOf (ba : onDiskArray) (i : Nat) : Nat :=
  i * ba.bpv / ba.psz * ba.psz

/-- Two states of a disk-backed array with the same shape (length, bound, page
size, width, frozen flag, size and kind of the store) and the same bytes as
the accessors see them. -/
def onDiskArray.SameBytes (a b : onDiskArray) : Prop :=
  b.num = a.num ∧ b.max = a.max ∧ b.psz = a.psz ∧ b.bpv = a.bpv ∧ b.ro = a.ro ∧
  b.f.bytes.length = a.f.bytes.length ∧ b.f.readOnly = a.f.readOnly ∧
  ∀ p, p < a.f.bytes.length → b.byteAt p = a.byteAt p

/-- The element of a disk-backed array at index `i`: the little-endian value of
its `bpv` bytes. -/
def onDiskArray.valueOf (ba : onDiskArray) (i : Nat) : Nat :=
  leValue ((List.range ba.bpv).map (fun t => ba.byteAt (i * ba.bpv + t)))

/-- The element of an array at index `i`. -/
def BigArray.valueOf : BigArray → Nat → Nat
  | .mem a, i => a.data.getD i 0
  | .disk a, i => a.valueOf i

/-- Two states of an array with the same length, bound, frozen flag and
elements. -/
def BigArray.Same (a b : BigArray) : Prop :=
  b.Len = a.Len ∧ b.MaxValue = a.MaxValue ∧ b.Frozen = a.Frozen ∧
  ∀ i, i < a.Len → b.valueOf i = a.valueOf i

/-- Field `err` of an iterator. -/
def Iterator.err : Iterator → Option Error
  | .mem _ it => it.err
  | .disk _ it => it.err

/-- Field `base` of an iterator. -/
def Iterator.base : Iterator → Nat
  | .mem _ it => it.base
  | .disk _ it => it.base

/-- Field `pos` of an iterator. -/
def Iterator.pos : Iterator → Nat
  | .mem _ it => it.pos
  | .disk _ it => it.pos

/-- Field `num` of an iterator. -/
def Iterator.num : Iterator → Nat
  | .mem _ it => it.num
  | .disk _ it => it.num

/-- Field `val` of an iterator. -/
def Iterator.val : Iterator → Nat
  | .mem _ it => it.val
  | .disk _ it => it.val

/-- Field `primed` of an iterator. -/
def Iterator.primed : Iterator → Bool
  | .mem _ it => it.primed
  | .disk _ it => it.primed

/-- Field `down` of an iterator. -/
def Iterator.down : Iterator → Bool
  | .mem _ it => it.down
  | .disk _ it => it.down

/-- The index an iterator stands on when it is positioned on an element:
`base + pos` ascending, `base + (num - pos - 1)` descending. -/
def Iterator.idx (it : Iterator) : Nat :=
  if it.down then it.base + (it.num - it.pos - 1) else it.base + it.pos

/-- The position the next advance by `n` moves to: the first advance of an
unprimed iterator uses one unit of `n` to prime. -/
def Iterator.target (it : Iterator) (n : Nat) : Nat :=
  it.pos + (if it.primed then n else n - 1)

/-- Consistency of an iterator with its array: the array satisfies its
invariant, no error is latched, the range lies inside the array, and for the
disk-backed iterator the attached page is in the cache and, while the
iterator stands on an element, is the page of that element. -/
def Iterator.OK : Iterator → Prop
  | .mem a it => a.Valid ∧ it.err = none ∧ it.pos ≤ it.num ∧ it.base + it.num ≤ a.Len
  | .disk a it =>
    a.Valid ∧ it.err = none ∧ it.pos ≤ it.num ∧ it.base + it.num ≤ a.Len ∧
    (∀ k, it.page = some k → (cacheGet a.cache k).isSome = true) ∧
    (it.primed = true → it.pos < it.num →
      it.page = some ((Iterator.disk a it).idx * a.bpv / a.psz * a.psz))

/-- The state after a write-through of `cell` at index `i`: the cell is patched in
the store and in the cached page of the index, if there is one. -/
def onDiskArray.writeThrough (a : onDiskArray) (i : Nat) (cell : List Nat) : onDiskArray :=
  { a with
    cache := cacheModify a.cache (a.pageOf i)
      (fun pg => { pg with data := patch pg.data (i * a.bpv - a.pageOf i) cell }),
    f := { a.f with bytes := patch a.f.bytes (i * a.bpv) cell } }

/-- The state after an iterator wrote `cell` for index `i` into the cached page
of that index and marked the page dirty. -/
def onDiskArray.writeCached (a : onDiskArray) (i : Nat) (cell : List Nat) : onDiskArray :=
  { a with
    cache := cacheModify a.cache (a.pageOf i)
      (fun pg => { pg with data := patch pg.data (i * a.bpv - a.pageOf i) cell, dirty := true }) }

/-- The state after flushing the dirty page cached under key `k`. -/
def onDiskArray.flushed (a : onDiskArray) (k : Nat) : onDiskArray :=
  { a with
    f := { a.f with bytes := patch a.f.bytes k ((a.pageAt k).data.take (a.pageAt k).len) },
    cache := cacheModify a.cache k (fun p => { p with dirty := false }) }

/-- The index at logical position `p` of the range of an iterator. -/
def Iterator.idxAt (it : Iterator) (p : Nat) : Nat :=
  if it.down then it.base + (it.num - p - 1) else it.base + p

/-! ## Example arrays -/

/-- A resident array of four 16-bit elements. -/
def exampleMem : BigArray :=
  .mem { bpv := 2, data := [0, 7, 0, 9], max := 1000, ro := false }

/-- An open, writable store of eight bytes (four 16-bit cells: 0, 7, 0, 9). -/
def exampleFile : File :=
  { bytes := [0, 0, 7, 0, 0, 0, 9, 0], readOnly := false, closed := false, removed := false }

/-- A disk-backed array of four 16-bit elements with pages of two elements and an
empty cache. -/
def exampleDisk : BigArray :=
  .disk { f := exampleFile, p := none, cache := [], num := 4, max := 1000, psz := 4, bpv := 2,
          ro := false, doc := true }

/-- The same array while an iterator holds the second page; the page is dirty and
its element 3 already reads 10, which the store does not have yet. -/
def exampleDiskCached : BigArray :=
  .disk { f := exampleFile, p := none,
          cache := [(4, { buf := none, data := [0, 0, 10, 0], len := 4, off := 4, refcnt := 1,
                          dirty := true })],
          num := 4, max := 1000, psz := 4, bpv := 2, ro := false, doc := true }

/-- The array `exampleDisk` after `SetValueAt(2, 204)`. -/
def exampleDiskSet : BigArray :=
  .disk { f := { exampleFile with bytes := [0, 0, 7, 0, 204, 0, 9, 0] }, p := none, cache := [],
          num := 4, max := 1000, psz := 4, bpv := 2, ro := false, doc := true }

/-- The array `New(NumValues(64), MaxValue(255), OnDiskThreshold(0))` returns:
paged-disk over a fresh temporary file of 64 zero bytes. -/
def exampleFresh : onDiskArray :=
  { f := { bytes := List.replicate 64 0, readOnly := false, closed := false, removed := false },
    p := none, cache := [], num := 64, max := 255, psz := 16384, bpv := 1, ro := false,
    doc := true }

/-- The paged disk-backed array inside `exampleDisk`. -/
def exampleOnDisk : onDiskArray :=
  { f := exampleFile, p := none, cache := [], num := 4, max := 1000, psz := 4, bpv := 2,
    ro := false, doc := true }

/-- The state an outcome leaves behind, whether the call returned or panicked. -/
def Res.state {σ α : Type} : Res σ α → σ
  | .ok s _ => s
  | .panic s _ => s

/-- Calls `Next()` `n` times and returns what the last call returned; a panic
ends the sequence. -/
def nextTimes : Nat → Iterator → Res Iterator Bool
  | 0, it => .ok it false
  | n + 1, it =>
    match it.Next with
    | .panic s p => .panic s p
    | .ok s b => if n = 0 then .ok s b else nextTimes n s

/-- The iterator `ReverseIterate(0, 4)` returns on the array `exampleOnDisk`. -/
def exampleIter : Iterator :=
  .disk exampleOnDisk { page := none, err := none, base := 0, pos := 0, num := 4, val := noValue,
                        primed := false, down := true }

/-- The paged disk-backed array inside `exampleDiskCached`. -/
def exampleOnDiskCached : onDiskArray :=
  { f := exampleFile, p := none,
    cache := [(4, { buf := none, data := [0, 0, 10, 0], len := 4, off := 4, refcnt := 1,
                    dirty := true })],
    num := 4, max := 1000, psz := 4, bpv := 2, ro := false, doc := true }

/-- An ascending iterator over `[0, 4)` of `exampleOnDiskCached` that stands on
index 2 and holds the cached page. -/
def exampleIterAt2 : onDiskIterator :=
  { page := some 4, err := none, base := 0, pos := 2, num := 4, val := 0, primed := true,
    down := false }

/-- The array `exampleOnDiskCached` with its cached page clean and equal to the
store. -/
def exampleOnDiskClean : onDiskArray :=
  { f := exampleFile, p := none,
    cache := [(4, { buf := none, data := [0, 0, 9, 0], len := 4, off := 4, refcnt := 1,
                    dirty := false })],
    num := 4, max := 1000, psz := 4, bpv := 2, ro := false, doc := true }

/-- Calls `Skip` with each amount in turn and records what each call returned
together with the results of `Index()` and `Value()` right after it; a panic
of `Skip` ends the record with `none`. -/
def skipTrace : List Nat → Iterator → List (Option (Bool × Except Panic Nat × Except Panic Nat))
  | [], _ => []
  | n :: ns, it =>
    match it.Skip n with
    | .panic _ _ => [none]
    | .ok it1 b => some (b, it1.Index, it1.Value) :: skipTrace ns it1

/-- The resident array inside `exampleMem`. -/
def exampleResident : inMemoryArray :=
  { bpv := 2, data := [0, 7, 0, 9], max := 1000, ro := false }

/-- Whether the store refuses a write at offset `off`: `WriteAt` returns an error
exactly then, whatever the data. -/
def File.refuses (f : File) (off : Nat) : Prop :=
  f.readOnly = true ∨ f.closed = true ∨ 2 ^ 63 ≤ off

instance (f : File) (off : Nat) : Decidable (f.refuses off) := by
  unfold File.refuses; infer_instance

/-! ## A disk-backed array together with its iterators -/

/-- The program state around one paged disk-backed array: the array and every
iterator created on it so far, in order of creation. A closed iterator stays
in the list as the closed shell `Close` leaves behind. -/
structure System where
  ba : onDiskArray
  iters : List onDiskIterator

/-- The calls a program makes on the array and on its iterators; `k` selects the
`k`-th iterator created. -/
inductive Call where
  | Iterate (i j : Nat)
  | ReverseIterate (i j : Nat)
  | Skip (k n : Nat)
  | Next (k : Nat)
  | SetValue (k v : Nat)
  | Flush (k : Nat)
  | Close (k : Nat)
  | ValueAt (i : Nat)
  | SetValueAt (i v : Nat)

/-- The state a call on the `k`-th iterator leaves, whether it returned or
panicked; there is no call on an iterator that does not exist. -/
def System.onIter (s : System) (k : Nat)
    (call : onDiskArray → onDiskIterator → onDiskArray × onDiskIterator) : System :=
  match s.iters.get? k with
  | none => s
  | some it => { ba := (call s.ba it).1, iters := s.iters.set k (call s.ba it).2 }

/-- The state after one call, whether it returned or panicked. -/
def System.step (s : System) : Call → System
  | .Iterate i j =>
    match s.ba.Iterate i j with
    | .ok it => { s with iters := s.iters ++ [it] }
    | .error _ => s
  | .ReverseIterate i j =>
    match s.ba.ReverseIterate i j with
    | .ok it => { s with iters := s.iters ++ [it] }
    | .error _ => s
  | .Skip k n => s.onIter k (fun a it => (onDiskIterator.Skip a it n).state)
  | .Next k => s.onIter k (fun a it => (onDiskIterator.Next a it).state)
  | .SetValue k v => s.onIter k (fun a it => (onDiskIterator.SetValue a it v).state)
  | .Flush k => s.onIter k (fun a it => ((onDiskIterator.Flush a it).1, it))
  | .Close k => s.onIter k (fun a it => (onDiskIterator.Close a it).state)
  | .ValueAt i => { s with ba := (s.ba.ValueAt i).state }
  | .SetValueAt i v => { s with ba := (s.ba.SetValueAt i v).state }

/-- The state after a sequence of calls. -/
def System.run (s : System) (cs : List Call) : System := cs.foldl System.step s

/-- The number of iterators attached to the page at offset `k`. -/
def pins (its : List onDiskIterator) (k : Nat) : Nat :=
  (its.filter (fun it => decide (it.page = some k))).length

/-- The pin counts `Q` with one more pin on the page `pg`, if any. -/
def addPin (Q : Nat → Nat) (pg : Option Nat) : Nat → Nat :=
  fun k => Q k + (if pg = some k then 1 else 0)

/-- The invariant of the page cache for given pin counts `P`: every cached page is
stored under its own offset, a multiple of the page size, its reference count
is its pin count, which is at least 1; and no page that is not cached is
pinned. -/
def PinInv (a : onDiskArray) (P : Nat → Nat) : Prop :=
  (∀ k pg, cacheGet a.cache k = some pg →
    pg.off = k ∧ k % a.psz = 0 ∧ pg.refcnt = P k ∧ 1 ≤ pg.refcnt) ∧
  (∀ k, cacheGet a.cache k = none → P k = 0)

/-- An open, writable store that holds no byte yet: a file the caller has just
created. -/
def exampleEmptyFile : File :=
  { bytes := [], readOnly := false, closed := false, removed := false }

/-- The array `New(NumValues(4), MaxValue(1000), PageSize(4), WithFile(f))` returns
for the empty file `f`: four 16-bit elements, pages of two elements, over a
store that holds none of their eight bytes. -/
def exampleShort : onDiskArray :=
  { f := exampleEmptyFile, p := none, cache := [], num := 4, max := 1000, psz := 4, bpv := 2,
    ro := false, doc := false }

/-! # Theorems -/

/-! ## The codec -/

theorem leBytes_length (w v : Nat) : (leBytes w v).length = w := by
  induction w generalizing v with
  | zero => rfl
  | succ n ih => simp [leBytes, ih]

theorem leValue_leBytes (w v : Nat) : leValue (leBytes w v) = v % 256 ^ w := by
  induction w generalizing v with
  | zero => simp [leBytes, leValue, Nat.mod_one]
  | succ n ih =>
    simp only [leBytes, leValue, ih]
    rw [pow_succ, mul_comm (256 ^ n) 256, Nat.mod_mul]

theorem leBytes_leValue (b : List Nat) (hb : ∀ x ∈ b, x < 256) :
    leBytes b.length (leValue b) = b := by
  induction b with
  | nil => rfl
  | cons x bs ih =>
    have hx : x < 256 := hb x (by simp)
    have hbs : ∀ y ∈ bs, y < 256 := fun y hy => hb y (by simp [hy])
    simp only [List.length_cons, leBytes, leValue]
    rw [Nat.add_mul_mod_self_left, Nat.mod_eq_of_lt hx, Nat.add_mul_div_left _ _ (by norm_num : 0 < 256),
      Nat.div_eq_of_lt hx, Nat.zero_add, ih hbs]

theorem leBytes_getD (w v t : Nat) (ht : t < w) :
    (leBytes w v).getD t 0 = v / 256 ^ t % 256 := by
  induction w generalizing v t with
  | zero => omega
  | succ n ih =>
    cases t with
    | zero => simp [leBytes]
    | succ t =>
      simp only [leBytes, List.getD_cons_succ]
      rw [ih (v / 256) t (by omega), Nat.div_div_eq_div_mul, pow_succ, mul_comm]

theorem leValue_lt (b : List Nat) (hb : ∀ x ∈ b, x < 256) : leValue b < 256 ^ b.length := by
  induction b with
  | nil => simp [leValue]
  | cons x bs ih =>
    have hx : x < 256 := hb x (by simp)
    have hbs : ∀ y ∈ bs, y < 256 := fun y hy => hb y (by simp [hy])
    have := ih hbs
    simp only [leValue, List.length_cons, pow_succ]
    omega

theorem width_cases {W : Nat} (hW : W = 1 ∨ W = 2 ∨ W = 4 ∨ W = 8) :
    2 ^ (8 * W) = 256 ^ W ∧ 0 < W ∧ W ≤ 8 := by
  rcases hW with h | h | h | h <;> subst h <;> norm_num

theorem leUint_ok (w : Nat) (data : List Nat) (hd : data.length = w) :
    leUint w data = .ok (leValue data) := by
  subst hd
  simp [leUint]

theorem lePutUint_ok (w : Nat) (data : List Nat) (hd : data.length = w) (v : Nat) :
    lePutUint w data v = .ok (leBytes w v) := by
  subst hd
  simp [lePutUint]

theorem bpvDecode_ok {W : Nat} (hW : W = 1 ∨ W = 2 ∨ W = 4 ∨ W = 8) (data : List Nat)
    (hd : data.length = W) : bpvDecode W data = .ok (leValue data) := by
  rcases hW with h | h | h | h <;> subst h <;>
    simp only [bpvDecode, leUint_ok _ data hd]

theorem bpvEncode_ok {W : Nat} (hW : W = 1 ∨ W = 2 ∨ W = 4 ∨ W = 8) (data : List Nat)
    (hd : data.length = W) (v : Nat) :
    bpvEncode W data v = .ok (leBytes W (v % 2 ^ (8 * W))) := by
  rcases hW with h | h | h | h <;> subst h <;>
    simp only [bpvEncode, lePutUint_ok _ data hd]

theorem bpv_bad {W : Nat} (hW : ¬ (W = 1 ∨ W = 2 ∨ W = 4 ∨ W = 8)) (data : List Nat) (v : Nat) :
    bpvDecode W data = .error .BUG ∧ bpvEncode W data v = .error .BUG := by
  simp only [not_or] at hW
  obtain ⟨h1, h2, h4, h8⟩ := hW
  constructor
  · unfold bpvDecode; split <;> first | rfl | contradiction
  · unfold bpvEncode; split <;> first | rfl | contradiction

/-! ## Lists of bytes -/

theorem getD_append (l1 l2 : List Nat) (q : Nat) :
    (l1 ++ l2).getD q 0 = if q < l1.length then l1.getD q 0 else l2.getD (q - l1.length) 0 := by
  split
  · rename_i h; simp [List.getD_eq_getElem?_getD, List.getElem?_append_left h]
  · rename_i h; simp [List.getD_eq_getElem?_getD, List.getElem?_append_right (not_lt.mp h)]

theorem getD_take (l : List Nat) (n q : Nat) :
    (l.take n).getD q 0 = if q < n then l.getD q 0 else 0 := by
  simp only [List.getD_eq_getElem?_getD, List.getElem?_take]
  split <;> simp

theorem getD_drop (l : List Nat) (n q : Nat) :
    (l.drop n).getD q 0 = l.getD (n + q) 0 := by
  simp [List.getD_eq_getElem?_getD]

theorem getD_take_drop (l : List Nat) (a w t : Nat) (ht : t < w) :
    ((l.drop a).take w).getD t 0 = l.getD (a + t) 0 := by
  rw [getD_take, getD_drop, if_pos ht]

theorem ext_getD (l1 l2 : List Nat) (hl : l1.length = l2.length)
    (h : ∀ t, t < l1.length → l1.getD t 0 = l2.getD t 0) : l1 = l2 := by
  apply List.ext_getElem hl
  intro n h1 h2
  have := h n h1
  simpa [List.getD_eq_getElem?_getD, List.getElem?_eq_getElem h1, List.getElem?_eq_getElem h2]
    using this

theorem eq_map_range (l : List Nat) : l = (List.range l.length).map (fun t => l.getD t 0) := by
  apply ext_getD
  · simp
  · intro t ht
    simp [List.getD_eq_getElem?_getD, ht]

theorem take_drop_eq_map (l : List Nat) (a w : Nat) (h : a + w ≤ l.length) :
    (l.drop a).take w = (List.range w).map (fun t => l.getD (a + t) 0) := by
  apply ext_getD
  · simp; omega
  · intro t ht
    have ht2 : t < w := by simp at ht; omega
    rw [getD_take_drop _ _ _ _ ht2]
    simp [List.getD_eq_getElem?_getD, ht2]

theorem patch_length (mem : List Nat) (lo : Nat) (cell : List Nat)
    (h : lo + cell.length ≤ mem.length) : (patch mem lo cell).length = mem.length := by
  simp [patch]; omega

theorem patch_getD (mem : List Nat) (lo : Nat) (cell : List Nat) (q : Nat)
    (h : lo + cell.length ≤ mem.length) :
    (patch mem lo cell).getD q 0 =
      if lo ≤ q ∧ q < lo + cell.length then cell.getD (q - lo) 0 else mem.getD q 0 := by
  unfold patch
  rw [getD_append, getD_append, getD_take, getD_drop]
  have hm : min lo mem.length = lo := by omega
  simp only [List.length_append, List.length_take, hm]
  by_cases h1 : q < lo
  · have : ¬ (lo ≤ q ∧ q < lo + cell.length) := by omega
    simp [h1, this]
    intro h2; omega
  · by_cases h2 : q < lo + cell.length
    · have : (lo ≤ q ∧ q < lo + cell.length) := by omega
      simp [h1, this, h2]
    · have : ¬ (lo ≤ q ∧ q < lo + cell.length) := by omega
      simp [h1, this, h2]
      have e : lo + cell.length + (q - (lo + cell.length)) = q := by clear hm; omega
      rw [e]

theorem slice_ok (mem : List Nat) (lo w : Nat) (h : lo + w ≤ mem.length) :
    slice mem lo (lo + w) = some ((mem.drop lo).take w) := by
  simp [slice, h]

/-! ## The backing store -/

theorem ReadAt_in (f : File) (n off : Nat) (hc : f.closed = false)
    (h : off + n ≤ f.bytes.length) (ho : off < 2 ^ 63) :
    f.ReadAt n off = ((f.bytes.drop off).take n, none) := by
  have hl : ¬ (((f.bytes.drop off).take n).length < n) := by simp; omega
  unfold File.ReadAt
  rw [if_neg (by simp [hc]), if_neg (Nat.not_le.mpr ho)]
  simp only [hl, if_false]

theorem WriteAt_in (f : File) (data : List Nat) (off : Nat) (hr : f.readOnly = false)
    (hc : f.closed = false) (h : data.length = 0 ∨ off + data.length ≤ f.bytes.length)
    (ho : off < 2 ^ 63) :
    f.WriteAt data off = ({ f with bytes := patch f.bytes off data }, none) := by
  unfold File.WriteAt
  rw [if_neg (by simp [hr]), if_neg (by simp [hc]), if_neg (Nat.not_le.mpr ho)]
  split
  · rename_i h0
    have hd : data = [] := List.length_eq_zero.mp h0
    subst hd
    cases f
    simp [patch]
  · have e : off - f.bytes.length = 0 := by omega
    simp [patch, e]

theorem patch_nil (mem : List Nat) (lo : Nat) : patch mem lo [] = mem := by
  simp [patch]

theorem ReadAt_any (f : File) (n off : Nat) (hc : f.closed = false) (ho : off < 2 ^ 63) :
    (f.ReadAt n off).1 = (f.bytes.drop off).take n ∧
    ((f.ReadAt n off).2 = none ∨ (f.ReadAt n off).2 = some .EOF) := by
  unfold File.ReadAt
  rw [if_neg (by simp [hc]), if_neg (Nat.not_le.mpr ho)]
  refine ⟨rfl, ?_⟩
  dsimp only
  split <;> simp

/-! ## The cache as a map -/

theorem cacheGet_mem (c : Cache) (k : Nat) (pg : cachePage) (h : cacheGet c k = some pg) :
    (k, pg) ∈ c := by
  induction c with
  | nil => simp [cacheGet] at h
  | cons e rest ih =>
    obtain ⟨k1, p1⟩ := e
    simp only [cacheGet] at h
    split at h
    · rename_i hk
      cases h; subst hk; simp
    · simp [ih h]

theorem cacheGet_modify (c : Cache) (k : Nat) (g : cachePage → cachePage) (k2 : Nat) :
    cacheGet (cacheModify c k g) k2 =
      if k2 = k then (cacheGet c k2).map g else cacheGet c k2 := by
  induction c with
  | nil => simp [cacheGet, cacheModify]
  | cons e rest ih =>
    obtain ⟨k1, p1⟩ := e
    simp only [cacheModify, cacheGet]
    by_cases h2 : k1 = k2
    · subst h2
      by_cases h1 : k1 = k <;> simp [h1]
    · simp only [h2, if_false]
      exact ih

theorem mem_cacheModify (c : Cache) (k : Nat) (g : cachePage → cachePage) (e : Nat × cachePage)
    (h : e ∈ cacheModify c k g) :
    ∃ e0 ∈ c, e = (e0.1, if e0.1 = k then g e0.2 else e0.2) := by
  induction c with
  | nil => simp [cacheModify] at h
  | cons e1 rest ih =>
    obtain ⟨k1, p1⟩ := e1
    simp only [cacheModify, List.mem_cons] at h
    rcases h with h | h
    · exact ⟨(k1, p1), by simp, h⟩
    · obtain ⟨e0, h0, h1⟩ := ih h
      exact ⟨e0, by simp [h0], h1⟩

theorem cacheGet_del (c : Cache) (k k2 : Nat) :
    cacheGet (cacheDel c k) k2 = if k2 = k then none else cacheGet c k2 := by
  induction c with
  | nil => simp [cacheGet, cacheDel]
  | cons e rest ih =>
    obtain ⟨k1, p1⟩ := e
    simp only [cacheDel] at ih
    by_cases h1 : k1 = k
    · simp only [cacheDel, List.filter_cons, h1, ne_eq, not_true_eq_false, decide_False,
        Bool.false_eq_true, if_false, ih, cacheGet]
      split
      · rfl
      · rename_i h2
        have : ¬ k = k2 := by omega
        simp [this]
    · simp only [cacheDel, List.filter_cons, ne_eq, h1, not_false_eq_true, decide_True, if_true,
        cacheGet, ih]
      by_cases h2 : k1 = k2
      · have : ¬ k2 = k := by omega
        simp [h2, this]
      · simp [h2]

theorem mem_cacheDel (c : Cache) (k : Nat) (e : Nat × cachePage) (h : e ∈ cacheDel c k) :
    e ∈ c ∧ e.1 ≠ k := by
  simpa [cacheDel] using h

theorem cacheGet_set (c : Cache) (k : Nat) (pg : cachePage) (k2 : Nat) :
    cacheGet (cacheSet c k pg) k2 = if k2 = k then some pg else cacheGet c k2 := by
  simp only [cacheSet, cacheGet, cacheGet_del]
  by_cases h : k = k2
  · simp [h]
  · have : ¬ k2 = k := by omega
    simp [h, this]

theorem cache_nil_of_get (c : Cache) (h : ∀ k, cacheGet c k = none) : c = [] := by
  cases c with
  | nil => rfl
  | cons e rest =>
    obtain ⟨k1, p1⟩ := e
    have := h k1
    simp [cacheGet] at this

/-! ## Page arithmetic -/

theorem page_of_mem (m k p : Nat) (hk : k % m = 0) (h1 : k ≤ p) (h2 : p < k + m) :
    p / m * m = k := by
  obtain ⟨c, rfl⟩ := Nat.dvd_of_mod_eq_zero hk
  have : p / m = c := by
    apply Nat.div_eq_of_lt_le
    · rw [mul_comm]; exact h1
    · rw [Nat.succ_mul, mul_comm]; exact h2
  rw [this, mul_comm]

theorem page_start_le (m p : Nat) : p / m * m ≤ p := Nat.div_mul_le_self p m

theorem page_start_lt (m p : Nat) (hm : 0 < m) : p < p / m * m + m := by
  have := Nat.lt_div_mul_add (a := p) hm
  omega

theorem page_start_mod (m p : Nat) : (p / m * m) % m = 0 := by simp

theorem cell_in_page (m w i : Nat) (hw : 0 < w) (hmw : m % w = 0) (hm : 0 < m) :
    i * w - i * w / m * m + w ≤ m := by
  obtain ⟨c, rfl⟩ := Nat.dvd_of_mod_eq_zero hmw
  have hc : 0 < c := by
    rcases Nat.eq_zero_or_pos c with h | h
    · subst h; simp at hm
    · exact h
  have e1 : i * w / (w * c) = i / c := by
    rw [mul_comm i w, Nat.mul_div_mul_left _ _ hw]
  rw [e1]
  have e2 : i * w - i / c * (w * c) = (i % c) * w := by
    have := Nat.div_add_mod i c
    have h3 : i / c * (w * c) = (c * (i / c)) * w := by ring
    rw [h3]
    rw [← Nat.sub_mul]
    congr 1
    omega
  rw [e2]
  have : i % c < c := Nat.mod_lt _ hc
  have : (i % c + 1) * w ≤ c * w := Nat.mul_le_mul_right w (by omega)
  calc i % c * w + w = (i % c + 1) * w := by ring
    _ ≤ c * w := this
    _ = w * c := by ring

theorem mult_apart (m k1 k2 : Nat) (h1 : k1 % m = 0) (h2 : k2 % m = 0) (hlt : k1 < k2) :
    k1 + m ≤ k2 := by
  obtain ⟨a, rfl⟩ := Nat.dvd_of_mod_eq_zero h1
  obtain ⟨b, rfl⟩ := Nat.dvd_of_mod_eq_zero h2
  have hab : a < b := by
    by_contra h
    have : b ≤ a := by omega
    have := Nat.mul_le_mul_left m this
    omega
  calc m * a + m = m * (a + 1) := by ring
    _ ≤ m * b := Nat.mul_le_mul_left m (by omega)

/-! ## Reading an element of the disk-backed array -/

theorem onDiskArray.Valid.width {a : onDiskArray} (hv : a.Valid) :
    0 < a.bpv ∧ a.bpv ≤ 8 ∧ 2 ^ (8 * a.bpv) = 256 ^ a.bpv := by
  have h := width_cases hv.1
  exact ⟨h.2.1, h.2.2, h.1⟩

theorem onDiskArray.Valid.cell_bound {a : onDiskArray} (hv : a.Valid) {i : Nat} (hi : i < a.num) :
    i * a.bpv + a.bpv ≤ a.f.bytes.length ∧ i * a.bpv + a.bpv ≤ 2 ^ 63 ∧
    (i * a.bpv) % 2 ^ 64 = i * a.bpv := by
  obtain ⟨_, _, _, _, _, hlen, hL, _⟩ := hv
  have h1 : (i + 1) * a.bpv ≤ a.num * a.bpv := Nat.mul_le_mul_right _ hi
  have h2 : i * a.bpv + a.bpv ≤ a.f.bytes.length := by
    have : (i + 1) * a.bpv = i * a.bpv + a.bpv := by ring
    omega
  refine ⟨h2, by omega, ?_⟩
  apply Nat.mod_eq_of_lt
  omega

theorem onDiskArray.Valid.page {a : onDiskArray} (hv : a.Valid) {k : Nat} {pg : cachePage}
    (hk : cacheGet a.cache k = some pg) : a.PageOK k pg :=
  hv.2.2.2.2.2.2.2.2.2 (k, pg) (cacheGet_mem _ _ _ hk)

theorem onDiskArray.Valid.in_page {a : onDiskArray} (hv : a.Valid) (i : Nat) :
    a.pageOf i ≤ i * a.bpv ∧ i * a.bpv - a.pageOf i + a.bpv ≤ a.psz ∧
    ∀ t, t < a.bpv → (i * a.bpv + t) / a.psz * a.psz = a.pageOf i := by
  have hw := hv.width
  have hps : 0 < a.psz := hv.2.2.1
  have hmod : a.psz % a.bpv = 0 := hv.2.2.2.1
  have h1 : a.pageOf i ≤ i * a.bpv := page_start_le _ _
  have h2 := cell_in_page a.psz a.bpv i hw.1 hmod hps
  refine ⟨h1, h2, ?_⟩
  intro t ht
  apply page_of_mem
  · exact page_start_mod _ _
  · unfold onDiskArray.pageOf at *; omega
  · unfold onDiskArray.pageOf at *; omega

theorem onDiskArray.valueOf_cached {a : onDiskArray} (hv : a.Valid) (i : Nat) {pg : cachePage}
    (hk : cacheGet a.cache (a.pageOf i) = some pg) :
    a.valueOf i = leValue ((pg.data.drop (i * a.bpv - a.pageOf i)).take a.bpv) := by
  have hp := hv.in_page i
  have hpg := hv.page hk
  rw [take_drop_eq_map _ _ _ (by have := hpg.2.2.1; omega)]
  unfold onDiskArray.valueOf
  congr 1
  apply List.map_congr_left
  intro t ht
  have ht2 : t < a.bpv := by simpa using ht
  unfold onDiskArray.byteAt
  rw [hp.2.2 t ht2, hk]
  dsimp only
  congr 1
  omega

theorem onDiskArray.valueOf_uncached {a : onDiskArray} (hv : a.Valid) (i : Nat) (hi : i < a.num)
    (hk : cacheGet a.cache (a.pageOf i) = none) :
    a.valueOf i = leValue ((a.f.bytes.drop (i * a.bpv)).take a.bpv) := by
  have hp := hv.in_page i
  rw [take_drop_eq_map _ _ _ (hv.cell_bound hi).1]
  unfold onDiskArray.valueOf
  congr 1
  apply List.map_congr_left
  intro t ht
  have ht2 : t < a.bpv := by simpa using ht
  unfold onDiskArray.byteAt
  rw [hp.2.2 t ht2, hk]

theorem onDiskArray.compute_eq {a : onDiskArray} (hv : a.Valid) {i : Nat} (hi : i < a.num) :
    a.compute i = some (a.pageOf i, i * a.bpv - a.pageOf i) := by
  have hps : 0 < a.psz := hv.2.2.1
  unfold onDiskArray.compute
  rw [if_neg (by omega)]
  simp only [(hv.cell_bound hi).2.2, onDiskArray.pageOf]

theorem onDiskArray.disk_ValueAt_eq {a : onDiskArray} (hv : a.Valid) {i : Nat} (hi : i < a.num) :
    a.ValueAt i = .ok a (a.valueOf i, none) := by
  have hw := hv.width
  have hc := hv.cell_bound hi
  have hp := hv.in_page i
  unfold onDiskArray.ValueAt
  rw [if_neg (by simp [onDiskArray.Len]; omega), onDiskArray.compute_eq hv hi]
  dsimp only
  cases hk : cacheGet a.cache (a.pageOf i) with
  | some pg =>
    have hpg := hv.page hk
    dsimp only
    have e : (i * a.bpv - a.pageOf i + a.bpv) % 2 ^ 64 = i * a.bpv - a.pageOf i + a.bpv :=
      Nat.mod_eq_of_lt (by omega)
    rw [e, slice_ok _ _ _ (by have := hpg.2.2.1; omega)]
    dsimp only
    rw [bpvDecode_ok hv.1 _ (by simp; have := hpg.2.2.1; omega)]
    dsimp only
    rw [onDiskArray.valueOf_cached hv i hk]
  | none =>
    dsimp only
    rw [if_neg (by omega), hc.2.2, ReadAt_in _ _ _ hv.2.2.2.2.1 hc.1 (by omega)]
    dsimp only
    rw [bpvDecode_ok hv.1 _ (by simp; omega)]
    dsimp only
    rw [onDiskArray.valueOf_uncached hv i hi hk]

theorem onDiskArray.disk_ValueAt_eof (a : onDiskArray) {i : Nat} (hi : a.num ≤ i) :
    a.ValueAt i = .ok a (noValue, some .EOF) := by
  unfold onDiskArray.ValueAt
  rw [if_pos (by simpa [onDiskArray.Len] using hi)]

/-! ## Writing an element of the disk-backed array -/

theorem cacheModify_keys (c : Cache) (k : Nat) (g : cachePage → cachePage) :
    (cacheModify c k g).map Prod.fst = c.map Prod.fst := by
  induction c with
  | nil => rfl
  | cons e rest ih =>
    obtain ⟨k1, p1⟩ := e
    simp [cacheModify, ih]

theorem cacheModify_absent (c : Cache) (k : Nat) (g : cachePage → cachePage)
    (h : cacheGet c k = none) : cacheModify c k g = c := by
  induction c with
  | nil => rfl
  | cons e rest ih =>
    obtain ⟨k1, p1⟩ := e
    simp only [cacheGet] at h
    split at h
    · cases h
    · rename_i hk
      simp [cacheModify, hk, ih h]

theorem onDiskArray.disk_SetValueAt_eq {a : onDiskArray} (hv : a.Valid) (hro : a.ro = false)
    {i v : Nat} (hi : i < a.num) (hvm : v ≤ a.max) :
    a.SetValueAt i v = .ok (a.writeThrough i (leBytes a.bpv v)) none := by
  have hw := hv.width
  have hc := hv.cell_bound hi
  have hp := hv.in_page i
  have hv256 : v % 2 ^ (8 * a.bpv) = v := Nat.mod_eq_of_lt (by have := hv.2.1; omega)
  have hfr : a.f.readOnly = false := by
    cases h : a.f.readOnly
    · rfl
    · have := hv.2.2.2.2.2.2.2.1 h; simp [hro] at this
  unfold onDiskArray.SetValueAt
  rw [if_neg (by simp [hro]), if_neg (by simp [onDiskArray.MaxValue]; omega),
    if_neg (by simp [onDiskArray.Len]; omega), if_neg (by omega),
    bpvEncode_ok hv.1 _ (by simp), hv256, onDiskArray.compute_eq hv hi, hc.2.2]
  dsimp only
  cases hk : cacheGet a.cache (a.pageOf i) with
  | some pg =>
    have hpg := hv.page hk
    dsimp only
    have e : (i * a.bpv - a.pageOf i + a.bpv) % 2 ^ 64 = i * a.bpv - a.pageOf i + a.bpv :=
      Nat.mod_eq_of_lt (by omega)
    rw [e, slice_ok _ _ _ (by have := hpg.2.2.1; omega)]
    dsimp only
    rw [WriteAt_in _ _ _ hfr hv.2.2.2.2.1 (by right; simp [leBytes_length]; omega) (by omega)]
    rfl
  | none =>
    dsimp only
    rw [WriteAt_in _ _ _ hfr hv.2.2.2.2.1 (by right; simp [leBytes_length]; omega) (by omega)]
    simp only [onDiskArray.writeThrough, cacheModify_absent _ _ _ hk]

theorem onDiskArray.writeThrough_byteAt {a : onDiskArray} (hv : a.Valid) {i : Nat} (hi : i < a.num)
    (cell : List Nat) (hcl : cell.length = a.bpv) (p : Nat) :
    (a.writeThrough i cell).byteAt p =
      if i * a.bpv ≤ p ∧ p < i * a.bpv + a.bpv then cell.getD (p - i * a.bpv) 0 else a.byteAt p := by
  have hc := hv.cell_bound hi
  have hp := hv.in_page i
  have hps : 0 < a.psz := hv.2.2.1
  unfold onDiskArray.byteAt
  simp only [onDiskArray.writeThrough, cacheGet_modify]
  by_cases hk : p / a.psz * a.psz = a.pageOf i
  · rw [if_pos hk, hk]
    have hle : a.pageOf i ≤ p := by rw [← hk]; exact page_start_le _ _
    cases hg : cacheGet a.cache (a.pageOf i) with
    | some pg =>
      have hpg := hv.page hg
      simp only [Option.map_some']
      rw [patch_getD _ _ _ _ (by have := hpg.2.2.1; omega), hcl]
      by_cases hin : i * a.bpv ≤ p ∧ p < i * a.bpv + a.bpv
      · rw [if_pos hin, if_pos (by omega)]
        congr 1; omega
      · rw [if_neg hin, if_neg (by omega)]
    | none =>
      simp only [Option.map_none']
      rw [patch_getD _ _ _ _ (by omega), hcl]
  · rw [if_neg hk]
    have hout : ¬ (i * a.bpv ≤ p ∧ p < i * a.bpv + a.bpv) := by
      intro hin
      apply hk
      have := hp.2.2 (p - i * a.bpv) (by omega)
      rw [← this]; congr 2; omega
    rw [if_neg hout]
    cases hg : cacheGet a.cache (p / a.psz * a.psz) with
    | some pg => rfl
    | none =>
      dsimp only
      rw [patch_getD _ _ _ _ (by omega), hcl, if_neg hout]

theorem onDiskArray.writeThrough_valid {a : onDiskArray} (hv : a.Valid) {i : Nat} (hi : i < a.num)
    (cell : List Nat) (hcl : cell.length = a.bpv) : (a.writeThrough i cell).Valid := by
  have hc := hv.cell_bound hi
  have hp := hv.in_page i
  have hps : 0 < a.psz := hv.2.2.1
  obtain ⟨h1, h2, h3, h4, h5, h6, h7, h8, h9, h10⟩ := hv
  have hlen : (patch a.f.bytes (i * a.bpv) cell).length = a.f.bytes.length :=
    patch_length _ _ _ (by omega)
  refine ⟨h1, h2, h3, h4, h5, ?_, ?_, h8, ?_, ?_⟩
  · simp only [onDiskArray.writeThrough, hlen]; exact h6
  · simp only [onDiskArray.writeThrough, hlen]; exact h7
  · simp only [onDiskArray.writeThrough, cacheModify_keys]; exact h9
  · intro e he
    simp only [onDiskArray.writeThrough] at he
    obtain ⟨e0, he0, rfl⟩ := mem_cacheModify _ _ _ _ he
    obtain ⟨g1, g2, g3, g4, g5, g6, g7⟩ := h10 e0 he0
    obtain ⟨k0, pg0⟩ := e0
    dsimp only at g1 g2 g3 g4 g5 g6 g7 ⊢
    by_cases hk : k0 = a.pageOf i
    · subst hk
      simp only [if_true]
      refine ⟨g1, g2, ?_, g4, ?_, ?_, g7⟩
      · simp only [onDiskArray.writeThrough]
        rw [patch_length _ _ _ (by omega)]; exact g3
      · simp only [onDiskArray.writeThrough, hlen]; exact g5
      · intro hd q hq
        simp only [onDiskArray.writeThrough] at hd hq ⊢
        rw [patch_getD _ _ _ _ (by omega), patch_getD _ _ _ _ (by omega), g6 hd q hq, hcl]
        by_cases hin : i * a.bpv - a.pageOf i ≤ q ∧ q < i * a.bpv - a.pageOf i + a.bpv
        · rw [if_pos hin, if_pos (by omega)]; congr 1; omega
        · rw [if_neg hin, if_neg (by omega)]
    · simp only [hk, if_false]
      refine ⟨g1, g2, g3, g4, ?_, ?_, g7⟩
      · simp only [onDiskArray.writeThrough, hlen]; exact g5
      · intro hd q hq
        simp only [onDiskArray.writeThrough] at hq ⊢
        rw [patch_getD _ _ _ _ (by omega), hcl, g6 hd q hq]
        have hq2 : q < a.psz := by omega
        have hout : ¬ (i * a.bpv ≤ k0 + q ∧ k0 + q < i * a.bpv + a.bpv) := by
          intro hin
          apply hk
          have e1 := page_of_mem a.psz k0 (k0 + q) g2 (by omega) (by omega)
          have e2 := hp.2.2 (k0 + q - i * a.bpv) (by omega)
          rw [← e1, ← e2]; congr 2; omega
        rw [if_neg hout]

theorem onDiskArray.writeThrough_shape (a : onDiskArray) (i : Nat)
    (cell : List Nat) (h : i * a.bpv + cell.length ≤ a.f.bytes.length) :
    (a.writeThrough i cell).num = a.num ∧ (a.writeThrough i cell).max = a.max ∧
    (a.writeThrough i cell).psz = a.psz ∧ (a.writeThrough i cell).bpv = a.bpv ∧
    (a.writeThrough i cell).ro = a.ro ∧
    (a.writeThrough i cell).f.bytes.length = a.f.bytes.length ∧
    (a.writeThrough i cell).f.readOnly = a.f.readOnly := by
  refine ⟨rfl, rfl, rfl, rfl, rfl, ?_, rfl⟩
  simp only [onDiskArray.writeThrough]
  exact patch_length _ _ _ h

theorem onDiskArray.valueOf_set_same (a b : onDiskArray) (i : Nat) (cell : List Nat)
    (hb : b.bpv = a.bpv) (hcl : cell.length = a.bpv)
    (h : ∀ p, b.byteAt p =
      if i * a.bpv ≤ p ∧ p < i * a.bpv + a.bpv then cell.getD (p - i * a.bpv) 0 else a.byteAt p) :
    b.valueOf i = leValue cell := by
  unfold onDiskArray.valueOf
  rw [hb]
  conv_rhs => rw [eq_map_range cell, hcl]
  congr 1
  apply List.map_congr_left
  intro t ht
  have ht2 : t < a.bpv := by simpa using ht
  rw [h, if_pos (by omega)]
  congr 1; omega

theorem cells_disjoint (w i j t : Nat) (hij : j ≠ i) (ht : t < w) :
    ¬ (i * w ≤ j * w + t ∧ j * w + t < i * w + w) := by
  intro h
  rcases Nat.lt_or_gt_of_ne hij with hlt | hgt
  · have : (j + 1) * w ≤ i * w := Nat.mul_le_mul_right w hlt
    have e : (j + 1) * w = j * w + w := by ring
    omega
  · have : (i + 1) * w ≤ j * w := Nat.mul_le_mul_right w hgt
    have e : (i + 1) * w = i * w + w := by ring
    omega

theorem onDiskArray.valueOf_set_other (a b : onDiskArray) (i j : Nat) (cell : List Nat)
    (hb : b.bpv = a.bpv) (hij : j ≠ i)
    (h : ∀ p, b.byteAt p =
      if i * a.bpv ≤ p ∧ p < i * a.bpv + a.bpv then cell.getD (p - i * a.bpv) 0 else a.byteAt p) :
    b.valueOf j = a.valueOf j := by
  unfold onDiskArray.valueOf
  rw [hb]
  congr 1
  apply List.map_congr_left
  intro t ht
  have ht2 : t < a.bpv := by simpa using ht
  rw [h, if_neg (cells_disjoint _ _ _ _ hij ht2)]

theorem onDiskArray.valueOf_same_bytes (a b : onDiskArray) (j : Nat) (hb : b.bpv = a.bpv)
    (hj : j * a.bpv + a.bpv ≤ a.f.bytes.length)
    (h : ∀ p, p < a.f.bytes.length → b.byteAt p = a.byteAt p) :
    b.valueOf j = a.valueOf j := by
  unfold onDiskArray.valueOf
  rw [hb]
  congr 1
  apply List.map_congr_left
  intro t ht
  have ht2 : t < a.bpv := by simpa using ht
  exact h _ (by omega)

theorem onDiskArray.writeCached_byteAt {a : onDiskArray} (hv : a.Valid) {i : Nat} (hi : i < a.num)
    (cell : List Nat) (hcl : cell.length = a.bpv) {pg : cachePage}
    (hg : cacheGet a.cache (a.pageOf i) = some pg) (p : Nat) :
    (a.writeCached i cell).byteAt p =
      if i * a.bpv ≤ p ∧ p < i * a.bpv + a.bpv then cell.getD (p - i * a.bpv) 0 else a.byteAt p := by
  have hc := hv.cell_bound hi
  have hp := hv.in_page i
  have hps : 0 < a.psz := hv.2.2.1
  unfold onDiskArray.byteAt
  simp only [onDiskArray.writeCached, cacheGet_modify]
  by_cases hk : p / a.psz * a.psz = a.pageOf i
  · rw [if_pos hk, hk]
    have hle : a.pageOf i ≤ p := by rw [← hk]; exact page_start_le _ _
    have hpg := hv.page hg
    rw [hg]
    simp only [Option.map_some']
    rw [patch_getD _ _ _ _ (by have := hpg.2.2.1; omega), hcl]
    by_cases hin : i * a.bpv ≤ p ∧ p < i * a.bpv + a.bpv
    · rw [if_pos hin, if_pos (by omega)]
      congr 1; omega
    · rw [if_neg hin, if_neg (by omega)]
  · rw [if_neg hk]
    have hout : ¬ (i * a.bpv ≤ p ∧ p < i * a.bpv + a.bpv) := by
      intro hin
      apply hk
      have := hp.2.2 (p - i * a.bpv) (by omega)
      rw [← this]; congr 2; omega
    rw [if_neg hout]

theorem onDiskArray.writeCached_valid {a : onDiskArray} (hv : a.Valid) (hro : a.ro = false)
    {i : Nat} (hi : i < a.num)
    (cell : List Nat) (hcl : cell.length = a.bpv) : (a.writeCached i cell).Valid := by
  have hc := hv.cell_bound hi
  have hp := hv.in_page i
  have hps : 0 < a.psz := hv.2.2.1
  obtain ⟨h1, h2, h3, h4, h5, h6, h7, h8, h9, h10⟩ := hv
  have hfr : a.f.readOnly = false := by
    cases h : a.f.readOnly
    · rfl
    · have := h8 h; simp [hro] at this
  refine ⟨h1, h2, h3, h4, h5, h6, h7, h8, ?_, ?_⟩
  · simp only [onDiskArray.writeCached, cacheModify_keys]; exact h9
  · intro e he
    simp only [onDiskArray.writeCached] at he
    obtain ⟨e0, he0, rfl⟩ := mem_cacheModify _ _ _ _ he
    obtain ⟨g1, g2, g3, g4, g5, g6, g7⟩ := h10 e0 he0
    obtain ⟨k0, pg0⟩ := e0
    dsimp only at g1 g2 g3 g4 g5 g6 g7 ⊢
    by_cases hk : k0 = a.pageOf i
    · subst hk
      simp only [if_true]
      refine ⟨g1, g2, ?_, g4, g5, ?_, ?_⟩
      · simp only [onDiskArray.writeCached]
        rw [patch_length _ _ _ (by omega)]; exact g3
      · intro hd; simp at hd
      · intro hr; simp only [onDiskArray.writeCached] at hr; simp [hfr] at hr
    · simp only [hk, if_false]
      exact ⟨g1, g2, g3, g4, g5, g6, g7⟩

/-! ## Flushing a page -/

theorem patch_length_w (mem : List Nat) (lo : Nat) (cell : List Nat)
    (h : cell.length = 0 ∨ lo + cell.length ≤ mem.length) :
    (patch mem lo cell).length = mem.length := by
  rcases h with h | h
  · rw [List.length_eq_zero.mp h, patch_nil]
  · exact patch_length _ _ _ h

theorem patch_getD_w (mem : List Nat) (lo : Nat) (cell : List Nat) (q : Nat)
    (h : cell.length = 0 ∨ lo + cell.length ≤ mem.length) :
    (patch mem lo cell).getD q 0 =
      if lo ≤ q ∧ q < lo + cell.length then cell.getD (q - lo) 0 else mem.getD q 0 := by
  rcases h with h | h
  · rw [List.length_eq_zero.mp h, patch_nil, if_neg (by simp)]
  · exact patch_getD _ _ _ _ h

theorem cacheGet_of_mem (c : Cache) (hn : (c.map Prod.fst).Nodup) (k : Nat) (pg : cachePage)
    (h : (k, pg) ∈ c) : cacheGet c k = some pg := by
  induction c with
  | nil => simp at h
  | cons e rest ih =>
    obtain ⟨k1, p1⟩ := e
    simp only [List.map_cons, List.nodup_cons, List.mem_map, not_exists, not_and] at hn
    simp only [List.mem_cons, Prod.mk.injEq] at h
    rcases h with ⟨h1, h2⟩ | h
    · subst h1; subst h2; simp [cacheGet]
    · have hne : k1 ≠ k := by
        intro hk
        exact hn.1 (k, pg) h hk.symm
      simp only [cacheGet, hne, if_false]
      exact ih hn.2 h

theorem onDiskArray.PageOK_congr {a b : onDiskArray} (hp : b.psz = a.psz) (hf : b.f = a.f)
    {k : Nat} {pg : cachePage} (h : a.PageOK k pg) : b.PageOK k pg := by
  unfold onDiskArray.PageOK at *
  rw [hp, hf]; exact h

theorem onDiskArray.flushPage_eq {a : onDiskArray} (hv : a.Valid) {k : Nat} {pg : cachePage}
    (hk : cacheGet a.cache k = some pg) :
    flushPage a (some k) = (if pg.dirty then a.flushed k else a, none) := by
  have hpg := hv.page hk
  obtain ⟨g1, g2, g3, g4, g5, g6, g7⟩ := hpg
  have hat : a.pageAt k = pg := by simp [onDiskArray.pageAt, hk]
  unfold flushPage
  simp only [hat]
  cases hd : pg.dirty with
  | false => simp
  | true =>
    have hfr : a.f.readOnly = false := by
      cases h : a.f.readOnly
      · rfl
      · have := g7 h; simp [hd] at this
    have hwl : (pg.data.take pg.len).length = 0 ∨
        pg.off + (pg.data.take pg.len).length ≤ a.f.bytes.length := by
      simp only [List.length_take]
      omega
    simp only [if_true]
    rw [WriteAt_in _ _ _ hfr hv.2.2.2.2.1 hwl (by omega)]
    simp only [onDiskArray.flushed, hat, g1]

theorem onDiskArray.flushed_valid {a : onDiskArray} (hv : a.Valid) {k : Nat} {pg : cachePage}
    (hk : cacheGet a.cache k = some pg) : (a.flushed k).Valid := by
  have hpg := hv.page hk
  have hat : a.pageAt k = pg := by simp [onDiskArray.pageAt, hk]
  obtain ⟨h1, h2, h3, h4, h5, h6, h7, h8, h9, h10⟩ := hv
  obtain ⟨g1, g2, g3, g4, g5, g6, g7⟩ := hpg
  have hwl : (pg.data.take pg.len).length = 0 ∨
      k + (pg.data.take pg.len).length ≤ a.f.bytes.length := by
    simp only [List.length_take]
    omega
  have hwn : (pg.data.take pg.len).length = pg.len := by
    simp only [List.length_take]; omega
  have hlen : (patch a.f.bytes k (pg.data.take pg.len)).length = a.f.bytes.length :=
    patch_length_w _ _ _ hwl
  refine ⟨h1, h2, h3, h4, h5, ?_, ?_, h8, ?_, ?_⟩
  · simp only [onDiskArray.flushed, hat, hlen]; exact h6
  · simp only [onDiskArray.flushed, hat, hlen]; exact h7
  · simp only [onDiskArray.flushed, cacheModify_keys]; exact h9
  · intro e he
    simp only [onDiskArray.flushed] at he
    obtain ⟨e0, he0, rfl⟩ := mem_cacheModify _ _ _ _ he
    obtain ⟨f1, f2, f3, f4, f5, f6, f7⟩ := h10 e0 he0
    obtain ⟨k0, pg0⟩ := e0
    dsimp only at f1 f2 f3 f4 f5 f6 f7 ⊢
    by_cases hk0 : k0 = k
    · subst hk0
      have hpg0 : pg0 = pg := by
        have := cacheGet_of_mem _ h9 _ _ he0
        rw [hk] at this; cases this; rfl
      subst hpg0
      simp only [if_true]
      refine ⟨f1, f2, f3, f4, ?_, ?_, ?_⟩
      · simp only [onDiskArray.flushed, hat, hlen]; exact f5
      · intro _ q hq
        simp only [onDiskArray.flushed, hat] at hq ⊢
        rw [patch_getD_w _ _ _ _ hwl, hwn, if_pos (by omega), getD_take, if_pos (by omega)]
        congr 1; omega
      · intro _; rfl
    · simp only [hk0, if_false]
      refine ⟨f1, f2, f3, f4, ?_, ?_, f7⟩
      · simp only [onDiskArray.flushed, hat, hlen]; exact f5
      · intro hd q hq
        simp only [onDiskArray.flushed, hat] at hq ⊢
        rw [patch_getD_w _ _ _ _ hwl, hwn, f6 hd q hq]
        have hout : ¬ (k ≤ k0 + q ∧ k0 + q < k + pg.len) := by
          intro hin
          rcases Nat.lt_or_gt_of_ne hk0 with hlt | hgt
          · have := mult_apart a.psz k0 k f2 g2 hlt; omega
          · have := mult_apart a.psz k k0 g2 f2 hgt; omega
        rw [if_neg hout]

theorem onDiskArray.flushed_same {a : onDiskArray} (hv : a.Valid) {k : Nat} {pg : cachePage}
    (hk : cacheGet a.cache k = some pg) : a.SameBytes (a.flushed k) := by
  have hpg := hv.page hk
  have hat : a.pageAt k = pg := by simp [onDiskArray.pageAt, hk]
  have hps : 0 < a.psz := hv.2.2.1
  obtain ⟨g1, g2, g3, g4, g5, g6, g7⟩ := hpg
  have hwl : (pg.data.take pg.len).length = 0 ∨
      k + (pg.data.take pg.len).length ≤ a.f.bytes.length := by
    simp only [List.length_take]
    omega
  have hwn : (pg.data.take pg.len).length = pg.len := by
    simp only [List.length_take]; omega
  refine ⟨rfl, rfl, rfl, rfl, rfl, ?_, rfl, ?_⟩
  · simp only [onDiskArray.flushed, hat]; exact patch_length_w _ _ _ hwl
  · intro p _
    unfold onDiskArray.byteAt
    simp only [onDiskArray.flushed, hat, cacheGet_modify]
    by_cases hkp : p / a.psz * a.psz = k
    · rw [if_pos hkp, hkp, hk]; rfl
    · rw [if_neg hkp]
      cases hg : cacheGet a.cache (p / a.psz * a.psz) with
      | some pg2 => rfl
      | none =>
        dsimp only
        rw [patch_getD_w _ _ _ _ hwl, hwn]
        have hout : ¬ (k ≤ p ∧ p < k + pg.len) := by
          intro hin
          apply hkp
          exact page_of_mem a.psz k p g2 (by omega) (by omega)
        rw [if_neg hout]

/-! ## Releasing a page -/

theorem cacheDel_nodup (c : Cache) (k : Nat) (h : (c.map Prod.fst).Nodup) :
    ((cacheDel c k).map Prod.fst).Nodup := by
  apply List.Nodup.sublist _ h
  apply List.Sublist.map
  exact List.filter_sublist _

theorem onDiskArray.Valid.readable {a : onDiskArray} (hv : a.Valid) {k : Nat} {pg : cachePage}
    (hk : cacheGet a.cache k = some pg) (hd : pg.dirty = false) {p : Nat}
    (hp : p / a.psz * a.psz = k) (hpl : p < a.f.bytes.length) :
    pg.data.getD (p - k) 0 = a.f.bytes.getD p 0 := by
  obtain ⟨g1, g2, g3, g4, g5, g6, g7⟩ := hv.page hk
  have hps : 0 < a.psz := hv.2.2.1
  have h1 := page_start_le a.psz p
  have h2 := page_start_lt a.psz p hps
  rw [hp] at h1 h2
  rw [g6 hd (p - k) (by omega)]
  congr 1; omega

/-- Replacing the cache by one whose pages all satisfy `PageOK` keeps the
invariant, as long as the keys stay distinct. -/
theorem onDiskArray.Valid.with_cache {a : onDiskArray} (hv : a.Valid) (c : Cache) (p : Option Pool)
    (hn : (c.map Prod.fst).Nodup) (hc : ∀ e ∈ c, a.PageOK e.1 e.2) :
    ({ a with cache := c, p := p } : onDiskArray).Valid := by
  obtain ⟨h1, h2, h3, h4, h5, h6, h7, h8, _, _⟩ := hv
  exact ⟨h1, h2, h3, h4, h5, h6, h7, h8, hn, hc⟩

theorem onDiskArray.Valid.modify {a : onDiskArray} (hv : a.Valid) (k : Nat)
    (g : cachePage → cachePage) (hg : ∀ k0 q, a.PageOK k0 q → a.PageOK k0 (g q)) :
    ({ a with cache := cacheModify a.cache k g, p := a.p } : onDiskArray).Valid := by
  apply hv.with_cache
  · rw [cacheModify_keys]; exact hv.2.2.2.2.2.2.2.2.1
  · intro e he
    obtain ⟨e0, he0, rfl⟩ := mem_cacheModify _ _ _ _ he
    have h0 := hv.2.2.2.2.2.2.2.2.2 e0 he0
    obtain ⟨k0, pg0⟩ := e0
    dsimp only at h0 ⊢
    split
    · exact hg _ _ h0
    · exact h0

theorem onDiskArray.PageOK_refcnt {a : onDiskArray} {k : Nat} {pg : cachePage} (r : Nat)
    (h : a.PageOK k pg) : a.PageOK k { pg with refcnt := r } := h

theorem onDiskArray.byteAt_congr (a b : onDiskArray) (hp : b.psz = a.psz)
    (hf : b.f.bytes = a.f.bytes)
    (hc : ∀ k, (cacheGet b.cache k).map cachePage.data = (cacheGet a.cache k).map cachePage.data)
    (p : Nat) : b.byteAt p = a.byteAt p := by
  unfold onDiskArray.byteAt
  rw [hp, hf]
  have := hc (p / a.psz * a.psz)
  cases h1 : cacheGet b.cache (p / a.psz * a.psz) <;>
    cases h2 : cacheGet a.cache (p / a.psz * a.psz) <;>
    simp only [h1, h2, Option.map_some', Option.map_none', Option.some.injEq] at this
  · rfl
  · cases this
  · cases this
  · dsimp only; rw [this]

theorem cacheGet_modify_data (c : Cache) (k : Nat) (g : cachePage → cachePage)
    (hg : ∀ q, (g q).data = q.data) (k2 : Nat) :
    (cacheGet (cacheModify c k g) k2).map cachePage.data = (cacheGet c k2).map cachePage.data := by
  rw [cacheGet_modify]
  split
  · cases cacheGet c k2 <;> simp [hg]
  · rfl

theorem onDiskArray.SameBytes.of_eq {a b : onDiskArray} (h1 : b.num = a.num) (h2 : b.max = a.max)
    (h3 : b.psz = a.psz) (h4 : b.bpv = a.bpv) (h5 : b.ro = a.ro) (h6 : b.f = a.f)
    (h : ∀ p, p < a.f.bytes.length → b.byteAt p = a.byteAt p) : a.SameBytes b :=
  ⟨h1, h2, h3, h4, h5, by rw [h6], by rw [h6], h⟩

theorem onDiskArray.disposePage_spec {a : onDiskArray} (hv : a.Valid) {k : Nat} {pg : cachePage}
    (hk : cacheGet a.cache k = some pg) (hd : pg.dirty = false) :
    ∃ b, a.disposePage (some k) = .ok b () ∧ b.Valid ∧ a.SameBytes b ∧ b.f = a.f ∧
      (∀ k2, k2 ≠ k → cacheGet b.cache k2 = cacheGet a.cache k2) ∧
      cacheGet b.cache k =
        (if 0 < (pg.refcnt + 2 ^ 32 - 1) % 2 ^ 32
         then some { pg with refcnt := (pg.refcnt + 2 ^ 32 - 1) % 2 ^ 32 } else none) := by
  have hat : a.pageAt k = pg := by simp [onDiskArray.pageAt, hk]
  have hpg := hv.page hk
  unfold onDiskArray.disposePage
  simp only [hat, hd, Bool.false_eq_true, if_false]
  generalize (pg.refcnt + 2 ^ 32 - 1) % 2 ^ 32 = rc
  by_cases hrc : 0 < rc
  · rw [if_pos hrc, if_pos hrc]
    refine ⟨_, rfl, hv.modify k (fun q => { q with refcnt := rc })
      (fun _ _ h => onDiskArray.PageOK_refcnt rc h), ?_, rfl, ?_, ?_⟩
    · refine onDiskArray.SameBytes.of_eq (a := a) rfl rfl rfl rfl rfl rfl ?_
      intro p _
      refine onDiskArray.byteAt_congr a _ ?_ ?_ ?_ p
      · rfl
      · rfl
      · intro k2
        dsimp only
        apply cacheGet_modify_data
        intro q; rfl
    · intro k2 hk2
      simp only [cacheGet_modify, if_neg hk2]
    · simp only [cacheGet_modify, if_true, hk, Option.map_some', hd]
  · rw [if_neg hrc, if_neg hrc]
    have habs : cacheGet (cacheDel a.cache pg.off) k = none := by
      rw [cacheGet_del, if_pos hpg.1.symm]
    rw [cacheModify_absent _ _ _ habs, hpg.1]
    refine ⟨_, rfl, ?_, ?_, rfl, ?_, ?_⟩
    · apply hv.with_cache
      · exact cacheDel_nodup _ _ hv.2.2.2.2.2.2.2.2.1
      · intro e he
        exact hv.2.2.2.2.2.2.2.2.2 e (mem_cacheDel _ _ _ he).1
    · refine onDiskArray.SameBytes.of_eq (a := a) rfl rfl rfl rfl rfl rfl ?_
      intro p hp
      unfold onDiskArray.byteAt
      simp only [cacheGet_del]
      by_cases hkp : p / a.psz * a.psz = k
      · rw [if_pos hkp, hkp, hk]
        dsimp only
        exact (hv.readable hk hd hkp hp).symm
      · rw [if_neg hkp]
    · intro k2 hk2
      simp only [cacheGet_del, if_neg hk2]
    · simp only [cacheGet_del, if_true]

theorem onDiskArray.disposePage_nil (a : onDiskArray) : a.disposePage none = .ok a () := rfl

/-! ## Acquiring a page -/

theorem onDiskArray.acquirePage_spec {a : onDiskArray} (hv : a.Valid) {k : Nat}
    (hk : k % a.psz = 0) (hk2 : k < 2 ^ 63) :
    ∃ b, a.acquirePage k = (b, some k, none) ∧ b.Valid ∧ a.SameBytes b ∧ b.f = a.f ∧
      (cacheGet b.cache k).isSome = true ∧
      (∀ k2, k2 ≠ k → cacheGet b.cache k2 = cacheGet a.cache k2) := by
  unfold onDiskArray.acquirePage
  cases hg : cacheGet a.cache k with
  | some pg =>
    dsimp only
    refine ⟨_, rfl, hv.modify k (fun pg => { pg with refcnt := (pg.refcnt + 1) % 2 ^ 32 })
      (fun _ q h => onDiskArray.PageOK_refcnt ((q.refcnt + 1) % 2 ^ 32) h), ?_, rfl, ?_, ?_⟩
    · refine onDiskArray.SameBytes.of_eq (a := a) rfl rfl rfl rfl rfl rfl ?_
      intro p _
      refine onDiskArray.byteAt_congr a _ ?_ ?_ ?_ p
      · rfl
      · rfl
      · intro k2
        dsimp only
        apply cacheGet_modify_data
        intro q; rfl
    · simp only [cacheGet_modify, if_true, hg, Option.map_some', Option.isSome_some]
    · intro k2 hk2
      simp only [cacheGet_modify, if_neg hk2]
  | none =>
    dsimp only
    have h5 : a.f.closed = false := hv.2.2.2.2.1
    have h3 : 0 < a.psz := hv.2.2.1
    obtain ⟨hr1, hr2⟩ := ReadAt_any a.f a.psz k h5 hk2
    have hrl : (a.f.ReadAt a.psz k).1.length = min a.psz (a.f.bytes.length - k) := by
      rw [hr1]; simp
    have hne : ¬ ((a.f.ReadAt a.psz k).2 ≠ none ∧ (a.f.ReadAt a.psz k).2 ≠ some Error.EOF) := by
      rcases hr2 with h | h <;> simp [h]
    rw [if_neg hne]
    generalize hrd : (a.f.ReadAt a.psz k).1 = rd at hr1 hrl
    refine ⟨_, rfl, ?_, ?_, rfl, ?_, ?_⟩
    · apply hv.with_cache
      · simp only [cacheSet, List.map_cons, List.nodup_cons]
        refine ⟨?_, cacheDel_nodup _ _ hv.2.2.2.2.2.2.2.2.1⟩
        intro hmem
        obtain ⟨e, he, hek⟩ := List.mem_map.mp hmem
        exact (mem_cacheDel _ _ _ he).2 hek
      · intro e he
        simp only [cacheSet, List.mem_cons] at he
        rcases he with rfl | he
        · refine ⟨rfl, hk, ?_, hk2, hrl, ?_, ?_⟩
          · simp only [List.length_append, List.length_drop]
            split
            · omega
            · simp only [List.length_replicate]; omega
          · intro _ q hq
            dsimp only at hq ⊢
            rw [getD_append, if_pos hq, hr1, getD_take_drop _ _ _ _ (by rw [hrl] at hq; omega)]
          · intro _; rfl
        · exact hv.2.2.2.2.2.2.2.2.2 e (mem_cacheDel _ _ _ he).1
    · refine onDiskArray.SameBytes.of_eq (a := a) rfl rfl rfl rfl rfl rfl ?_
      intro p hp
      unfold onDiskArray.byteAt
      simp only [cacheGet_set]
      by_cases hkp : p / a.psz * a.psz = k
      · rw [if_pos hkp, hkp, hg]
        dsimp only
        have b1 := page_start_le a.psz p
        have b2 := page_start_lt a.psz p h3
        rw [hkp] at b1 b2
        have hq : p - k < rd.length := by rw [hrl]; omega
        rw [getD_append, if_pos hq, hr1, getD_take_drop _ _ _ _ (by omega)]
        congr 1; omega
      · rw [if_neg hkp]
    · simp only [cacheGet_set, if_true, Option.isSome_some]
    · intro k2 hk2
      simp only [cacheGet_set, if_neg hk2]

/-! ## Changing the page of an iterator -/

theorem onDiskArray.SameBytes.refl_bytes (a : onDiskArray) : a.SameBytes a :=
  ⟨rfl, rfl, rfl, rfl, rfl, rfl, rfl, fun _ _ => rfl⟩

theorem onDiskArray.SameBytes.trans_bytes {a b c : onDiskArray} (h1 : a.SameBytes b)
    (h2 : b.SameBytes c) : a.SameBytes c := by
  obtain ⟨a1, a2, a3, a4, a5, a6, a7, a8⟩ := h1
  obtain ⟨b1, b2, b3, b4, b5, b6, b7, b8⟩ := h2
  refine ⟨by rw [b1, a1], by rw [b2, a2], by rw [b3, a3], by rw [b4, a4], by rw [b5, a5],
    by rw [b6, a6], by rw [b7, a7], ?_⟩
  intro p hp
  rw [b8 p (by rw [a6]; exact hp), a8 p hp]

theorem onDiskArray.SameBytes.valueOf {a b : onDiskArray} (h : a.SameBytes b) (hv : a.Valid)
    {i : Nat} (hi : i < a.num) : b.valueOf i = a.valueOf i :=
  onDiskArray.valueOf_same_bytes a b i h.2.2.2.1 (hv.cell_bound hi).1 h.2.2.2.2.2.2.2

theorem onDiskArray.flushPage_spec {a : onDiskArray} (hv : a.Valid) {k : Nat} {pg : cachePage}
    (hk : cacheGet a.cache k = some pg) :
    ∃ b, flushPage a (some k) = (b, none) ∧ b.Valid ∧ a.SameBytes b ∧
      cacheGet b.cache k = some { pg with dirty := false } ∧
      (∀ k2, k2 ≠ k → cacheGet b.cache k2 = cacheGet a.cache k2) := by
  rw [onDiskArray.flushPage_eq hv hk]
  cases hd : pg.dirty with
  | false =>
    refine ⟨a, rfl, hv, onDiskArray.SameBytes.refl_bytes a, ?_, fun _ _ => rfl⟩
    rw [hk]
    cases pg
    simp only at hd
    subst hd
    rfl
  | true =>
    refine ⟨a.flushed k, rfl, onDiskArray.flushed_valid hv hk, onDiskArray.flushed_same hv hk,
      ?_, ?_⟩
    · simp only [onDiskArray.flushed, cacheGet_modify, if_true, hk, Option.map_some']
    · intro k2 hk2
      simp only [onDiskArray.flushed, cacheGet_modify, if_neg hk2]

theorem onDiskIterator.detach_spec {a : onDiskArray} (hv : a.Valid) (it : onDiskIterator)
    (hpg : ∀ k, it.page = some k → (cacheGet a.cache k).isSome = true) (po : Nat) :
    ∃ b pgo, onDiskIterator.detach a it po = .ok (b, { it with page := pgo }) ∧ b.Valid ∧
      a.SameBytes b ∧ (pgo = none ∨ (pgo = some po ∧ (cacheGet b.cache po).isSome = true)) := by
  unfold onDiskIterator.detach
  cases hp : it.page with
  | none =>
    refine ⟨a, none, ?_, hv, onDiskArray.SameBytes.refl_bytes a, Or.inl rfl⟩
    cases it; simp only at hp; subst hp; rfl
  | some k =>
    have hc := hpg k hp
    obtain ⟨pg, hk⟩ := Option.isSome_iff_exists.mp hc
    have hat : a.pageAt k = pg := by simp [onDiskArray.pageAt, hk]
    have hoff : pg.off = k := (hv.page hk).1
    dsimp only
    rw [hat, hoff]
    by_cases hne : k = po
    · rw [if_neg (by simpa using hne)]
      refine ⟨a, some k, ?_, hv, onDiskArray.SameBytes.refl_bytes a, Or.inr ⟨by rw [hne], ?_⟩⟩
      · cases it; simp only at hp; subst hp; rfl
      · rw [← hne]; exact hc
    · rw [if_pos hne]
      obtain ⟨b, hb1, hb2, hb3, hb4, _⟩ := onDiskArray.flushPage_spec hv hk
      rw [hb1]
      dsimp only
      obtain ⟨c, hc1, hc2, hc3, _⟩ := onDiskArray.disposePage_spec hb2 hb4 rfl
      rw [hc1]
      exact ⟨c, none, rfl, hc2, hb3.trans_bytes hc3, Or.inl rfl⟩

theorem onDiskIterator.attach_spec {a : onDiskArray} (hv : a.Valid) (it : onDiskIterator)
    (po : Nat) (hpo : po % a.psz = 0) (hpo2 : po < 2 ^ 63)
    (hpg : it.page = none ∨ (it.page = some po ∧ (cacheGet a.cache po).isSome = true)) :
    ∃ b, onDiskIterator.attach a it po = .ok (b, { it with page := some po }) ∧ b.Valid ∧
      a.SameBytes b ∧ (cacheGet b.cache po).isSome = true := by
  unfold onDiskIterator.attach
  rcases hpg with hp | ⟨hp, hc⟩
  · rw [hp]
    dsimp only
    obtain ⟨b, hb1, hb2, hb3, _, hb5, _⟩ := onDiskArray.acquirePage_spec hv hpo hpo2
    rw [hb1]
    exact ⟨b, rfl, hb2, hb3, hb5⟩
  · rw [hp]
    dsimp only
    refine ⟨a, ?_, hv, onDiskArray.SameBytes.refl_bytes a, hc⟩
    cases it; simp only at hp; subst hp; rfl

/-! ## Advancing the disk iterator -/

theorem onDiskArray.Valid.num_lt {a : onDiskArray} (hv : a.Valid) : a.num < 2 ^ 63 := by
  have hw := hv.width
  have h6 : a.num * a.bpv ≤ a.f.bytes.length := hv.2.2.2.2.2.1
  have h7 : a.f.bytes.length < 2 ^ 63 := hv.2.2.2.2.2.2.1
  have := Nat.le_mul_of_pos_right a.num hw.1
  omega

theorem skip_guard {n : Nat} {primed : Bool} (hn : 0 < n ∨ primed = true) :
    ¬ (n = 0 ∧ primed = false) := by
  rintro ⟨h0, hp⟩
  rcases hn with h | h
  · omega
  · simp [hp] at h

theorem onDiskIterator.disk_Skip_done {a : onDiskArray} {it : onDiskIterator}
    (hok : (Iterator.disk a it).OK) (n : Nat) (hn : 0 < n ∨ it.primed = true)
    (hge : it.num ≤ (Iterator.disk a it).target n) :
    onDiskIterator.Skip a it n =
      .ok (a, { it with primed := true, pos := it.num, val := noValue }) false := by
  obtain ⟨hv, herr, hpos, hrange, hpg, hat⟩ := hok
  simp only [Iterator.target, Iterator.pos, Iterator.primed] at hge
  unfold onDiskIterator.Skip
  rw [if_neg (by omega), if_neg (skip_guard hn), if_neg (by simp [herr])]
  dsimp only
  rw [if_pos (by omega)]

theorem onDiskIterator.disk_Skip_more {a : onDiskArray} {it : onDiskIterator}
    (hok : (Iterator.disk a it).OK) (n : Nat) (hn : 0 < n ∨ it.primed = true)
    (hlt : (Iterator.disk a it).target n < it.num) :
    ∃ b, onDiskIterator.Skip a it n = .ok (b,
        { it with primed := true, pos := (Iterator.disk a it).target n,
                  page := some (a.pageOf (Iterator.disk a
                    { it with primed := true, pos := (Iterator.disk a it).target n }).idx),
                  val := a.valueOf (Iterator.disk a
                    { it with primed := true, pos := (Iterator.disk a it).target n }).idx }) true ∧
      b.Valid ∧ a.SameBytes b ∧
      (cacheGet b.cache (a.pageOf (Iterator.disk a
          { it with primed := true, pos := (Iterator.disk a it).target n }).idx)).isSome = true := by
  obtain ⟨hv, herr, hpos, hrange, hpg, hat⟩ := hok
  simp only [Iterator.target, Iterator.pos, Iterator.primed] at hlt ⊢
  simp only [onDiskArray.Len] at hrange
  generalize ht : it.pos + (if it.primed = true then n else n - 1) = t at hlt ⊢
  generalize hi : (Iterator.disk a { it with primed := true, pos := t }).idx = i
  have hi2 : i = if it.down = true then it.base + (it.num - t - 1) else it.base + t := by
    rw [← hi]; rfl
  have hin : i < a.num := by
    rw [hi2]; split <;> omega
  have hcb := hv.cell_bound hin
  have hip := hv.in_page i
  have hps : 0 < a.psz := hv.2.2.1
  have hw := hv.width
  have hidx : onDiskIterator.Index { it with primed := true, pos := t } = .ok i := by
    unfold onDiskIterator.Index
    dsimp only
    rw [if_neg (by simp), if_neg (by omega)]
    have hm : i % 2 ^ 64 = i := Nat.mod_eq_of_lt (by have := hv.num_lt; omega)
    cases hd : it.down
    · simp only [hd, Bool.false_eq_true, if_false] at hi2 ⊢; rw [← hi2, hm]
    · simp only [hd, if_true] at hi2 ⊢; rw [← hi2, hm]
  unfold onDiskIterator.Skip
  rw [if_neg (by omega), if_neg (skip_guard hn), if_neg (by simp [herr])]
  dsimp only
  rw [if_neg (by omega)]
  have ht2 : it.pos + (if it.primed = true then n else n - 1) = t := ht
  rw [ht2, hidx]
  dsimp only
  rw [if_neg (by omega), hcb.2.2]
  have hpo : i * a.bpv / a.psz * a.psz = a.pageOf i := rfl
  rw [hpo]
  obtain ⟨b, pgo, hb1, hb2, hb3, hb4⟩ :=
    onDiskIterator.detach_spec hv { it with primed := true, pos := t } hpg (a.pageOf i)
  rw [hb1]
  dsimp only
  have hbp : b.psz = a.psz := hb3.2.2.1
  have hbb : b.bpv = a.bpv := hb3.2.2.2.1
  obtain ⟨c, hc1, hc2, hc3, hc4⟩ :=
    onDiskIterator.attach_spec hb2 { it with primed := true, pos := t, page := pgo } (a.pageOf i)
      (by rw [hbp]; exact page_start_mod _ _) (by omega) hb4
  rw [hc1]
  dsimp only
  have hcp : c.psz = a.psz := by rw [hc3.2.2.1, hbp]
  have hcbv : c.bpv = a.bpv := by rw [hc3.2.2.2.1, hbb]
  obtain ⟨pg, hpgc⟩ := Option.isSome_iff_exists.mp hc4
  have hpat : c.pageAt (a.pageOf i) = pg := by simp [onDiskArray.pageAt, hpgc]
  have hpok := hc2.page hpgc
  have hac : a.SameBytes c := hb3.trans_bytes hc3
  have hcpo : c.pageOf i = a.pageOf i := by simp only [onDiskArray.pageOf, hcp, hcbv]
  have ho : (i * a.bpv + 2 ^ 64 - pg.off) % 2 ^ 64 = i * a.bpv - a.pageOf i := by
    rw [hpok.1]
    have : i * a.bpv + 2 ^ 64 - a.pageOf i = (i * a.bpv - a.pageOf i) + 2 ^ 64 := by omega
    rw [this, Nat.add_mod_right]
    exact Nat.mod_eq_of_lt (by omega)
  rw [hpat, ho, hcbv]
  have e : (i * a.bpv - a.pageOf i + a.bpv) % 2 ^ 64 = i * a.bpv - a.pageOf i + a.bpv :=
    Nat.mod_eq_of_lt (by omega)
  rw [e, slice_ok _ _ _ (by have := hpok.2.2.1; rw [hcp] at this; omega)]
  dsimp only
  rw [bpvDecode_ok hv.1 _ (by simp; have := hpok.2.2.1; rw [hcp] at this; omega)]
  dsimp only
  have hval : leValue (List.take a.bpv (List.drop (i * a.bpv - a.pageOf i) pg.data)) =
      a.valueOf i := by
    rw [← hac.valueOf hv hin]
    have := onDiskArray.valueOf_cached hc2 i (by rw [hcpo]; exact hpgc)
    rw [hcpo, hcbv] at this
    exact this.symm
  rw [hval]
  exact ⟨c, rfl, hc2, hac, hc4⟩

/-! ## Writing through and closing the disk iterator -/

theorem onDiskIterator.disk_idx_lt {a : onDiskArray} {it : onDiskIterator}
    (hok : (Iterator.disk a it).OK) (hlt : it.pos < it.num) :
    (Iterator.disk a it).idx < a.num := by
  obtain ⟨hv, herr, hpos, hrange, hpg, hat⟩ := hok
  simp only [onDiskArray.Len] at hrange
  simp only [Iterator.idx, Iterator.down, Iterator.base, Iterator.num, Iterator.pos]
  split <;> omega

theorem onDiskIterator.disk_Index_eq {a : onDiskArray} {it : onDiskIterator}
    (hok : (Iterator.disk a it).OK) (hp : it.primed = true) (hlt : it.pos < it.num) :
    it.Index = .ok (Iterator.disk a it).idx := by
  have hin := onDiskIterator.disk_idx_lt hok hlt
  have hm : (Iterator.disk a it).idx % 2 ^ 64 = (Iterator.disk a it).idx :=
    Nat.mod_eq_of_lt (by have := hok.1.num_lt; omega)
  simp only [Iterator.idx, Iterator.down, Iterator.base, Iterator.num, Iterator.pos] at hm ⊢
  unfold onDiskIterator.Index
  rw [if_neg (by simp [hp]), if_neg (by omega)]
  cases hd : it.down
  · simp only [hd, Bool.false_eq_true, if_false] at hm ⊢; rw [hm]
  · simp only [hd, if_true] at hm ⊢; rw [hm]

theorem onDiskIterator.disk_SetValue_spec {a : onDiskArray} {it : onDiskIterator}
    (hok : (Iterator.disk a it).OK) (hp : it.primed = true) (hlt : it.pos < it.num)
    (hro : a.ro = false) (v : Nat) (hvm : v ≤ a.max) :
    onDiskIterator.SetValue a it v =
      .ok (a.writeCached (Iterator.disk a it).idx (leBytes a.bpv v), it) () := by
  have hin := onDiskIterator.disk_idx_lt hok hlt
  have hidx := onDiskIterator.disk_Index_eq hok hp hlt
  obtain ⟨hv, herr, hpos, hrange, hpg, hat⟩ := hok
  generalize (Iterator.disk a it).idx = i at hin hidx hat ⊢
  have hpage := hat hp hlt
  have hpo : i * a.bpv / a.psz * a.psz = a.pageOf i := rfl
  rw [hpo] at hpage
  obtain ⟨pg, hk⟩ := Option.isSome_iff_exists.mp (hpg _ hpage)
  have hpat : a.pageAt (a.pageOf i) = pg := by simp [onDiskArray.pageAt, hk]
  have hpok := hv.page hk
  have hcb := hv.cell_bound hin
  have hip := hv.in_page i
  have hw := hv.width
  have hv256 : v % 2 ^ (8 * a.bpv) = v := Nat.mod_eq_of_lt (by have := hv.2.1; omega)
  unfold onDiskIterator.SetValue
  rw [if_neg (by simp [hp]), if_neg (by omega), if_neg (by simp [hro]),
    if_neg (by simp [onDiskArray.MaxValue]; omega), if_neg (by simp [herr]), hidx]
  dsimp only
  rw [hpage]
  dsimp only
  have ho : (i * a.bpv % 2 ^ 64 + 2 ^ 64 - pg.off) % 2 ^ 64 = i * a.bpv - a.pageOf i := by
    rw [hpok.1, hcb.2.2]
    have : i * a.bpv + 2 ^ 64 - a.pageOf i = (i * a.bpv - a.pageOf i) + 2 ^ 64 := by omega
    rw [this, Nat.add_mod_right]
    exact Nat.mod_eq_of_lt (by omega)
  rw [hpat, ho]
  have e : (i * a.bpv - a.pageOf i + a.bpv) % 2 ^ 64 = i * a.bpv - a.pageOf i + a.bpv :=
    Nat.mod_eq_of_lt (by omega)
  rw [e, slice_ok _ _ _ (by have := hpok.2.2.1; omega)]
  dsimp only
  rw [bpvEncode_ok hv.1 _ (by simp; have := hpok.2.2.1; omega), hv256]
  rfl

theorem onDiskIterator.Flush_spec {a : onDiskArray} {it : onDiskIterator}
    (hok : (Iterator.disk a it).OK) :
    ∃ b, onDiskIterator.Flush a it = (b, none) ∧ b.Valid ∧ a.SameBytes b ∧
      (Iterator.disk b it).OK ∧
      (∀ k pg, it.page = some k → cacheGet a.cache k = some pg →
        cacheGet b.cache k = some { pg with dirty := false } ∧
        ∀ q, q < pg.len → b.f.bytes.getD (k + q) 0 = pg.data.getD q 0) := by
  obtain ⟨hv, herr, hpos, hrange, hpg, hat⟩ := hok
  unfold onDiskIterator.Flush
  cases hp : it.page with
  | none =>
    refine ⟨a, rfl, hv, onDiskArray.SameBytes.refl_bytes a, ⟨hv, herr, hpos, hrange, hpg, hat⟩, ?_⟩
    intro k pg h; cases h
  | some k =>
    obtain ⟨pg, hk⟩ := Option.isSome_iff_exists.mp (hpg k hp)
    obtain ⟨b, hb1, hb2, hb3, hb4, hb5⟩ := onDiskArray.flushPage_spec hv hk
    refine ⟨b, hb1, hb2, hb3, ⟨hb2, herr, hpos, ?_, ?_, ?_⟩, ?_⟩
    · simp only [onDiskArray.Len] at hrange ⊢; rw [hb3.1]; exact hrange
    · intro k2 hk2
      by_cases h : k2 = k
      · rw [h, hb4]; rfl
      · rw [hb5 k2 h]; exact hpg k2 hk2
    · intro h1 h2
      have := hat h1 h2
      simp only [Iterator.idx, Iterator.down, Iterator.base, Iterator.num, Iterator.pos] at this ⊢
      rw [hb3.2.2.1, hb3.2.2.2.1]; exact this
    · intro k2 pg2 h1 h2
      cases h1
      rw [hk] at h2; cases h2
      refine ⟨hb4, ?_⟩
      intro q hq
      have hpok := hb2.page hb4
      exact (hpok.2.2.2.2.2.1 rfl q hq).symm

theorem onDiskIterator.disk_Close_spec {a : onDiskArray} {it : onDiskIterator}
    (hok : (Iterator.disk a it).OK) :
    ∃ b, onDiskIterator.Close a it = .ok (b, onDiskIterator.closed) none ∧ b.Valid ∧
      a.SameBytes b ∧
      (∀ k pg, it.page = some k → cacheGet a.cache k = some pg →
        ∀ q, q < pg.len → b.f.bytes.getD (k + q) 0 = pg.data.getD q 0) := by
  obtain ⟨b, hb1, hb2, hb3, hb4, hb5⟩ := onDiskIterator.Flush_spec hok
  obtain ⟨hv, herr, hpos, hrange, hpg, hat⟩ := hok
  unfold onDiskIterator.Close
  rw [hb1]
  dsimp only
  rw [if_neg (by simp [herr])]
  cases hp : it.page with
  | none =>
    rw [onDiskArray.disposePage_nil]
    refine ⟨b, rfl, hb2, hb3, ?_⟩
    intro k pg h; cases h
  | some k =>
    obtain ⟨pg, hk⟩ := Option.isSome_iff_exists.mp (hpg k hp)
    obtain ⟨h1, h2⟩ := hb5 k pg hp hk
    obtain ⟨c, hc1, hc2, hc3, hc4, _⟩ := onDiskArray.disposePage_spec hb2 h1 rfl
    rw [hc1]
    refine ⟨c, rfl, hc2, hb3.trans_bytes hc3, ?_⟩
    intro k2 pg2 e1 e2
    cases e1
    rw [hk] at e2; cases e2
    rw [hc4]; exact h2

/-! ## The resident array and its iterator -/

theorem BigArray.Same.refl (a : BigArray) : a.Same a := ⟨rfl, rfl, rfl, fun _ _ => rfl⟩

theorem BigArray.Same.trans {a b c : BigArray} (h1 : a.Same b) (h2 : b.Same c) : a.Same c := by
  obtain ⟨a1, a2, a3, a4⟩ := h1
  obtain ⟨b1, b2, b3, b4⟩ := h2
  refine ⟨by rw [b1, a1], by rw [b2, a2], by rw [b3, a3], ?_⟩
  intro i hi
  rw [b4 i (by rw [a1]; exact hi), a4 i hi]

theorem BigArray.Same.of_disk {a b : onDiskArray} (hv : a.Valid) (h : a.SameBytes b) :
    (BigArray.disk a).Same (.disk b) := by
  refine ⟨h.1, h.2.1, h.2.2.2.2.1, ?_⟩
  intro i hi
  exact h.valueOf hv hi

/-! ### The resident iterator -/

theorem inMemoryArray.mem_ValueAt_eq (a : inMemoryArray) {i : Nat} (hi : i < a.Len) :
    a.ValueAt i = .ok a (a.data.getD i 0, none) := by
  unfold inMemoryArray.ValueAt
  rw [if_neg (by omega)]

theorem inMemoryArray.mem_ValueAt_eof (a : inMemoryArray) {i : Nat} (hi : a.Len ≤ i) :
    a.ValueAt i = .ok a (noValue, some .EOF) := by
  unfold inMemoryArray.ValueAt
  rw [if_pos hi]

theorem inMemoryArray.mem_SetValueAt_eq {a : inMemoryArray} (hv : a.Valid) (hro : a.ro = false)
    {i v : Nat} (hi : i < a.Len) (hvm : v ≤ a.max) :
    a.SetValueAt i v = .ok { a with data := a.data.set i v } none := by
  have hv256 : v % 2 ^ (8 * a.bpv) = v := Nat.mod_eq_of_lt (by have := hv.2.1; omega)
  unfold inMemoryArray.SetValueAt
  rw [if_neg (by simp [hro]), if_neg (by simp [inMemoryArray.MaxValue]; omega),
    if_neg (by omega), hv256]

theorem inMemoryArray.set_valid {a : inMemoryArray} (hv : a.Valid) (i v : Nat)
    (hvm : v ≤ a.max) : ({ a with data := a.data.set i v } : inMemoryArray).Valid := by
  obtain ⟨h1, h2, h3, h4⟩ := hv
  refine ⟨h1, h2, by simpa using h3, ?_⟩
  intro x hx
  rcases List.mem_or_eq_of_mem_set hx with h | h
  · exact h4 x h
  · rw [h]; dsimp only; omega

theorem getD_set (l : List Nat) (i v j : Nat) (hi : i < l.length) :
    (l.set i v).getD j 0 = if j = i then v else l.getD j 0 := by
  simp only [List.getD_eq_getElem?_getD, List.getElem?_set]
  by_cases h : i = j
  · subst h; simp [hi]
  · have : ¬ j = i := fun e => h e.symm
    simp [h, this]

theorem inMemoryIterator.mem_idx_lt {a : inMemoryArray} {it : inMemoryIterator}
    (hok : (Iterator.mem a it).OK) (hlt : it.pos < it.num) :
    (Iterator.mem a it).idx < a.Len := by
  obtain ⟨hv, herr, hpos, hrange⟩ := hok
  simp only [Iterator.idx, Iterator.down, Iterator.base, Iterator.num, Iterator.pos]
  split <;> omega

theorem inMemoryIterator.mem_Index_eq {a : inMemoryArray} {it : inMemoryIterator}
    (hok : (Iterator.mem a it).OK) (hp : it.primed = true) (hlt : it.pos < it.num) :
    it.Index = .ok (Iterator.mem a it).idx := by
  have hin := inMemoryIterator.mem_idx_lt hok hlt
  have hm : (Iterator.mem a it).idx % 2 ^ 64 = (Iterator.mem a it).idx :=
    Nat.mod_eq_of_lt (by have := hok.1.2.2.1; simp only [inMemoryArray.Len] at hin; omega)
  simp only [Iterator.idx, Iterator.down, Iterator.base, Iterator.num, Iterator.pos] at hm ⊢
  unfold inMemoryIterator.Index
  rw [if_neg (by simp [hp]), if_neg (by omega)]
  cases hd : it.down
  · simp only [hd, Bool.false_eq_true, if_false] at hm ⊢; rw [hm]
  · simp only [hd, if_true] at hm ⊢; rw [hm]

theorem inMemoryIterator.mem_Skip_done {a : inMemoryArray} {it : inMemoryIterator}
    (hok : (Iterator.mem a it).OK) (n : Nat) (hn : 0 < n ∨ it.primed = true)
    (hge : it.num ≤ (Iterator.mem a it).target n) :
    inMemoryIterator.Skip a it n =
      .ok (a, { it with primed := true, pos := it.num, val := noValue }) false := by
  obtain ⟨hv, herr, hpos, hrange⟩ := hok
  simp only [Iterator.target, Iterator.pos, Iterator.primed] at hge
  unfold inMemoryIterator.Skip
  rw [if_neg (by omega), if_neg (skip_guard hn), if_neg (by simp [herr])]
  dsimp only
  rw [if_pos (by omega)]

theorem inMemoryIterator.mem_Skip_more {a : inMemoryArray} {it : inMemoryIterator}
    (hok : (Iterator.mem a it).OK) (n : Nat) (hn : 0 < n ∨ it.primed = true)
    (hlt : (Iterator.mem a it).target n < it.num) :
    inMemoryIterator.Skip a it n = .ok (a,
        { it with primed := true, pos := (Iterator.mem a it).target n,
                  val := a.data.getD (Iterator.mem a
                    { it with primed := true, pos := (Iterator.mem a it).target n }).idx 0,
                  err := none }) true := by
  have hok2 : (Iterator.mem a { it with primed := true, pos := (Iterator.mem a it).target n }).OK :=
    ⟨hok.1, hok.2.1, by dsimp only; omega, hok.2.2.2⟩
  have hidx := inMemoryIterator.mem_Index_eq hok2 rfl hlt
  have hin := inMemoryIterator.mem_idx_lt hok2 hlt
  obtain ⟨hv, herr, hpos, hrange⟩ := hok
  simp only [Iterator.target, Iterator.pos, Iterator.primed] at hlt hidx hin ⊢
  unfold inMemoryIterator.Skip
  rw [if_neg (by omega), if_neg (skip_guard hn), if_neg (by simp [herr])]
  dsimp only
  rw [if_neg (by omega), hidx]
  dsimp only
  rw [inMemoryArray.mem_ValueAt_eq a hin]

theorem inMemoryIterator.mem_SetValue_spec {a : inMemoryArray} {it : inMemoryIterator}
    (hok : (Iterator.mem a it).OK) (hp : it.primed = true) (hlt : it.pos < it.num)
    (hro : a.ro = false) (v : Nat) (hvm : v ≤ a.max) :
    inMemoryIterator.SetValue a it v =
      .ok ({ a with data := a.data.set (Iterator.mem a it).idx v },
           { it with val := v, err := none }) () := by
  have hok2 : (Iterator.mem a { it with val := v }).OK := hok
  have hidx := inMemoryIterator.mem_Index_eq hok2 hp hlt
  have hin := inMemoryIterator.mem_idx_lt hok hlt
  obtain ⟨hv, herr, hpos, hrange⟩ := hok
  unfold inMemoryIterator.SetValue
  rw [if_neg (by simp [hp]), if_neg (by omega), if_neg (by simp [herr])]
  dsimp only
  rw [hidx]
  dsimp only
  have e : (Iterator.mem a { it with val := v }).idx = (Iterator.mem a it).idx := rfl
  rw [e, inMemoryArray.mem_SetValueAt_eq hv hro hin hvm]

/-! ## The contract shared by both iterators -/

/-! The contract both iterator implementations share, stated once on `Iterator`. -/

theorem Iterator.Skip_done (it : Iterator) (hok : it.OK) (n : Nat)
    (hn : 0 < n ∨ it.primed = true) (hge : it.num ≤ it.target n) :
    ∃ it2, it.Skip n = .ok it2 false ∧ it2.OK ∧ it2.array = it.array ∧
      it2.pos = it.num ∧ it2.num = it.num ∧ it2.base = it.base ∧ it2.down = it.down ∧
      it2.primed = true ∧ it2.val = noValue := by
  cases it with
  | mem a i =>
    refine ⟨.mem a { i with primed := true, pos := i.num, val := noValue }, ?_, ?_,
      rfl, rfl, rfl, rfl, rfl, rfl, rfl⟩
    · simp only [Iterator.Skip, inMemoryIterator.mem_Skip_done hok n hn hge]
    · exact ⟨hok.1, hok.2.1, Nat.le_refl _, hok.2.2.2⟩
  | disk a i =>
    refine ⟨.disk a { i with primed := true, pos := i.num, val := noValue }, ?_, ?_,
      rfl, rfl, rfl, rfl, rfl, rfl, rfl⟩
    · simp only [Iterator.Skip, onDiskIterator.disk_Skip_done hok n hn hge]
    · obtain ⟨hv, herr, hpos, hrange, hpg, hat⟩ := hok
      refine ⟨hv, herr, Nat.le_refl _, hrange, hpg, ?_⟩
      intro _ h
      exact absurd h (Nat.lt_irrefl _)

theorem Iterator.idx_lt (it : Iterator) (hok : it.OK) (hlt : it.pos < it.num) :
    it.idx < it.array.Len := by
  cases it with
  | mem a i => exact inMemoryIterator.mem_idx_lt hok hlt
  | disk a i => exact onDiskIterator.disk_idx_lt hok hlt

theorem Iterator.Skip_more (it : Iterator) (hok : it.OK) (n : Nat)
    (hn : 0 < n ∨ it.primed = true) (hlt : it.target n < it.num) :
    ∃ it2, it.Skip n = .ok it2 true ∧ it2.OK ∧ it.array.Same it2.array ∧
      it2.pos = it.target n ∧ it2.num = it.num ∧ it2.base = it.base ∧ it2.down = it.down ∧
      it2.primed = true ∧ it2.val = it.array.valueOf it2.idx ∧ it2.idx < it.array.Len := by
  cases it with
  | mem a i =>
    have h1 := inMemoryIterator.mem_Skip_more hok n hn hlt
    generalize ht : (Iterator.mem a i).target n = t at h1 hlt
    have hok2 : (Iterator.mem a { i with primed := true, pos := t }).OK :=
      ⟨hok.1, hok.2.1, by dsimp only; exact Nat.le_of_lt hlt, hok.2.2.2⟩
    have hin := inMemoryIterator.mem_idx_lt hok2 hlt
    generalize hj : (Iterator.mem a { i with primed := true, pos := t }).idx = j at h1 hin
    refine ⟨.mem a { i with primed := true, pos := t, val := a.data.getD j 0, err := none },
      ?_, ?_, BigArray.Same.refl _, rfl, rfl, rfl, rfl, rfl, ?_, ?_⟩
    · simp only [Iterator.Skip, h1]
    · exact ⟨hok.1, rfl, by dsimp only; exact Nat.le_of_lt hlt, hok.2.2.2⟩
    · exact congrArg (fun x => a.data.getD x 0) hj.symm
    · exact hj ▸ hin
  | disk a i =>
    obtain ⟨b, hb1, hb2, hb3, hb4⟩ := onDiskIterator.disk_Skip_more hok n hn hlt
    generalize ht : (Iterator.disk a i).target n = t at hb1 hb4 hlt
    simp only [Iterator.num] at hlt
    obtain ⟨hv, herr, hpos, hrange, hpg, hat⟩ := hok
    generalize hj : (Iterator.disk a { i with primed := true, pos := t }).idx = j at hb1 hb4
    have hj2 : j = if i.down = true then i.base + (i.num - t - 1) else i.base + t := by
      rw [← hj]; rfl
    have hin : j < a.num := by
      simp only [onDiskArray.Len] at hrange
      rw [hj2]; split <;> omega
    generalize hi2 : ({ i with primed := true, pos := t, page := some (a.pageOf j), val := a.valueOf j } : onDiskIterator) = i2 at hb1
    have e : ∀ c : onDiskArray, (Iterator.disk c i2).idx = j := by
      intro c; rw [← hi2]; exact hj
    have f1 : i2.pos = t := by rw [← hi2]
    have f2 : i2.num = i.num := by rw [← hi2]
    have f3 : i2.base = i.base := by rw [← hi2]
    have f4 : i2.down = i.down := by rw [← hi2]
    have f5 : i2.primed = true := by rw [← hi2]
    have f6 : i2.val = a.valueOf j := by rw [← hi2]
    have f7 : i2.page = some (a.pageOf j) := by rw [← hi2]
    have f8 : i2.err = i.err := by rw [← hi2]
    refine ⟨.disk b i2, ?_, ?_, BigArray.Same.of_disk hv hb3, f1, f2, f3, f4, f5, ?_, ?_⟩
    · simp only [Iterator.Skip, hb1]
    · refine ⟨hb2, by rw [f8]; exact herr, by rw [f1, f2]; exact Nat.le_of_lt hlt, ?_, ?_, ?_⟩
      · simp only [onDiskArray.Len] at hrange ⊢; rw [hb3.1, f2, f3]; exact hrange
      · intro k hk
        rw [f7] at hk
        cases hk; exact hb4
      · intro _ _
        rw [e b, f7]
        simp only [onDiskArray.pageOf, hb3.2.2.1, hb3.2.2.2.1]
    · show i2.val = a.valueOf (Iterator.disk b i2).idx
      rw [e b, f6]
    · show (Iterator.disk b i2).idx < a.num
      rw [e b]; exact hin

theorem Iterator.Index_eq (it : Iterator) (hok : it.OK) (hp : it.primed = true)
    (hlt : it.pos < it.num) : it.Index = .ok it.idx := by
  cases it with
  | mem a i => exact inMemoryIterator.mem_Index_eq hok hp hlt
  | disk a i => exact onDiskIterator.disk_Index_eq hok hp hlt

theorem Iterator.Value_eq (it : Iterator) (hp : it.primed = true)
    (hlt : it.pos < it.num) : it.Value = .ok it.val := by
  cases it with
  | mem a i =>
    simp only [Iterator.primed, Iterator.pos, Iterator.num] at hp hlt
    simp only [Iterator.Value, inMemoryIterator.Value, Iterator.val]
    rw [if_neg (by simp [hp]), if_neg (by omega)]
  | disk a i =>
    simp only [Iterator.primed, Iterator.pos, Iterator.num] at hp hlt
    simp only [Iterator.Value, onDiskIterator.Value, Iterator.val]
    rw [if_neg (by simp [hp]), if_neg (by omega)]

theorem Iterator.Index_exhausted (it : Iterator) (hp : it.primed = true)
    (hge : it.num ≤ it.pos) : it.Index = .error .exhausted := by
  cases it with
  | mem a i =>
    simp only [Iterator.primed, Iterator.pos, Iterator.num] at hp hge
    simp only [Iterator.Index, inMemoryIterator.Index]
    rw [if_neg (by simp [hp]), if_pos hge]
  | disk a i =>
    simp only [Iterator.primed, Iterator.pos, Iterator.num] at hp hge
    simp only [Iterator.Index, onDiskIterator.Index]
    rw [if_neg (by simp [hp]), if_pos hge]

theorem leValue_leBytes_of_le {W v m : Nat} (hW : W = 1 ∨ W = 2 ∨ W = 4 ∨ W = 8)
    (hm : m < 2 ^ (8 * W)) (hv : v ≤ m) : leValue (leBytes W v) = v := by
  rw [leValue_leBytes, ← (width_cases hW).1]
  exact Nat.mod_eq_of_lt (by omega)

theorem Iterator.SetValue_spec (it : Iterator) (hok : it.OK) (hp : it.primed = true)
    (hlt : it.pos < it.num) (hro : it.array.Frozen = false) (v : Nat)
    (hvm : v ≤ it.array.MaxValue) :
    ∃ it2, it.SetValue v = .ok it2 () ∧ it2.OK ∧
      it2.pos = it.pos ∧ it2.num = it.num ∧ it2.base = it.base ∧ it2.down = it.down ∧
      it2.primed = true ∧
      it2.array.Len = it.array.Len ∧ it2.array.MaxValue = it.array.MaxValue ∧
      it2.array.Frozen = it.array.Frozen ∧
      it2.array.valueOf it.idx = v ∧
      ∀ j, j ≠ it.idx → it2.array.valueOf j = it.array.valueOf j := by
  have hin := it.idx_lt hok hlt
  cases it with
  | mem a i =>
    have h1 := inMemoryIterator.mem_SetValue_spec hok hp hlt hro v hvm
    generalize hj : (Iterator.mem a i).idx = j at h1 hin
    simp only [Iterator.array, BigArray.Len, inMemoryArray.Len] at hin
    refine ⟨.mem { a with data := a.data.set j v } { i with val := v, err := none }, ?_, ?_,
      rfl, rfl, rfl, rfl, hp, ?_, rfl, rfl, ?_, ?_⟩
    · simp only [Iterator.SetValue, h1]
    · refine ⟨inMemoryArray.set_valid hok.1 j v hvm, rfl, hok.2.2.1, ?_⟩
      simp only [inMemoryArray.Len, List.length_set]
      exact hok.2.2.2
    · simp [Iterator.array, BigArray.Len, inMemoryArray.Len]
    · simp only [Iterator.array, BigArray.valueOf]
      rw [getD_set _ _ _ _ hin, if_pos rfl]
    · intro j2 hj2
      simp only [Iterator.array, BigArray.valueOf]
      rw [getD_set _ _ _ _ hin, if_neg hj2]
  | disk a i =>
    have h1 := onDiskIterator.disk_SetValue_spec hok hp hlt hro v hvm
    generalize hj : (Iterator.disk a i).idx = j at h1 hin
    obtain ⟨hv, herr, hpos, hrange, hpg, hat⟩ := hok
    simp only [Iterator.array, BigArray.Len, onDiskArray.Len] at hin
    have hpage := hat hp hlt
    rw [hj] at hpage
    obtain ⟨pg, hk⟩ := Option.isSome_iff_exists.mp (hpg _ hpage)
    have hb := onDiskArray.writeCached_byteAt hv hin (leBytes a.bpv v) (leBytes_length _ _) hk
    refine ⟨.disk (a.writeCached j (leBytes a.bpv v)) i, ?_, ?_,
      rfl, rfl, rfl, rfl, hp, rfl, rfl, rfl, ?_, ?_⟩
    · simp only [Iterator.SetValue, h1]
    · refine ⟨onDiskArray.writeCached_valid hv hro hin _ (leBytes_length _ _), herr, hpos,
        hrange, ?_, ?_⟩
      · intro k2 hk2
        have := hpg k2 hk2
        simp only [onDiskArray.writeCached, cacheGet_modify]
        split
        · rw [Option.isSome_map']; exact this
        · exact this
      · intro h1 h2
        exact hat h1 h2
    · simp only [Iterator.array, BigArray.valueOf]
      rw [onDiskArray.valueOf_set_same a (a.writeCached j (leBytes a.bpv v)) j (leBytes a.bpv v) rfl
        (leBytes_length _ _) hb]
      exact leValue_leBytes_of_le hv.1 hv.2.1 hvm
    · intro j2 hj2
      simp only [Iterator.array, BigArray.valueOf]
      exact onDiskArray.valueOf_set_other a (a.writeCached j (leBytes a.bpv v)) j j2
        (leBytes a.bpv v) rfl hj2 hb

theorem Iterator.Close_spec (it : Iterator) (hok : it.OK) :
    ∃ it2, it.Close = .ok it2 none ∧ it2.array.Valid ∧ it.array.Same it2.array := by
  cases it with
  | mem a i =>
    refine ⟨.mem a inMemoryIterator.closed, ?_, hok.1, BigArray.Same.refl _⟩
    simp only [Iterator.Close, inMemoryIterator.Close, hok.2.1]
  | disk a i =>
    obtain ⟨b, hb1, hb2, hb3, _⟩ := onDiskIterator.disk_Close_spec hok
    refine ⟨.disk b onDiskIterator.closed, ?_, hb2, BigArray.Same.of_disk hok.1 hb3⟩
    simp only [Iterator.Close, hb1]

theorem BigArray.Iterate_spec (ba : BigArray) (hv : ba.Valid) (i j : Nat) (hij : i ≤ j)
    (hj : j ≤ ba.Len) :
    ∃ it, ba.Iterate i j = .ok it ∧ it.OK ∧ it.array = ba ∧ it.pos = 0 ∧ it.num = j - i ∧
      it.base = i ∧ it.down = false ∧ it.primed = false := by
  cases ba with
  | mem a =>
    refine ⟨.mem a { err := none, base := i, pos := 0, num := j - i, val := noValue, primed := false, down := false }, ?_, ?_, rfl, rfl, rfl, rfl, rfl, rfl⟩
    · simp only [BigArray.Iterate, inMemoryArray.Iterate]
      rw [if_neg (by omega)]; rfl
    · exact ⟨hv, rfl, Nat.zero_le _, by simp only [BigArray.Len] at hj; dsimp only; omega⟩
  | disk a =>
    refine ⟨.disk a { page := none, err := none, base := i, pos := 0, num := j - i, val := noValue, primed := false, down := false }, ?_, ?_, rfl, rfl, rfl, rfl, rfl, rfl⟩
    · simp only [BigArray.Iterate, onDiskArray.Iterate]
      rw [if_neg (by omega)]; rfl
    · refine ⟨hv, rfl, Nat.zero_le _, by simp only [BigArray.Len] at hj; dsimp only; omega, ?_, ?_⟩
      · intro k hk; cases hk
      · intro h; cases h

theorem BigArray.ReverseIterate_spec (ba : BigArray) (hv : ba.Valid) (i j : Nat) (hij : i ≤ j)
    (hj : j ≤ ba.Len) :
    ∃ it, ba.ReverseIterate i j = .ok it ∧ it.OK ∧ it.array = ba ∧ it.pos = 0 ∧
      it.num = j - i ∧ it.base = i ∧ it.down = true ∧ it.primed = false := by
  cases ba with
  | mem a =>
    refine ⟨.mem a { err := none, base := i, pos := 0, num := j - i, val := noValue, primed := false, down := true }, ?_, ?_, rfl, rfl, rfl, rfl, rfl, rfl⟩
    · simp only [BigArray.ReverseIterate, inMemoryArray.ReverseIterate]
      rw [if_neg (by omega)]; rfl
    · exact ⟨hv, rfl, Nat.zero_le _, by simp only [BigArray.Len] at hj; dsimp only; omega⟩
  | disk a =>
    refine ⟨.disk a { page := none, err := none, base := i, pos := 0, num := j - i, val := noValue, primed := false, down := true }, ?_, ?_, rfl, rfl, rfl, rfl, rfl, rfl⟩
    · simp only [BigArray.ReverseIterate, onDiskArray.ReverseIterate]
      rw [if_neg (by omega)]; rfl
    · refine ⟨hv, rfl, Nat.zero_le _, by simp only [BigArray.Len] at hj; dsimp only; omega, ?_, ?_⟩
      · intro k hk; cases hk
      · intro h; cases h

/-! ## Repeated advances -/

theorem Iterator.Next_eq (it : Iterator) : it.Next = it.Skip 1 := by
  cases it <;> rfl

theorem Iterator.idx_eq_idxAt (it : Iterator) : it.idx = it.idxAt it.pos := rfl

theorem Iterator.idxAt_congr {it it2 : Iterator} (h1 : it2.num = it.num) (h2 : it2.base = it.base)
    (h3 : it2.down = it.down) (p : Nat) : it2.idxAt p = it.idxAt p := by
  simp only [Iterator.idxAt, h1, h2, h3]

theorem Iterator.idxAt_inj (it : Iterator) {p q : Nat} (hp : p < it.num) (hq : q < it.num)
    (h : it.idxAt p = it.idxAt q) : p = q := by
  simp only [Iterator.idxAt] at h
  split at h <;> omega

theorem Iterator.target_of_primed {it : Iterator} (h : it.primed = true) (n : Nat) :
    it.target n = it.pos + n := by
  simp [Iterator.target, h]

theorem nextTrace_exhausted (m : Nat) (it : Iterator) (hok : it.OK)
    (hge : it.num ≤ it.target 1) :
    nextTrace m it = List.replicate m (false, .error .exhausted) := by
  induction m generalizing it with
  | zero => rfl
  | succ m ih =>
    obtain ⟨it2, h1, h2, _, h4, h5, _, _, h8, _⟩ := it.Skip_done hok 1 (Or.inl Nat.one_pos) hge
    simp only [nextTrace, Iterator.Next_eq, h1, List.replicate_succ]
    rw [it2.Index_exhausted h8 (by rw [h4, h5])]
    rw [ih it2 h2 (by rw [Iterator.target_of_primed h8, h4, h5]; omega)]

theorem nextTrace_spec (r m : Nat) (it : Iterator) (hok : it.OK)
    (hr : it.target 1 + r = it.num) :
    nextTrace (r + m) it =
      (List.range r).map (fun k => (true, Except.ok (it.idxAt (it.target 1 + k)))) ++
      List.replicate m (false, .error .exhausted) := by
  induction r generalizing it with
  | zero =>
    simp only [Nat.zero_add, List.range_zero, List.map_nil, List.nil_append]
    exact nextTrace_exhausted m it hok (by omega)
  | succ r ih =>
    obtain ⟨it2, h1, h2, _, h4, h5, h6, h7, h8, _, _⟩ :=
      it.Skip_more hok 1 (Or.inl Nat.one_pos) (by omega)
    have e : r + 1 + m = (r + m) + 1 := by omega
    rw [e]
    simp only [nextTrace, Iterator.Next_eq, h1]
    rw [it2.Index_eq h2 h8 (by rw [h4, h5]; omega), it2.idx_eq_idxAt, h4,
      Iterator.idxAt_congr h5 h6 h7]
    have ht2 : it2.target 1 = it.target 1 + 1 := by
      rw [Iterator.target_of_primed h8, h4]
    rw [ih it2 h2 (by rw [ht2, h5]; omega), List.range_succ_eq_map, List.map_cons, List.map_map]
    simp only [List.cons_append, Nat.add_zero, List.cons.injEq, true_and]
    congr 1
    apply List.map_congr_left
    intro k _
    simp only [Function.comp, ht2, Iterator.idxAt_congr h5 h6 h7]
    congr 3
    omega

/-! ## Single-element access on both backings -/

theorem BigArray.ValueAt_eq (ba : BigArray) (hv : ba.Valid) {i : Nat} (hi : i < ba.Len) :
    ba.ValueAt i = .ok ba (ba.valueOf i, none) := by
  cases ba with
  | mem a => simp only [BigArray.ValueAt, inMemoryArray.mem_ValueAt_eq a hi, BigArray.valueOf]
  | disk a => simp only [BigArray.ValueAt, onDiskArray.disk_ValueAt_eq hv hi, BigArray.valueOf]

theorem BigArray.ValueAt_eof (ba : BigArray) {i : Nat} (hi : ba.Len ≤ i) :
    ba.ValueAt i = .ok ba (noValue, some .EOF) := by
  cases ba with
  | mem a => simp only [BigArray.ValueAt, inMemoryArray.mem_ValueAt_eof a hi]
  | disk a => simp only [BigArray.ValueAt, onDiskArray.disk_ValueAt_eof a hi]

theorem BigArray.SetValueAt_spec (ba : BigArray) (hv : ba.Valid) (hro : ba.Frozen = false)
    {i v : Nat} (hi : i < ba.Len) (hvm : v ≤ ba.MaxValue) :
    ∃ b, ba.SetValueAt i v = .ok b none ∧ b.Valid ∧ b.Len = ba.Len ∧
      b.MaxValue = ba.MaxValue ∧ b.Frozen = ba.Frozen ∧ b.valueOf i = v ∧
      ∀ j, j ≠ i → b.valueOf j = ba.valueOf j := by
  cases ba with
  | mem a =>
    simp only [BigArray.Len, inMemoryArray.Len] at hi
    refine ⟨.mem { a with data := a.data.set i v }, ?_, inMemoryArray.set_valid hv i v hvm,
      ?_, rfl, rfl, ?_, ?_⟩
    · simp only [BigArray.SetValueAt, inMemoryArray.mem_SetValueAt_eq hv hro hi hvm]
    · simp [BigArray.Len, inMemoryArray.Len]
    · simp only [BigArray.valueOf]; rw [getD_set _ _ _ _ hi, if_pos rfl]
    · intro j hj
      simp only [BigArray.valueOf]; rw [getD_set _ _ _ _ hi, if_neg hj]
  | disk a =>
    have hb := fun p => onDiskArray.writeThrough_byteAt hv hi (leBytes a.bpv v)
      (leBytes_length _ _) p
    refine ⟨.disk (a.writeThrough i (leBytes a.bpv v)), ?_,
      onDiskArray.writeThrough_valid hv hi _ (leBytes_length _ _), rfl, rfl, rfl, ?_, ?_⟩
    · simp only [BigArray.SetValueAt, onDiskArray.disk_SetValueAt_eq hv hro hi hvm]
    · simp only [BigArray.valueOf]
      rw [onDiskArray.valueOf_set_same a (a.writeThrough i (leBytes a.bpv v)) i (leBytes a.bpv v)
        rfl (leBytes_length _ _) hb]
      exact leValue_leBytes_of_le hv.1 hv.2.1 hvm
    · intro j hj
      simp only [BigArray.valueOf]
      exact onDiskArray.valueOf_set_other a (a.writeThrough i (leBytes a.bpv v)) i j
        (leBytes a.bpv v) rfl hj hb

theorem BigArray.SetValueAt_ok_inv (ba : BigArray) {i v : Nat} {b : BigArray}
    (h : ba.SetValueAt i v = .ok b none) :
    ba.Frozen = false ∧ v ≤ ba.MaxValue ∧ i < ba.Len := by
  cases ba with
  | mem a =>
    simp only [BigArray.SetValueAt] at h
    simp only [BigArray.Frozen, inMemoryArray.Frozen, BigArray.MaxValue, BigArray.Len]
    by_cases h1 : a.ro = true
    · simp [inMemoryArray.SetValueAt, h1] at h
    · by_cases h2 : a.MaxValue < v
      · simp [inMemoryArray.SetValueAt, h1, h2] at h
      · by_cases h3 : a.Len ≤ i
        · simp [inMemoryArray.SetValueAt, h1, h2, h3] at h
        · exact ⟨by simpa using h1, by omega, by omega⟩
  | disk a =>
    simp only [BigArray.SetValueAt] at h
    simp only [BigArray.Frozen, onDiskArray.Frozen, BigArray.MaxValue, BigArray.Len]
    by_cases h1 : a.ro = true
    · rw [onDiskArray.SetValueAt, if_pos h1] at h; simp at h
    · by_cases h2 : a.MaxValue < v
      · rw [onDiskArray.SetValueAt, if_neg h1, if_pos h2] at h; simp at h
      · by_cases h3 : a.Len ≤ i
        · rw [onDiskArray.SetValueAt, if_neg h1, if_neg h2, if_pos h3] at h; simp at h
        · exact ⟨by simpa using h1, by omega, by omega⟩

/-! ## Claims C1, C2, C4, C9 -/

theorem exampleMem_valid : exampleMem.Valid := by decide
theorem exampleDisk_valid : exampleDisk.Valid := by decide
theorem exampleDiskCached_valid : exampleDiskCached.Valid := by decide

/-- Claim C1. On every array that satisfies its representation invariant (resident
of any of the four widths, or paged-disk with any cache content) and is not
frozen, for every index `i < Len()` and value `v ≤ MaxValue()`, `SetValueAt(i, v)`
returns no error and `ValueAt(i)` on the resulting array returns `(v, nil)`. -/
theorem C1_set_then_get (ba : BigArray) (hv : ba.Valid) (hro : ba.Frozen = false) (i v : Nat)
    (hi : i < ba.Len) (hvm : v ≤ ba.MaxValue) :
    ∃ b, ba.SetValueAt i v = .ok b none ∧ b.ValueAt i = .ok b (v, none) := by
  obtain ⟨b, h1, h2, h3, _, _, h6, _⟩ := ba.SetValueAt_spec hv hro hi hvm
  refine ⟨b, h1, ?_⟩
  rw [b.ValueAt_eq h2 (by rw [h3]; exact hi), h6]

/-- Witness of C1 on a disk-backed array whose page for the index is cached. -/
theorem C1_set_then_get_witness :
    ∃ b, exampleDiskCached.SetValueAt 2 300 = .ok b none ∧ b.ValueAt 2 = .ok b (300, none) :=
  C1_set_then_get exampleDiskCached (by decide) (by decide) 2 300 (by decide) (by decide)

/-- Claim C2, amended. On an array that satisfies its invariant (the store of a
paged-disk array holds its `N * W` bytes), a successful `SetValueAt(i, v)`
changes only element `i`: every other index `j < Len()` reads the same result
before and after, and `Len()`, `MaxValue()` and `Frozen()` are unchanged. -/
theorem C2_set_frame (ba b : BigArray) (hv : ba.Valid) (i v : Nat)
    (h : ba.SetValueAt i v = .ok b none) :
    (∀ j, j < ba.Len → j ≠ i →
      ∃ r, ba.ValueAt j = .ok ba r ∧ b.ValueAt j = .ok b r) ∧
    b.Len = ba.Len ∧ b.MaxValue = ba.MaxValue ∧ b.Frozen = ba.Frozen := by
  obtain ⟨hro, hvm, hi⟩ := ba.SetValueAt_ok_inv h
  obtain ⟨b2, h1, h2, h3, h4, h5, _, h7⟩ := ba.SetValueAt_spec hv hro hi hvm
  rw [h] at h1
  cases h1
  refine ⟨?_, h3, h4, h5⟩
  intro j hj hji
  exact ⟨(ba.valueOf j, none), ba.ValueAt_eq hv hj,
    by rw [b.ValueAt_eq h2 (by rw [h3]; exact hj), h7 j hji]⟩

/-- Witness of C2: the scenario of the test, on a disk-backed array. -/
theorem C2_set_frame_witness :
    (∀ j, j < exampleDisk.Len → j ≠ 2 →
      ∃ r, exampleDisk.ValueAt j = .ok exampleDisk r ∧
        exampleDiskSet.ValueAt j = .ok exampleDiskSet r) ∧
    exampleDiskSet.Len = exampleDisk.Len ∧ exampleDiskSet.MaxValue = exampleDisk.MaxValue ∧
    exampleDiskSet.Frozen = exampleDisk.Frozen :=
  C2_set_frame exampleDisk exampleDiskSet (by decide) 2 204 (by decide)

/-- Counterexample to C2 as stated. `New(NumValues(4), MaxValue(1000), PageSize(4),
WithFile(f))` over an empty file `f` returns a paged-disk array of four
elements whose store holds none of them, and `ValueAt(0)` returns `io.EOF`;
`SetValueAt(3, 5)` returns nil and extends the store, after which `ValueAt(0)`
returns `(0, nil)`: the call changed what index 0 reads. -/
theorem C2_short_store_frame :
    New [NumValues 4, MaxValue 1000, PageSize 4, WithFile exampleEmptyFile] =
      .ok (some (.disk exampleShort), none) ∧
    (BigArray.disk exampleShort).ValueAt 0 = .ok (.disk exampleShort) (noValue, some .EOF) ∧
    ∃ b, (BigArray.disk exampleShort).SetValueAt 3 5 = .ok b none ∧
      b.ValueAt 0 = .ok b (0, none) :=
  ⟨rfl, rfl, _, rfl, rfl⟩

/-- Claim C4. For both iterator kinds and every range `i ≤ j ≤ Len()`: on a fresh
iterator `Next()` returns true exactly `j - i` times and false on every later
call; the `k`-th successful `Next` of `Iterate(i, j)` stands on index `i + k - 1`
and that of `ReverseIterate(i, j)` on index `j - k` (the list position is
`k - 1`), and `Index()` after a false `Next` is a contract violation. -/
theorem C4_iteration_order (ba : BigArray) (hv : ba.Valid) (i j : Nat) (hij : i ≤ j)
    (hj : j ≤ ba.Len) (m : Nat) :
    (∃ it, ba.Iterate i j = .ok it ∧
      nextTrace (j - i + m) it =
        (List.range (j - i)).map (fun k => (true, Except.ok (i + k))) ++
        List.replicate m (false, .error .exhausted)) ∧
    (∃ it, ba.ReverseIterate i j = .ok it ∧
      nextTrace (j - i + m) it =
        (List.range (j - i)).map (fun k => (true, Except.ok (j - 1 - k))) ++
        List.replicate m (false, .error .exhausted)) := by
  constructor
  · obtain ⟨it, h1, h2, _, h4, h5, h6, h7, h8⟩ := ba.Iterate_spec hv i j hij hj
    have ht : it.target 1 = 0 := by simp [Iterator.target, h8, h4]
    refine ⟨it, h1, ?_⟩
    rw [nextTrace_spec (j - i) m it h2 (by rw [ht, h5]; omega)]
    congr 1
    apply List.map_congr_left
    intro k _
    simp [Iterator.idxAt, h7, h6, ht]
  · obtain ⟨it, h1, h2, _, h4, h5, h6, h7, h8⟩ := ba.ReverseIterate_spec hv i j hij hj
    have ht : it.target 1 = 0 := by simp [Iterator.target, h8, h4]
    refine ⟨it, h1, ?_⟩
    rw [nextTrace_spec (j - i) m it h2 (by rw [ht, h5]; omega)]
    congr 1
    apply List.map_congr_left
    intro k hk
    have hk2 : k < j - i := by simpa using hk
    simp only [Iterator.idxAt, h7, h6, h5, ht, if_true, Nat.zero_add, Prod.mk.injEq, true_and,
      Except.ok.injEq]
    omega

/-- Witness of C4 on the whole range of a disk-backed array of four elements. -/
theorem C4_iteration_order_witness :
    (∃ it, exampleDisk.Iterate 0 4 = .ok it ∧
      nextTrace (4 - 0 + 2) it =
        (List.range (4 - 0)).map (fun k => (true, Except.ok (0 + k))) ++
        List.replicate 2 (false, .error .exhausted)) ∧
    (∃ it, exampleDisk.ReverseIterate 0 4 = .ok it ∧
      nextTrace (4 - 0 + 2) it =
        (List.range (4 - 0)).map (fun k => (true, Except.ok (4 - 1 - k))) ++
        List.replicate 2 (false, .error .exhausted)) :=
  C4_iteration_order exampleDisk (by decide) 0 4 (by decide) (by decide) 2

/-- Claim C9. For a width `W` in 1, 2, 4, 8: `bpvDecode` of the cell `bpvEncode`
writes for a value `v ≤ 2^(8W) - 1` is `v`, and `bpvEncode` of the value
`bpvDecode` reads from a `W`-byte cell `b` writes `b` back; for any other width
both functions panic with "BUG". -/
theorem C9_codec_roundtrip (W v : Nat) (b data : List Nat) :
    ((W = 1 ∨ W = 2 ∨ W = 4 ∨ W = 8) → v ≤ 2 ^ (8 * W) - 1 → data.length = W →
      ∃ cell, bpvEncode W data v = .ok cell ∧ cell.length = W ∧ bpvDecode W cell = .ok v) ∧
    ((W = 1 ∨ W = 2 ∨ W = 4 ∨ W = 8) → b.length = W → (∀ x ∈ b, x < 256) → data.length = W →
      ∃ u, bpvDecode W b = .ok u ∧ bpvEncode W data u = .ok b) ∧
    (¬ (W = 1 ∨ W = 2 ∨ W = 4 ∨ W = 8) →
      bpvDecode W data = .error .BUG ∧ bpvEncode W data v = .error .BUG) := by
  refine ⟨?_, ?_, fun h => bpv_bad h data v⟩
  · intro hW hv hd
    have hpos : 0 < 2 ^ (8 * W) := Nat.pow_pos (by norm_num)
    have hmod : v % 2 ^ (8 * W) = v := Nat.mod_eq_of_lt (by omega)
    refine ⟨leBytes W v, ?_, leBytes_length _ _, ?_⟩
    · rw [bpvEncode_ok hW data hd, hmod]
    · rw [bpvDecode_ok hW _ (leBytes_length _ _), leValue_leBytes, ← (width_cases hW).1, hmod]
  · intro hW hb hx hd
    refine ⟨leValue b, bpvDecode_ok hW b hb, ?_⟩
    have hlt := leValue_lt b hx
    rw [hb, ← (width_cases hW).1] at hlt
    rw [bpvEncode_ok hW data hd, Nat.mod_eq_of_lt hlt, ← hb, leBytes_leValue b hx]

/-- Witness of C9 at width 2. -/
theorem C9_codec_roundtrip_witness :
    (∃ cell, bpvEncode 2 [0, 0] 43981 = .ok cell ∧ cell.length = 2 ∧
      bpvDecode 2 cell = .ok 43981) ∧
    (∃ u, bpvDecode 2 [205, 171] = .ok u ∧ bpvEncode 2 [0, 0] u = .ok [205, 171]) :=
  ⟨(C9_codec_roundtrip 2 43981 [205, 171] [0, 0]).1 (by decide) (by decide) rfl,
   (C9_codec_roundtrip 2 43981 [205, 171] [0, 0]).2.1 (by decide) rfl (by decide) rfl⟩

/-! ## Construction -/

theorem calcBPVToMax_ok {w m : Nat} (h : calcBPVToMax w = .ok m) :
    (w = 1 ∨ w = 2 ∨ w = 4 ∨ w = 8) ∧ m = 2 ^ (8 * w) - 1 := by
  unfold calcBPVToMax at h
  split at h <;> first
    | (cases h; simp)
    | cases h

theorem calcMaxToBPV_spec (m : Nat) :
    (calcMaxToBPV m = 1 ∨ calcMaxToBPV m = 2 ∨ calcMaxToBPV m = 4 ∨ calcMaxToBPV m = 8) ∧
    (m < 2 ^ 64 → m < 2 ^ (8 * calcMaxToBPV m)) := by
  unfold calcMaxToBPV
  split
  · exact ⟨Or.inl rfl, fun _ => by norm_num; omega⟩
  · split
    · exact ⟨Or.inr (Or.inl rfl), fun _ => by norm_num; omega⟩
    · split
      · exact ⟨Or.inr (Or.inr (Or.inl rfl)), fun _ => by norm_num; omega⟩
      · exact ⟨Or.inr (Or.inr (Or.inr rfl)), fun h => by norm_num; omega⟩

theorem populate_spec {o0 o : options} (h : o0.populate = .ok o) :
    (o.bytesPerValue = 1 ∨ o.bytesPerValue = 2 ∨ o.bytesPerValue = 4 ∨ o.bytesPerValue = 8) ∧
    (o0.maxValue < 2 ^ 64 → o.maxValue < 2 ^ (8 * o.bytesPerValue)) ∧
    0 < o.pageSize ∧ o.pageSize % o.bytesPerValue = 0 ∧
    o.numValues = o0.numValues ∧ o.backingFile = o0.backingFile ∧
    o.isReadOnly = o0.isReadOnly ∧ o.bufferPool = o0.bufferPool := by
  unfold options.populate at h
  dsimp only at h
  -- the first switch
  have key : ∀ o1 : options,
      (if o0.maxValue = 0 ∧ o0.bytesPerValue = 0 then (Except.error Panic.badOptions : Except Panic options)
       else if o0.maxValue = 0 ∧ o0.bytesPerValue ≠ 0 then
         match calcBPVToMax o0.bytesPerValue with
         | .error p => .error p
         | .ok m => .ok { o0 with maxValue := m }
       else if o0.bytesPerValue = 0 then .ok { o0 with bytesPerValue := calcMaxToBPV o0.maxValue }
       else
         match calcBPVToMax o0.bytesPerValue with
         | .error p => .error p
         | .ok maxmax => if maxmax < o0.maxValue then .error .badOptions else .ok o0) = .ok o1 →
      (o1.bytesPerValue = 1 ∨ o1.bytesPerValue = 2 ∨ o1.bytesPerValue = 4 ∨ o1.bytesPerValue = 8) ∧
      (o0.maxValue < 2 ^ 64 → o1.maxValue < 2 ^ (8 * o1.bytesPerValue)) ∧
      o1.pageSize = o0.pageSize ∧ o1.numValues = o0.numValues ∧
      o1.backingFile = o0.backingFile ∧ o1.isReadOnly = o0.isReadOnly ∧
      o1.bufferPool = o0.bufferPool := by
    intro o1 h1
    split at h1
    · cases h1
    · split at h1
      · cases hc : calcBPVToMax o0.bytesPerValue with
        | error p => rw [hc] at h1; cases h1
        | ok m =>
          rw [hc] at h1
          cases h1
          obtain ⟨hw, hm⟩ := calcBPVToMax_ok hc
          refine ⟨hw, fun _ => ?_, rfl, rfl, rfl, rfl, rfl⟩
          dsimp only
          have : 0 < 2 ^ (8 * o0.bytesPerValue) := Nat.pow_pos (by norm_num)
          omega
      · split at h1
        · cases h1
          have := calcMaxToBPV_spec o0.maxValue
          exact ⟨this.1, this.2, rfl, rfl, rfl, rfl, rfl⟩
        · cases hc : calcBPVToMax o0.bytesPerValue with
          | error p => rw [hc] at h1; cases h1
          | ok m =>
            rw [hc] at h1
            dsimp only at h1
            split at h1
            · cases h1
            · cases h1
              obtain ⟨hw, hm⟩ := calcBPVToMax_ok hc
              refine ⟨hw, fun _ => ?_, rfl, rfl, rfl, rfl, rfl⟩
              have : 0 < 2 ^ (8 * o0.bytesPerValue) := Nat.pow_pos (by norm_num)
              omega
  split at h
  · cases h
  · rename_i o1 h1
    obtain ⟨k1, k2, k3, k4, k5, k6, k7⟩ := key o1 h1
    have hw := width_cases k1
    cases hd : o1.diskThresholdIsSet <;> by_cases hp : o1.pageSize = 0 <;>
      simp only [hd, hp, if_true, if_false, Bool.false_eq_true] at h <;>
      split at h <;> first
        | (cases h; done)
        | (rename_i hps
           have hps2 := Nat.not_lt.mp hps
           have e := Except.ok.inj h
           subst e
           dsimp only at hps2 ⊢
           refine ⟨k1, k2, Nat.mul_pos (Nat.div_pos hps2 hw.2.1) hw.2.1, Nat.mul_mod_left _ _,
             k4, k5, k6, k7⟩)

theorem leValue_zeros (n : Nat) : leValue (List.replicate n 0) = 0 := by
  induction n with
  | zero => rfl
  | succ n ih => simp [List.replicate_succ, leValue, ih]

theorem New_ok_spec {opts : List OptionFn} {ba : BigArray}
    (hnew : New opts = .ok (some ba, none)) :
    ∃ o, (options.zero.apply opts).populate = .ok o ∧
      ((∃ m, ba = .mem { bpv := o.bytesPerValue, data := List.replicate o.numValues 0,
                          max := m, ro := o.isReadOnly }) ∨
       (∃ f doc, ba = .disk { f := f, p := o.bufferPool, cache := [], num := o.numValues,
                              max := o.maxValue, psz := o.pageSize, bpv := o.bytesPerValue,
                              ro := o.isReadOnly, doc := doc })) := by
  unfold New at hnew
  cases hp : (options.zero.apply opts).populate with
  | error p => rw [hp] at hnew; cases hnew
  | ok o =>
    rw [hp] at hnew
    refine ⟨o, rfl, ?_⟩
    obtain ⟨hw, -⟩ := populate_spec hp
    dsimp only at hnew
    split at hnew
    · left
      rcases hw with h | h | h | h <;> rw [h] at hnew ⊢ <;> dsimp only at hnew <;>
        · have e := (Prod.mk.inj (Except.ok.inj hnew)).1
          exact ⟨_, (Option.some.inj e).symm⟩
    · right
      cases hb : o.backingFile with
      | some f =>
        rw [hb] at hnew
        dsimp only at hnew
        have e := (Prod.mk.inj (Except.ok.inj hnew)).1
        exact ⟨_, _, (Option.some.inj e).symm⟩
      | none =>
        rw [hb] at hnew
        dsimp only at hnew
        cases ht : (tempFile.Truncate ((o.numValues * o.bytesPerValue) % 2 ^ 64)).2 with
        | some e0 =>
          rw [ht] at hnew
          dsimp only at hnew
          have e := (Prod.mk.inj (Except.ok.inj hnew)).1
          cases e
        | none =>
          rw [ht] at hnew
          dsimp only at hnew
          have e := (Prod.mk.inj (Except.ok.inj hnew)).1
          exact ⟨_, _, (Option.some.inj e).symm⟩

/-! ## Claim C3 -/

theorem onDiskArray.fresh_ValueAt (d : onDiskArray)
    (hw : d.bpv = 1 ∨ d.bpv = 2 ∨ d.bpv = 4 ∨ d.bpv = 8) (hps : 0 < d.psz)
    (hcache : d.cache = []) (hc : d.f.closed = false)
    (hb : d.f.bytes = List.replicate (d.num * d.bpv) 0) (hn : d.num * d.bpv < 2 ^ 63)
    {i : Nat} (hi : i < d.num) :
    d.ValueAt i = .ok d (0, none) := by
  have hwc := width_cases hw
  have h1 : i * d.bpv + d.bpv ≤ d.num * d.bpv := by
    have : (i + 1) * d.bpv ≤ d.num * d.bpv := Nat.mul_le_mul_right _ hi
    rw [Nat.add_mul, Nat.one_mul] at this
    exact this
  have hm : (i * d.bpv) % 2 ^ 64 = i * d.bpv := Nat.mod_eq_of_lt (by omega)
  have hl : d.f.bytes.length = d.num * d.bpv := by rw [hb]; simp
  unfold onDiskArray.ValueAt
  rw [if_neg (by simp [onDiskArray.Len]; omega)]
  unfold onDiskArray.compute
  rw [if_neg (by omega)]
  dsimp only
  rw [hcache]
  simp only [cacheGet]
  rw [if_neg (by omega), hm, ReadAt_in _ _ _ hc (by omega) (by omega)]
  dsimp only
  rw [bpvDecode_ok hw _ (by simp; omega)]
  dsimp only
  rw [hb, List.drop_replicate, List.take_replicate, leValue_zeros]

/-- Claim C3. An array `New` returns without error, resident or paged-disk over an
open zero-filled store of `Len() * W` bytes (a size that fits a signed 64-bit
offset), reads `(0, nil)` at every index below `Len()` and the sentinel
`2^64 - 1` with `io.EOF` at every index from `Len()` on. -/
theorem C3_fresh_reads_zero (opts : List OptionFn) (ba : BigArray)
    (hnew : New opts = .ok (some ba, none))
    (hstore : ∀ d, ba = .disk d → d.f.closed = false ∧
      d.f.bytes = List.replicate (d.num * d.bpv) 0 ∧ d.num * d.bpv < 2 ^ 63)
    (i : Nat) :
    (i < ba.Len → ba.ValueAt i = .ok ba (0, none)) ∧
    (ba.Len ≤ i → ba.ValueAt i = .ok ba (2 ^ 64 - 1, some .EOF)) := by
  refine ⟨fun hi => ?_, fun hi => ba.ValueAt_eof hi⟩
  obtain ⟨o, hp, hshape⟩ := New_ok_spec hnew
  obtain ⟨hw, -, hps, -⟩ := populate_spec hp
  rcases hshape with ⟨m, rfl⟩ | ⟨f, doc, rfl⟩
  · simp only [BigArray.Len, inMemoryArray.Len, List.length_replicate] at hi
    simp only [BigArray.ValueAt]
    rw [inMemoryArray.mem_ValueAt_eq _ (by simpa [inMemoryArray.Len] using hi)]
    simp [List.getD_eq_getElem?_getD, hi]
  · obtain ⟨hc, hb, hn⟩ := hstore _ rfl
    simp only [BigArray.Len, onDiskArray.Len] at hi
    simp only [BigArray.ValueAt]
    rw [onDiskArray.fresh_ValueAt _ hw hps rfl hc hb hn hi]

/-- Witness of C3: the array of the test (64 elements, bound 255) forced onto a
temporary file by a threshold of zero. -/
theorem C3_fresh_reads_zero_witness :
    (5 < (BigArray.disk exampleFresh).Len →
      (BigArray.disk exampleFresh).ValueAt 5 = .ok (BigArray.disk exampleFresh) (0, none)) ∧
    ((BigArray.disk exampleFresh).Len ≤ 5 →
      (BigArray.disk exampleFresh).ValueAt 5 =
        .ok (BigArray.disk exampleFresh) (2 ^ 64 - 1, some .EOF)) :=
  C3_fresh_reads_zero [NumValues 64, MaxValue 255, OnDiskThreshold 0] (.disk exampleFresh)
    (by rfl) (by intro d h; cases h; decide) 5

/-! ## Claim C10: the layout of the store -/

theorem onDiskArray.writeThrough_store (a : onDiskArray) {i : Nat} (v : Nat)
    (h : i * a.bpv + a.bpv ≤ a.f.bytes.length) :
    (a.writeThrough i (leBytes a.bpv v)).f.bytes.length = a.f.bytes.length ∧
    (∀ k, k < a.bpv →
      (a.writeThrough i (leBytes a.bpv v)).f.bytes.getD (i * a.bpv + k) 0 = v / 256 ^ k % 256) ∧
    (∀ p, ¬ (i * a.bpv ≤ p ∧ p < i * a.bpv + a.bpv) →
      (a.writeThrough i (leBytes a.bpv v)).f.bytes.getD p 0 = a.f.bytes.getD p 0) := by
  have hl := leBytes_length a.bpv v
  simp only [onDiskArray.writeThrough]
  refine ⟨patch_length _ _ _ (by rw [hl]; exact h), ?_, ?_⟩
  · intro k hk
    rw [patch_getD _ _ _ _ (by rw [hl]; exact h), hl, if_pos (by omega)]
    rw [show i * a.bpv + k - i * a.bpv = k by omega, leBytes_getD _ _ _ hk]
  · intro p hp
    rw [patch_getD _ _ _ _ (by rw [hl]; exact h), hl, if_neg hp]

theorem onDiskIterator.written_page {a : onDiskArray} {it : onDiskIterator}
    (hok : (Iterator.disk a it).OK) (hp : it.primed = true) (hlt : it.pos < it.num)
    (hro : a.ro = false) (v : Nat) :
    let i := (Iterator.disk a it).idx
    let a1 := a.writeCached i (leBytes a.bpv v)
    (Iterator.disk a1 it).OK ∧ it.page = some (a.pageOf i) ∧
    ∃ pg, cacheGet a.cache (a.pageOf i) = some pg ∧
      cacheGet a1.cache (a.pageOf i) =
        some { pg with data := patch pg.data (i * a.bpv - a.pageOf i) (leBytes a.bpv v),
                       dirty := true } := by
  intro i a1
  have hin : i < a.num := onDiskIterator.disk_idx_lt hok hlt
  obtain ⟨hv, herr, hpos, hrange, hpg, hat⟩ := hok
  have hpage : it.page = some (a.pageOf i) := hat hp hlt
  obtain ⟨pg, hk⟩ := Option.isSome_iff_exists.mp (hpg _ hpage)
  refine ⟨⟨onDiskArray.writeCached_valid hv hro hin _ (leBytes_length _ _), herr, hpos, hrange,
    ?_, ?_⟩, hpage, pg, hk, ?_⟩
  · intro k2 hk2
    have := hpg k2 hk2
    simp only [a1, onDiskArray.writeCached, cacheGet_modify]
    split
    · rw [Option.isSome_map']; exact this
    · exact this
  · intro h1 h2
    exact hat h1 h2
  · simp only [a1, onDiskArray.writeCached, cacheGet_modify, if_true, hk, Option.map_some']

theorem onDiskIterator.written_cell {a : onDiskArray} (hv : a.Valid) {i : Nat} (hi : i < a.num)
    (v : Nat) {pg : cachePage} (hk : cacheGet a.cache (a.pageOf i) = some pg)
    (bytes : List Nat)
    (hb : ∀ q, q < pg.len → bytes.getD (a.pageOf i + q) 0 =
      (patch pg.data (i * a.bpv - a.pageOf i) (leBytes a.bpv v)).getD q 0)
    (k : Nat) (hkw : k < a.bpv) :
    bytes.getD (i * a.bpv + k) 0 = v / 256 ^ k % 256 := by
  have hc := hv.cell_bound hi
  have hp := hv.in_page i
  have hpok := hv.page hk
  have hl := leBytes_length a.bpv v
  have hlen : pg.len = min a.psz (a.f.bytes.length - a.pageOf i) := hpok.2.2.2.2.1
  have hcap := hpok.2.2.1
  have hq : i * a.bpv - a.pageOf i + k < pg.len := by rw [hlen]; omega
  have := hb _ hq
  rw [show a.pageOf i + (i * a.bpv - a.pageOf i + k) = i * a.bpv + k by omega] at this
  rw [this, patch_getD _ _ _ _ (by rw [hl]; omega), hl, if_pos (by omega)]
  rw [show i * a.bpv - a.pageOf i + k - (i * a.bpv - a.pageOf i) = k by omega,
    leBytes_getD _ _ _ hkw]

/-- Claim C10. On a paged-disk array that satisfies its invariant (so the store holds
at least `N * W` bytes) and is not frozen, for `i < N` and `v ≤ MaxValue()`:
`SetValueAt(i, v)` returns nil, the store byte at `i * W + k` is then
`v / 256^k % 256` for every `k < W`, and no store byte outside
`[i * W, i * W + W)` changes (nor does the size of the store); and after an
iterator standing on index `i` has called `SetValue(v)`, both `Flush()` and
`Close()` return nil and leave the same bytes at `i * W + k` in the store. -/
theorem C10_store_layout (a : onDiskArray) (hv : a.Valid) (hro : a.ro = false) (i v : Nat)
    (hi : i < a.num) (hvm : v ≤ a.max) :
    (∃ b, a.SetValueAt i v = .ok b none ∧ b.f.bytes.length = a.f.bytes.length ∧
      (∀ k, k < a.bpv → b.f.bytes.getD (i * a.bpv + k) 0 = v / 256 ^ k % 256) ∧
      (∀ p, ¬ (i * a.bpv ≤ p ∧ p < i * a.bpv + a.bpv) →
        b.f.bytes.getD p 0 = a.f.bytes.getD p 0)) ∧
    (∀ it : onDiskIterator, (Iterator.disk a it).OK → it.primed = true → it.pos < it.num →
      (Iterator.disk a it).idx = i →
      ∃ a1, onDiskIterator.SetValue a it v = .ok (a1, it) () ∧
        (∃ a2, onDiskIterator.Flush a1 it = (a2, none) ∧
          ∀ k, k < a.bpv → a2.f.bytes.getD (i * a.bpv + k) 0 = v / 256 ^ k % 256) ∧
        (∃ a3, onDiskIterator.Close a1 it = .ok (a3, onDiskIterator.closed) none ∧
          ∀ k, k < a.bpv → a3.f.bytes.getD (i * a.bpv + k) 0 = v / 256 ^ k % 256)) := by
  constructor
  · obtain ⟨h1, h2, h3⟩ := a.writeThrough_store v (hv.cell_bound hi).1
    exact ⟨_, onDiskArray.disk_SetValueAt_eq hv hro hi hvm, h1, h2, h3⟩
  · intro it hok hp hlt hidx
    have hset := onDiskIterator.disk_SetValue_spec hok hp hlt hro v hvm
    obtain ⟨hok1, hpage, pg, hk, hk1⟩ := onDiskIterator.written_page hok hp hlt hro v
    rw [hidx] at hset hok1 hpage hk hk1
    refine ⟨_, hset, ?_, ?_⟩
    · obtain ⟨b, hb1, _, _, _, hb5⟩ := onDiskIterator.Flush_spec hok1
      refine ⟨b, hb1, ?_⟩
      exact onDiskIterator.written_cell hv hi v hk _ (hb5 _ _ hpage hk1).2
    · obtain ⟨b, hb1, _, _, hb5⟩ := onDiskIterator.disk_Close_spec hok1
      refine ⟨b, hb1, ?_⟩
      exact onDiskIterator.written_cell hv hi v hk _ (hb5 _ _ hpage hk1)

/-- Witness of C10: index 2 of a four-element array of 16-bit cells, value 204. -/
theorem C10_store_layout_witness :
    (∃ b, exampleOnDisk.SetValueAt 2 204 = .ok b none ∧
      b.f.bytes.length = exampleOnDisk.f.bytes.length ∧
      (∀ k, k < exampleOnDisk.bpv →
        b.f.bytes.getD (2 * exampleOnDisk.bpv + k) 0 = 204 / 256 ^ k % 256) ∧
      (∀ p, ¬ (2 * exampleOnDisk.bpv ≤ p ∧ p < 2 * exampleOnDisk.bpv + exampleOnDisk.bpv) →
        b.f.bytes.getD p 0 = exampleOnDisk.f.bytes.getD p 0)) ∧
    (∀ it : onDiskIterator, (Iterator.disk exampleOnDisk it).OK → it.primed = true →
      it.pos < it.num → (Iterator.disk exampleOnDisk it).idx = 2 →
      ∃ a1, onDiskIterator.SetValue exampleOnDisk it 204 = .ok (a1, it) () ∧
        (∃ a2, onDiskIterator.Flush a1 it = (a2, none) ∧
          ∀ k, k < exampleOnDisk.bpv →
            a2.f.bytes.getD (2 * exampleOnDisk.bpv + k) 0 = 204 / 256 ^ k % 256) ∧
        (∃ a3, onDiskIterator.Close a1 it = .ok (a3, onDiskIterator.closed) none ∧
          ∀ k, k < exampleOnDisk.bpv →
            a3.f.bytes.getD (2 * exampleOnDisk.bpv + k) 0 = 204 / 256 ^ k % 256)) :=
  C10_store_layout exampleOnDisk (by decide) (by decide) 2 204 (by decide) (by decide)

/-! ## Claim C7: truncation -/

theorem onDiskArray.Truncate_spec {a : onDiskArray} (hv : a.Valid) (hro : a.ro = false)
    (hc : a.cache = []) {n : Nat} (hn : n ≤ a.num) :
    a.Truncate n = .ok { a with num := n, f := { a.f with bytes := a.f.bytes.take (n * a.bpv) } }
      none ∧
    ({ a with num := n, f := { a.f with bytes := a.f.bytes.take (n * a.bpv) } } : onDiskArray).Valid ∧
    ∀ i, i < n →
      ({ a with num := n, f := { a.f with bytes := a.f.bytes.take (n * a.bpv) } } :
        onDiskArray).valueOf i = a.valueOf i := by
  have hv0 := hv
  obtain ⟨h1, h2, h3, h4, h5, h6, h7, h8, h9, h10⟩ := hv
  have hfr : a.f.readOnly = false := by
    cases h : a.f.readOnly
    · rfl
    · rw [h8 h] at hro; cases hro
  have hle : n * a.bpv ≤ a.num * a.bpv := Nat.mul_le_mul_right _ hn
  have hm : (n * a.bpv) % 2 ^ 64 = n * a.bpv := Nat.mod_eq_of_lt (by omega)
  refine ⟨?_, ?_, ?_⟩
  · unfold onDiskArray.Truncate
    rw [if_neg (by simp [hro]), if_neg (by simp [onDiskArray.Len]; omega),
      if_neg (by simp [hc])]
    dsimp only
    rw [hm]
    unfold File.Truncate
    rw [if_neg (by simp [hfr]), if_neg (by simp [h5]), if_neg (by omega)]
    have e : n * a.bpv - a.f.bytes.length = 0 := by omega
    simp [e]
  · refine ⟨h1, h2, h3, h4, h5, ?_, ?_, h8, ?_, ?_⟩
    · simp; omega
    · simp; omega
    · rw [hc]; simp
    · intro e he; rw [hc] at he; cases he
  · intro i hi
    unfold onDiskArray.valueOf
    congr 1
    apply List.map_congr_left
    intro t ht
    have ht2 : t < a.bpv := by simpa using ht
    have hcell : i * a.bpv + a.bpv ≤ n * a.bpv := by
      have : (i + 1) * a.bpv ≤ n * a.bpv := Nat.mul_le_mul_right _ hi
      rw [Nat.add_mul, Nat.one_mul] at this
      exact this
    unfold onDiskArray.byteAt
    simp only [hc, cacheGet]
    rw [getD_take, if_pos (by omega)]

theorem BigArray.Truncate_grow (ba : BigArray) (hro : ba.Frozen = false) {n : Nat}
    (hn : ba.Len < n) : ba.Truncate n = .panic ba .cannotGrow := by
  cases ba with
  | mem a =>
    simp only [BigArray.Frozen, inMemoryArray.Frozen] at hro
    simp only [BigArray.Len] at hn
    simp only [BigArray.Truncate, inMemoryArray.Truncate, hro, Bool.false_eq_true, if_false, hn,
      if_true]
  | disk a =>
    simp only [BigArray.Frozen, onDiskArray.Frozen] at hro
    simp only [BigArray.Len] at hn
    simp only [BigArray.Truncate, onDiskArray.Truncate, hro, Bool.false_eq_true, if_false, hn,
      if_true]

/-- Claim C7, amended. On an array that satisfies its invariant (the store of a
paged-disk array holds its `N * W` bytes) and is not frozen (paged-disk with
an empty cache): `Truncate(n)` with `n ≤ Len()` returns nil, makes `Len()`
equal `n`, leaves the result of `ValueAt(i)` unchanged for `i < n`, makes
`ValueAt(i)` return `io.EOF` for `i ≥ n`, and on paged-disk shortens the store
to its first `n * W` bytes; `Truncate(n)` with `n > Len()` panics with "cannot
grow a big array" and leaves the array as it was. -/
theorem C7_truncate (ba : BigArray) (hv : ba.Valid) (hro : ba.Frozen = false)
    (hc : ∀ d, ba = .disk d → d.cache = []) (n : Nat) :
    (n ≤ ba.Len →
      ∃ b, ba.Truncate n = .ok b none ∧ b.Len = n ∧
        (∀ i, i < n → ∃ r, ba.ValueAt i = .ok ba r ∧ b.ValueAt i = .ok b r) ∧
        (∀ i, n ≤ i → b.ValueAt i = .ok b (noValue, some .EOF)) ∧
        (∀ d, ba = .disk d → ∃ d2, b = .disk d2 ∧ d2.f.bytes = d.f.bytes.take (n * d.bpv) ∧
          d2.f.bytes.length = n * d.bpv)) ∧
    (ba.Len < n → ba.Truncate n = .panic ba .cannotGrow) := by
  refine ⟨fun hn => ?_, fun hn => ba.Truncate_grow hro hn⟩
  cases ba with
  | mem a =>
    simp only [BigArray.Frozen, inMemoryArray.Frozen] at hro
    simp only [BigArray.Len, inMemoryArray.Len] at hn
    have hb : (BigArray.mem { a with data := a.data.take n }).Len = n := by
      simp [BigArray.Len, inMemoryArray.Len]; omega
    refine ⟨.mem { a with data := a.data.take n }, ?_, hb, ?_, ?_, ?_⟩
    · simp only [BigArray.Truncate, inMemoryArray.Truncate, hro, Bool.false_eq_true, if_false,
        inMemoryArray.Len, Nat.not_lt.mpr hn]
    · intro i hi
      refine ⟨(a.data.getD i 0, none), ?_, ?_⟩
      · simp only [BigArray.ValueAt]
        rw [inMemoryArray.mem_ValueAt_eq a (by simp only [inMemoryArray.Len]; omega)]
      · simp only [BigArray.ValueAt]
        rw [inMemoryArray.mem_ValueAt_eq _ (by simp [inMemoryArray.Len]; omega)]
        dsimp only
        rw [getD_take, if_pos hi]
    · intro i hi
      exact BigArray.ValueAt_eof _ (by rw [hb]; exact hi)
    · intro d hd; cases hd
  | disk a =>
    simp only [BigArray.Frozen, onDiskArray.Frozen] at hro
    simp only [BigArray.Len, onDiskArray.Len] at hn
    obtain ⟨h1, h2, h3⟩ := onDiskArray.Truncate_spec hv hro (hc a rfl) hn
    refine ⟨.disk { a with num := n, f := { a.f with bytes := a.f.bytes.take (n * a.bpv) } },
      ?_, rfl, ?_, ?_, ?_⟩
    · simp only [BigArray.Truncate, h1]
    · intro i hi
      refine ⟨(a.valueOf i, none), ?_, ?_⟩
      · simp only [BigArray.ValueAt]
        rw [onDiskArray.disk_ValueAt_eq hv (by omega)]
      · simp only [BigArray.ValueAt]
        rw [onDiskArray.disk_ValueAt_eq h2 hi, h3 i hi]
    · intro i hi
      exact BigArray.ValueAt_eof _ hi
    · intro d hd
      cases hd
      refine ⟨_, rfl, rfl, ?_⟩
      have hle : n * a.bpv ≤ a.num * a.bpv := Nat.mul_le_mul_right _ hn
      have := hv.2.2.2.2.2.1
      simp; omega

/-- Witness of C7 on a disk-backed array of four elements, truncated to three. -/
theorem C7_truncate_witness :
    (3 ≤ exampleDisk.Len →
      ∃ b, exampleDisk.Truncate 3 = .ok b none ∧ b.Len = 3 ∧
        (∀ i, i < 3 → ∃ r, exampleDisk.ValueAt i = .ok exampleDisk r ∧ b.ValueAt i = .ok b r) ∧
        (∀ i, 3 ≤ i → b.ValueAt i = .ok b (noValue, some .EOF)) ∧
        (∀ d, exampleDisk = .disk d → ∃ d2, b = .disk d2 ∧
          d2.f.bytes = d.f.bytes.take (3 * d.bpv) ∧ d2.f.bytes.length = 3 * d.bpv)) ∧
    (exampleDisk.Len < 3 → exampleDisk.Truncate 3 = .panic exampleDisk .cannotGrow) :=
  C7_truncate exampleDisk (by decide) (by decide) (by intro d h; cases h; rfl) 3

/-- Counterexample to C7 as stated. On the paged-disk array `New` returns over an
empty file (four elements, empty cache, not frozen) `ValueAt(0)` returns
`io.EOF`; `Truncate(2)` returns nil and sets the store to four zero bytes,
after which `ValueAt(0)` returns `(0, nil)`: the call changed what an index
below the new length reads. -/
theorem C7_short_store_truncate :
    New [NumValues 4, MaxValue 1000, PageSize 4, WithFile exampleEmptyFile] =
      .ok (some (.disk exampleShort), none) ∧
    (BigArray.disk exampleShort).ValueAt 0 = .ok (.disk exampleShort) (noValue, some .EOF) ∧
    ∃ b, (BigArray.disk exampleShort).Truncate 2 = .ok b none ∧ b.Len = 2 ∧
      b.ValueAt 0 = .ok b (0, none) :=
  ⟨rfl, rfl, _, rfl, rfl, rfl⟩

/-! ## Loops over an iterator -/

theorem Iterator.idxAt_lt (it : Iterator) (hok : it.OK) {p : Nat} (hp : p < it.num) :
    it.idxAt p < it.array.Len := by
  cases it with
  | mem a i =>
    have := hok.2.2.2
    simp only [Iterator.idxAt, Iterator.down, Iterator.base, Iterator.num, Iterator.array,
      BigArray.Len] at hp ⊢
    split <;> omega
  | disk a i =>
    have := hok.2.2.2.1
    simp only [Iterator.idxAt, Iterator.down, Iterator.base, Iterator.num, Iterator.array,
      BigArray.Len] at hp ⊢
    split <;> omega

theorem forEachLoop_record (r : Nat) (it : Iterator) (hok : it.OK)
    (hr : it.target 1 + r = it.num) (fuel : Nat) (hf : r < fuel) (acc : List (Nat × Nat)) :
    ∃ it2, forEachLoop record fuel it acc =
        .ok (it2, acc ++ (List.range r).map (fun k =>
          (it.idxAt (it.target 1 + k), it.array.valueOf (it.idxAt (it.target 1 + k))))) none ∧
      it2.array.Valid ∧ it.array.Same it2.array := by
  induction r generalizing it fuel acc with
  | zero =>
    obtain ⟨fuel, rfl⟩ : ∃ f, fuel = f + 1 := ⟨fuel - 1, by omega⟩
    obtain ⟨it2, h1, h2, h3, _⟩ := it.Skip_done hok 1 (Or.inl Nat.one_pos) (by omega)
    obtain ⟨it3, c1, c2, c3⟩ := it2.Close_spec h2
    refine ⟨it3, ?_, c2, by rw [← h3]; exact c3⟩
    simp only [forEachLoop, Iterator.Next_eq, h1, c1, List.range_zero, List.map_nil,
      List.append_nil]
  | succ r ih =>
    obtain ⟨fuel, rfl⟩ : ∃ f, fuel = f + 1 := ⟨fuel - 1, by omega⟩
    obtain ⟨it2, h1, h2, h3, h4, h5, h6, h7, h8, h9, h10⟩ :=
      it.Skip_more hok 1 (Or.inl Nat.one_pos) (by omega)
    have hlt2 : it2.pos < it2.num := by rw [h4, h5]; omega
    have ht2 : it2.target 1 = it.target 1 + 1 := by
      rw [Iterator.target_of_primed h8, h4]
    obtain ⟨it3, e1, e2, e3⟩ := ih it2 h2 (by rw [ht2, h5]; omega) fuel (by omega)
      (acc ++ [(it2.idx, it2.val)])
    refine ⟨it3, ?_, e2, h3.trans e3⟩
    simp only [forEachLoop, Iterator.Next_eq, h1, it2.Index_eq h2 h8 hlt2,
      it2.Value_eq h8 hlt2, record]
    rw [e1]
    congr 2
    rw [List.range_succ_eq_map, List.map_cons, List.map_map, List.append_assoc]
    congr 1
    rw [List.singleton_append]
    have hidx : it2.idx = it.idxAt (it.target 1 + 0) := by
      rw [it2.idx_eq_idxAt, h4, Iterator.idxAt_congr h5 h6 h7]; rfl
    congr 1
    · rw [h9, hidx]
    · apply List.map_congr_left
      intro k hk
      have hk2 : k < r := by simpa using hk
      simp only [Function.comp, ht2, Iterator.idxAt_congr h5 h6 h7]
      have e : it.target 1 + 1 + k = it.target 1 + (k + 1) := by omega
      rw [e]
      congr 1
      exact h3.2.2.2 _ (it.idxAt_lt hok (by omega))

theorem setLoop_spec (f : Nat → Nat) (r : Nat) (it : Iterator) (hok : it.OK)
    (hro : it.array.Frozen = false) (hfm : ∀ i, i < it.array.Len → f i ≤ it.array.MaxValue)
    (hr : it.target 1 + r = it.num) (fuel : Nat) (hf : r < fuel) :
    ∃ it2, setLoop f fuel it = .ok it2 () ∧ it2.OK ∧ it2.array.Len = it.array.Len ∧
      it2.array.MaxValue = it.array.MaxValue ∧ it2.array.Frozen = it.array.Frozen ∧
      (∀ k, k < r → it2.array.valueOf (it.idxAt (it.target 1 + k)) =
        f (it.idxAt (it.target 1 + k))) ∧
      (∀ j, j < it.array.Len → (∀ k, k < r → j ≠ it.idxAt (it.target 1 + k)) →
        it2.array.valueOf j = it.array.valueOf j) := by
  induction r generalizing it fuel with
  | zero =>
    obtain ⟨fuel, rfl⟩ : ∃ f, fuel = f + 1 := ⟨fuel - 1, by omega⟩
    obtain ⟨it2, h1, h2, h3, _⟩ := it.Skip_done hok 1 (Or.inl Nat.one_pos) (by omega)
    refine ⟨it2, ?_, h2, by rw [h3], by rw [h3], by rw [h3], ?_, ?_⟩
    · simp only [setLoop, Iterator.Next_eq, h1]
    · intro k hk; omega
    · intro j _ _; rw [h3]
  | succ r ih =>
    obtain ⟨fuel, rfl⟩ : ∃ f, fuel = f + 1 := ⟨fuel - 1, by omega⟩
    obtain ⟨it2, h1, h2, h3, h4, h5, h6, h7, h8, h9, h10⟩ :=
      it.Skip_more hok 1 (Or.inl Nat.one_pos) (by omega)
    have hlt2 : it2.pos < it2.num := by rw [h4, h5]; omega
    have hro2 : it2.array.Frozen = false := by rw [h3.2.2.1]; exact hro
    have hmx2 : f it2.idx ≤ it2.array.MaxValue := by rw [h3.2.1]; exact hfm _ h10
    obtain ⟨it3, s1, s2, s3, s4, s5, s6, s7, s8, s9, s10, s11, s12⟩ :=
      it2.SetValue_spec h2 h8 hlt2 hro2 (f it2.idx) hmx2
    have ht3 : it3.target 1 = it.target 1 + 1 := by
      rw [Iterator.target_of_primed s7, s3, h4]
    have hlen3 : it3.array.Len = it.array.Len := by rw [s8, h3.1]
    have hcg : ∀ p, it3.idxAt p = it.idxAt p := fun p =>
      (Iterator.idxAt_congr s4 s5 s6 p).trans (Iterator.idxAt_congr h5 h6 h7 p)
    have hidx : it2.idx = it.idxAt (it.target 1) := by
      rw [it2.idx_eq_idxAt, h4, Iterator.idxAt_congr h5 h6 h7]
    obtain ⟨it4, e1, e2, e3, e4, e5, e6, e7⟩ := ih it3 s2 (by rw [s10, hro2])
      (by intro i hi; rw [s9, h3.2.1]; exact hfm i (by rw [← hlen3]; exact hi))
      (by rw [ht3, s4, h5]; omega) fuel (by omega)
    refine ⟨it4, ?_, e2, by rw [e3, hlen3], by rw [e4, s9, h3.2.1], by rw [e5, s10, h3.2.2.1],
      ?_, ?_⟩
    · simp only [setLoop, Iterator.Next_eq, h1, it2.Index_eq h2 h8 hlt2, s1]
      exact e1
    · intro k hk
      cases k with
      | zero =>
        rw [Nat.add_zero, ← hidx]
        rw [e7 it2.idx (by rw [hlen3]; exact h10) ?_, s11]
        intro k2 hk2 heq
        rw [hcg, ht3, hidx] at heq
        have := it.idxAt_inj (by omega) (by omega) heq
        omega
      | succ k =>
        have := e6 k (by omega)
        rw [hcg, ht3] at this
        have e : it.target 1 + (k + 1) = it.target 1 + 1 + k := by omega
        rw [e]; exact this
    · intro j hj hne
      rw [e7 j (by rw [hlen3]; exact hj) ?_, s12 j ?_, h3.2.2.2 j hj]
      · rw [hidx]; exact hne 0 (by omega)
      · intro k hk
        rw [hcg, ht3]
        have e : it.target 1 + 1 + k = it.target 1 + (k + 1) := by omega
        rw [e]; exact hne (k + 1) (by omega)

/-! ## Claim C5: filling an array through an iterator -/

theorem fillWith_spec (ba : BigArray) (hv : ba.Valid) (hro : ba.Frozen = false) (f : Nat → Nat)
    (hf : ∀ i, i < ba.Len → f i ≤ ba.MaxValue) :
    ∃ b, fillWith ba f = .ok b none ∧ b.Valid ∧ b.Len = ba.Len ∧ b.MaxValue = ba.MaxValue ∧
      b.Frozen = ba.Frozen ∧ ∀ i, i < ba.Len → b.valueOf i = f i := by
  obtain ⟨it, h1, h2, h3, h4, h5, h6, h7, h8⟩ :=
    ba.Iterate_spec hv 0 ba.Len (Nat.zero_le _) (Nat.le_refl _)
  have ht : it.target 1 = 0 := by simp [Iterator.target, h8, h4]
  obtain ⟨it2, s1, s2, s3, s4, s5, s6, _⟩ := setLoop_spec f ba.Len it h2 (by rw [h3]; exact hro)
    (by rw [h3]; exact hf) (by rw [ht, h5]; omega) (ba.Len + 1) (by omega)
  obtain ⟨it3, c1, c2, c3⟩ := it2.Close_spec s2
  rw [h3] at s3 s4 s5
  refine ⟨it3.array, ?_, c2, by rw [c3.1, s3], by rw [c3.2.1, s4], by rw [c3.2.2.1, s5], ?_⟩
  · simp only [fillWith, h1, s1, c1]
  · intro i hi
    rw [c3.2.2.2 i (by rw [s3]; exact hi)]
    have := s6 i hi
    simp only [Iterator.idxAt, h7, h6, ht, Nat.zero_add, Bool.false_eq_true, if_false] at this
    exact this

theorem ReverseForEach_record (ba : BigArray) (hv : ba.Valid) :
    ∃ b, ReverseForEach ba record [] =
        .ok (b, (List.range ba.Len).map (fun k => (ba.Len - 1 - k, ba.valueOf (ba.Len - 1 - k))))
          none ∧
      b.Valid ∧ ba.Same b := by
  obtain ⟨it, h1, h2, h3, h4, h5, h6, h7, h8⟩ :=
    ba.ReverseIterate_spec hv 0 ba.Len (Nat.zero_le _) (Nat.le_refl _)
  have ht : it.target 1 = 0 := by simp [Iterator.target, h8, h4]
  obtain ⟨it2, e1, e2, e3⟩ := forEachLoop_record ba.Len it h2 (by rw [ht, h5]; omega)
    (ba.Len + 1) (by omega) []
  rw [h3] at e3
  refine ⟨it2.array, ?_, e2, e3⟩
  simp only [ReverseForEach, h1, e1, List.nil_append, h3]
  congr 2
  apply List.map_congr_left
  intro k hk
  have hk2 : k < ba.Len := by simpa using hk
  have : it.idxAt (it.target 1 + k) = ba.Len - 1 - k := by
    simp only [Iterator.idxAt, h7, h6, h5, ht, if_true, Nat.zero_add]
    omega
  rw [this]

theorem ForEach_record (ba : BigArray) (hv : ba.Valid) :
    ∃ b, ForEach ba record [] =
        .ok (b, (List.range ba.Len).map (fun k => (k, ba.valueOf k))) none ∧
      b.Valid ∧ ba.Same b := by
  obtain ⟨it, h1, h2, h3, h4, h5, h6, h7, h8⟩ :=
    ba.Iterate_spec hv 0 ba.Len (Nat.zero_le _) (Nat.le_refl _)
  have ht : it.target 1 = 0 := by simp [Iterator.target, h8, h4]
  obtain ⟨it2, e1, e2, e3⟩ := forEachLoop_record ba.Len it h2 (by rw [ht, h5]; omega)
    (ba.Len + 1) (by omega) []
  rw [h3] at e3
  refine ⟨it2.array, ?_, e2, e3⟩
  simp only [ForEach, h1, e1, List.nil_append, h3]
  congr 2
  apply List.map_congr_left
  intro k hk
  have : it.idxAt (it.target 1 + k) = k := by
    simp only [Iterator.idxAt, h7, h6, ht, Bool.false_eq_true, if_false, Nat.zero_add]
  rw [this]

/-- Filling through an iterator. On an array that satisfies its invariant (the
store of a paged-disk array holds its `N * W` bytes) and is not frozen, with
`f(i) ≤ MaxValue()` for every `i < Len()`: iterating ascending over `[0, Len())`,
calling `SetValue(f(Index()))` at each step and then `Close()` terminates, the
`Close()` returns nil, afterwards `ValueAt(i)` returns `(f(i), nil)` for every
`i < Len()`, and `ReverseIterate(0, Len())` then yields the indices `Len()-1`
down to `0`, each with `Value() = f(Index())`. -/
theorem fillWith_full_store (ba : BigArray) (hv : ba.Valid) (hro : ba.Frozen = false)
    (f : Nat → Nat) (hf : ∀ i, i < ba.Len → f i ≤ ba.MaxValue) :
    ∃ b, fillWith ba f = .ok b none ∧ b.Len = ba.Len ∧
      (∀ i, i < ba.Len → b.ValueAt i = .ok b (f i, none)) ∧
      ∃ b2, ReverseForEach b record [] =
        .ok (b2, (List.range ba.Len).map (fun k => (ba.Len - 1 - k, f (ba.Len - 1 - k)))) none := by
  obtain ⟨b, h1, h2, h3, _, _, h6⟩ := fillWith_spec ba hv hro f hf
  refine ⟨b, h1, h3, ?_, ?_⟩
  · intro i hi
    rw [b.ValueAt_eq h2 (by rw [h3]; exact hi), h6 i hi]
  · obtain ⟨b2, e1, _, _⟩ := ReverseForEach_record b h2
    refine ⟨b2, ?_⟩
    rw [e1, h3]
    congr 2
    apply List.map_congr_left
    intro k hk
    have hk2 : k < ba.Len := by simpa using hk
    rw [h6 _ (by omega)]

/-- Example of `fillWith_full_store`: a disk-backed array of four elements filled with `f(i) = 10 * i`. -/
theorem fillWith_full_store_example :
    ∃ b, fillWith exampleDisk (fun i => 10 * i) = .ok b none ∧ b.Len = exampleDisk.Len ∧
      (∀ i, i < exampleDisk.Len → b.ValueAt i = .ok b ((fun i => 10 * i) i, none)) ∧
      ∃ b2, ReverseForEach b record [] =
        .ok (b2, (List.range exampleDisk.Len).map
          (fun k => (exampleDisk.Len - 1 - k, (fun i => 10 * i) (exampleDisk.Len - 1 - k)))) none :=
  fillWith_full_store exampleDisk (by decide) (by decide) (fun i => 10 * i)
    (by
      intro i hi
      have h4 : exampleDisk.Len = 4 := rfl
      have h5 : exampleDisk.MaxValue = 1000 := rfl
      show 10 * i ≤ exampleDisk.MaxValue
      omega)

/-- Claim C5 fails on the paged-disk array `New` returns over an empty file: the
ascending traversal of `[0, 4)` that calls `SetValue(Index() + 1)` at each
step and then `Close()` returns nil with every store call succeeding, yet the
array is exactly as it was before, the store still empty, and `ValueAt(i)`
returns `io.EOF` for every `i`: each value was written into the page buffer
past the page's window, and flushing writes the window only. -/
theorem C5_short_store_fill_lost :
    New [NumValues 4, MaxValue 1000, PageSize 4, WithFile exampleEmptyFile] =
      .ok (some (.disk exampleShort), none) ∧
    fillWith (.disk exampleShort) (fun i => i + 1) = .ok (.disk exampleShort) none ∧
    exampleShort.f.bytes = [] ∧
    (BigArray.disk exampleShort).ValueAt 0 = .ok (.disk exampleShort) (noValue, some .EOF) ∧
    (BigArray.disk exampleShort).ValueAt 1 = .ok (.disk exampleShort) (noValue, some .EOF) ∧
    (BigArray.disk exampleShort).ValueAt 2 = .ok (.disk exampleShort) (noValue, some .EOF) ∧
    (BigArray.disk exampleShort).ValueAt 3 = .ok (.disk exampleShort) (noValue, some .EOF) :=
  ⟨rfl, rfl, rfl, rfl, rfl, rfl, rfl⟩

theorem copyLoop_spec (r : Nat) (d s : Iterator) (hd : d.OK) (hs : s.OK)
    (hro : d.array.Frozen = false)
    (hdr : d.target 1 + r = d.num) (hsr : s.target 1 + r = s.num)
    (hval : ∀ k, k < r → s.array.valueOf (s.idxAt (s.target 1 + k)) ≤ d.array.MaxValue)
    (fuel : Nat) (hf : r < fuel) :
    ∃ d2 s2, copyLoop fuel d s = .ok (d2, s2) () ∧ d2.OK ∧ s2.OK ∧ s.array.Same s2.array ∧
      d2.array.Len = d.array.Len ∧ d2.array.MaxValue = d.array.MaxValue ∧
      d2.array.Frozen = d.array.Frozen ∧
      (∀ k, k < r → d2.array.valueOf (d.idxAt (d.target 1 + k)) =
        s.array.valueOf (s.idxAt (s.target 1 + k))) ∧
      (∀ j, j < d.array.Len → (∀ k, k < r → j ≠ d.idxAt (d.target 1 + k)) →
        d2.array.valueOf j = d.array.valueOf j) := by
  induction r generalizing d s fuel with
  | zero =>
    obtain ⟨fuel, rfl⟩ : ∃ f, fuel = f + 1 := ⟨fuel - 1, by omega⟩
    obtain ⟨s2, h1, h2, h3, _⟩ := s.Skip_done hs 1 (Or.inl Nat.one_pos) (by omega)
    refine ⟨d, s2, ?_, hd, h2, by rw [h3]; exact BigArray.Same.refl _, rfl, rfl, rfl, ?_, ?_⟩
    · simp only [copyLoop, Iterator.Next_eq, h1]
    · intro k hk; omega
    · intro j _ _; rfl
  | succ r ih =>
    obtain ⟨fuel, rfl⟩ : ∃ f, fuel = f + 1 := ⟨fuel - 1, by omega⟩
    obtain ⟨s1, h1, h2, h3, h4, h5, h6, h7, h8, h9, h10⟩ :=
      s.Skip_more hs 1 (Or.inl Nat.one_pos) (by omega)
    obtain ⟨d1, g1, g2, g3, g4, g5, g6, g7, g8, g9, g10⟩ :=
      d.Skip_more hd 1 (Or.inl Nat.one_pos) (by omega)
    have hslt : s1.pos < s1.num := by rw [h4, h5]; omega
    have hdlt : d1.pos < d1.num := by rw [g4, g5]; omega
    have hsidx : s1.idx = s.idxAt (s.target 1) := by
      rw [s1.idx_eq_idxAt, h4, Iterator.idxAt_congr h5 h6 h7]
    have hdidx : d1.idx = d.idxAt (d.target 1) := by
      rw [d1.idx_eq_idxAt, g4, Iterator.idxAt_congr g5 g6 g7]
    have hv0 : s1.val ≤ d1.array.MaxValue := by
      rw [h9, hsidx, g3.2.1]; exact hval 0 (by omega)
    obtain ⟨d2, t1, t2, t3, t4, t5, t6, t7, t8, t9, t10, t11, t12⟩ :=
      d1.SetValue_spec g2 g8 hdlt (by rw [g3.2.2.1]; exact hro) s1.val hv0
    have hst : s1.target 1 = s.target 1 + 1 := by
      rw [Iterator.target_of_primed h8, h4]
    have hdt : d2.target 1 = d.target 1 + 1 := by
      rw [Iterator.target_of_primed t7, t3, g4]
    have hscg : ∀ p, s1.idxAt p = s.idxAt p := Iterator.idxAt_congr h5 h6 h7
    have hdcg : ∀ p, d2.idxAt p = d.idxAt p := fun p =>
      (Iterator.idxAt_congr t4 t5 t6 p).trans (Iterator.idxAt_congr g5 g6 g7 p)
    have hsv : ∀ p, p < s.num → s1.array.valueOf (s.idxAt p) = s.array.valueOf (s.idxAt p) :=
      fun p hp => h3.2.2.2 _ (s.idxAt_lt hs hp)
    obtain ⟨d3, s3, e1, e2, e3, e4, e5, e6, e7, e8, e9⟩ := ih d2 s1 t2 h2
      (by rw [t10, g3.2.2.1]; exact hro) (by rw [hdt, t4, g5]; omega) (by rw [hst, h5]; omega)
      (by
        intro k hk
        rw [hscg, hst, t9, g3.2.1]
        have e : s.target 1 + 1 + k = s.target 1 + (k + 1) := by omega
        rw [e, hsv _ (by omega)]
        exact hval (k + 1) (by omega))
      fuel (by omega)
    refine ⟨d3, s3, ?_, e2, e3, h3.trans e4, by rw [e5, t8, g3.1], by rw [e6, t9, g3.2.1],
      by rw [e7, t10, g3.2.2.1], ?_, ?_⟩
    · simp only [copyLoop, Iterator.Next_eq, h1, g1, s1.Value_eq h8 hslt, t1]
      exact e1
    · intro k hk
      cases k with
      | zero =>
        rw [Nat.add_zero, Nat.add_zero, ← hdidx, ← hsidx]
        rw [e9 d1.idx (by rw [t8, g3.1]; exact g10) ?_, t11, h9]
        intro k2 hk2 heq
        rw [hdcg, hdt, hdidx] at heq
        have := d.idxAt_inj (by omega) (by omega) heq
        omega
      | succ k =>
        have := e8 k (by omega)
        rw [hdcg, hdt, hscg, hst] at this
        have e1 : d.target 1 + (k + 1) = d.target 1 + 1 + k := by omega
        have e2 : s.target 1 + (k + 1) = s.target 1 + 1 + k := by omega
        rw [e1, e2, this]
        exact hsv _ (by omega)
    · intro j hj hne
      rw [e9 j (by rw [t8, g3.1]; exact hj) ?_, t12 j ?_, g3.2.2.2 j hj]
      · rw [hdidx]
        have := hne 0 (by omega)
        rw [Nat.add_zero] at this
        exact this
      · intro k hk
        rw [hdcg, hdt]
        have e : d.target 1 + 1 + k = d.target 1 + (k + 1) := by omega
        rw [e]; exact hne (k + 1) (by omega)

/-! ## Claim C6: CopyFrom -/

theorem copyFromImpl_spec (dst src : BigArray) (hvd : dst.Valid) (hvs : src.Valid)
    (hlen : dst.Len = src.Len) (hro : dst.Frozen = false)
    (hval : ∀ i, i < src.Len → src.valueOf i ≤ dst.MaxValue) :
    ∃ d2 s2, copyFromImpl dst src = .ok (d2, s2) none ∧ d2.Valid ∧ s2.Valid ∧ src.Same s2 ∧
      d2.Len = dst.Len ∧ d2.MaxValue = dst.MaxValue ∧ d2.Frozen = dst.Frozen ∧
      ∀ i, i < src.Len → d2.valueOf i = src.valueOf i := by
  obtain ⟨si, h1, h2, h3, h4, h5, h6, h7, h8⟩ :=
    src.Iterate_spec hvs 0 src.Len (Nat.zero_le _) (Nat.le_refl _)
  obtain ⟨di, g1, g2, g3, g4, g5, g6, g7, g8⟩ :=
    dst.Iterate_spec hvd 0 dst.Len (Nat.zero_le _) (Nat.le_refl _)
  have hst : si.target 1 = 0 := by simp [Iterator.target, h8, h4]
  have hdt : di.target 1 = 0 := by simp [Iterator.target, g8, g4]
  have hsi : ∀ k, si.idxAt (si.target 1 + k) = k := by
    intro k
    simp only [Iterator.idxAt, h7, h6, hst, Bool.false_eq_true, if_false, Nat.zero_add]
  have hdi : ∀ k, di.idxAt (di.target 1 + k) = k := by
    intro k
    simp only [Iterator.idxAt, g7, g6, hdt, Bool.false_eq_true, if_false, Nat.zero_add]
  obtain ⟨d2, s2, e1, e2, e3, e4, e5, e6, e7, e8, _⟩ := copyLoop_spec src.Len di si g2 h2
    (by rw [g3]; exact hro) (by rw [hdt, g5, hlen]; omega) (by rw [hst, h5]; omega)
    (by intro k hk; rw [hsi, h3, g3]; exact hval k hk) (src.Len + 1) (by omega)
  obtain ⟨d3, c1, c2, c3⟩ := d2.Close_spec e2
  obtain ⟨s3, b1, b2, b3⟩ := s2.Close_spec e3
  rw [h3] at e4
  rw [g3] at e5 e6 e7
  refine ⟨d3.array, s3.array, ?_, c2, b2, e4.trans b3, by rw [c3.1, e5], by rw [c3.2.1, e6],
    by rw [c3.2.2.1, e7], ?_⟩
  · simp only [copyFromImpl, h1, g1, e1, c1, b1]
  · intro i hi
    rw [c3.2.2.2 i (by rw [e5, hlen]; exact hi)]
    have := e8 i hi
    rw [hdi, hsi, h3] at this
    exact this

/-- Copying between arrays. For two arrays `dst` and `src` that satisfy their
invariants (any mix of resident widths and paged-disk, the store of a
paged-disk array holding its `N * W` bytes) with `dst.Len() = src.Len()`, `dst` not frozen
and every value of `src` at most `dst.MaxValue()`: `dst.CopyFrom(src)` terminates
and returns nil, afterwards `dst.ValueAt(i)` returns what `src.ValueAt(i)`
returned before the call for every `i < Len()`, `src.ValueAt(i)` still
returns it, and the length, bound and frozen flag of `dst` are unchanged. -/
theorem CopyFrom_full_store (dst src : BigArray) (hvd : dst.Valid) (hvs : src.Valid)
    (hlen : dst.Len = src.Len) (hro : dst.Frozen = false)
    (hval : ∀ i v, src.ValueAt i = .ok src (v, none) → v ≤ dst.MaxValue) :
    ∃ d2 s2, dst.CopyFrom src = .ok (d2, s2) none ∧
      d2.Len = dst.Len ∧ d2.MaxValue = dst.MaxValue ∧ d2.Frozen = dst.Frozen ∧
      ∀ i, i < src.Len → ∃ v, src.ValueAt i = .ok src (v, none) ∧
        d2.ValueAt i = .ok d2 (v, none) ∧ s2.ValueAt i = .ok s2 (v, none) := by
  have hval2 : ∀ i, i < src.Len → src.valueOf i ≤ dst.MaxValue :=
    fun i hi => hval i _ (src.ValueAt_eq hvs hi)
  have general : ∃ d2 s2, copyFromImpl dst src = .ok (d2, s2) none ∧
      d2.Len = dst.Len ∧ d2.MaxValue = dst.MaxValue ∧ d2.Frozen = dst.Frozen ∧
      ∀ i, i < src.Len → ∃ v, src.ValueAt i = .ok src (v, none) ∧
        d2.ValueAt i = .ok d2 (v, none) ∧ s2.ValueAt i = .ok s2 (v, none) := by
    obtain ⟨d2, s2, h1, h2, h3, h4, h5, h6, h7, h8⟩ :=
      copyFromImpl_spec dst src hvd hvs hlen hro hval2
    refine ⟨d2, s2, h1, h5, h6, h7,
      fun i hi => ⟨src.valueOf i, src.ValueAt_eq hvs hi, ?_, ?_⟩⟩
    · rw [d2.ValueAt_eq h2 (by rw [h5, hlen]; exact hi), h8 i hi]
    · rw [s2.ValueAt_eq h3 (by rw [h4.1]; exact hi), h4.2.2.2 i hi]
  cases dst with
  | disk a =>
    simp only [BigArray.Frozen, onDiskArray.Frozen] at hro
    have e : (BigArray.disk a).CopyFrom src = copyFromImpl (.disk a) src := by
      simp only [BigArray.CopyFrom, onDiskArray.CopyFrom, hro, Bool.false_eq_true, if_false]
      rw [if_neg (fun h => h hlen.symm)]
    rw [e]; exact general
  | mem a =>
    simp only [BigArray.Frozen, inMemoryArray.Frozen] at hro
    have hl2 : ¬ (src.Len ≠ a.Len) := fun h => h hlen.symm
    cases src with
    | disk x =>
      have e : (BigArray.mem a).CopyFrom (.disk x) = copyFromImpl (.mem a) (.disk x) := by
        simp only [BigArray.CopyFrom, inMemoryArray.CopyFrom, hro, Bool.false_eq_true, if_false]
        rw [if_neg hl2]
      rw [e]; exact general
    | mem x =>
      by_cases hw : x.bpv = a.bpv
      · simp only [BigArray.Len, inMemoryArray.Len] at hlen
        have hmin : min a.data.length x.data.length = x.data.length := by omega
        have hdata : x.data.take x.data.length ++ a.data.drop x.data.length = x.data := by
          rw [List.take_length, List.drop_eq_nil_of_le (by omega), List.append_nil]
        refine ⟨.mem { a with data := x.data }, .mem x, ?_, hlen.symm, rfl, rfl, ?_⟩
        · simp only [BigArray.CopyFrom, inMemoryArray.CopyFrom, hro, Bool.false_eq_true,
            if_false]
          rw [if_neg hl2]
          simp only [hw, if_true, hmin, hdata]
        · intro i hi
          simp only [BigArray.Len, inMemoryArray.Len] at hi
          refine ⟨x.data.getD i 0, ?_, ?_, ?_⟩
          · simp only [BigArray.ValueAt]; rw [inMemoryArray.mem_ValueAt_eq x hi]
          · simp only [BigArray.ValueAt]
            rw [inMemoryArray.mem_ValueAt_eq _ (by simpa [inMemoryArray.Len] using hi)]
          · simp only [BigArray.ValueAt]; rw [inMemoryArray.mem_ValueAt_eq x hi]
      · have e : (BigArray.mem a).CopyFrom (.mem x) = copyFromImpl (.mem a) (.mem x) := by
          simp only [BigArray.CopyFrom, inMemoryArray.CopyFrom, hro, Bool.false_eq_true,
            if_false]
          rw [if_neg hl2]
          simp only [hw, if_false]
        rw [e]; exact general

/-- Example of `CopyFrom_full_store`: a resident array of 16-bit elements copied
into a disk-backed array. -/
theorem CopyFrom_full_store_example :
    ∃ d2 s2, exampleDisk.CopyFrom exampleMem = .ok (d2, s2) none ∧
      d2.Len = exampleDisk.Len ∧ d2.MaxValue = exampleDisk.MaxValue ∧
      d2.Frozen = exampleDisk.Frozen ∧
      ∀ i, i < exampleMem.Len → ∃ v, exampleMem.ValueAt i = .ok exampleMem (v, none) ∧
        d2.ValueAt i = .ok d2 (v, none) ∧ s2.ValueAt i = .ok s2 (v, none) :=
  CopyFrom_full_store exampleDisk exampleMem (by decide) (by decide) (by decide) (by decide)
    (by
      intro i v h
      have h4 : exampleMem.Len = 4 := rfl
      by_cases hi : i < 4
      · have : i = 0 ∨ i = 1 ∨ i = 2 ∨ i = 3 := by omega
        rcases this with rfl | rfl | rfl | rfl <;> cases h <;> decide
      · rw [exampleMem.ValueAt_eof (by omega)] at h
        cases h)

/-- Claim C6 fails when the destination is the paged-disk array `New` returns over
an empty file and the source a resident array holding `0, 7, 0, 9`: the
lengths agree, the destination is not frozen, every source value is below its
bound and every store call succeeds; `CopyFrom` returns nil and leaves the
destination exactly as it was, so `dst.ValueAt(1)` returns `io.EOF` where
`src.ValueAt(1)` returns 7. -/
theorem C6_short_store_copy_lost :
    New [NumValues 4, MaxValue 1000, PageSize 4, WithFile exampleEmptyFile] =
      .ok (some (.disk exampleShort), none) ∧
    (BigArray.disk exampleShort).Len = exampleMem.Len ∧
    (BigArray.disk exampleShort).Frozen = false ∧
    (BigArray.disk exampleShort).CopyFrom exampleMem =
      .ok (.disk exampleShort, exampleMem) none ∧
    exampleMem.ValueAt 1 = .ok exampleMem (7, none) ∧
    (BigArray.disk exampleShort).ValueAt 1 = .ok (.disk exampleShort) (noValue, some .EOF) :=
  ⟨rfl, rfl, rfl, rfl, rfl, rfl⟩

/-! ## The frozen flag -/

theorem flushPage_ro (a : onDiskArray) (p : Option Nat) : (flushPage a p).1.ro = a.ro := by
  unfold flushPage
  split
  · rfl
  · dsimp only
    split
    · split <;> rfl
    · rfl

theorem flushPages_ro (ks : List Nat) (a : onDiskArray) (e : Option Error) :
    (flushPages ks a e).1.ro = a.ro := by
  induction ks generalizing a e with
  | nil => rfl
  | cons k ks ih =>
    simp only [flushPages]
    rw [ih, flushPage_ro]

theorem onDiskArray.Flush_ro (a : onDiskArray) : a.Flush.1.ro = a.ro := by
  unfold onDiskArray.Flush
  dsimp only
  split <;> exact flushPages_ro _ _ _

theorem onDiskArray.disposePage_ro (a : onDiskArray) (p : Option Nat) :
    (a.disposePage p).state.ro = a.ro := by
  unfold onDiskArray.disposePage
  split
  · rfl
  · dsimp only
    split
    · rfl
    · split <;> rfl

theorem onDiskArray.acquirePage_ro (a : onDiskArray) (off : Nat) :
    (a.acquirePage off).1.ro = a.ro := by
  unfold onDiskArray.acquirePage
  split
  · rfl
  · dsimp only
    split <;> rfl

theorem onDiskIterator.detach_ro (a : onDiskArray) (it : onDiskIterator) (po : Nat) :
    (∀ r, onDiskIterator.detach a it po = .error r → r.state.1.ro = a.ro) ∧
    (∀ s, onDiskIterator.detach a it po = .ok s → s.1.ro = a.ro) := by
  unfold onDiskIterator.detach
  cases it.page with
  | none =>
    refine ⟨fun r h => ?_, fun s h => ?_⟩
    · cases h
    · cases h; rfl
  | some k =>
    dsimp only
    by_cases hc : (a.pageAt k).off ≠ po
    · rw [if_pos hc]
      have h3 := onDiskArray.disposePage_ro (flushPage a (some k)).1 (some k)
      rw [flushPage_ro] at h3
      cases h2 : (flushPage a (some k)).2 with
      | some e =>
        refine ⟨fun r h => ?_, fun s h => ?_⟩
        · cases h; exact flushPage_ro a (some k)
        · cases h
      | none =>
        dsimp only
        cases h4 : (flushPage a (some k)).1.disposePage (some k) with
        | ok s u =>
          rw [h4] at h3
          refine ⟨fun r h => ?_, fun s h => ?_⟩
          · cases h
          · cases h; exact h3
        | panic s p =>
          rw [h4] at h3
          refine ⟨fun r h => ?_, fun s h => ?_⟩
          · cases h; exact h3
          · cases h
    · rw [if_neg hc]
      refine ⟨fun r h => ?_, fun s h => ?_⟩
      · cases h
      · cases h; rfl

theorem onDiskIterator.attach_ro (a : onDiskArray) (it : onDiskIterator) (po : Nat) :
    (∀ r, onDiskIterator.attach a it po = .error r → r.state.1.ro = a.ro) ∧
    (∀ s, onDiskIterator.attach a it po = .ok s → s.1.ro = a.ro) := by
  unfold onDiskIterator.attach
  cases it.page with
  | some k =>
    refine ⟨fun r h => ?_, fun s h => ?_⟩
    · cases h
    · cases h; rfl
  | none =>
    dsimp only
    cases h : (a.acquirePage po).2.2 with
    | some e =>
      refine ⟨fun r h => ?_, fun s h => ?_⟩
      · cases h; exact onDiskArray.acquirePage_ro a po
      · cases h
    | none =>
      refine ⟨fun r h => ?_, fun s h => ?_⟩
      · cases h
      · cases h; exact onDiskArray.acquirePage_ro a po

theorem onDiskIterator.Skip_ro (a : onDiskArray) (it : onDiskIterator) (n : Nat) :
    (onDiskIterator.Skip a it n).state.1.ro = a.ro := by
  unfold onDiskIterator.Skip
  split
  · rfl
  split
  · rfl
  split
  · rfl
  dsimp only
  generalize (if it.primed = true then n else n - 1) = n1
  split
  · rfl
  split
  · rfl
  rename_i index _
  split
  · rfl
  generalize hpo : index * a.bpv % 2 ^ 64 / a.psz * a.psz = po
  generalize hit2 : ({ it with primed := true, pos := it.pos + n1 } : onDiskIterator) = it2
  obtain ⟨d1, d2⟩ := onDiskIterator.detach_ro a it2 po
  cases hd : onDiskIterator.detach a it2 po with
  | error r => exact d1 r hd
  | ok s3 =>
    obtain ⟨a3, it3⟩ := s3
    have h3 : a3.ro = a.ro := d2 _ hd
    dsimp only
    obtain ⟨t1, t2⟩ := onDiskIterator.attach_ro a3 it3 po
    cases ha : onDiskIterator.attach a3 it3 po with
    | error r => dsimp only; rw [← h3]; exact t1 r ha
    | ok s4 =>
      obtain ⟨a4, it4⟩ := s4
      have h4 : a4.ro = a3.ro := t2 _ ha
      dsimp only
      split
      · exact h4.trans h3
      · split
        · exact h4.trans h3
        · split
          · exact h4.trans h3
          · exact h4.trans h3

theorem flushPages_spec (ks : List Nat) (a : onDiskArray) (hv : a.Valid)
    (hks : ∀ k, k ∈ ks → (cacheGet a.cache k).isSome = true) :
    ∃ b, flushPages ks a none = (b, none) ∧ b.Valid ∧ a.SameBytes b ∧
      (∀ k, (cacheGet b.cache k).isSome = (cacheGet a.cache k).isSome) ∧
      (∀ k, k ∈ ks → ∀ pg, cacheGet b.cache k = some pg → pg.dirty = false) ∧
      (∀ k, k ∉ ks → cacheGet b.cache k = cacheGet a.cache k) := by
  induction ks generalizing a with
  | nil =>
    refine ⟨a, rfl, hv, onDiskArray.SameBytes.refl_bytes a, fun _ => rfl, ?_, fun _ _ => rfl⟩
    intro k hk; cases hk
  | cons k ks ih =>
    obtain ⟨pg, hk⟩ := Option.isSome_iff_exists.mp (hks k (by simp))
    obtain ⟨b1, f1, f2, f3, f4, f5⟩ := onDiskArray.flushPage_spec hv hk
    have hsome : ∀ k2, (cacheGet b1.cache k2).isSome = (cacheGet a.cache k2).isSome := by
      intro k2
      by_cases h : k2 = k
      · rw [h, f4, hk]; rfl
      · rw [f5 k2 h]
    obtain ⟨b, g1, g2, g3, g4, g5, g6⟩ := ih b1 f2
      (by intro k2 hk2; rw [hsome]; exact hks k2 (by simp [hk2]))
    refine ⟨b, ?_, g2, f3.trans_bytes g3, fun k2 => (g4 k2).trans (hsome k2), ?_, ?_⟩
    · simp only [flushPages, f1]
      exact g1
    · intro k2 hk2 pg2 hpg2
      by_cases hin : k2 ∈ ks
      · exact g5 k2 hin pg2 hpg2
      · have hk2k : k2 = k := by
          simp only [List.mem_cons] at hk2
          rcases hk2 with h | h
          · exact h
          · exact absurd h hin
        rw [g6 k2 hin, hk2k, f4] at hpg2
        cases hpg2
        rfl
    · intro k2 hk2
      simp only [List.mem_cons, not_or] at hk2
      rw [g6 k2 hk2.2, f5 k2 hk2.1]

theorem onDiskArray.Valid.frozen {a : onDiskArray} (hv : a.Valid) :
    ({ a with ro := true } : onDiskArray).Valid := by
  obtain ⟨h1, h2, h3, h4, h5, h6, h7, h8, h9, h10⟩ := hv
  exact ⟨h1, h2, h3, h4, h5, h6, h7, fun _ => rfl, h9, h10⟩

theorem onDiskArray.disk_Freeze_spec {a : onDiskArray} (hv : a.Valid) :
    ∃ b, a.Freeze = (b, none) ∧ b.Valid ∧ b.ro = true ∧ b.num = a.num ∧ b.max = a.max ∧
      b.psz = a.psz ∧ b.bpv = a.bpv ∧
      (∀ i, i < a.num → b.valueOf i = a.valueOf i) ∧
      (∀ k, (cacheGet b.cache k).isSome = (cacheGet a.cache k).isSome) ∧
      (∀ k pg, cacheGet b.cache k = some pg → pg.dirty = false) := by
  have hv2 := hv.frozen
  obtain ⟨b, g1, g2, g3, g4, g5, g6⟩ :=
    flushPages_spec (a.cache.map Prod.fst) { a with ro := true } hv2 (by
      intro k hk
      obtain ⟨e, he, rfl⟩ := List.mem_map.mp hk
      rw [cacheGet_of_mem a.cache hv.2.2.2.2.2.2.2.2.1 e.1 e.2 he]; rfl)
  refine ⟨b, ?_, g2, g3.2.2.2.2.1, g3.1, g3.2.1, g3.2.2.1, g3.2.2.2.1, ?_, g4, ?_⟩
  · unfold onDiskArray.Freeze onDiskArray.Flush
    dsimp only
    rw [g1]
    dsimp only
    unfold File.Flush
    split <;> simp_all
  · intro i hi
    exact g3.valueOf hv2 hi
  · intro k pg hk
    apply g5 k _ pg hk
    have hm := cacheGet_mem _ _ _ hk
    have h2 : (cacheGet ({ a with ro := true } : onDiskArray).cache k).isSome = true := by
      rw [← g4, hk]; rfl
    obtain ⟨pg0, hpg0⟩ := Option.isSome_iff_exists.mp h2
    exact List.mem_map.mpr ⟨(k, pg0), cacheGet_mem _ _ _ hpg0, rfl⟩

theorem onDiskArray.disk_ValueAt_state (a : onDiskArray) (i : Nat) : (a.ValueAt i).state = a := by
  unfold onDiskArray.ValueAt
  split
  · rfl
  split
  · rfl
  split
  · split
    · rfl
    · split <;> rfl
  · split
    · rfl
    · dsimp only
      split
      · rfl
      · split <;> rfl

theorem inMemoryArray.mem_ValueAt_state (a : inMemoryArray) (i : Nat) : (a.ValueAt i).state = a := by
  unfold inMemoryArray.ValueAt
  split <;> rfl

theorem BigArray.ValueAt_state (x : BigArray) (i : Nat) : (x.ValueAt i).state = x := by
  cases x with
  | mem a =>
    have := a.mem_ValueAt_state i
    simp only [BigArray.ValueAt]
    cases h : a.ValueAt i with
    | ok s r => rw [h] at this; exact congrArg BigArray.mem this
    | panic s p => rw [h] at this; exact congrArg BigArray.mem this
  | disk a =>
    have := a.disk_ValueAt_state i
    simp only [BigArray.ValueAt]
    cases h : a.ValueAt i with
    | ok s r => rw [h] at this; exact congrArg BigArray.disk this
    | panic s p => rw [h] at this; exact congrArg BigArray.disk this

theorem BigArray.frozen_rejects (x : BigArray) (h : x.Frozen = true) :
    (∀ i v, x.SetValueAt i v = .panic x .readOnly) ∧
    (∀ n, x.Truncate n = .panic x .readOnly) ∧
    (∀ src, x.CopyFrom src = .panic (x, src) .readOnly) := by
  cases x with
  | mem a =>
    simp only [BigArray.Frozen, inMemoryArray.Frozen] at h
    refine ⟨fun i v => ?_, fun n => ?_, fun src => ?_⟩
    · simp only [BigArray.SetValueAt, inMemoryArray.SetValueAt, h, if_true]
    · simp only [BigArray.Truncate, inMemoryArray.Truncate, h, if_true]
    · simp only [BigArray.CopyFrom, inMemoryArray.CopyFrom, h, if_true]
  | disk a =>
    simp only [BigArray.Frozen, onDiskArray.Frozen] at h
    refine ⟨fun i v => ?_, fun n => ?_, fun src => ?_⟩
    · simp only [BigArray.SetValueAt, onDiskArray.SetValueAt, h, if_true]
    · simp only [BigArray.Truncate, onDiskArray.Truncate, h, if_true]
    · simp only [BigArray.CopyFrom, onDiskArray.CopyFrom, h, if_true]

theorem onDiskArray.Close_ro (a : onDiskArray) : a.Close.state.ro = a.ro := by
  unfold onDiskArray.Close
  split
  · split
    · split <;> rfl
    · rfl
  · split
    · split <;> rfl
    · rfl

theorem BigArray.frozen_stays (x : BigArray) :
    (∀ i, (x.ValueAt i).state.Frozen = x.Frozen) ∧ x.Freeze.1.Frozen = true ∧
    x.Flush.1.Frozen = x.Frozen ∧ x.Close.state.Frozen = x.Frozen := by
  refine ⟨fun i => by rw [x.ValueAt_state], ?_, ?_, ?_⟩
  · cases x with
    | mem a => rfl
    | disk a =>
      simp only [BigArray.Freeze, BigArray.Frozen, onDiskArray.Frozen, onDiskArray.Freeze]
      rw [onDiskArray.Flush_ro]
  · cases x with
    | mem a => rfl
    | disk a =>
      simp only [BigArray.Flush, BigArray.Frozen, onDiskArray.Frozen]
      rw [onDiskArray.Flush_ro]
  · cases x with
    | mem a => rfl
    | disk a =>
      have := a.Close_ro
      simp only [BigArray.Close, BigArray.Frozen, onDiskArray.Frozen]
      cases h : a.Close with
      | ok s r => rw [h] at this; exact this
      | panic s p => rw [h] at this; exact this

theorem inMemoryIterator.Skip_state (a : inMemoryArray) (it : inMemoryIterator) (n : Nat) :
    (inMemoryIterator.Skip a it n).state.1 = a := by
  unfold inMemoryIterator.Skip
  split
  · rfl
  split
  · rfl
  split
  · rfl
  dsimp only
  generalize (if it.primed = true then n else n - 1) = n1
  split
  · rfl
  split
  · rfl
  rename_i index _
  have := a.mem_ValueAt_state index
  cases h : a.ValueAt index with
  | panic s p => rw [h] at this; exact this
  | ok s r =>
    rw [h] at this
    dsimp only
    split <;> exact this

theorem onDiskIterator.disk_SetValue_frozen (a : onDiskArray) (it : onDiskIterator) (v : Nat)
    (h : a.ro = true) :
    ∃ p, onDiskIterator.SetValue a it v = .panic (a, it) p ∧
      (it.primed = true → it.pos < it.num → p = .readOnly) := by
  unfold onDiskIterator.SetValue
  by_cases h1 : it.primed = false
  · rw [if_pos h1]
    exact ⟨_, rfl, fun hp => by rw [hp] at h1; cases h1⟩
  rw [if_neg h1]
  by_cases h2 : it.num ≤ it.pos
  · rw [if_pos h2]
    exact ⟨_, rfl, fun _ hlt => by omega⟩
  rw [if_neg h2, if_pos h]
  exact ⟨_, rfl, fun _ _ => rfl⟩

theorem inMemoryIterator.mem_SetValue_frozen (a : inMemoryArray) (it : inMemoryIterator) (v : Nat)
    (h : a.ro = true) :
    (∃ it2 p, inMemoryIterator.SetValue a it v = .panic (a, it2) p ∧
      (it.primed = true → it.pos < it.num → p = .readOnly)) ∨
    (inMemoryIterator.SetValue a it v = .ok (a, it) () ∧ it.err ≠ none ∧ it.primed = true ∧
      it.pos < it.num) := by
  unfold inMemoryIterator.SetValue
  by_cases h1 : it.primed = false
  · rw [if_pos h1]
    exact Or.inl ⟨_, _, rfl, fun hp => by rw [hp] at h1; cases h1⟩
  rw [if_neg h1]
  by_cases h2 : it.num ≤ it.pos
  · rw [if_pos h2]
    exact Or.inl ⟨_, _, rfl, fun _ hlt => by omega⟩
  rw [if_neg h2]
  by_cases h3 : it.err ≠ none
  · rw [if_pos h3]
    exact Or.inr ⟨rfl, h3, by simpa using h1, by omega⟩
  rw [if_neg h3]
  dsimp only
  left
  have hidx : ∃ index, ({ it with val := v } : inMemoryIterator).Index = .ok index := by
    unfold inMemoryIterator.Index
    rw [if_neg h1, if_neg h2]
    split <;> exact ⟨_, rfl⟩
  obtain ⟨index, hi⟩ := hidx
  rw [hi]
  dsimp only
  have : a.SetValueAt index v = .panic a .readOnly := by
    simp only [inMemoryArray.SetValueAt, h, if_true]
  rw [this]
  exact ⟨_, _, rfl, fun _ _ => rfl⟩

theorem Iterator.iter_frozen_stays (it : Iterator) :
    (∀ n, (it.Skip n).state.array.Frozen = it.array.Frozen) ∧
    it.Flush.1.array.Frozen = it.array.Frozen ∧
    it.Close.state.array.Frozen = it.array.Frozen := by
  cases it with
  | mem a i =>
    refine ⟨fun n => ?_, rfl, rfl⟩
    have := inMemoryIterator.Skip_state a i n
    simp only [Iterator.Skip]
    cases h : inMemoryIterator.Skip a i n with
    | ok s b =>
      rw [h] at this
      show (BigArray.mem s.1).Frozen = (BigArray.mem a).Frozen
      rw [show s.1 = a from this]
    | panic s p =>
      rw [h] at this
      show (BigArray.mem s.1).Frozen = (BigArray.mem a).Frozen
      rw [show s.1 = a from this]
  | disk a i =>
    refine ⟨fun n => ?_, ?_, ?_⟩
    · have := onDiskIterator.Skip_ro a i n
      simp only [Iterator.Skip]
      cases h : onDiskIterator.Skip a i n with
      | ok s b => rw [h] at this; exact this
      | panic s p => rw [h] at this; exact this
    · exact flushPage_ro a i.page
    · have h1 := onDiskArray.disposePage_ro (flushPage a i.page).1 i.page
      rw [flushPage_ro] at h1
      simp only [Iterator.Close, onDiskIterator.Close, onDiskIterator.Flush]
      cases h : (flushPage a i.page).1.disposePage i.page with
      | ok s u => rw [h] at h1; exact h1
      | panic s p => rw [h] at h1; exact h1

theorem Iterator.SetValue_frozen (it : Iterator) (h : it.array.Frozen = true) (v : Nat) :
    (it.SetValue v).state.array = it.array ∧
    ((∃ it2 p, it.SetValue v = .panic it2 p ∧
        (it.primed = true → it.pos < it.num → p = .readOnly)) ∨
     (it.SetValue v = .ok it () ∧ it.err ≠ none ∧ it.primed = true ∧ it.pos < it.num ∧
        ∃ a i, it = .mem a i)) := by
  cases it with
  | mem a i =>
    rcases inMemoryIterator.mem_SetValue_frozen a i v h with ⟨it2, p, h1, h2⟩ | ⟨h1, h2, h3, h4⟩
    · simp only [Iterator.SetValue, h1]
      exact ⟨rfl, Or.inl ⟨_, _, rfl, h2⟩⟩
    · have e : (Iterator.mem a i).SetValue v = .ok (.mem a i) () := by
        simp only [Iterator.SetValue, h1]
      rw [e]
      exact ⟨rfl, Or.inr ⟨rfl, h2, h3, h4, a, i, rfl⟩⟩
  | disk a i =>
    obtain ⟨p, h1, h2⟩ := onDiskIterator.disk_SetValue_frozen a i v h
    simp only [Iterator.SetValue, h1]
    exact ⟨rfl, Or.inl ⟨_, _, rfl, h2⟩⟩

theorem BigArray.Freeze_spec (ba : BigArray) (hv : ba.Valid) :
    ∃ fz, ba.Freeze = (fz, none) ∧ fz.Valid ∧ fz.Frozen = true ∧ fz.Len = ba.Len ∧
      fz.MaxValue = ba.MaxValue ∧ ∀ i, i < ba.Len → fz.valueOf i = ba.valueOf i := by
  cases ba with
  | mem a => exact ⟨.mem { a with ro := true }, rfl, hv, rfl, rfl, rfl, fun _ _ => rfl⟩
  | disk a =>
    obtain ⟨b, h1, h2, h3, h4, h5, _, _, h8, _⟩ := onDiskArray.disk_Freeze_spec hv
    refine ⟨.disk b, ?_, h2, h3, h4, h5, h8⟩
    simp only [BigArray.Freeze, h1]

theorem traverse_same (x y : BigArray) (hx : x.Valid) (hy : y.Valid) (hl : y.Len = x.Len)
    (hval : ∀ i, i < x.Len → y.valueOf i = x.valueOf i) (i j : Nat) (hij : i ≤ j)
    (hj : j ≤ x.Len) :
    (∃ it1 it2 e1 e2 l, x.Iterate i j = .ok it1 ∧ y.Iterate i j = .ok it2 ∧
      forEachLoop record (j - i + 1) it1 [] = .ok (e1, l) none ∧
      forEachLoop record (j - i + 1) it2 [] = .ok (e2, l) none) ∧
    (∃ it1 it2 e1 e2 l, x.ReverseIterate i j = .ok it1 ∧ y.ReverseIterate i j = .ok it2 ∧
      forEachLoop record (j - i + 1) it1 [] = .ok (e1, l) none ∧
      forEachLoop record (j - i + 1) it2 [] = .ok (e2, l) none) := by
  constructor
  · obtain ⟨it1, a1, a2, a3, a4, a5, a6, a7, a8⟩ := x.Iterate_spec hx i j hij hj
    obtain ⟨it2, b1, b2, b3, b4, b5, b6, b7, b8⟩ := y.Iterate_spec hy i j hij (by rw [hl]; exact hj)
    have t1 : it1.target 1 = 0 := by simp [Iterator.target, a8, a4]
    have t2 : it2.target 1 = 0 := by simp [Iterator.target, b8, b4]
    obtain ⟨e1, c1, _⟩ := forEachLoop_record (j - i) it1 a2 (by rw [t1, a5]; omega) (j - i + 1)
      (by omega) []
    obtain ⟨e2, d1, _⟩ := forEachLoop_record (j - i) it2 b2 (by rw [t2, b5]; omega) (j - i + 1)
      (by omega) []
    refine ⟨it1, it2, e1, e2, _, a1, b1, c1, ?_⟩
    rw [d1]
    congr 2
    apply List.map_congr_left
    intro k hk
    have hk2 : k < j - i := by simpa using hk
    have hi : it2.idxAt (it2.target 1 + k) = it1.idxAt (it1.target 1 + k) := by
      simp only [Iterator.idxAt, a7, a6, a5, b7, b6, b5, t1, t2]
    have hlt : it1.idxAt (it1.target 1 + k) < x.Len := by
      rw [← a3]; exact it1.idxAt_lt a2 (by rw [t1, a5]; omega)
    rw [hi, b3, a3, hval _ hlt]
  · obtain ⟨it1, a1, a2, a3, a4, a5, a6, a7, a8⟩ := x.ReverseIterate_spec hx i j hij hj
    obtain ⟨it2, b1, b2, b3, b4, b5, b6, b7, b8⟩ :=
      y.ReverseIterate_spec hy i j hij (by rw [hl]; exact hj)
    have t1 : it1.target 1 = 0 := by simp [Iterator.target, a8, a4]
    have t2 : it2.target 1 = 0 := by simp [Iterator.target, b8, b4]
    obtain ⟨e1, c1, _⟩ := forEachLoop_record (j - i) it1 a2 (by rw [t1, a5]; omega) (j - i + 1)
      (by omega) []
    obtain ⟨e2, d1, _⟩ := forEachLoop_record (j - i) it2 b2 (by rw [t2, b5]; omega) (j - i + 1)
      (by omega) []
    refine ⟨it1, it2, e1, e2, _, a1, b1, c1, ?_⟩
    rw [d1]
    congr 2
    apply List.map_congr_left
    intro k hk
    have hk2 : k < j - i := by simpa using hk
    have hi : it2.idxAt (it2.target 1 + k) = it1.idxAt (it1.target 1 + k) := by
      simp only [Iterator.idxAt, a7, a6, a5, b7, b6, b5, t1, t2]
    have hlt : it1.idxAt (it1.target 1 + k) < x.Len := by
      rw [← a3]; exact it1.idxAt_lt a2 (by rw [t1, a5]; omega)
    rw [hi, b3, a3, hval _ hlt]

/-! ## Claim C8: frozen arrays -/

/-- The frozen flag. On an array that satisfies its invariant, `Freeze()` returns
nil and `Frozen()` is then true; on every frozen array `SetValueAt`, `Truncate`
and `CopyFrom` (as destination) panic with "BigArray is read-only" for all
arguments and leave the array as it was, and `ValueAt`, `Freeze`, `Flush`,
`Close` and the iterator methods `Skip`, `Flush`, `Close` leave it frozen;
iterator `SetValue` never changes a frozen array, and it panics (with
"BigArray is read-only" when the iterator stands on an element) in every state
but one: the resident iterator that stands inside its range with an error
latched returns without doing anything; `ValueAt(i)` returns after `Freeze()`
what it returned before, for every `i`, and so does a traversal of every range
`i ≤ j ≤ Len()` in either direction (the `(Index(), Value())` pairs recorded
until `Next()` returns false, and the result of `Close()`). -/
theorem BigArray.frozen_contract (ba : BigArray) (hv : ba.Valid) :
    ∃ fz, ba.Freeze = (fz, none) ∧ fz.Frozen = true ∧
      (∀ x : BigArray, x.Frozen = true →
        (∀ i v, x.SetValueAt i v = .panic x .readOnly) ∧
        (∀ n, x.Truncate n = .panic x .readOnly) ∧
        (∀ src, x.CopyFrom src = .panic (x, src) .readOnly) ∧
        (∀ i, (x.ValueAt i).state = x) ∧ x.Freeze.1.Frozen = true ∧
        x.Flush.1.Frozen = true ∧ x.Close.state.Frozen = true) ∧
      (∀ it : Iterator, it.array.Frozen = true →
        (∀ n, (it.Skip n).state.array.Frozen = true) ∧ it.Flush.1.array.Frozen = true ∧
        it.Close.state.array.Frozen = true ∧
        ∀ v, (it.SetValue v).state.array = it.array ∧
          ((∃ it2 p, it.SetValue v = .panic it2 p ∧
              (it.primed = true → it.pos < it.num → p = .readOnly)) ∨
           (it.SetValue v = .ok it () ∧ it.err ≠ none ∧ it.primed = true ∧ it.pos < it.num ∧
              ∃ a i, it = .mem a i))) ∧
      (∀ i, ∃ r, ba.ValueAt i = .ok ba r ∧ fz.ValueAt i = .ok fz r) ∧
      (∀ i j, i ≤ j → j ≤ ba.Len →
        (∃ it1 it2 e1 e2 l, ba.Iterate i j = .ok it1 ∧ fz.Iterate i j = .ok it2 ∧
          forEachLoop record (j - i + 1) it1 [] = .ok (e1, l) none ∧
          forEachLoop record (j - i + 1) it2 [] = .ok (e2, l) none) ∧
        (∃ it1 it2 e1 e2 l, ba.ReverseIterate i j = .ok it1 ∧ fz.ReverseIterate i j = .ok it2 ∧
          forEachLoop record (j - i + 1) it1 [] = .ok (e1, l) none ∧
          forEachLoop record (j - i + 1) it2 [] = .ok (e2, l) none)) := by
  obtain ⟨fz, h1, h2, h3, h4, _, h6⟩ := ba.Freeze_spec hv
  refine ⟨fz, h1, h3, ?_, ?_, ?_, ?_⟩
  · intro x hx
    obtain ⟨r1, r2, r3⟩ := x.frozen_rejects hx
    obtain ⟨_, s2, s3, s4⟩ := x.frozen_stays
    exact ⟨r1, r2, r3, x.ValueAt_state, s2, by rw [s3, hx], by rw [s4, hx]⟩
  · intro it hit
    obtain ⟨s1, s2, s3⟩ := it.iter_frozen_stays
    exact ⟨fun n => by rw [s1, hit], by rw [s2, hit], by rw [s3, hit],
      fun v => it.SetValue_frozen hit v⟩
  · intro i
    by_cases hi : i < ba.Len
    · refine ⟨(ba.valueOf i, none), ba.ValueAt_eq hv hi, ?_⟩
      rw [fz.ValueAt_eq h2 (by rw [h4]; exact hi), h6 i hi]
    · exact ⟨(noValue, some .EOF), ba.ValueAt_eof (by omega), fz.ValueAt_eof (by rw [h4]; omega)⟩
  · intro i j hij hj
    exact traverse_same ba fz hv h2 h4 h6 i j hij hj

/-- Example of `BigArray.frozen_contract` on a disk-backed array with a dirty cached page. -/
theorem frozen_contract_example :
    ∃ fz, exampleDiskCached.Freeze = (fz, none) ∧ fz.Frozen = true ∧
      (∀ x : BigArray, x.Frozen = true →
        (∀ i v, x.SetValueAt i v = .panic x .readOnly) ∧
        (∀ n, x.Truncate n = .panic x .readOnly) ∧
        (∀ src, x.CopyFrom src = .panic (x, src) .readOnly) ∧
        (∀ i, (x.ValueAt i).state = x) ∧ x.Freeze.1.Frozen = true ∧
        x.Flush.1.Frozen = true ∧ x.Close.state.Frozen = true) ∧
      (∀ it : Iterator, it.array.Frozen = true →
        (∀ n, (it.Skip n).state.array.Frozen = true) ∧ it.Flush.1.array.Frozen = true ∧
        it.Close.state.array.Frozen = true ∧
        ∀ v, (it.SetValue v).state.array = it.array ∧
          ((∃ it2 p, it.SetValue v = .panic it2 p ∧
              (it.primed = true → it.pos < it.num → p = .readOnly)) ∨
           (it.SetValue v = .ok it () ∧ it.err ≠ none ∧ it.primed = true ∧ it.pos < it.num ∧
              ∃ a i, it = .mem a i))) ∧
      (∀ i, ∃ r, exampleDiskCached.ValueAt i = .ok exampleDiskCached r ∧ fz.ValueAt i = .ok fz r) ∧
      (∀ i j, i ≤ j → j ≤ exampleDiskCached.Len →
        (∃ it1 it2 e1 e2 l, exampleDiskCached.Iterate i j = .ok it1 ∧ fz.Iterate i j = .ok it2 ∧
          forEachLoop record (j - i + 1) it1 [] = .ok (e1, l) none ∧
          forEachLoop record (j - i + 1) it2 [] = .ok (e2, l) none) ∧
        (∃ it1 it2 e1 e2 l, exampleDiskCached.ReverseIterate i j = .ok it1 ∧ fz.ReverseIterate i j = .ok it2 ∧
          forEachLoop record (j - i + 1) it1 [] = .ok (e1, l) none ∧
          forEachLoop record (j - i + 1) it2 [] = .ok (e2, l) none)) :=
  BigArray.frozen_contract exampleDiskCached (by decide)

/-- Claim C8 fails for the resident iterator with a latched error. After `Freeze()`
of a resident array of four elements, the iterator of `Iterate(0, 5)` advanced
by `Skip(5)` lands on index 4, latches `io.EOF` and still stands inside its
range; its `SetValue(5)` returns normally instead of panicking. The paged-disk
iterator in the same state on a frozen array panics with "BigArray is
read-only": it tests the frozen flag before the latched error. -/
theorem C8_latched_setvalue_returns :
    (∃ fz it0 it1, exampleMem.Freeze = (fz, none) ∧ fz.Frozen = true ∧
      fz.Iterate 0 5 = .ok it0 ∧ it0.Skip 5 = .ok it1 false ∧ it1.Err = some .EOF ∧
      it1.primed = true ∧ it1.pos = 4 ∧ it1.num = 5 ∧
      it1.SetValue 5 = .ok it1 ()) ∧
    (∃ fz, exampleOnDisk.Freeze = (fz, none) ∧ fz.Frozen = true ∧
      onDiskIterator.SetValue fz
        { page := none, err := some .EOF, base := 0, pos := 4, num := 5, val := noValue,
          primed := true, down := false } 5 =
      .panic (fz, { page := none, err := some .EOF, base := 0, pos := 4, num := 5,
                    val := noValue, primed := true, down := false }) .readOnly) :=
  ⟨⟨_, _, _, rfl, rfl, rfl, rfl, rfl, rfl, rfl, rfl, rfl⟩, ⟨_, rfl, rfl, rfl⟩⟩

/-! ## Claim C11: width and bound -/

/-- Claim C11. For every 64-bit `m`, `calcMaxToBPV(m)` is a width of 1, 2, 4, 8 whose
bound `calcBPVToMax` covers `m`, and no width with a bound that covers `m` is
smaller; `calcBPVToMax(w)` is `2^(8w) - 1` for `w` in 1, 2, 4, 8 and panics
with "BUG" for any other `w`; and `calcMaxToBPV(calcBPVToMax(w)) = w`. -/
theorem C11_width_for_bound (m : Nat) (hm : m < 2 ^ 64) :
    (∃ b, calcBPVToMax (calcMaxToBPV m) = .ok b ∧ m ≤ b) ∧
    (∀ w b, calcBPVToMax w = .ok b → m ≤ b → calcMaxToBPV m ≤ w) ∧
    (∀ w, w = 1 ∨ w = 2 ∨ w = 4 ∨ w = 8 →
      calcBPVToMax w = .ok (2 ^ (8 * w) - 1) ∧ calcMaxToBPV (2 ^ (8 * w) - 1) = w) ∧
    (∀ w, ¬ (w = 1 ∨ w = 2 ∨ w = 4 ∨ w = 8) → calcBPVToMax w = .error .BUG) := by
  refine ⟨?_, ?_, ?_, ?_⟩
  · unfold calcMaxToBPV
    split
    · exact ⟨_, rfl, by assumption⟩
    · split
      · exact ⟨_, rfl, by assumption⟩
      · split
        · exact ⟨_, rfl, by assumption⟩
        · exact ⟨_, rfl, by omega⟩
  · intro w b hw hb
    obtain ⟨hw1, hb1⟩ := calcBPVToMax_ok hw
    subst hb1
    unfold calcMaxToBPV
    rcases hw1 with rfl | rfl | rfl | rfl <;> (repeat' split) <;> omega
  · intro w hw
    rcases hw with rfl | rfl | rfl | rfl <;> exact ⟨rfl, by decide⟩
  · intro w hw
    simp only [not_or] at hw
    obtain ⟨h1, h2, h4, h8⟩ := hw
    unfold calcBPVToMax
    split <;> first | rfl | contradiction

/-- Witness of C11 at the bound 255 + 1, whose width is 2. -/
theorem C11_width_for_bound_witness :
    (∃ b, calcBPVToMax (calcMaxToBPV 256) = .ok b ∧ 256 ≤ b) ∧
    (∀ w b, calcBPVToMax w = .ok b → 256 ≤ b → calcMaxToBPV 256 ≤ w) ∧
    (∀ w, w = 1 ∨ w = 2 ∨ w = 4 ∨ w = 8 →
      calcBPVToMax w = .ok (2 ^ (8 * w) - 1) ∧ calcMaxToBPV (2 ^ (8 * w) - 1) = w) ∧
    (∀ w, ¬ (w = 1 ∨ w = 2 ∨ w = 4 ∨ w = 8) → calcBPVToMax w = .error .BUG) :=
  C11_width_for_bound 256 (by decide)

/-! ## Repeated Next and Skip -/

theorem Iterator.Value_exhausted (it : Iterator) (hp : it.primed = true)
    (hge : it.num ≤ it.pos) : it.Value = .error .exhausted := by
  cases it with
  | mem a i =>
    simp only [Iterator.primed, Iterator.pos, Iterator.num] at hp hge
    simp only [Iterator.Value, inMemoryIterator.Value]
    rw [if_neg (by simp [hp]), if_pos hge]
  | disk a i =>
    simp only [Iterator.primed, Iterator.pos, Iterator.num] at hp hge
    simp only [Iterator.Value, onDiskIterator.Value]
    rw [if_neg (by simp [hp]), if_pos hge]

theorem Iterator.Err_of_OK (it : Iterator) (hok : it.OK) : it.Err = none := by
  cases it with
  | mem a i => exact hok.2.1
  | disk a i => exact hok.2.1

theorem nextTimes_done (n : Nat) (it : Iterator) (hok : it.OK) (hn : 0 < n)
    (hge : it.num ≤ it.target n) :
    ∃ it2, nextTimes n it = .ok it2 false ∧ it2.OK ∧ it.array.Same it2.array ∧
      it2.pos = it.num ∧ it2.num = it.num ∧ it2.base = it.base ∧ it2.down = it.down ∧
      it2.primed = true := by
  induction n generalizing it with
  | zero => omega
  | succ n ih =>
    by_cases h1 : it.num ≤ it.target 1
    · obtain ⟨it1, a1, a2, a3, a4, a5, a6, a7, a8, _⟩ :=
        it.Skip_done hok 1 (Or.inl Nat.one_pos) h1
      by_cases hn0 : n = 0
      · subst hn0
        refine ⟨it1, ?_, a2, by rw [a3]; exact BigArray.Same.refl _, a4, a5, a6, a7, a8⟩
        simp only [nextTimes, Iterator.Next_eq, a1, if_true]
      · obtain ⟨it2, b1, b2, b3, b4, b5, b6, b7, b8⟩ := ih it1 a2 (by omega)
          (by rw [Iterator.target_of_primed a8, a4, a5]; omega)
        refine ⟨it2, ?_, b2, by rw [← a3]; exact b3, by rw [b4, a5], by rw [b5, a5],
          by rw [b6, a6], by rw [b7, a7], b8⟩
        simp only [nextTimes, Iterator.Next_eq, a1, if_neg hn0]
        exact b1
    · obtain ⟨it1, a1, a2, a3, a4, a5, a6, a7, a8, _, _⟩ :=
        it.Skip_more hok 1 (Or.inl Nat.one_pos) (by omega)
      have hn0 : n ≠ 0 := by
        intro h; subst h; exact h1 hge
      have ht : it1.target n = it.target (n + 1) := by
        rw [Iterator.target_of_primed a8, a4]
        simp only [Iterator.target]
        split <;> omega
      obtain ⟨it2, b1, b2, b3, b4, b5, b6, b7, b8⟩ := ih it1 a2 (by omega)
        (by rw [ht, a5]; exact hge)
      refine ⟨it2, ?_, b2, a3.trans b3, by rw [b4, a5], by rw [b5, a5],
        by rw [b6, a6], by rw [b7, a7], b8⟩
      simp only [nextTimes, Iterator.Next_eq, a1, if_neg hn0]
      exact b1

theorem nextTimes_more (n : Nat) (it : Iterator) (hok : it.OK) (hn : 0 < n)
    (hlt : it.target n < it.num) :
    ∃ it2, nextTimes n it = .ok it2 true ∧ it2.OK ∧ it.array.Same it2.array ∧
      it2.pos = it.target n ∧ it2.num = it.num ∧ it2.base = it.base ∧ it2.down = it.down ∧
      it2.primed = true ∧ it2.val = it.array.valueOf it2.idx ∧ it2.idx < it.array.Len := by
  induction n generalizing it with
  | zero => omega
  | succ n ih =>
    have h1 : it.target 1 < it.num := by
      simp only [Iterator.target] at hlt ⊢
      split at hlt <;> simp_all <;> omega
    obtain ⟨it1, a1, a2, a3, a4, a5, a6, a7, a8, a9, a10⟩ :=
      it.Skip_more hok 1 (Or.inl Nat.one_pos) h1
    by_cases hn0 : n = 0
    · subst hn0
      refine ⟨it1, ?_, a2, a3, a4, a5, a6, a7, a8, a9, a10⟩
      simp only [nextTimes, Iterator.Next_eq, a1, if_true]
    · have ht : it1.target n = it.target (n + 1) := by
        rw [Iterator.target_of_primed a8, a4]
        simp only [Iterator.target]
        split <;> omega
      obtain ⟨it2, b1, b2, b3, b4, b5, b6, b7, b8, b9, b10⟩ := ih it1 a2 (by omega)
        (by rw [ht, a5]; exact hlt)
      have hl : it2.idx < it.array.Len := by rw [← a3.1]; exact b10
      refine ⟨it2, ?_, b2, a3.trans b3, by rw [b4, ht], by rw [b5, a5],
        by rw [b6, a6], by rw [b7, a7], b8, ?_, hl⟩
      · simp only [nextTimes, Iterator.Next_eq, a1, if_neg hn0]
        exact b1
      · rw [b9, a3.2.2.2 _ hl]

/-! ## Claim C12: Skip and repeated Next -/

theorem Iterator.idx_congr {it1 it2 : Iterator} (h1 : it2.pos = it1.pos) (h2 : it2.num = it1.num)
    (h3 : it2.base = it1.base) (h4 : it2.down = it1.down) : it2.idx = it1.idx := by
  simp only [Iterator.idx, h1, h2, h3, h4]

theorem Iterator.Skip_latched (it : Iterator) (he : it.err ≠ none) (hp : it.pos ≤ it.num)
    (n : Nat) (hn : 0 < n) : it.Skip n = .ok it false := by
  cases it with
  | mem a i =>
    simp only [Iterator.err, Iterator.pos, Iterator.num] at he hp
    simp only [Iterator.Skip, inMemoryIterator.Skip]
    rw [if_neg (by omega), if_neg (by omega), if_pos he]
  | disk a i =>
    simp only [Iterator.err, Iterator.pos, Iterator.num] at he hp
    simp only [Iterator.Skip, onDiskIterator.Skip]
    rw [if_neg (by omega), if_neg (by omega), if_pos he]

theorem nextTimes_latched (it : Iterator) (he : it.err ≠ none) (hp : it.pos ≤ it.num)
    (n : Nat) (hn : 0 < n) : nextTimes n it = .ok it false := by
  induction n with
  | zero => omega
  | succ n ih =>
    simp only [nextTimes, Iterator.Next_eq, it.Skip_latched he hp 1 Nat.one_pos]
    split
    · rfl
    · exact ih (by omega)

/-- For an iterator of either kind and direction whose range lies inside the array
(and whose array satisfies its invariant), in every state without a latched
error, and every `n ≥ 1`: `Skip(n)` and `n` calls of `Next()` both return, with
the same boolean, the same `Err()` (nil) and the same results of `Index()` and
`Value()` (the same panic when the iterator is exhausted); and on every
iterator with a latched error, whatever its range, both return false and
leave the iterator as it was. -/
theorem Iterator.Skip_eq_nextTimes (it : Iterator) (n : Nat) (hn : 1 ≤ n) :
    (it.OK → ∃ s1 s2 b, it.Skip n = .ok s1 b ∧ nextTimes n it = .ok s2 b ∧
      s1.Err = none ∧ s2.Err = none ∧ s1.Index = s2.Index ∧ s1.Value = s2.Value) ∧
    (it.err ≠ none → it.pos ≤ it.num →
      it.Skip n = .ok it false ∧ nextTimes n it = .ok it false) := by
  refine ⟨fun hok => ?_, fun he hp => ⟨it.Skip_latched he hp n hn, nextTimes_latched it he hp n hn⟩⟩
  by_cases hlt : it.target n < it.num
  · obtain ⟨s1, a1, a2, a3, a4, a5, a6, a7, a8, a9, _⟩ :=
      it.Skip_more hok n (Or.inl hn) hlt
    obtain ⟨s2, b1, b2, b3, b4, b5, b6, b7, b8, b9, _⟩ := nextTimes_more n it hok hn hlt
    have hidx : s2.idx = s1.idx :=
      Iterator.idx_congr (by rw [b4, a4]) (by rw [b5, a5]) (by rw [b6, a6]) (by rw [b7, a7])
    have hl1 : s1.pos < s1.num := by rw [a4, a5]; exact hlt
    have hl2 : s2.pos < s2.num := by rw [b4, b5]; exact hlt
    refine ⟨s1, s2, true, a1, b1, s1.Err_of_OK a2, s2.Err_of_OK b2, ?_, ?_⟩
    · rw [s1.Index_eq a2 a8 hl1, s2.Index_eq b2 b8 hl2, hidx]
    · rw [s1.Value_eq a8 hl1, s2.Value_eq b8 hl2, a9, b9, hidx]
  · obtain ⟨s1, a1, a2, a3, a4, a5, a6, a7, a8, _⟩ :=
      it.Skip_done hok n (Or.inl hn) (by omega)
    obtain ⟨s2, b1, b2, b3, b4, b5, b6, b7, b8⟩ := nextTimes_done n it hok hn (by omega)
    refine ⟨s1, s2, false, a1, b1, s1.Err_of_OK a2, s2.Err_of_OK b2, ?_, ?_⟩
    · rw [s1.Index_exhausted a8 (by rw [a4, a5]), s2.Index_exhausted b8 (by rw [b4, b5])]
    · rw [s1.Value_exhausted a8 (by rw [a4, a5]), s2.Value_exhausted b8 (by rw [b4, b5])]

theorem exampleIter_OK : exampleIter.OK := by
  refine ⟨by decide, rfl, by decide, by decide, ?_, ?_⟩
  · intro k h; cases h
  · intro h; cases h

/-- Claim C12 fails where the range reaches past the array: on a resident array of
four elements the iterator of `ReverseIterate(0, 6)` starts past the end; `Skip(3)`
jumps to index 3 and returns true, while the first of three `Next()` calls
lands on index 5, latches `io.EOF`, and all three return false. -/
theorem C12_skip_differs_past_the_end :
    ∃ it s1 s2, exampleMem.ReverseIterate 0 6 = .ok it ∧
      it.Skip 3 = .ok s1 true ∧ s1.Err = none ∧ s1.Index = .ok 3 ∧
      nextTimes 3 it = .ok s2 false ∧ s2.Err = some .EOF :=
  ⟨_, _, _, rfl, rfl, rfl, rfl, rfl, rfl⟩

/-! ## Claim C13: Skip on a fresh iterator -/

theorem Iterator.Skip_zero_unprimed (it : Iterator) (hp : it.primed = false)
    (hpos : it.pos ≤ it.num) : it.Skip 0 = .panic it .notPrimed := by
  cases it with
  | mem a i =>
    simp only [Iterator.primed, Iterator.pos, Iterator.num] at hp hpos
    simp only [Iterator.Skip, inMemoryIterator.Skip]
    rw [if_neg (by omega), if_pos ⟨trivial, hp⟩]
  | disk a i =>
    simp only [Iterator.primed, Iterator.pos, Iterator.num] at hp hpos
    simp only [Iterator.Skip, onDiskIterator.Skip]
    rw [if_neg (by omega), if_pos ⟨trivial, hp⟩]

theorem Iterator.fresh_skip (ba : BigArray) (hv : ba.Valid) (it : Iterator) (hok : it.OK)
    (harr : it.array = ba) (hpos : it.pos = 0) (hpr : it.primed = false) (k : Nat) :
    (1 ≤ k → k ≤ it.num →
      ∃ it2 v, it.Skip k = .ok it2 true ∧ it2.Index = .ok (it.idxAt (k - 1)) ∧
        it2.Value = .ok v ∧ ba.ValueAt (it.idxAt (k - 1)) = .ok ba (v, none)) ∧
    (it.num < k →
      ∃ it2, it.Skip k = .ok it2 false ∧ it2.Err = none ∧ it2.pos = it2.num ∧
        it2.Index = .error .exhausted ∧ it2.Value = .error .exhausted) ∧
    it.Skip 0 = .panic it .notPrimed := by
  have ht : it.target k = k - 1 := by simp [Iterator.target, hpr, hpos]
  refine ⟨fun h1 h2 => ?_, fun h1 => ?_, it.Skip_zero_unprimed hpr (by omega)⟩
  · obtain ⟨it2, a1, a2, a3, a4, a5, a6, a7, a8, a9, a10⟩ :=
      it.Skip_more hok k (Or.inl h1) (by omega)
    have hl : it2.pos < it2.num := by rw [a4, a5, ht]; omega
    have hidx : it2.idx = it.idxAt (k - 1) := by
      rw [it2.idx_eq_idxAt, a4, ht, Iterator.idxAt_congr a5 a6 a7]
    rw [harr] at a9 a10
    refine ⟨it2, it2.val, a1, ?_, it2.Value_eq a8 hl, ?_⟩
    · rw [it2.Index_eq a2 a8 hl, hidx]
    · rw [← hidx, ba.ValueAt_eq hv a10, a9]
  · obtain ⟨it2, a1, a2, a3, a4, a5, a6, a7, a8, _⟩ :=
      it.Skip_done hok k (Or.inl (by omega)) (by omega)
    refine ⟨it2, a1, ?_, by rw [a4, a5], it2.Index_exhausted a8 (by rw [a4, a5]), ?_⟩
    · cases it2 with
      | mem a i => exact a2.2.1
      | disk a i => exact a2.2.1
    · cases it2 with
      | mem a i =>
        simp only [Iterator.primed, Iterator.pos, Iterator.num] at a8 a4 a5
        simp only [Iterator.Value, inMemoryIterator.Value]
        rw [if_neg (by simp [a8]), if_pos (by omega)]
      | disk a i =>
        simp only [Iterator.primed, Iterator.pos, Iterator.num] at a8 a4 a5
        simp only [Iterator.Value, onDiskIterator.Value]
        rw [if_neg (by simp [a8]), if_pos (by omega)]

/-- Claim C13, amended. For both iterator kinds, on an array that satisfies its
invariant (the store of a paged-disk array holds its `N * W` bytes), the
fresh iterator over `[i, j)` with `i ≤ j ≤ Len()` and every `k`: if `1 ≤ k ≤ j - i` then `Skip(k)` returns true,
`Index()` is `i + k - 1` ascending and `j - k` descending, and `Value()` is the
value `ValueAt` returns for that index; if `k > j - i` then `Skip(k)` returns
false without an error and the iterator is exhausted (`Index()` and `Value()`
panic); and `Skip(0)` panics with "must call Next() before Skip(0)". -/
theorem C13_skip_from_unprimed (ba : BigArray) (hv : ba.Valid) (i j : Nat) (hij : i ≤ j)
    (hj : j ≤ ba.Len) (k : Nat) :
    (∃ it, ba.Iterate i j = .ok it ∧
      (1 ≤ k → k ≤ j - i →
        ∃ it2 v, it.Skip k = .ok it2 true ∧ it2.Index = .ok (i + k - 1) ∧
          it2.Value = .ok v ∧ ba.ValueAt (i + k - 1) = .ok ba (v, none)) ∧
      (j - i < k →
        ∃ it2, it.Skip k = .ok it2 false ∧ it2.Err = none ∧ it2.pos = it2.num ∧
          it2.Index = .error .exhausted ∧ it2.Value = .error .exhausted) ∧
      it.Skip 0 = .panic it .notPrimed) ∧
    (∃ it, ba.ReverseIterate i j = .ok it ∧
      (1 ≤ k → k ≤ j - i →
        ∃ it2 v, it.Skip k = .ok it2 true ∧ it2.Index = .ok (j - k) ∧
          it2.Value = .ok v ∧ ba.ValueAt (j - k) = .ok ba (v, none)) ∧
      (j - i < k →
        ∃ it2, it.Skip k = .ok it2 false ∧ it2.Err = none ∧ it2.pos = it2.num ∧
          it2.Index = .error .exhausted ∧ it2.Value = .error .exhausted) ∧
      it.Skip 0 = .panic it .notPrimed) := by
  constructor
  · obtain ⟨it, h1, h2, h3, h4, h5, h6, h7, h8⟩ := ba.Iterate_spec hv i j hij hj
    obtain ⟨f1, f2, f3⟩ := Iterator.fresh_skip ba hv it h2 h3 h4 h8 k
    rw [h5] at f1 f2
    refine ⟨it, h1, fun a b => ?_, f2, f3⟩
    have e : it.idxAt (k - 1) = i + k - 1 := by
      simp only [Iterator.idxAt, h7, h6, Bool.false_eq_true, if_false]
      clear f1 f2 f3 h1 h2; omega
    rw [← e]; exact f1 a b
  · obtain ⟨it, h1, h2, h3, h4, h5, h6, h7, h8⟩ := ba.ReverseIterate_spec hv i j hij hj
    obtain ⟨f1, f2, f3⟩ := Iterator.fresh_skip ba hv it h2 h3 h4 h8 k
    rw [h5] at f1 f2
    refine ⟨it, h1, fun a b => ?_, f2, f3⟩
    have e : it.idxAt (k - 1) = j - k := by
      simp only [Iterator.idxAt, h7, h6, h5, if_true]
      clear f1 f2 f3 h1 h2; omega
    rw [← e]; exact f1 a b

/-- Witness of C13 on the range `[1, 4)` of a disk-backed array, `k = 2`. -/
theorem C13_skip_from_unprimed_witness :
    (∃ it, exampleDisk.Iterate 1 4 = .ok it ∧
      (1 ≤ 2 → 2 ≤ 4 - 1 →
        ∃ it2 v, it.Skip 2 = .ok it2 true ∧ it2.Index = .ok (1 + 2 - 1) ∧
          it2.Value = .ok v ∧ exampleDisk.ValueAt (1 + 2 - 1) = .ok exampleDisk (v, none)) ∧
      (4 - 1 < 2 →
        ∃ it2, it.Skip 2 = .ok it2 false ∧ it2.Err = none ∧ it2.pos = it2.num ∧
          it2.Index = .error .exhausted ∧ it2.Value = .error .exhausted) ∧
      it.Skip 0 = .panic it .notPrimed) ∧
    (∃ it, exampleDisk.ReverseIterate 1 4 = .ok it ∧
      (1 ≤ 2 → 2 ≤ 4 - 1 →
        ∃ it2 v, it.Skip 2 = .ok it2 true ∧ it2.Index = .ok (4 - 2) ∧
          it2.Value = .ok v ∧ exampleDisk.ValueAt (4 - 2) = .ok exampleDisk (v, none)) ∧
      (4 - 1 < 2 →
        ∃ it2, it.Skip 2 = .ok it2 false ∧ it2.Err = none ∧ it2.pos = it2.num ∧
          it2.Index = .error .exhausted ∧ it2.Value = .error .exhausted) ∧
      it.Skip 0 = .panic it .notPrimed) :=
  C13_skip_from_unprimed exampleDisk (by decide) 1 4 (by decide) (by decide) 2

/-- Counterexample to C13 as stated. On the paged-disk array `New` returns over an
empty file, the fresh iterator of `Iterate(0, 4)` advanced by `Skip(2)` returns
true with `Index() = 1`, no error and `Value() = 0`, a value read from the
part of the page buffer that lies past the empty window; no element is stored
at index 1: `ValueAt(1)` returns `io.EOF`, before the traversal and after the
iterator is closed. -/
theorem C13_short_store_skip :
    New [NumValues 4, MaxValue 1000, PageSize 4, WithFile exampleEmptyFile] =
      .ok (some (.disk exampleShort), none) ∧
    (BigArray.disk exampleShort).ValueAt 1 = .ok (.disk exampleShort) (noValue, some .EOF) ∧
    ∃ it it2 it3, (BigArray.disk exampleShort).Iterate 0 4 = .ok it ∧
      it.Skip 2 = .ok it2 true ∧ it2.Index = .ok 1 ∧ it2.Value = .ok 0 ∧ it2.Err = none ∧
      it2.Close = .ok it3 none ∧
      it3.array.ValueAt 1 = .ok it3.array (noValue, some .EOF) :=
  ⟨rfl, rfl, _, _, _, rfl, rfl, rfl, rfl, rfl, rfl, rfl⟩

/-! ## Claim C14: Value after SetValue -/

/-- Claim C14 fails on the paged-disk iterator: on a disk-backed array holding
`0, 7, 0, 9`, the iterator of `Iterate(0, 4)` advanced by `Skip(2)` stands on
index 1 with `Value() = 7`; after `SetValue(5)` the element is 5 (as `ValueAt(1)`
shows) and `Index()` is still 1, but `Value()` still returns 7. -/
theorem C14_disk_value_stale :
    ∃ it0 it1 it2, exampleDisk.Iterate 0 4 = .ok it0 ∧ it0.Skip 2 = .ok it1 true ∧
      it1.Index = .ok 1 ∧ it1.Value = .ok 7 ∧ it1.SetValue 5 = .ok it2 () ∧
      it2.Index = .ok 1 ∧ it2.Value = .ok 7 ∧ it2.array.ValueAt 1 = .ok it2.array (5, none) :=
  ⟨_, _, _, rfl, rfl, rfl, rfl, rfl, rfl, rfl, rfl⟩

/-- On the resident iterator, after `SetValue(v)` on an element,
`Value()` returns `v` and `Index()` is unchanged. -/
theorem inMemoryIterator.value_after_set {a : inMemoryArray} {it : inMemoryIterator}
    (hok : (Iterator.mem a it).OK) (hp : it.primed = true) (hlt : it.pos < it.num)
    (hro : a.ro = false) (v : Nat) (hvm : v ≤ a.max) :
    ∃ a2 it2, inMemoryIterator.SetValue a it v = .ok (a2, it2) () ∧ it2.Value = .ok v ∧
      it2.Index = it.Index := by
  refine ⟨_, _, inMemoryIterator.mem_SetValue_spec hok hp hlt hro v hvm, ?_, ?_⟩
  · simp only [inMemoryIterator.Value]
    rw [if_neg (by simp [hp]), if_neg (by omega)]
  · rfl

/-! ## Claim C15: visibility of iterator writes -/

theorem onDiskIterator.written_value {a : onDiskArray} {it : onDiskIterator}
    (hok : (Iterator.disk a it).OK) (hp : it.primed = true) (hlt : it.pos < it.num)
    (hro : a.ro = false) (v : Nat) (hvm : v ≤ a.max) :
    let i := (Iterator.disk a it).idx
    let a1 := a.writeCached i (leBytes a.bpv v)
    a1.Valid ∧ a1.num = a.num ∧ a1.f = a.f ∧ a1.valueOf i = v := by
  intro i a1
  have hin : i < a.num := onDiskIterator.disk_idx_lt hok hlt
  obtain ⟨hok1, hpage, pg, hk, hk1⟩ := onDiskIterator.written_page hok hp hlt hro v
  have hv := hok.1
  refine ⟨hok1.1, rfl, rfl, ?_⟩
  have hb := onDiskArray.writeCached_byteAt hv hin (leBytes a.bpv v) (leBytes_length _ _) hk
  rw [onDiskArray.valueOf_set_same a a1 i (leBytes a.bpv v) rfl (leBytes_length _ _) hb]
  exact leValue_leBytes_of_le hv.1 hv.2.1 hvm

/-- Claim C15, amended. On a paged-disk array that satisfies its invariant (its store
holds its `N * W` bytes) and is not frozen, when an iterator standing on index `i` calls `SetValue(v)` with
`v ≤ MaxValue()`, the store is left as it was, yet `ValueAt(i)` returns `v` at
once (it reads the cached page), and it still returns `v` after the iterator
`Flush()` or `Close()`, both of which return nil. -/
theorem C15_visible_at_once (a : onDiskArray) (it : onDiskIterator)
    (hok : (Iterator.disk a it).OK) (hp : it.primed = true) (hlt : it.pos < it.num)
    (hro : a.ro = false) (v : Nat) (hvm : v ≤ a.max) :
    ∃ a1, onDiskIterator.SetValue a it v = .ok (a1, it) () ∧ a1.f = a.f ∧
      a1.ValueAt (Iterator.disk a it).idx = .ok a1 (v, none) ∧
      (∃ a2, onDiskIterator.Flush a1 it = (a2, none) ∧
        a2.ValueAt (Iterator.disk a it).idx = .ok a2 (v, none)) ∧
      (∃ a3, onDiskIterator.Close a1 it = .ok (a3, onDiskIterator.closed) none ∧
        a3.ValueAt (Iterator.disk a it).idx = .ok a3 (v, none)) := by
  have hin := onDiskIterator.disk_idx_lt hok hlt
  have hset := onDiskIterator.disk_SetValue_spec hok hp hlt hro v hvm
  obtain ⟨hok1, _⟩ := onDiskIterator.written_page hok hp hlt hro v
  obtain ⟨hv1, hn1, hf1, hval1⟩ := onDiskIterator.written_value hok hp hlt hro v hvm
  generalize (Iterator.disk a it).idx = i at *
  generalize a.writeCached i (leBytes a.bpv v) = a1 at *
  have hin1 : i < a1.num := by rw [hn1]; exact hin
  refine ⟨a1, hset, hf1, ?_, ?_, ?_⟩
  · rw [onDiskArray.disk_ValueAt_eq hv1 hin1, hval1]
  · obtain ⟨b, hb1, hb2, hb3, _⟩ := onDiskIterator.Flush_spec hok1
    refine ⟨b, hb1, ?_⟩
    rw [onDiskArray.disk_ValueAt_eq hb2 (by rw [hb3.1]; exact hin1), hb3.valueOf hv1 hin1, hval1]
  · obtain ⟨b, hb1, hb2, hb3, _⟩ := onDiskIterator.disk_Close_spec hok1
    refine ⟨b, hb1, ?_⟩
    rw [onDiskArray.disk_ValueAt_eq hb2 (by rw [hb3.1]; exact hin1), hb3.valueOf hv1 hin1, hval1]

theorem exampleIterAt2_OK : (Iterator.disk exampleOnDiskCached exampleIterAt2).OK := by
  refine ⟨by decide, rfl, by decide, by decide, ?_, ?_⟩
  · intro k h; cases h; decide
  · intro _ _; decide

/-- Witness of the amended C15: index 2 of a four-element array, value 300. -/
theorem C15_visible_at_once_witness :
    ∃ a1, onDiskIterator.SetValue exampleOnDiskCached exampleIterAt2 300 =
        .ok (a1, exampleIterAt2) () ∧ a1.f = exampleOnDiskCached.f ∧
      a1.ValueAt (Iterator.disk exampleOnDiskCached exampleIterAt2).idx = .ok a1 (300, none) ∧
      (∃ a2, onDiskIterator.Flush a1 exampleIterAt2 = (a2, none) ∧
        a2.ValueAt (Iterator.disk exampleOnDiskCached exampleIterAt2).idx =
          .ok a2 (300, none)) ∧
      (∃ a3, onDiskIterator.Close a1 exampleIterAt2 = .ok (a3, onDiskIterator.closed) none ∧
        a3.ValueAt (Iterator.disk exampleOnDiskCached exampleIterAt2).idx =
          .ok a3 (300, none)) :=
  C15_visible_at_once exampleOnDiskCached exampleIterAt2 exampleIterAt2_OK rfl (by decide) rfl
    300 (by decide)

/-- Counterexample to C15 as stated: on a disk-backed array holding `0, 7, 0, 9`
an iterator standing on index 1 calls `SetValue(5)`; without any `Flush()`,
`Close()` or page change, `ValueAt(1)` already returns 5 and not 7. -/
theorem C15_visible_before_flush :
    ∃ it0 it1 it2, exampleDisk.Iterate 0 4 = .ok it0 ∧ it0.Skip 2 = .ok it1 true ∧
      it1.Index = .ok 1 ∧ it1.array.ValueAt 1 = .ok it1.array (7, none) ∧
      it1.SetValue 5 = .ok it2 () ∧ it2.array.ValueAt 1 = .ok it2.array (5, none) :=
  ⟨_, _, _, rfl, rfl, rfl, rfl, rfl, rfl⟩

/-! ## Claim C16: SetValue writes to the cached page only -/

/-- Iterator writes stay in the cache. On a paged-disk array that satisfies its
invariant (its store holds its `N * W` bytes) and is not frozen,
`SetValue(v)` of an iterator standing on an element, with `v ≤ MaxValue()`,
leaves the backing store as it was; the cell of the element lies inside the
window of the attached page, at offset `Index() * W - page.off`; after the
call that cell holds the little-endian bytes of `v`, every other byte of the
page is unchanged, the page is dirty and its offset, window length and
reference count are unchanged, as is every other cache entry; and the
iterator `Flush()` that follows returns nil and puts the bytes into the
store. -/
theorem onDiskIterator.SetValue_cached_only (a : onDiskArray) (it : onDiskIterator)
    (hok : (Iterator.disk a it).OK) (hp : it.primed = true) (hlt : it.pos < it.num)
    (hro : a.ro = false) (v : Nat) (hvm : v ≤ a.max) :
    ∃ a1 pg pg1, onDiskIterator.SetValue a it v = .ok (a1, it) () ∧ a1.f = a.f ∧
      it.page = some pg.off ∧ cacheGet a.cache pg.off = some pg ∧
      cacheGet a1.cache pg.off = some pg1 ∧
      pg.off ≤ (Iterator.disk a it).idx * a.bpv ∧
      (Iterator.disk a it).idx * a.bpv - pg.off + a.bpv ≤ pg.len ∧
      pg1.dirty = true ∧ pg1.off = pg.off ∧ pg1.len = pg.len ∧ pg1.refcnt = pg.refcnt ∧
      pg1.data.length = pg.data.length ∧
      (∀ t, t < a.bpv →
        pg1.data.getD ((Iterator.disk a it).idx * a.bpv - pg.off + t) 0 = v / 256 ^ t % 256) ∧
      (∀ q, ¬ ((Iterator.disk a it).idx * a.bpv - pg.off ≤ q ∧
          q < (Iterator.disk a it).idx * a.bpv - pg.off + a.bpv) →
        pg1.data.getD q 0 = pg.data.getD q 0) ∧
      (∀ k2, k2 ≠ pg.off → cacheGet a1.cache k2 = cacheGet a.cache k2) ∧
      ∃ a2, onDiskIterator.Flush a1 it = (a2, none) ∧
        ∀ t, t < a.bpv →
          a2.f.bytes.getD ((Iterator.disk a it).idx * a.bpv + t) 0 = v / 256 ^ t % 256 := by
  have hin := onDiskIterator.disk_idx_lt hok hlt
  have hset := onDiskIterator.disk_SetValue_spec hok hp hlt hro v hvm
  obtain ⟨hok1, hpage, pg, hk, hk1⟩ := onDiskIterator.written_page hok hp hlt hro v
  have hv := hok.1
  generalize (Iterator.disk a it).idx = i at *
  have hpok := hv.page hk
  have hoff : pg.off = a.pageOf i := hpok.1
  have hc := hv.cell_bound hin
  have hip := hv.in_page i
  have hl := leBytes_length a.bpv v
  have hlen : pg.len = min a.psz (a.f.bytes.length - a.pageOf i) := hpok.2.2.2.2.1
  have hcap := hpok.2.2.1
  rw [← hoff] at hpage hk hk1 hip
  refine ⟨_, pg, _, hset, rfl, hpage, hk, hk1, hip.1, ?_, rfl, rfl, rfl, rfl, ?_, ?_, ?_, ?_, ?_⟩
  · rw [hlen, hoff]; rw [hoff] at hip; omega
  · dsimp only
    rw [hoff]; rw [hoff] at hip
    exact patch_length _ _ _ (by rw [hl]; omega)
  · intro t ht
    dsimp only
    rw [hoff]; rw [hoff] at hip
    rw [patch_getD _ _ _ _ (by rw [hl]; omega), hl, if_pos (by omega)]
    rw [show i * a.bpv - a.pageOf i + t - (i * a.bpv - a.pageOf i) = t by omega,
      leBytes_getD _ _ _ ht]
  · intro q hq
    dsimp only
    rw [hoff] at hq hip ⊢
    rw [patch_getD _ _ _ _ (by rw [hl]; omega), hl, if_neg hq]
  · intro k2 hk2
    rw [hoff] at hk2
    simp only [onDiskArray.writeCached, cacheGet_modify, if_neg hk2]
  · obtain ⟨b, hb1, _, _, _, hb5⟩ := onDiskIterator.Flush_spec hok1
    refine ⟨b, hb1, ?_⟩
    rw [hoff] at hpage hk hk1
    exact onDiskIterator.written_cell hv hin v hk _ (hb5 _ _ hpage hk1).2

/-- Example of `onDiskIterator.SetValue_cached_only`: index 2 of a four-element
array whose second page is cached, value 300. -/
theorem SetValue_cached_only_example :
    ∃ a1 pg pg1, onDiskIterator.SetValue exampleOnDiskCached exampleIterAt2 300 =
        .ok (a1, exampleIterAt2) () ∧ a1.f = exampleOnDiskCached.f ∧
      exampleIterAt2.page = some pg.off ∧ cacheGet exampleOnDiskCached.cache pg.off = some pg ∧
      cacheGet a1.cache pg.off = some pg1 ∧
      pg.off ≤ (Iterator.disk exampleOnDiskCached exampleIterAt2).idx * exampleOnDiskCached.bpv ∧
      (Iterator.disk exampleOnDiskCached exampleIterAt2).idx * exampleOnDiskCached.bpv - pg.off +
        exampleOnDiskCached.bpv ≤ pg.len ∧
      pg1.dirty = true ∧ pg1.off = pg.off ∧ pg1.len = pg.len ∧ pg1.refcnt = pg.refcnt ∧
      pg1.data.length = pg.data.length ∧
      (∀ t, t < exampleOnDiskCached.bpv →
        pg1.data.getD ((Iterator.disk exampleOnDiskCached exampleIterAt2).idx *
          exampleOnDiskCached.bpv - pg.off + t) 0 = 300 / 256 ^ t % 256) ∧
      (∀ q, ¬ ((Iterator.disk exampleOnDiskCached exampleIterAt2).idx *
            exampleOnDiskCached.bpv - pg.off ≤ q ∧
          q < (Iterator.disk exampleOnDiskCached exampleIterAt2).idx *
            exampleOnDiskCached.bpv - pg.off + exampleOnDiskCached.bpv) →
        pg1.data.getD q 0 = pg.data.getD q 0) ∧
      (∀ k2, k2 ≠ pg.off → cacheGet a1.cache k2 = cacheGet exampleOnDiskCached.cache k2) ∧
      ∃ a2, onDiskIterator.Flush a1 exampleIterAt2 = (a2, none) ∧
        ∀ t, t < exampleOnDiskCached.bpv →
          a2.f.bytes.getD ((Iterator.disk exampleOnDiskCached exampleIterAt2).idx *
            exampleOnDiskCached.bpv + t) 0 = 300 / 256 ^ t % 256 :=
  onDiskIterator.SetValue_cached_only exampleOnDiskCached exampleIterAt2 exampleIterAt2_OK rfl (by decide)
    rfl 300 (by decide)

/-- Claim C16 fails on the paged-disk array `New` returns over an empty file. The
iterator of `Iterate(0, 4)` after `Next()` holds the page at offset 0, whose
window is empty; `SetValue(5)` writes the bytes of 5 into the page buffer past
that window and marks the page dirty; the iterator `Flush()` returns nil,
clears the dirty flag and leaves the store empty, and so does `Close()`:
the store never receives the bytes and `ValueAt(0)` returns `io.EOF`. -/
theorem C16_short_store_flush_writes_nothing :
    New [NumValues 4, MaxValue 1000, PageSize 4, WithFile exampleEmptyFile] =
      .ok (some (.disk exampleShort), none) ∧
    ∃ it0 a1 it1 a2 a3 a4 it4,
      exampleShort.Iterate 0 4 = .ok it0 ∧
      onDiskIterator.Next exampleShort it0 = .ok (a1, it1) true ∧ it1.Index = .ok 0 ∧
      onDiskIterator.SetValue a1 it1 5 = .ok (a2, it1) () ∧
      cacheGet a2.cache 0 = some { buf := none, data := [5, 0, 0, 0], len := 0, off := 0,
                                   refcnt := 1, dirty := true } ∧
      a2.f.bytes = [] ∧
      onDiskIterator.Flush a2 it1 = (a3, none) ∧
      cacheGet a3.cache 0 = some { buf := none, data := [5, 0, 0, 0], len := 0, off := 0,
                                   refcnt := 1, dirty := false } ∧
      a3.f.bytes = [] ∧
      onDiskIterator.Close a3 it1 = .ok (a4, it4) none ∧ a4.f.bytes = [] ∧ a4.cache = [] ∧
      a4.ValueAt 0 = .ok a4 (noValue, some .EOF) :=
  ⟨rfl, _, _, _, _, _, _, _, rfl, rfl, rfl, rfl, rfl, rfl, rfl, rfl, rfl, rfl, rfl, rfl, rfl⟩

/-! ## Claim C17: closing twice -/

/-- Claim C17. For both iterator kinds, when a first `Close()` has returned (with
any result), the next `Close()` returns `ErrClosedIterator` and leaves the
iterator and its array, page cache and store included, exactly as they were;
so does every further `Close()`. -/
theorem C17_close_twice (it it1 : Iterator) (e : Option Error) (h : it.Close = .ok it1 e) :
    it1.Close = .ok it1 (some .ErrClosedIterator) := by
  cases it with
  | mem a i =>
    simp only [Iterator.Close] at h
    cases h
    rfl
  | disk a i =>
    simp only [Iterator.Close, onDiskIterator.Close] at h
    cases hd : (onDiskIterator.Flush a i).1.disposePage i.page with
    | panic s p => rw [hd] at h; cases h
    | ok s u =>
      rw [hd] at h
      cases h
      rfl

/-- Witness of C17: the iterator of the example standing on a dirty cached page. -/
theorem C17_close_twice_witness :
    ∃ it1 e, (Iterator.disk exampleOnDiskCached exampleIterAt2).Close = .ok it1 e ∧
      it1.Close = .ok it1 (some .ErrClosedIterator) :=
  ⟨_, _, rfl, C17_close_twice (Iterator.disk exampleOnDiskCached exampleIterAt2) _ _ rfl⟩

/-! ## Claims C18 and C19: errors in the disk-backed iterator -/

/-- Claim C18 fails when the flush in `Close()` fails: a paged-disk array is built by
`New` over a caller-supplied file, an iterator over `[0, 4)` is advanced to
index 2 and writes `SetValue(5)`, so its page is dirty and no error is
latched; the owner of the file then closes the handle, so `WriteAt` fails.
The iterator `Flush()` returns that error as a value, but `Close()` panics
with "cannot dispose of a dirty page" instead of returning it. -/
theorem C18_close_panics_after_failed_flush :
    ∃ ba it0 it1 a2 i2 s,
      New [NumValues 4, MaxValue 1000, PageSize 4, WithFile exampleFile] = .ok (some ba, none) ∧
      ba.Iterate 0 4 = .ok it0 ∧ it0.Skip 3 = .ok it1 true ∧
      it1.SetValue 5 = .ok (.disk a2 i2) () ∧ i2.err = none ∧
      (onDiskIterator.Flush { a2 with f := a2.f.Close.1 } i2).2 = some .fileClosed ∧
      onDiskIterator.Close { a2 with f := a2.f.Close.1 } i2 = .panic s .dirtyPage :=
  ⟨_, _, _, _, _, _, rfl, rfl, rfl, rfl, rfl, rfl, rfl⟩

/-- Claim C19 fails on the paged-disk iterator: on a disk-backed array of four
elements the iterator of `Iterate(0, 6)` advanced by `Skip(5)` lands on index
4, past the array, yet returns true with no error latched, and `Value()`
returns what the page buffer holds there; the resident iterator in the same
situation returns false and latches `io.EOF`. -/
theorem C19_disk_reads_past_the_end :
    (∃ it0 it1, exampleDisk.Iterate 0 6 = .ok it0 ∧ it0.Skip 5 = .ok it1 true ∧
      it1.Err = none ∧ it1.Index = .ok 4 ∧ it1.Value = .ok 0) ∧
    (∃ m0 m1, exampleMem.Iterate 0 6 = .ok m0 ∧ m0.Skip 5 = .ok m1 false ∧
      m1.Err = some .EOF) :=
  ⟨⟨_, _, rfl, rfl, rfl, rfl, rfl⟩, ⟨_, _, rfl, rfl, rfl⟩⟩

/-! ## Claim C20: freezing with cached pages -/

/-- Claim C20, amended. `Freeze()` on a paged-disk array always sets the frozen flag,
whatever the cache holds; on an array that satisfies its invariant it returns
nil, every page that was cached stays cached, no cached page is dirty
afterwards (each dirty one has been flushed), and every element reads as
before. -/
theorem C20_freeze_with_cached_pages (a : onDiskArray) :
    a.Freeze.1.ro = true ∧
    (a.Valid → ∃ b, a.Freeze = (b, none) ∧ b.Valid ∧ b.ro = true ∧
      (∀ k, (cacheGet b.cache k).isSome = (cacheGet a.cache k).isSome) ∧
      (∀ k pg, cacheGet b.cache k = some pg → pg.dirty = false) ∧
      (∀ i, i < a.num → ∃ v, a.ValueAt i = .ok a (v, none) ∧ b.ValueAt i = .ok b (v, none))) := by
  constructor
  · unfold onDiskArray.Freeze
    rw [onDiskArray.Flush_ro]
  · intro hv
    obtain ⟨b, h1, h2, h3, h4, _, _, _, h8, h9, h10⟩ := onDiskArray.disk_Freeze_spec hv
    refine ⟨b, h1, h2, h3, h9, h10, ?_⟩
    intro i hi
    refine ⟨a.valueOf i, onDiskArray.disk_ValueAt_eq hv hi, ?_⟩
    rw [onDiskArray.disk_ValueAt_eq h2 (by rw [h4]; exact hi), h8 i hi]

/-- Witness of the amended C20: an array with one dirty page in its cache. -/
theorem C20_freeze_with_cached_pages_witness :
    ∃ b, exampleOnDiskCached.Freeze = (b, none) ∧ b.Valid ∧ b.ro = true ∧
      (∀ k, (cacheGet b.cache k).isSome = (cacheGet exampleOnDiskCached.cache k).isSome) ∧
      (∀ k pg, cacheGet b.cache k = some pg → pg.dirty = false) ∧
      (∀ i, i < exampleOnDiskCached.num →
        ∃ v, exampleOnDiskCached.ValueAt i = .ok exampleOnDiskCached (v, none) ∧
          b.ValueAt i = .ok b (v, none)) :=
  (C20_freeze_with_cached_pages exampleOnDiskCached).2 (by decide)

/-- Counterexample to C20 as stated: with a page still cached for an open iterator,
`Freeze()` does not stop; it returns nil and the array is frozen. -/
theorem C20_freeze_not_rejected :
    exampleOnDiskCached.cache ≠ [] ∧
    ∃ b, exampleOnDiskCached.Freeze = (b, none) ∧ b.Frozen = true :=
  ⟨by decide, _, rfl, rfl⟩

/-! ## Claims C21 and C22: live iterators, the on-disk threshold -/

theorem removeFile_cases (f : File) :
    (f.readOnly = true ∧ removeFile f = .panic f .nilPointer) ∨
    (f.readOnly = false ∧ ∃ f1 e, removeFile f = .ok f1 e) := by
  unfold removeFile
  cases hr : f.readOnly
  · right
    refine ⟨rfl, ?_⟩
    simp only [Bool.false_eq_true, if_false]
    split <;> exact ⟨_, _, rfl⟩
  · left
    exact ⟨rfl, by simp⟩

/-- Claim C21. On a paged-disk array whose page cache is not empty, `Truncate(n)` with
`n ≤ Len()` panics (with "BigArray is read-only" on a frozen array, otherwise
with "Truncate() with live iterators is undefined behavior") and leaves the
array, its length and its store as they were; `Close()` panics too (with
"BigArray.Close called with outstanding iterators", unless removing the file
of a read-only wrapper already panicked). With an empty cache neither call
raises those two violations. -/
theorem C21_live_iterators_rejected (a : onDiskArray) (n : Nat) :
    (a.cache ≠ [] → n ≤ a.num →
      ∃ p, a.Truncate n = .panic a p ∧ (p = .readOnly ∨ p = .liveIterators) ∧
        (a.ro = false → p = .liveIterators)) ∧
    (a.cache ≠ [] →
      ∃ s p, a.Close = .panic s p ∧ s.num = a.num ∧ s.cache = a.cache ∧
        (¬ (a.doc = true ∧ a.f.readOnly = true) → p = .outstandingIterators)) ∧
    (a.cache = [] →
      (∀ s, a.Truncate n ≠ .panic s .liveIterators) ∧
      (∀ s, a.Close ≠ .panic s .outstandingIterators)) := by
  refine ⟨fun hc hn => ?_, fun hc => ?_, fun hc => ⟨fun s => ?_, fun s => ?_⟩⟩
  · have hl : a.cache.length ≠ 0 := by
      intro h; exact hc (List.length_eq_zero.mp h)
    unfold onDiskArray.Truncate
    cases hro : a.ro
    · rw [if_neg (by simp), if_neg (by simp [onDiskArray.Len]; omega), if_pos hl]
      exact ⟨_, rfl, Or.inr rfl, fun _ => rfl⟩
    · rw [if_pos rfl]
      exact ⟨_, rfl, Or.inl rfl, fun h => by cases h⟩
  · have hl : a.cache.length ≠ 0 := by
      intro h; exact hc (List.length_eq_zero.mp h)
    unfold onDiskArray.Close
    rw [if_pos hl]
    cases hd : a.doc
    · simp only [Bool.false_eq_true, if_false]
      exact ⟨_, _, rfl, rfl, rfl, fun _ => rfl⟩
    · simp only [if_true]
      rcases removeFile_cases a.f with ⟨hr, h1⟩ | ⟨hr, f1, e, h1⟩
      · rw [h1]
        exact ⟨_, _, rfl, rfl, rfl, fun h => absurd ⟨trivial, hr⟩ h⟩
      · rw [h1]
        exact ⟨_, _, rfl, rfl, rfl, fun _ => rfl⟩
  · intro h
    unfold onDiskArray.Truncate at h
    have hl : ¬ (a.cache.length ≠ 0) := by simp [hc]
    rw [if_neg hl] at h
    split at h
    · cases h
    · split at h <;> cases h
  · intro h
    unfold onDiskArray.Close at h
    have hl : ¬ (a.cache.length ≠ 0) := by simp [hc]
    rw [if_neg hl] at h
    split at h
    · rcases removeFile_cases a.f with ⟨hr, h1⟩ | ⟨hr, f1, e, h1⟩
      · rw [h1] at h; cases h
      · rw [h1] at h; cases h
    · cases h

/-- Witness of C21 on an array with one cached page. -/
theorem C21_live_iterators_rejected_witness :
    (∃ p, exampleOnDiskCached.Truncate 2 = .panic exampleOnDiskCached p ∧
        (p = .readOnly ∨ p = .liveIterators) ∧
        (exampleOnDiskCached.ro = false → p = .liveIterators)) ∧
    (∃ s p, exampleOnDiskCached.Close = .panic s p ∧ s.num = exampleOnDiskCached.num ∧
        s.cache = exampleOnDiskCached.cache ∧
        (¬ (exampleOnDiskCached.doc = true ∧ exampleOnDiskCached.f.readOnly = true) →
          p = .outstandingIterators)) :=
  ⟨(C21_live_iterators_rejected exampleOnDiskCached 2).1 (by decide) (by decide),
   (C21_live_iterators_rejected exampleOnDiskCached 2).2.1 (by decide)⟩

/-- Claim C22 fails when the size equals the threshold: `New(NumValues(256),
MaxValue(255), OnDiskThreshold(256))` has width 1 and `N * W = 256`, which
does not exceed the threshold, yet the array is backed by a temporary file;
one element less and it is resident. -/
theorem C22_threshold_is_strict :
    (∃ d, New [NumValues 256, MaxValue 255, OnDiskThreshold 256] =
        .ok (some (.disk d), none) ∧ d.doc = true ∧ d.num * d.bpv = 256) ∧
    (∃ m, New [NumValues 255, MaxValue 255, OnDiskThreshold 256] =
        .ok (some (.mem m), none)) :=
  ⟨⟨_, rfl, rfl, rfl⟩, ⟨_, rfl⟩⟩

/-! ## Claim C28: the cell of the current element -/

/-- Claim C28. For a paged-disk array that satisfies its invariant (width 1, 2, 4 or
8, page size a positive multiple of the width, store of at least `N * W`
bytes) and an iterator over a range inside the array with no latched error:
whenever `Skip(n)` returns true, `Index()` returns an index `i < N`, the
attached page is cached under its own offset, that offset is
`(i * W / pageSize) * pageSize`, it is at most `i * W`, and
`i * W - page.off + W ≤ len(page.data)`: the cell of the current element lies
inside the window of the attached page. -/
theorem C28_cell_in_attached_page (a : onDiskArray) (it : onDiskIterator)
    (hok : (Iterator.disk a it).OK) (n : Nat) (b : onDiskArray) (it2 : onDiskIterator)
    (h : onDiskIterator.Skip a it n = .ok (b, it2) true) :
    ∃ i pg, it2.Index = .ok i ∧ i < b.num ∧ it2.page = some pg.off ∧
      cacheGet b.cache pg.off = some pg ∧ pg.off = i * b.bpv / b.psz * b.psz ∧
      pg.off ≤ i * b.bpv ∧ i * b.bpv - pg.off + b.bpv ≤ pg.len := by
  by_cases hn : 0 < n ∨ it.primed = true
  · by_cases hlt : (Iterator.disk a it).target n < it.num
    · have hs : (Iterator.disk a it).Skip n = .ok (.disk b it2) true := by
        simp only [Iterator.Skip, h]
      obtain ⟨x, e1, e2, _, e4, e5, _, _, e8, _, _⟩ :=
        Iterator.Skip_more (Iterator.disk a it) hok n hn hlt
      rw [hs] at e1
      cases e1
      have hl : it2.pos < it2.num := by
        have h4 : it2.pos = (Iterator.disk a it).target n := e4
        have h5 : it2.num = it.num := e5
        rw [h4, h5]; exact hlt
      have hp : it2.primed = true := e8
      have hin := onDiskIterator.disk_idx_lt e2 hl
      have hidx := onDiskIterator.disk_Index_eq e2 hp hl
      obtain ⟨bv, _, _, _, hpg, hat⟩ := e2
      have hpage := hat hp hl
      generalize (Iterator.disk b it2).idx = i at hin hidx hpage
      obtain ⟨pg, hk⟩ := Option.isSome_iff_exists.mp (hpg _ hpage)
      have hpok := bv.page hk
      have hoff : pg.off = i * b.bpv / b.psz * b.psz := hpok.1
      have hc := bv.cell_bound hin
      have hip := bv.in_page i
      have hlen : pg.len = min b.psz (b.f.bytes.length - b.pageOf i) := hpok.2.2.2.2.1
      have hpo : b.pageOf i = i * b.bpv / b.psz * b.psz := rfl
      rw [← hoff] at hpage hk
      rw [hpo, ← hoff] at hip hlen
      exact ⟨i, pg, hidx, hin, hpage, hk, hoff, hip.1, by rw [hlen]; omega⟩
    · have := onDiskIterator.disk_Skip_done hok n hn (by omega)
      rw [this] at h
      cases h
  · have h1 : n = 0 ∧ it.primed = false := by
      constructor
      · omega
      · cases hp : it.primed
        · rfl
        · exact absurd (Or.inr hp) hn
    unfold onDiskIterator.Skip at h
    have hpos := hok.2.2.1
    simp only [Iterator.pos, Iterator.num] at hpos
    rw [if_neg (by omega), if_pos h1] at h
    cases h

/-- Witness of C28: the descending iterator over a disk-backed array of four 16-bit
elements with pages of two elements, advanced by three. -/
theorem C28_cell_in_attached_page_witness :
    ∃ b it2, onDiskIterator.Skip exampleOnDisk
        { page := none, err := none, base := 0, pos := 0, num := 4, val := noValue,
          primed := false, down := true } 3 = .ok (b, it2) true ∧
      ∃ i pg, it2.Index = .ok i ∧ i < b.num ∧ it2.page = some pg.off ∧
        cacheGet b.cache pg.off = some pg ∧ pg.off = i * b.bpv / b.psz * b.psz ∧
        pg.off ≤ i * b.bpv ∧ i * b.bpv - pg.off + b.bpv ≤ pg.len :=
  ⟨_, _, rfl, C28_cell_in_attached_page exampleOnDisk
    { page := none, err := none, base := 0, pos := 0, num := 4, val := noValue,
      primed := false, down := true } exampleIter_OK 3 _ _ rfl⟩

/-! ## Claims C24 and C25: acquiring and releasing a page -/

/-- Claim C24. `acquirePage(off)`: when the cache holds a page at `off` (whose
reference count is below the top of `uint32`), the call returns that page with
its reference count increased by one and every other field as it was, and the
store, the pool and every other cache entry are untouched; when it holds
none (and the store is open and `off` fits a signed offset), the call returns
a new page, cached under `off`, with `off` as its offset, reference count 1,
`dirty = false` and a window equal to the store bytes from `off` to
`min(off + pageSize, length of the store)`, a short or empty read being no
error, and every other cache entry is as it was. -/
theorem C24_acquire_page (a : onDiskArray) (off : Nat) :
    (∀ pg, cacheGet a.cache off = some pg → pg.refcnt + 1 < 2 ^ 32 →
      ∃ b, a.acquirePage off = (b, some off, none) ∧ b.f = a.f ∧ b.p = a.p ∧
        cacheGet b.cache off = some { pg with refcnt := pg.refcnt + 1 } ∧
        ∀ k2, k2 ≠ off → cacheGet b.cache k2 = cacheGet a.cache k2) ∧
    (cacheGet a.cache off = none → a.f.closed = false → off < 2 ^ 63 →
      ∃ b pg, a.acquirePage off = (b, some off, none) ∧ b.f = a.f ∧
        cacheGet b.cache off = some pg ∧ pg.off = off ∧ pg.refcnt = 1 ∧ pg.dirty = false ∧
        pg.len = min a.psz (a.f.bytes.length - off) ∧
        pg.data.take pg.len = (a.f.bytes.drop off).take a.psz ∧
        ∀ k2, k2 ≠ off → cacheGet b.cache k2 = cacheGet a.cache k2) := by
  constructor
  · intro pg hk hrc
    unfold onDiskArray.acquirePage
    rw [hk]
    dsimp only
    refine ⟨_, rfl, rfl, rfl, ?_, ?_⟩
    · simp only [cacheGet_modify, if_true, hk, Option.map_some']
      rw [Nat.mod_eq_of_lt hrc]
    · intro k2 hk2
      simp only [cacheGet_modify, if_neg hk2]
  · intro hk hc ho
    obtain ⟨hr1, hr2⟩ := ReadAt_any a.f a.psz off hc ho
    have hne : ¬ ((a.f.ReadAt a.psz off).2 ≠ none ∧ (a.f.ReadAt a.psz off).2 ≠ some Error.EOF) := by
      rcases hr2 with h | h <;> simp [h]
    have hrl : (a.f.ReadAt a.psz off).1.length = min a.psz (a.f.bytes.length - off) := by
      rw [hr1]; simp
    unfold onDiskArray.acquirePage
    rw [hk]
    dsimp only
    rw [if_neg hne]
    refine ⟨_, _, rfl, rfl, (cacheGet_set _ _ _ _).trans (if_pos rfl), rfl, rfl, rfl, hrl,
      ?_, ?_⟩
    · dsimp only
      rw [List.take_left', hr1]
      rfl
    · intro k2 hk2
      simp only [cacheGet_set, if_neg hk2]

/-- Witness of C24 on an array with the page at offset 4 cached and the page at
offset 0 not. -/
theorem C24_acquire_page_witness :
    (∃ b, exampleOnDiskCached.acquirePage 4 = (b, some 4, none) ∧
        b.f = exampleOnDiskCached.f ∧ b.p = exampleOnDiskCached.p ∧
        cacheGet b.cache 4 = some { buf := none, data := [0, 0, 10, 0], len := 4, off := 4,
                                    refcnt := 1 + 1, dirty := true } ∧
        ∀ k2, k2 ≠ 4 → cacheGet b.cache k2 = cacheGet exampleOnDiskCached.cache k2) ∧
    (∃ b pg, exampleOnDiskCached.acquirePage 0 = (b, some 0, none) ∧
        b.f = exampleOnDiskCached.f ∧
        cacheGet b.cache 0 = some pg ∧ pg.off = 0 ∧ pg.refcnt = 1 ∧ pg.dirty = false ∧
        pg.len = min exampleOnDiskCached.psz (exampleOnDiskCached.f.bytes.length - 0) ∧
        pg.data.take pg.len = (exampleOnDiskCached.f.bytes.drop 0).take exampleOnDiskCached.psz ∧
        ∀ k2, k2 ≠ 0 → cacheGet b.cache k2 = cacheGet exampleOnDiskCached.cache k2) :=
  ⟨(C24_acquire_page exampleOnDiskCached 4).1 _ rfl (by decide),
   (C24_acquire_page exampleOnDiskCached 0).2 rfl rfl (by decide)⟩

/-- Claim C25. `disposePage(page)` for a page cached under its own offset: when the
page is dirty the call panics with "cannot dispose of a dirty page" and leaves
the array, cache and reference count included, as it was; otherwise (the
count being at least 1) it decreases the count by one, the page stays cached
under its offset with every other field unchanged while the new count is
above zero, and is removed from the cache exactly when the count was 1; every
other cache entry and the store are untouched; `disposePage(nil)` does
nothing. -/
theorem C25_dispose_page (a : onDiskArray) (k : Nat) (pg : cachePage)
    (hk : cacheGet a.cache k = some pg) (hoff : pg.off = k) :
    (pg.dirty = true → a.disposePage (some k) = .panic a .dirtyPage) ∧
    (pg.dirty = false → 1 ≤ pg.refcnt → pg.refcnt < 2 ^ 32 →
      ∃ b, a.disposePage (some k) = .ok b () ∧ b.f = a.f ∧
        (1 < pg.refcnt → cacheGet b.cache k = some { pg with refcnt := pg.refcnt - 1 }) ∧
        (pg.refcnt = 1 → cacheGet b.cache k = none) ∧
        ∀ k2, k2 ≠ k → cacheGet b.cache k2 = cacheGet a.cache k2) ∧
    a.disposePage none = .ok a () := by
  have hat : a.pageAt k = pg := by simp [onDiskArray.pageAt, hk]
  refine ⟨fun hd => ?_, fun hd h1 h2 => ?_, rfl⟩
  · unfold onDiskArray.disposePage
    simp only [hat, hd, if_true]
  · have hrc : (pg.refcnt + 2 ^ 32 - 1) % 2 ^ 32 = pg.refcnt - 1 := by
      have : pg.refcnt + 2 ^ 32 - 1 = (pg.refcnt - 1) + 2 ^ 32 := by omega
      rw [this, Nat.add_mod_right]
      exact Nat.mod_eq_of_lt (by omega)
    unfold onDiskArray.disposePage
    simp only [hat, hd, Bool.false_eq_true, if_false, hrc]
    by_cases hgt : 0 < pg.refcnt - 1
    · rw [if_pos hgt]
      refine ⟨_, rfl, rfl, fun _ => ?_, fun h => by omega, ?_⟩
      · simp only [cacheGet_modify, if_true, hk, Option.map_some', hd]
      · intro k2 hk2
        simp only [cacheGet_modify, if_neg hk2]
    · rw [if_neg hgt]
      have habs : cacheGet (cacheDel a.cache pg.off) k = none := by
        rw [cacheGet_del, if_pos hoff.symm]
      refine ⟨_, rfl, rfl, fun h => by omega, fun _ => ?_, ?_⟩
      · simp only [cacheModify_absent _ _ _ habs]
        exact habs
      · intro k2 hk2
        rw [cacheModify_absent _ _ _ habs, cacheGet_del, hoff, if_neg hk2]

/-- Witness of C25: a dirty cached page, and a clean one with reference count 1. -/
theorem C25_dispose_page_witness :
    (({ buf := none, data := [0, 0, 10, 0], len := 4, off := 4, refcnt := 1,
        dirty := true } : cachePage).dirty = true →
      exampleOnDiskCached.disposePage (some 4) = .panic exampleOnDiskCached .dirtyPage) ∧
    (∃ b, exampleOnDiskClean.disposePage (some 4) = .ok b () ∧ b.f = exampleOnDiskClean.f ∧
      cacheGet b.cache 4 = none ∧
      ∀ k2, k2 ≠ 4 → cacheGet b.cache k2 = cacheGet exampleOnDiskClean.cache k2) ∧
    exampleOnDiskCached.disposePage none = .ok exampleOnDiskCached () :=
  ⟨(C25_dispose_page exampleOnDiskCached 4 _ rfl rfl).1,
   ((C25_dispose_page exampleOnDiskClean 4 _ rfl rfl).2.1 rfl (by decide) (by decide)).imp
     (fun _ h => ⟨h.1, h.2.1, h.2.2.2.1 rfl, h.2.2.2.2⟩),
   (C25_dispose_page exampleOnDiskCached 4 _ rfl rfl).2.2⟩

/-! ## Claim C23: the two iterators agree -/

theorem skipTrace_congr (ns : List Nat) (x y : Iterator) (hx : x.OK) (hy : y.OK)
    (hpos : y.pos = x.pos) (hnum : y.num = x.num) (hbase : y.base = x.base)
    (hdown : y.down = x.down) (hpr : y.primed = x.primed)
    (hlen : y.array.Len = x.array.Len)
    (hval : ∀ i, i < x.array.Len → y.array.valueOf i = x.array.valueOf i) :
    skipTrace ns x = skipTrace ns y := by
  induction ns generalizing x y with
  | nil => rfl
  | cons n ns ih =>
    have hxp : x.pos ≤ x.num := by
      cases x with
      | mem a i => exact hx.2.2.1
      | disk a i => exact hx.2.2.1
    have ht : y.target n = x.target n := by
      simp only [Iterator.target, hpos, hpr]
    by_cases hn : 0 < n ∨ x.primed = true
    · have hn2 : 0 < n ∨ y.primed = true := by rw [hpr]; exact hn
      by_cases hlt : x.target n < x.num
      · obtain ⟨x1, a1, a2, a3, a4, a5, a6, a7, a8, a9, a10⟩ := x.Skip_more hx n hn hlt
        obtain ⟨y1, b1, b2, b3, b4, b5, b6, b7, b8, b9, b10⟩ :=
          y.Skip_more hy n hn2 (by rw [ht, hnum]; exact hlt)
        have hidx : y1.idx = x1.idx :=
          Iterator.idx_congr (by rw [b4, a4, ht]) (by rw [b5, a5, hnum]) (by rw [b6, a6, hbase])
            (by rw [b7, a7, hdown])
        have hl1 : x1.pos < x1.num := by rw [a4, a5]; exact hlt
        have hl2 : y1.pos < y1.num := by rw [b4, b5, ht, hnum]; exact hlt
        simp only [skipTrace, a1, b1]
        rw [x1.Index_eq a2 a8 hl1, y1.Index_eq b2 b8 hl2, x1.Value_eq a8 hl1,
          y1.Value_eq b8 hl2, a9, b9, hidx, hval _ a10]
        congr 1
        apply ih x1 y1 a2 b2 (by rw [b4, a4, ht]) (by rw [b5, a5, hnum]) (by rw [b6, a6, hbase])
          (by rw [b7, a7, hdown]) (by rw [b8, a8]) (by rw [b3.1, a3.1, hlen])
        intro i hi
        rw [a3.1] at hi
        rw [b3.2.2.2 i (by rw [hlen]; exact hi), a3.2.2.2 i hi, hval i hi]
      · obtain ⟨x1, a1, a2, a3, a4, a5, a6, a7, a8, _⟩ := x.Skip_done hx n hn (by omega)
        obtain ⟨y1, b1, b2, b3, b4, b5, b6, b7, b8, _⟩ :=
          y.Skip_done hy n hn2 (by rw [ht, hnum]; omega)
        simp only [skipTrace, a1, b1]
        rw [x1.Index_exhausted a8 (by rw [a4, a5]), y1.Index_exhausted b8 (by rw [b4, b5]),
          x1.Value_exhausted a8 (by rw [a4, a5]), y1.Value_exhausted b8 (by rw [b4, b5])]
        congr 1
        apply ih x1 y1 a2 b2 (by rw [b4, a4, hnum]) (by rw [b5, a5, hnum]) (by rw [b6, a6, hbase])
          (by rw [b7, a7, hdown]) (by rw [b8, a8]) (by rw [b3, a3, hlen])
        rw [a3, b3]; exact hval
    · have h0 : n = 0 := by omega
      have hp : x.primed = false := by
        cases h : x.primed
        · rfl
        · exact absurd (Or.inr h) hn
      subst h0
      simp only [skipTrace, x.Skip_zero_unprimed hp hxp,
        y.Skip_zero_unprimed (by rw [hpr]; exact hp) (by rw [hpos, hnum]; exact hxp)]

/-- Claim C23. For a resident array and a paged-disk array that satisfy their
invariants, have the same length `N` and return the same value from
`ValueAt(i)` for every `i < N`, for every range `i ≤ j ≤ N`, either direction
and every sequence of `Skip` amounts: the resident and the paged-disk
iterator return the same boolean from every `Skip`, and after every `Skip`
the same result from `Index()` and from `Value()` (the same panic where a
call is a contract violation, as `Skip(0)` on a fresh iterator). -/
theorem C23_same_traversal (m : inMemoryArray) (d : onDiskArray) (hm : m.Valid) (hd : d.Valid)
    (hlen : d.Len = m.Len)
    (hval : ∀ i, i < m.Len → ∃ v, m.ValueAt i = .ok m (v, none) ∧ d.ValueAt i = .ok d (v, none))
    (i j : Nat) (hij : i ≤ j) (hj : j ≤ m.Len) (ns : List Nat) :
    (∃ x y, (BigArray.mem m).Iterate i j = .ok x ∧ (BigArray.disk d).Iterate i j = .ok y ∧
      skipTrace ns x = skipTrace ns y) ∧
    (∃ x y, (BigArray.mem m).ReverseIterate i j = .ok x ∧
      (BigArray.disk d).ReverseIterate i j = .ok y ∧ skipTrace ns x = skipTrace ns y) := by
  have hv : ∀ k, k < (BigArray.mem m).Len →
      (BigArray.disk d).valueOf k = (BigArray.mem m).valueOf k := by
    intro k hk
    obtain ⟨v, h1, h2⟩ := hval k hk
    have hk2 : k < d.num := by
      have h : d.num = m.Len := hlen
      rw [h]; exact hk
    rw [inMemoryArray.mem_ValueAt_eq m hk] at h1
    rw [onDiskArray.disk_ValueAt_eq hd hk2] at h2
    have e1 : m.data.getD k 0 = v := by injection h1 with _ h; exact (Prod.mk.inj h).1
    have e2 : d.valueOf k = v := by injection h2 with _ h; exact (Prod.mk.inj h).1
    show d.valueOf k = m.data.getD k 0
    rw [e1, e2]
  constructor
  · obtain ⟨x, a1, a2, a3, a4, a5, a6, a7, a8⟩ :=
      (BigArray.mem m).Iterate_spec hm i j hij hj
    obtain ⟨y, b1, b2, b3, b4, b5, b6, b7, b8⟩ :=
      (BigArray.disk d).Iterate_spec hd i j hij (by rw [BigArray.Len, hlen]; exact hj)
    refine ⟨x, y, a1, b1, skipTrace_congr ns x y a2 b2 (by rw [b4, a4]) (by rw [b5, a5])
      (by rw [b6, a6]) (by rw [b7, a7]) (by rw [b8, a8]) (by rw [b3, a3]; exact hlen) ?_⟩
    rw [a3, b3]; exact hv
  · obtain ⟨x, a1, a2, a3, a4, a5, a6, a7, a8⟩ :=
      (BigArray.mem m).ReverseIterate_spec hm i j hij hj
    obtain ⟨y, b1, b2, b3, b4, b5, b6, b7, b8⟩ :=
      (BigArray.disk d).ReverseIterate_spec hd i j hij (by rw [BigArray.Len, hlen]; exact hj)
    refine ⟨x, y, a1, b1, skipTrace_congr ns x y a2 b2 (by rw [b4, a4]) (by rw [b5, a5])
      (by rw [b6, a6]) (by rw [b7, a7]) (by rw [b8, a8]) (by rw [b3, a3]; exact hlen) ?_⟩
    rw [a3, b3]; exact hv

/-- Witness of C23: the values `0, 7, 0, 9` held once in a resident array and once in
a disk-backed array, the range `[0, 4)`, and the amounts 2, 0, 1, 5. -/
theorem C23_same_traversal_witness :
    (∃ x y, (BigArray.mem exampleResident).Iterate 0 4 = .ok x ∧
      (BigArray.disk exampleOnDisk).Iterate 0 4 = .ok y ∧
      skipTrace [2, 0, 1, 5] x = skipTrace [2, 0, 1, 5] y) ∧
    (∃ x y, (BigArray.mem exampleResident).ReverseIterate 0 4 = .ok x ∧
      (BigArray.disk exampleOnDisk).ReverseIterate 0 4 = .ok y ∧
      skipTrace [2, 0, 1, 5] x = skipTrace [2, 0, 1, 5] y) :=
  C23_same_traversal exampleResident exampleOnDisk (by decide) (by decide) rfl
    (by
      intro i hi
      have h4 : exampleResident.Len = 4 := rfl
      have : i = 0 ∨ i = 1 ∨ i = 2 ∨ i = 3 := by omega
      rcases this with rfl | rfl | rfl | rfl <;> exact ⟨_, rfl, rfl⟩)
    0 4 (by decide) (by decide) [2, 0, 1, 5]

/-! ## Flushing, in general -/

theorem WriteAt_refuses (f : File) (data : List Nat) (off : Nat) :
    ((f.WriteAt data off).2 ≠ none ↔ f.refuses off) ∧
    (f.WriteAt data off).1.readOnly = f.readOnly ∧ (f.WriteAt data off).1.closed = f.closed ∧
    (f.refuses off → (f.WriteAt data off).1 = f) := by
  unfold File.WriteAt File.refuses
  by_cases hr : f.readOnly = true
  · rw [if_pos hr]
    exact ⟨⟨fun _ => Or.inl hr, fun _ => by simp⟩, rfl, rfl, fun _ => rfl⟩
  · rw [if_neg hr]
    by_cases hc : f.closed = true
    · rw [if_pos hc]
      exact ⟨⟨fun _ => Or.inr (Or.inl hc), fun _ => by simp⟩, rfl, rfl, fun _ => rfl⟩
    · rw [if_neg hc]
      by_cases ho : 2 ^ 63 ≤ off
      · rw [if_pos ho]
        exact ⟨⟨fun _ => Or.inr (Or.inr ho), fun _ => by simp⟩, rfl, rfl, fun _ => rfl⟩
      · rw [if_neg ho]
        have hnr : ¬ (f.readOnly = true ∨ f.closed = true ∨ 2 ^ 63 ≤ off) := by
          rintro (h | h | h) <;> contradiction
        split
        · exact ⟨⟨fun h => absurd rfl h, fun h => absurd h hnr⟩, rfl, rfl, fun h => absurd h hnr⟩
        · exact ⟨⟨fun h => absurd rfl h, fun h => absurd h hnr⟩, rfl, rfl, fun h => absurd h hnr⟩

theorem refuses_congr {f g : File} (h1 : g.readOnly = f.readOnly) (h2 : g.closed = f.closed)
    (off : Nat) : g.refuses off ↔ f.refuses off := by
  simp only [File.refuses, h1, h2]

theorem flushPage_gen (a : onDiskArray) (k : Nat) :
    (flushPage a (some k)).1.f.readOnly = a.f.readOnly ∧
    (flushPage a (some k)).1.f.closed = a.f.closed ∧
    (∀ k0 pg0, cacheGet a.cache k0 = some pg0 →
      cacheGet (flushPage a (some k)).1.cache k0 =
        some (if k0 = k ∧ ¬ a.f.refuses pg0.off then { pg0 with dirty := false } else pg0)) ∧
    (∀ k0, cacheGet a.cache k0 = none → cacheGet (flushPage a (some k)).1.cache k0 = none) ∧
    ((flushPage a (some k)).2 = none ↔
      ∀ pg, cacheGet a.cache k = some pg → pg.dirty = true → ¬ a.f.refuses pg.off) := by
  have clean : ∀ pg : cachePage, pg.dirty = false → ({ pg with dirty := false } : cachePage) = pg := by
    intro pg h; cases pg; simp only at h; simp [h]
  cases hk : cacheGet a.cache k with
  | none =>
    have e : flushPage a (some k) = (a, none) := by
      simp [flushPage, onDiskArray.pageAt, hk, cachePage.zero]
    rw [e]
    refine ⟨rfl, rfl, ?_, fun _ h => h, ?_⟩
    · intro k0 pg0 h0
      have hne : k0 ≠ k := by
        intro e; rw [e, hk] at h0; cases h0
      rw [h0, if_neg (fun h => hne h.1)]
    · exact ⟨fun _ pg h => (by cases h), fun _ => rfl⟩
  | some pg =>
    have hat : a.pageAt k = pg := by simp [onDiskArray.pageAt, hk]
    obtain ⟨w1, w2, w3, w4⟩ := WriteAt_refuses a.f (pg.data.take pg.len) pg.off
    cases hd : pg.dirty
    · have e : flushPage a (some k) = (a, none) := by
        simp [flushPage, hat, hd]
      rw [e]
      refine ⟨rfl, rfl, ?_, fun _ h => h, ?_⟩
      · intro k0 pg0 h0
        rw [h0]
        congr 1
        by_cases h : k0 = k ∧ ¬ a.f.refuses pg0.off
        · rw [if_pos h]
          rw [h.1, hk] at h0
          cases h0
          exact (clean pg hd).symm
        · rw [if_neg h]
      · refine ⟨fun _ pg1 h1 hd1 => ?_, fun _ => rfl⟩
        cases h1
        rw [hd] at hd1; cases hd1
    · cases hw : (a.f.WriteAt (pg.data.take pg.len) pg.off).2 with
      | some e0 =>
        have hrf : a.f.refuses pg.off := w1.mp (by rw [hw]; simp)
        have e : flushPage a (some k) =
            ({ a with f := (a.f.WriteAt (pg.data.take pg.len) pg.off).1 }, some e0) := by
          simp [flushPage, hat, hd, hw]
        rw [e]
        refine ⟨w2, w3, ?_, fun _ h => h, ?_⟩
        · intro k0 pg0 h0
          show cacheGet a.cache k0 = _
          rw [h0]
          congr 1
          by_cases h : k0 = k ∧ ¬ a.f.refuses pg0.off
          · rw [h.1, hk] at h0
            cases h0
            exact absurd hrf h.2
          · rw [if_neg h]
        · refine ⟨fun h => (by cases h), fun h => ?_⟩
          exact absurd hrf (h pg rfl hd)
      | none =>
        have hrf : ¬ a.f.refuses pg.off := by
          intro h
          exact (w1.mpr h) hw
        have e : flushPage a (some k) =
            ({ a with f := (a.f.WriteAt (pg.data.take pg.len) pg.off).1,
                      cache := cacheModify a.cache k (fun p => { p with dirty := false }) },
             none) := by
          simp [flushPage, hat, hd, hw]
        rw [e]
        refine ⟨w2, w3, ?_, ?_, ?_⟩
        · intro k0 pg0 h0
          show cacheGet (cacheModify a.cache k (fun p => { p with dirty := false })) k0 = _
          rw [cacheGet_modify]
          by_cases hkk : k0 = k
          · rw [if_pos hkk, h0]
            rw [hkk, hk] at h0
            cases h0
            simp only [Option.map_some']
            rw [if_pos ⟨hkk, hrf⟩]
          · rw [if_neg hkk, h0, if_neg (fun h => hkk h.1)]
        · intro k0 h0
          show cacheGet (cacheModify a.cache k (fun p => { p with dirty := false })) k0 = _
          rw [cacheGet_modify]
          split
          · rw [h0]; rfl
          · exact h0
        · refine ⟨fun _ pg1 h1 _ => ?_, fun _ => rfl⟩
          cases h1
          exact hrf

theorem flushPages_gen (ks : List Nat) (a : onDiskArray) (e : Option Error) :
    (flushPages ks a e).1.f.readOnly = a.f.readOnly ∧
    (flushPages ks a e).1.f.closed = a.f.closed ∧
    (∀ k0 pg0, cacheGet a.cache k0 = some pg0 →
      cacheGet (flushPages ks a e).1.cache k0 =
        some (if k0 ∈ ks ∧ ¬ a.f.refuses pg0.off then { pg0 with dirty := false } else pg0)) ∧
    (∀ k0, cacheGet a.cache k0 = none → cacheGet (flushPages ks a e).1.cache k0 = none) ∧
    ((flushPages ks a e).2 = none ↔
      e = none ∧ ∀ k, k ∈ ks → ∀ pg, cacheGet a.cache k = some pg → pg.dirty = true →
        ¬ a.f.refuses pg.off) := by
  induction ks generalizing a e with
  | nil =>
    refine ⟨rfl, rfl, ?_, fun _ h => h, ?_⟩
    · intro k0 pg0 h0
      simp only [flushPages, h0, List.not_mem_nil, false_and, if_false]
    · simp [flushPages]
  | cons k ks ih =>
    obtain ⟨f1, f2, f3, f4, f5⟩ := flushPage_gen a k
    generalize hr : flushPage a (some k) = r at f1 f2 f3 f4 f5
    have hrc : ∀ off, r.1.f.refuses off ↔ a.f.refuses off := refuses_congr f1 f2
    generalize he : (if r.2 ≠ none ∧ e = none then r.2 else e) = e1
    have he1 : e1 = none ↔ e = none ∧ r.2 = none := by
      rw [← he]
      by_cases h1 : e = none
      · by_cases h2 : r.2 = none
        · rw [if_neg (fun h => h.1 h2)]
          exact ⟨fun _ => ⟨h1, h2⟩, fun _ => h1⟩
        · rw [if_pos ⟨h2, h1⟩]
          exact ⟨fun h => absurd h h2, fun h => h.2⟩
      · rw [if_neg (fun h => h1 h.2)]
        exact ⟨fun h => absurd h h1, fun h => h.1⟩
    obtain ⟨g1, g2, g3, g4, g5⟩ := ih r.1 e1
    have hstep : flushPages (k :: ks) a e = flushPages ks r.1 e1 := by
      simp only [flushPages, hr, he]
    rw [hstep]
    refine ⟨g1.trans f1, g2.trans f2, ?_, fun k0 h0 => g4 k0 (f4 k0 h0), ?_⟩
    · intro k0 pg0 h0
      rw [g3 k0 _ (f3 k0 pg0 h0)]
      congr 1
      by_cases hrf : a.f.refuses pg0.off
      · have n1 : (if k0 = k ∧ ¬ a.f.refuses pg0.off then ({ pg0 with dirty := false } : cachePage)
            else pg0) = pg0 := if_neg (fun h => h.2 hrf)
        have n2 : (if k0 ∈ k :: ks ∧ ¬ a.f.refuses pg0.off
            then ({ pg0 with dirty := false } : cachePage) else pg0) = pg0 :=
          if_neg (fun h => h.2 hrf)
        rw [n1, n2, if_neg (fun h => h.2 ((hrc _).mpr hrf))]
      · by_cases hk0 : k0 = k
        · have n1 : (if k0 = k ∧ ¬ a.f.refuses pg0.off
              then ({ pg0 with dirty := false } : cachePage) else pg0) =
              { pg0 with dirty := false } := if_pos ⟨hk0, hrf⟩
          have n2 : (if k0 ∈ k :: ks ∧ ¬ a.f.refuses pg0.off
              then ({ pg0 with dirty := false } : cachePage) else pg0) =
              { pg0 with dirty := false } := if_pos ⟨by simp [hk0], hrf⟩
          rw [n1, n2]
          split <;> rfl
        · have n1 : (if k0 = k ∧ ¬ a.f.refuses pg0.off
              then ({ pg0 with dirty := false } : cachePage) else pg0) = pg0 :=
            if_neg (fun h => hk0 h.1)
          rw [n1]
          by_cases hin : k0 ∈ ks
          · rw [if_pos ⟨hin, fun h => hrf ((hrc _).mp h)⟩, if_pos ⟨by simp [hin], hrf⟩]
          · rw [if_neg (fun h => hin h.1), if_neg]
            intro h
            rcases List.mem_cons.mp h.1 with h1 | h1
            · exact hk0 h1
            · exact hin h1
    · rw [g5, he1, f5]
      constructor
      · rintro ⟨⟨h1, h2⟩, h3⟩
        refine ⟨h1, ?_⟩
        intro k' hk' pg hpg hd
        by_cases hkk : k' = k
        · rw [hkk] at hpg
          exact h2 pg hpg hd
        · have hin : k' ∈ ks := by
            rcases List.mem_cons.mp hk' with h | h
            · exact absurd h hkk
            · exact h
          have := f3 k' pg hpg
          rw [if_neg (fun h => hkk h.1)] at this
          exact fun h => h3 k' hin pg this hd ((hrc _).mpr h)
      · rintro ⟨h1, h2⟩
        refine ⟨⟨h1, fun pg hpg hd => h2 k (by simp) pg hpg hd⟩, ?_⟩
        intro k' hk' pg1 hpg1 hd1
        cases h0 : cacheGet a.cache k' with
        | none => rw [f4 k' h0] at hpg1; cases hpg1
        | some pg0 =>
          rw [f3 k' pg0 h0] at hpg1
          by_cases hc : k' = k ∧ ¬ a.f.refuses pg0.off
          · rw [if_pos hc] at hpg1
            cases hpg1
            cases hd1
          · rw [if_neg hc] at hpg1
            cases hpg1
            exact fun h => h2 k' (by simp [hk']) pg1 h0 hd1 ((hrc _).mp h)

theorem onDiskArray.Flush_eq (a : onDiskArray) :
    a.Flush = flushPages (a.cache.map Prod.fst) a none := by
  unfold onDiskArray.Flush
  dsimp only
  unfold File.Flush
  split
  · rename_i err h
    split at h
    · cases h
      generalize flushPages (a.cache.map Prod.fst) a none = r
      obtain ⟨r1, r2⟩ := r
      cases r2 <;> simp
    · cases h
  · rfl

/-! ## Claim C26: flushing -/

theorem cacheGet_key_mem (c : Cache) (k : Nat) (pg : cachePage) (h : cacheGet c k = some pg) :
    k ∈ c.map Prod.fst :=
  List.mem_map.mpr ⟨(k, pg), cacheGet_mem _ _ _ h, rfl⟩

/-- Claim C26. `flushPage` does nothing for a nil page or a clean page; for a dirty
page it calls `WriteAt` with the page's whole window at the page's offset,
and clears the dirty flag when the write succeeds, while a failed write is
returned as the error and leaves the page dirty. When `Flush()` of the array
returns nil no cached page is dirty; on an array that satisfies its invariant
`Flush()` returns nil and afterwards the store bytes at
`[off, off + len(window))` equal the window of every cached page. When the
write of some dirty cached page fails, `Flush()` returns an error and every
cached page whose write succeeds is still flushed. -/
theorem C26_flush (a : onDiskArray) :
    flushPage a none = (a, none) ∧
    (∀ k pg, cacheGet a.cache k = some pg →
      (pg.dirty = false → flushPage a (some k) = (a, none)) ∧
      (pg.dirty = true → (a.f.WriteAt (pg.data.take pg.len) pg.off).2 = none →
        flushPage a (some k) =
          ({ a with f := (a.f.WriteAt (pg.data.take pg.len) pg.off).1,
                    cache := cacheModify a.cache k (fun p => { p with dirty := false }) },
           none) ∧
        cacheGet (flushPage a (some k)).1.cache k = some { pg with dirty := false }) ∧
      (pg.dirty = true → ∀ e, (a.f.WriteAt (pg.data.take pg.len) pg.off).2 = some e →
        flushPage a (some k) =
          ({ a with f := (a.f.WriteAt (pg.data.take pg.len) pg.off).1 }, some e) ∧
        cacheGet (flushPage a (some k)).1.cache k = some pg)) ∧
    (a.Flush.2 = none → ∀ k pg, cacheGet a.Flush.1.cache k = some pg → pg.dirty = false) ∧
    (a.Valid → ∃ b, a.Flush = (b, none) ∧
      ∀ k pg, cacheGet b.cache k = some pg → pg.dirty = false ∧
        ∀ q, q < pg.len → b.f.bytes.getD (pg.off + q) 0 = pg.data.getD q 0) ∧
    (∀ k pg, cacheGet a.cache k = some pg → pg.dirty = true →
      (a.f.WriteAt (pg.data.take pg.len) pg.off).2 ≠ none →
      a.Flush.2 ≠ none ∧
      ∀ k2 pg2, cacheGet a.cache k2 = some pg2 →
        (a.f.WriteAt (pg2.data.take pg2.len) pg2.off).2 = none →
        cacheGet a.Flush.1.cache k2 = some { pg2 with dirty := false }) := by
  refine ⟨rfl, ?_, ?_, ?_, ?_⟩
  · intro k pg hk
    have hat : a.pageAt k = pg := by simp [onDiskArray.pageAt, hk]
    refine ⟨fun hd => ?_, fun hd hw => ?_, fun hd e hw => ?_⟩
    · simp [flushPage, hat, hd]
    · have e1 : flushPage a (some k) =
          ({ a with f := (a.f.WriteAt (pg.data.take pg.len) pg.off).1,
                    cache := cacheModify a.cache k (fun p => { p with dirty := false }) },
           none) := by
        simp [flushPage, hat, hd, hw]
      refine ⟨e1, ?_⟩
      rw [e1]
      show cacheGet (cacheModify a.cache k (fun p => { p with dirty := false })) k = _
      rw [cacheGet_modify, if_pos rfl, hk]
      rfl
    · have e1 : flushPage a (some k) =
          ({ a with f := (a.f.WriteAt (pg.data.take pg.len) pg.off).1 }, some e) := by
        simp [flushPage, hat, hd, hw]
      refine ⟨e1, ?_⟩
      rw [e1]
      exact hk
  · intro hn k pg hk
    rw [onDiskArray.Flush_eq] at hn hk
    obtain ⟨_, _, g3, g4, g5⟩ := flushPages_gen (a.cache.map Prod.fst) a none
    cases h0 : cacheGet a.cache k with
    | none => rw [g4 k h0] at hk; cases hk
    | some pg0 =>
      rw [g3 k pg0 h0] at hk
      have hall := (g5.mp hn).2 k (cacheGet_key_mem _ _ _ h0) pg0 h0
      by_cases hc : k ∈ a.cache.map Prod.fst ∧ ¬ a.f.refuses pg0.off
      · rw [if_pos hc] at hk
        cases hk
        rfl
      · rw [if_neg hc] at hk
        cases hk
        cases hd : pg.dirty
        · rfl
        · exact absurd ⟨cacheGet_key_mem _ _ _ h0, hall hd⟩ hc
  · intro hv
    obtain ⟨b, g1, g2, g3, g4, g5, g6⟩ :=
      flushPages_spec (a.cache.map Prod.fst) a hv (by
        intro k hk
        obtain ⟨e, he, rfl⟩ := List.mem_map.mp hk
        rw [cacheGet_of_mem a.cache hv.2.2.2.2.2.2.2.2.1 e.1 e.2 he]; rfl)
    refine ⟨b, by rw [onDiskArray.Flush_eq, g1], ?_⟩
    intro k pg hk
    have hin : k ∈ a.cache.map Prod.fst := by
      have h2 : (cacheGet a.cache k).isSome = true := by rw [← g4, hk]; rfl
      obtain ⟨pg0, hpg0⟩ := Option.isSome_iff_exists.mp h2
      exact cacheGet_key_mem _ _ _ hpg0
    have hd := g5 k hin pg hk
    have hpok := g2.page hk
    refine ⟨hd, fun q hq => ?_⟩
    rw [hpok.1]
    exact (hpok.2.2.2.2.2.1 hd q hq).symm
  · intro k pg hk hd hw
    obtain ⟨_, _, g3, g4, g5⟩ := flushPages_gen (a.cache.map Prod.fst) a none
    have hrf : a.f.refuses pg.off := (WriteAt_refuses a.f _ pg.off).1.mp hw
    rw [onDiskArray.Flush_eq]
    refine ⟨fun hn => ?_, ?_⟩
    · exact (g5.mp hn).2 k (cacheGet_key_mem _ _ _ hk) pg hk hd hrf
    · intro k2 pg2 hk2 hw2
      have hnr : ¬ a.f.refuses pg2.off := by
        intro h
        exact ((WriteAt_refuses a.f (pg2.data.take pg2.len) pg2.off).1.mpr h) hw2
      rw [g3 k2 pg2 hk2, if_pos ⟨cacheGet_key_mem _ _ _ hk2, hnr⟩]

/-- Witness of C26: the array with one dirty cached page satisfies its invariant, so
its `Flush()` returns nil and the store then holds the window of the page. -/
theorem C26_flush_witness :
    ∃ b, exampleOnDiskCached.Flush = (b, none) ∧
      ∀ k pg, cacheGet b.cache k = some pg → pg.dirty = false ∧
        ∀ q, q < pg.len → b.f.bytes.getD (pg.off + q) 0 = pg.data.getD q 0 :=
  (C26_flush exampleOnDiskCached).2.2.2.1 (by decide)

/-! ## The page cache and its pins -/

theorem PinInv.of_view {a b : onDiskArray} {P : Nat → Nat} (h : PinInv a P) (hp : b.psz = a.psz)
    (hv : ∀ k, (cacheGet b.cache k).map (fun pg => (pg.off, pg.refcnt)) =
      (cacheGet a.cache k).map (fun pg => (pg.off, pg.refcnt))) : PinInv b P := by
  obtain ⟨h1, h2⟩ := h
  constructor
  · intro k pg hk
    have := hv k
    rw [hk] at this
    cases ha : cacheGet a.cache k with
    | none => rw [ha] at this; cases this
    | some pg0 =>
      rw [ha] at this
      simp only [Option.map_some', Option.some.injEq, Prod.mk.injEq] at this
      obtain ⟨g1, g2, g3, g4⟩ := h1 k pg0 ha
      rw [hp, this.1, this.2]
      exact ⟨g1, g2, g3, g4⟩
  · intro k hk
    apply h2
    have := hv k
    rw [hk] at this
    cases ha : cacheGet a.cache k with
    | none => rfl
    | some pg0 => rw [ha] at this; cases this

theorem PinInv.modify_page {a : onDiskArray} {P : Nat → Nat} (h : PinInv a P) (k : Nat)
    (g : cachePage → cachePage) (hg : ∀ pg, (g pg).off = pg.off ∧ (g pg).refcnt = pg.refcnt)
    (f : File) (p : Option Pool) :
    PinInv { a with cache := cacheModify a.cache k g, f := f, p := p } P := by
  refine @PinInv.of_view a _ P h ?_ ?_
  · rfl
  intro k2
  show (cacheGet (cacheModify a.cache k g) k2).map _ = _
  rw [cacheGet_modify]
  split
  · cases cacheGet a.cache k2 with
    | none => rfl
    | some pg => simp [(hg pg).1, (hg pg).2]
  · rfl

theorem PinInv.with_store {a : onDiskArray} {P : Nat → Nat} (h : PinInv a P) (f : File)
    (p : Option Pool) : PinInv { a with f := f, p := p } P := by
  refine @PinInv.of_view a _ P h ?_ ?_
  · rfl
  · intro _; rfl

theorem flushPage_psz (a : onDiskArray) (p : Option Nat) : (flushPage a p).1.psz = a.psz := by
  unfold flushPage
  split
  · rfl
  · dsimp only
    split
    · split <;> rfl
    · rfl

theorem flushPage_pins {a : onDiskArray} {P : Nat → Nat} (h : PinInv a P) (p : Option Nat) :
    PinInv (flushPage a p).1 P := by
  cases p with
  | none => exact h
  | some k =>
    obtain ⟨_, _, g3, g4, _⟩ := flushPage_gen a k
    refine @PinInv.of_view a _ P h (flushPage_psz a (some k)) ?_
    intro k2
    cases hk : cacheGet a.cache k2 with
    | none => rw [g4 k2 hk]
    | some pg =>
      rw [g3 k2 pg hk]
      split <;> rfl

theorem flushPage_clean (a : onDiskArray) (k : Nat) (h : (flushPage a (some k)).2 = none) :
    ((flushPage a (some k)).1.pageAt k).dirty = false := by
  obtain ⟨_, _, g3, g4, g5⟩ := flushPage_gen a k
  unfold onDiskArray.pageAt
  cases hk : cacheGet a.cache k with
  | none => rw [g4 k hk]; rfl
  | some pg =>
    rw [g3 k pg hk]
    show (if k = k ∧ ¬ a.f.refuses pg.off then ({ pg with dirty := false } : cachePage)
      else pg).dirty = false
    by_cases hc : k = k ∧ ¬ a.f.refuses pg.off
    · rw [if_pos hc]
    · rw [if_neg hc]
      cases hd : pg.dirty
      · rfl
      · exact absurd ⟨rfl, (g5.mp h) pg hk hd⟩ hc

theorem addPin_same (Q : Nat → Nat) (k : Nat) : addPin Q (some k) k = Q k + 1 := by
  simp [addPin]

theorem addPin_other (Q : Nat → Nat) {k k2 : Nat} (h : k2 ≠ k) : addPin Q (some k) k2 = Q k2 := by
  have : ¬ (some k = some k2) := fun e => h (Option.some.inj e).symm
  simp [addPin, this]

theorem addPin_none (Q : Nat → Nat) : addPin Q none = Q := by
  funext k; simp [addPin]

theorem PinInv.cached {a : onDiskArray} {Q : Nat → Nat} {k : Nat}
    (h : PinInv a (addPin Q (some k))) : ∃ pg, cacheGet a.cache k = some pg := by
  cases hk : cacheGet a.cache k with
  | some pg => exact ⟨pg, rfl⟩
  | none =>
    have := h.2 k hk
    rw [addPin_same] at this
    omega

theorem disposePage_pins {a : onDiskArray} {Q : Nat → Nat} {k : Nat}
    (h : PinInv a (addPin Q (some k))) (hb : Q k + 1 < 2 ^ 32) :
    (a.disposePage (some k) = .panic a .dirtyPage ∧ (a.pageAt k).dirty = true) ∨
    (∃ b, a.disposePage (some k) = .ok b () ∧ PinInv b Q ∧ b.psz = a.psz) := by
  obtain ⟨pg, hk⟩ := h.cached
  have hat : a.pageAt k = pg := by simp [onDiskArray.pageAt, hk]
  obtain ⟨g1, g2, g3, g4⟩ := h.1 k pg hk
  rw [addPin_same] at g3
  have hrc : (pg.refcnt + 2 ^ 32 - 1) % 2 ^ 32 = Q k := by
    have : pg.refcnt + 2 ^ 32 - 1 = Q k + 2 ^ 32 := by omega
    rw [this, Nat.add_mod_right]
    exact Nat.mod_eq_of_lt (by omega)
  cases hd : pg.dirty
  · right
    unfold onDiskArray.disposePage
    simp only [hat, hd, Bool.false_eq_true, if_false, hrc]
    by_cases hq : 0 < Q k
    · rw [if_pos hq]
      refine ⟨_, rfl, ?_, rfl⟩
      constructor
      · intro k2 pg2 h2
        change cacheGet (cacheModify a.cache k _) k2 = some pg2 at h2
        rw [cacheGet_modify] at h2
        by_cases hkk : k2 = k
        · rw [if_pos hkk, hkk, hk] at h2
          simp only [Option.map_some', Option.some.injEq] at h2
          subst h2
          rw [hkk]
          exact ⟨g1, g2, rfl, hq⟩
        · rw [if_neg hkk] at h2
          have := h.1 k2 pg2 h2
          rw [addPin_other Q hkk] at this
          exact this
      · intro k2 h2
        change cacheGet (cacheModify a.cache k _) k2 = none at h2
        rw [cacheGet_modify] at h2
        by_cases hkk : k2 = k
        · rw [if_pos hkk, hkk, hk] at h2
          cases h2
        · rw [if_neg hkk] at h2
          have := h.2 k2 h2
          rw [addPin_other Q hkk] at this
          exact this
    · rw [if_neg hq]
      have habs : cacheGet (cacheDel a.cache pg.off) k = none := by
        rw [cacheGet_del, if_pos g1.symm]
      refine ⟨_, rfl, ?_, rfl⟩
      have hview : ∀ k2, cacheGet (cacheModify (cacheDel a.cache pg.off) k
          (fun _ => cachePage.zero)) k2 = if k2 = k then none else cacheGet a.cache k2 := by
        intro k2
        rw [cacheModify_absent _ _ _ habs, cacheGet_del, g1]
      constructor
      · intro k2 pg2 h2
        change cacheGet (cacheModify (cacheDel a.cache pg.off) k _) k2 = some pg2 at h2
        rw [hview] at h2
        by_cases hkk : k2 = k
        · rw [if_pos hkk] at h2; cases h2
        · rw [if_neg hkk] at h2
          have := h.1 k2 pg2 h2
          rw [addPin_other Q hkk] at this
          exact this
      · intro k2 h2
        change cacheGet (cacheModify (cacheDel a.cache pg.off) k _) k2 = none at h2
        rw [hview] at h2
        by_cases hkk : k2 = k
        · rw [hkk]; omega
        · rw [if_neg hkk] at h2
          have := h.2 k2 h2
          rw [addPin_other Q hkk] at this
          exact this
  · left
    refine ⟨?_, by rw [hat]; exact hd⟩
    unfold onDiskArray.disposePage
    simp only [hat, hd, if_true]

theorem acquirePage_pins {a : onDiskArray} {Q : Nat → Nat} (h : PinInv a Q) (po : Nat)
    (hpo : po % a.psz = 0) (hb : Q po + 1 < 2 ^ 32) :
    (a.acquirePage po).1.psz = a.psz ∧
    (((a.acquirePage po).2.2 = none ∧ (a.acquirePage po).2.1 = some po ∧
        PinInv (a.acquirePage po).1 (addPin Q (some po))) ∨
     ((a.acquirePage po).2.2 ≠ none ∧ (a.acquirePage po).2.1 = none ∧
        PinInv (a.acquirePage po).1 Q)) := by
  unfold onDiskArray.acquirePage
  cases hk : cacheGet a.cache po with
  | some pg =>
    dsimp only
    obtain ⟨g1, g2, g3, g4⟩ := h.1 po pg hk
    refine ⟨rfl, Or.inl ⟨rfl, rfl, ?_⟩⟩
    constructor
    · intro k2 pg2 h2
      change cacheGet (cacheModify a.cache po _) k2 = some pg2 at h2
      rw [cacheGet_modify] at h2
      by_cases hkk : k2 = po
      · rw [if_pos hkk, hkk, hk] at h2
        simp only [Option.map_some', Option.some.injEq] at h2
        subst h2
        rw [hkk, addPin_same]
        have e : (pg.refcnt + 1) % 2 ^ 32 = pg.refcnt + 1 := Nat.mod_eq_of_lt (by omega)
        refine ⟨g1, g2, ?_, ?_⟩
        · show (pg.refcnt + 1) % 2 ^ 32 = Q po + 1
          rw [e, g3]
        · show 1 ≤ (pg.refcnt + 1) % 2 ^ 32
          rw [e]; omega
      · rw [if_neg hkk] at h2
        rw [addPin_other Q hkk]
        exact h.1 k2 pg2 h2
    · intro k2 h2
      change cacheGet (cacheModify a.cache po _) k2 = none at h2
      rw [cacheGet_modify] at h2
      by_cases hkk : k2 = po
      · rw [if_pos hkk, hkk, hk] at h2
        cases h2
      · rw [if_neg hkk] at h2
        rw [addPin_other Q hkk]
        exact h.2 k2 h2
  | none =>
    dsimp only
    have hq : Q po = 0 := h.2 po hk
    by_cases he : (a.f.ReadAt a.psz po).2 ≠ none ∧ (a.f.ReadAt a.psz po).2 ≠ some Error.EOF
    · rw [if_pos he]
      exact ⟨rfl, Or.inr ⟨he.1, rfl, h.with_store _ _⟩⟩
    · rw [if_neg he]
      refine ⟨rfl, Or.inl ⟨rfl, rfl, ?_⟩⟩
      constructor
      · intro k2 pg2 h2
        change cacheGet (cacheSet a.cache po _) k2 = some pg2 at h2
        rw [cacheGet_set] at h2
        by_cases hkk : k2 = po
        · rw [if_pos hkk] at h2
          simp only [Option.some.injEq] at h2
          subst h2
          rw [hkk, addPin_same, hq]
          exact ⟨rfl, hpo, rfl, Nat.le_refl _⟩
        · rw [if_neg hkk] at h2
          rw [addPin_other Q hkk]
          exact h.1 k2 pg2 h2
      · intro k2 h2
        change cacheGet (cacheSet a.cache po _) k2 = none at h2
        rw [cacheGet_set] at h2
        by_cases hkk : k2 = po
        · rw [if_pos hkk] at h2; cases h2
        · rw [if_neg hkk] at h2
          rw [addPin_other Q hkk]
          exact h.2 k2 h2

theorem detach_pins {a : onDiskArray} {Q : Nat → Nat} {it : onDiskIterator}
    (h : PinInv a (addPin Q it.page)) (hb : ∀ k, Q k + 1 < 2 ^ 32) (po : Nat) :
    (∀ r, onDiskIterator.detach a it po = .error r →
      PinInv r.state.1 (addPin Q r.state.2.page) ∧ r.state.1.psz = a.psz) ∧
    (∀ s, onDiskIterator.detach a it po = .ok s →
      PinInv s.1 (addPin Q s.2.page) ∧ s.1.psz = a.psz ∧
      (s.2.page = none ∨ s.2.page = some po)) := by
  unfold onDiskIterator.detach
  cases hpg : it.page with
  | none =>
    refine ⟨fun r hr => (by cases hr), fun s hs => ?_⟩
    cases hs
    exact ⟨h, rfl, Or.inl hpg⟩
  | some k =>
    have h0 := h
    rw [hpg] at h
    dsimp only
    obtain ⟨pg, hk⟩ := h.cached
    have hat : a.pageAt k = pg := by simp [onDiskArray.pageAt, hk]
    have hoff : pg.off = k := (h.1 k pg hk).1
    by_cases hc : (a.pageAt k).off ≠ po
    · rw [if_pos hc]
      have hf := flushPage_pins h (some k)
      have hfp := flushPage_psz a (some k)
      cases h2 : (flushPage a (some k)).2 with
      | some e =>
        refine ⟨fun r hr => ?_, fun s hs => (by cases hs)⟩
        cases hr
        exact ⟨hf, hfp⟩
      | none =>
        dsimp only
        rcases disposePage_pins hf (hb k) with ⟨d1, d2⟩ | ⟨b, d1, d2, d3⟩
        · rw [d1]
          refine ⟨fun r hr => ?_, fun s hs => (by cases hs)⟩
          cases hr
          exact ⟨by show PinInv _ (addPin Q it.page); rw [hpg]; exact hf, hfp⟩
        · rw [d1]
          refine ⟨fun r hr => (by cases hr), fun s hs => ?_⟩
          cases hs
          refine ⟨?_, d3.trans hfp, Or.inl rfl⟩
          show PinInv b (addPin Q none)
          rw [addPin_none]; exact d2
    · rw [if_neg hc]
      refine ⟨fun r hr => (by cases hr), fun s hs => ?_⟩
      cases hs
      refine ⟨h0, rfl, Or.inr ?_⟩
      show it.page = some po
      rw [hpg]
      have : pg.off = po := by
        rw [hat] at hc
        exact not_not.mp hc
      rw [← this, hoff]

theorem attach_pins {a : onDiskArray} {Q : Nat → Nat} {it : onDiskIterator}
    (h : PinInv a (addPin Q it.page)) (hb : ∀ k, Q k + 1 < 2 ^ 32) (po : Nat)
    (hpo : po % a.psz = 0) :
    (∀ r, onDiskIterator.attach a it po = .error r →
      PinInv r.state.1 (addPin Q r.state.2.page) ∧ r.state.1.psz = a.psz) ∧
    (∀ s, onDiskIterator.attach a it po = .ok s →
      PinInv s.1 (addPin Q s.2.page) ∧ s.1.psz = a.psz) := by
  unfold onDiskIterator.attach
  cases hpg : it.page with
  | some k =>
    refine ⟨fun r hr => (by cases hr), fun s hs => ?_⟩
    cases hs
    exact ⟨h, rfl⟩
  | none =>
    rw [hpg, addPin_none] at h
    dsimp only
    obtain ⟨a1, a2⟩ := acquirePage_pins h po hpo (hb po)
    rcases a2 with ⟨e1, e2, e3⟩ | ⟨e1, e2, e3⟩
    · rw [e1]
      refine ⟨fun r hr => (by cases hr), fun s hs => ?_⟩
      cases hs
      refine ⟨?_, a1⟩
      show PinInv _ (addPin Q (a.acquirePage po).2.1)
      rw [e2]; exact e3
    · cases h3 : (a.acquirePage po).2.2 with
      | none => exact absurd h3 e1
      | some e =>
        refine ⟨fun r hr => ?_, fun s hs => (by cases hs)⟩
        cases hr
        refine ⟨?_, a1⟩
        show PinInv _ (addPin Q none)
        rw [addPin_none]; exact e3

theorem Skip_pins {a : onDiskArray} {Q : Nat → Nat} {it : onDiskIterator}
    (h : PinInv a (addPin Q it.page)) (hb : ∀ k, Q k + 1 < 2 ^ 32) (n : Nat) :
    PinInv (onDiskIterator.Skip a it n).state.1
      (addPin Q (onDiskIterator.Skip a it n).state.2.page) ∧
    (onDiskIterator.Skip a it n).state.1.psz = a.psz := by
  unfold onDiskIterator.Skip
  split
  · exact ⟨h, rfl⟩
  split
  · exact ⟨h, rfl⟩
  split
  · exact ⟨h, rfl⟩
  dsimp only
  generalize (if it.primed = true then n else n - 1) = n1
  split
  · exact ⟨h, rfl⟩
  split
  · exact ⟨h, rfl⟩
  rename_i index _
  split
  · exact ⟨h, rfl⟩
  rename_i hpsz
  have hmod : (index * a.bpv % 2 ^ 64 / a.psz * a.psz) % a.psz = 0 := Nat.mul_mod_left _ _
  generalize index * a.bpv % 2 ^ 64 / a.psz * a.psz = po at hmod ⊢
  have hp2 : PinInv a (addPin Q
      ({ it with primed := true, pos := it.pos + n1 } : onDiskIterator).page) := h
  generalize ({ it with primed := true, pos := it.pos + n1 } : onDiskIterator) = it2 at hp2 ⊢
  obtain ⟨d1, d2⟩ := detach_pins hp2 hb po
  cases hd : onDiskIterator.detach a it2 po with
  | error r => exact d1 r hd
  | ok s3 =>
    obtain ⟨a3, it3⟩ := s3
    obtain ⟨h3, p3, _⟩ := d2 _ hd
    dsimp only at h3 p3 ⊢
    obtain ⟨t1, t2⟩ := attach_pins h3 hb po (by rw [p3]; exact hmod)
    cases ha : onDiskIterator.attach a3 it3 po with
    | error r =>
      dsimp only
      exact ⟨(t1 r ha).1, (t1 r ha).2.trans p3⟩
    | ok s4 =>
      obtain ⟨a4, it4⟩ := s4
      obtain ⟨h4, p4⟩ := t2 _ ha
      dsimp only at h4 p4 ⊢
      split
      · exact ⟨h4, p4.trans p3⟩
      · split
        · exact ⟨h4, p4.trans p3⟩
        · split
          · exact ⟨h4, p4.trans p3⟩
          · exact ⟨h4, p4.trans p3⟩

theorem SetValue_pins {a : onDiskArray} {P : Nat → Nat} (it : onDiskIterator)
    (h : PinInv a P) (v : Nat) :
    PinInv (onDiskIterator.SetValue a it v).state.1 P ∧
    (onDiskIterator.SetValue a it v).state.2 = it ∧
    (onDiskIterator.SetValue a it v).state.1.psz = a.psz ∧
    (onDiskIterator.SetValue a it v).state.1.cache.map Prod.fst = a.cache.map Prod.fst := by
  unfold onDiskIterator.SetValue
  split
  · exact ⟨h, rfl, rfl, rfl⟩
  split
  · exact ⟨h, rfl, rfl, rfl⟩
  split
  · exact ⟨h, rfl, rfl, rfl⟩
  split
  · exact ⟨h, rfl, rfl, rfl⟩
  split
  · exact ⟨h, rfl, rfl, rfl⟩
  split
  · exact ⟨h, rfl, rfl, rfl⟩
  split
  · exact ⟨h, rfl, rfl, rfl⟩
  rename_i k _
  dsimp only
  split
  · exact ⟨h, rfl, rfl, rfl⟩
  split
  · exact ⟨h, rfl, rfl, rfl⟩
  refine ⟨PinInv.modify_page h k _ ?_ a.f a.p, rfl, rfl, cacheModify_keys _ _ _⟩
  exact fun _ => ⟨rfl, rfl⟩

theorem Close_pins {a : onDiskArray} {Q : Nat → Nat} {it : onDiskIterator}
    (h : PinInv a (addPin Q it.page)) (hb : ∀ k, Q k + 1 < 2 ^ 32) :
    PinInv (onDiskIterator.Close a it).state.1
      (addPin Q (onDiskIterator.Close a it).state.2.page) ∧
    (onDiskIterator.Close a it).state.1.psz = a.psz ∧
    (∀ e, onDiskIterator.Close a it = .ok (onDiskIterator.Close a it).state e →
      (onDiskIterator.Close a it).state.2.page = none) := by
  unfold onDiskIterator.Close onDiskIterator.Flush
  dsimp only
  have hf := flushPage_pins h it.page
  have hfp := flushPage_psz a it.page
  cases hpg : it.page with
  | none =>
    rw [hpg] at hf hfp
    exact ⟨hf, hfp, fun _ _ => rfl⟩
  | some k =>
    rw [hpg] at hf hfp
    rcases disposePage_pins hf (hb k) with ⟨d1, d2⟩ | ⟨b, d1, d2, d3⟩
    · rw [d1]
      refine ⟨?_, hfp, fun e he => by cases he⟩
      show PinInv _ (addPin Q it.page)
      rw [hpg]; exact hf
    · rw [d1]
      refine ⟨?_, d3.trans hfp, fun _ _ => rfl⟩
      show PinInv b (addPin Q none)
      rw [addPin_none]; exact d2

theorem ValueAt_same (a : onDiskArray) (i : Nat) : (a.ValueAt i).state = a := by
  unfold onDiskArray.ValueAt
  split
  · rfl
  split
  · rfl
  split
  · split
    · rfl
    · split <;> rfl
  · split
    · rfl
    · dsimp only
      split
      · rfl
      · split <;> rfl

theorem SetValueAt_pins {a : onDiskArray} {P : Nat → Nat} (h : PinInv a P) (i v : Nat) :
    PinInv (a.SetValueAt i v).state P ∧ (a.SetValueAt i v).state.psz = a.psz ∧
    (a.SetValueAt i v).state.cache.map Prod.fst = a.cache.map Prod.fst := by
  unfold onDiskArray.SetValueAt
  split
  · exact ⟨h, rfl, rfl⟩
  split
  · exact ⟨h, rfl, rfl⟩
  split
  · exact ⟨h, rfl, rfl⟩
  split
  · exact ⟨h, rfl, rfl⟩
  dsimp only
  split
  · exact ⟨h, rfl, rfl⟩
  split
  · exact ⟨h, rfl, rfl⟩
  rename_i ps oi _
  split
  · split
    · exact ⟨h, rfl, rfl⟩
    · refine ⟨PinInv.modify_page h ps _ ?_ _ a.p, rfl, cacheModify_keys _ _ _⟩
      exact fun _ => ⟨rfl, rfl⟩
  · exact ⟨h.with_store _ a.p, rfl, rfl⟩

/-! ## Distinct cache keys -/

theorem cacheSet_nodup (c : Cache) (k : Nat) (pg : cachePage) (h : (c.map Prod.fst).Nodup) :
    ((cacheSet c k pg).map Prod.fst).Nodup := by
  unfold cacheSet
  rw [List.map_cons, List.nodup_cons]
  refine ⟨?_, cacheDel_nodup c k h⟩
  intro hm
  obtain ⟨e, he, hek⟩ := List.mem_map.mp hm
  unfold cacheDel at he
  have := (List.mem_filter.mp he).2
  simp only [ne_eq, decide_not, Bool.not_eq_true', decide_eq_false_iff_not] at this
  exact this hek

theorem flushPage_keys (a : onDiskArray) (p : Option Nat) :
    (flushPage a p).1.cache.map Prod.fst = a.cache.map Prod.fst := by
  unfold flushPage
  split
  · rfl
  · dsimp only
    split
    · split
      · rfl
      · exact cacheModify_keys _ _ _
    · rfl

theorem acquirePage_nodup (a : onDiskArray) (off : Nat) (h : (a.cache.map Prod.fst).Nodup) :
    ((a.acquirePage off).1.cache.map Prod.fst).Nodup := by
  unfold onDiskArray.acquirePage
  split
  · dsimp only
    rw [cacheModify_keys]; exact h
  · dsimp only
    split
    · exact h
    · exact cacheSet_nodup _ _ _ h

theorem disposePage_nodup (a : onDiskArray) (p : Option Nat) (h : (a.cache.map Prod.fst).Nodup) :
    ((a.disposePage p).state.cache.map Prod.fst).Nodup := by
  unfold onDiskArray.disposePage
  split
  · exact h
  · dsimp only
    split
    · exact h
    · split
      · show ((cacheModify _ _ _).map Prod.fst).Nodup
        rw [cacheModify_keys]; exact h
      · show ((cacheModify _ _ _).map Prod.fst).Nodup
        rw [cacheModify_keys]; exact cacheDel_nodup _ _ h

theorem detach_nodup (a : onDiskArray) (it : onDiskIterator) (po : Nat)
    (h : (a.cache.map Prod.fst).Nodup) :
    (∀ r, onDiskIterator.detach a it po = .error r → (r.state.1.cache.map Prod.fst).Nodup) ∧
    (∀ s, onDiskIterator.detach a it po = .ok s → (s.1.cache.map Prod.fst).Nodup) := by
  unfold onDiskIterator.detach
  split
  · exact ⟨fun r hr => (by cases hr), fun s hs => (by cases hs; exact h)⟩
  · rename_i k _
    split
    · dsimp only
      have hf : ((flushPage a (some k)).1.cache.map Prod.fst).Nodup := by
        rw [flushPage_keys]; exact h
      have hd := disposePage_nodup _ (some k) hf
      split
      · exact ⟨fun r hr => (by cases hr; exact hf), fun s hs => (by cases hs)⟩
      · cases h2 : (flushPage a (some k)).1.disposePage (some k) with
        | panic s p =>
          rw [h2] at hd
          exact ⟨fun r hr => (by cases hr; exact hd), fun s hs => (by cases hs)⟩
        | ok s u =>
          rw [h2] at hd
          exact ⟨fun r hr => (by cases hr), fun s hs => (by cases hs; exact hd)⟩
    · exact ⟨fun r hr => (by cases hr), fun s hs => (by cases hs; exact h)⟩

theorem attach_nodup (a : onDiskArray) (it : onDiskIterator) (po : Nat)
    (h : (a.cache.map Prod.fst).Nodup) :
    (∀ r, onDiskIterator.attach a it po = .error r → (r.state.1.cache.map Prod.fst).Nodup) ∧
    (∀ s, onDiskIterator.attach a it po = .ok s → (s.1.cache.map Prod.fst).Nodup) := by
  unfold onDiskIterator.attach
  split
  · exact ⟨fun r hr => (by cases hr), fun s hs => (by cases hs; exact h)⟩
  · dsimp only
    have ha := acquirePage_nodup a po h
    split
    · exact ⟨fun r hr => (by cases hr; exact ha), fun s hs => (by cases hs)⟩
    · exact ⟨fun r hr => (by cases hr), fun s hs => (by cases hs; exact ha)⟩

theorem Skip_nodup (a : onDiskArray) (it : onDiskIterator) (n : Nat)
    (h : (a.cache.map Prod.fst).Nodup) :
    ((onDiskIterator.Skip a it n).state.1.cache.map Prod.fst).Nodup := by
  unfold onDiskIterator.Skip
  split
  · exact h
  split
  · exact h
  split
  · exact h
  dsimp only
  generalize (if it.primed = true then n else n - 1) = n1
  split
  · exact h
  split
  · exact h
  rename_i index _
  split
  · exact h
  generalize index * a.bpv % 2 ^ 64 / a.psz * a.psz = po
  generalize ({ it with primed := true, pos := it.pos + n1 } : onDiskIterator) = it2
  obtain ⟨d1, d2⟩ := detach_nodup a it2 po h
  cases hd : onDiskIterator.detach a it2 po with
  | error r => exact d1 r hd
  | ok s3 =>
    obtain ⟨a3, it3⟩ := s3
    have h3 := d2 _ hd
    dsimp only at h3 ⊢
    obtain ⟨t1, t2⟩ := attach_nodup a3 it3 po h3
    cases ha : onDiskIterator.attach a3 it3 po with
    | error r => exact t1 r ha
    | ok s4 =>
      obtain ⟨a4, it4⟩ := s4
      have h4 := t2 _ ha
      dsimp only at h4 ⊢
      split
      · exact h4
      · split
        · exact h4
        · split
          · exact h4
          · exact h4

theorem Close_nodup (a : onDiskArray) (it : onDiskIterator)
    (h : (a.cache.map Prod.fst).Nodup) :
    ((onDiskIterator.Close a it).state.1.cache.map Prod.fst).Nodup := by
  unfold onDiskIterator.Close onDiskIterator.Flush
  dsimp only
  have hf : ((flushPage a it.page).1.cache.map Prod.fst).Nodup := by
    rw [flushPage_keys]; exact h
  have hd := disposePage_nodup _ it.page hf
  cases h2 : (flushPage a it.page).1.disposePage it.page with
  | panic s p => rw [h2] at hd; exact hd
  | ok s u => rw [h2] at hd; exact hd

/-! ## Sequences of calls -/

theorem pins_cons (x : onDiskIterator) (l : List onDiskIterator) (j : Nat) :
    pins (x :: l) j = (if x.page = some j then 1 else 0) + pins l j := by
  unfold pins
  rw [List.filter_cons]
  by_cases h : x.page = some j
  · simp [h]; omega
  · simp [h]

theorem pins_le_length (l : List onDiskIterator) (j : Nat) : pins l j ≤ l.length := by
  unfold pins
  exact List.length_filter_le _ _

theorem pins_append_unattached (l : List onDiskIterator) (x : onDiskIterator)
    (h : x.page = none) : pins (l ++ [x]) = pins l := by
  funext j
  unfold pins
  rw [List.filter_append]
  simp [h]

theorem pins_get (l : List onDiskIterator) (k : Nat) (x : onDiskIterator)
    (h : l.get? k = some x) : pins l = addPin (pins (l.eraseIdx k)) x.page := by
  induction l generalizing k with
  | nil => cases h
  | cons y l ih =>
    cases k with
    | zero =>
      simp only [List.get?_cons_zero, Option.some.injEq] at h
      subst h
      funext j
      rw [pins_cons]
      simp only [List.eraseIdx_cons_zero, addPin]
      omega
    | succ k =>
      simp only [List.get?_cons_succ] at h
      funext j
      rw [pins_cons, ih k h]
      simp only [List.eraseIdx_cons_succ, addPin]
      rw [pins_cons]
      omega

theorem pins_set (l : List onDiskIterator) (k : Nat) (x : onDiskIterator)
    (h : k < l.length) : pins (l.set k x) = addPin (pins (l.eraseIdx k)) x.page := by
  induction l generalizing k with
  | nil => cases h
  | cons y l ih =>
    cases k with
    | zero =>
      funext j
      simp only [List.set_cons_zero, List.eraseIdx_cons_zero, addPin]
      rw [pins_cons]
      omega
    | succ k =>
      funext j
      simp only [List.set_cons_succ, List.eraseIdx_cons_succ, addPin]
      rw [pins_cons, pins_cons, ih k (by simpa using h)]
      simp only [addPin]
      omega

theorem pins_erase_lt (l : List onDiskIterator) (k : Nat) (h : k < l.length) (j : Nat) :
    pins (l.eraseIdx k) j + 1 ≤ l.length := by
  have h1 := pins_le_length (l.eraseIdx k) j
  have h2 : (l.eraseIdx k).length = l.length - 1 := List.length_eraseIdx_of_lt h
  omega

/-- A call on the `k`-th iterator keeps the pin invariant when the method
keeps it for the array and that one iterator. -/
theorem System.onIter_pins (s : System) (k : Nat)
    (call : onDiskArray → onDiskIterator → onDiskArray × onDiskIterator)
    (h : PinInv s.ba (pins s.iters)) (hl : s.iters.length < 2 ^ 32)
    (hcall : ∀ (Q : Nat → Nat) (it : onDiskIterator), (∀ j, Q j + 1 < 2 ^ 32) →
      PinInv s.ba (addPin Q it.page) →
      PinInv (call s.ba it).1 (addPin Q (call s.ba it).2.page)) :
    PinInv (s.onIter k call).ba (pins (s.onIter k call).iters) := by
  unfold System.onIter
  cases hk : s.iters.get? k with
  | none => exact h
  | some it =>
    dsimp only
    have hlt : k < s.iters.length := by
      rcases Nat.lt_or_ge k s.iters.length with h1 | h1
      · exact h1
      · rw [List.get?_eq_none.mpr h1] at hk; cases hk
    rw [pins_set _ _ _ hlt]
    apply hcall
    · intro j
      have := pins_erase_lt s.iters k hlt j
      omega
    · rw [← pins_get _ _ _ hk]; exact h

theorem System.onIter_nodup (s : System) (k : Nat)
    (call : onDiskArray → onDiskIterator → onDiskArray × onDiskIterator)
    (h : (s.ba.cache.map Prod.fst).Nodup)
    (hcall : ∀ it, ((call s.ba it).1.cache.map Prod.fst).Nodup) :
    ((s.onIter k call).ba.cache.map Prod.fst).Nodup := by
  unfold System.onIter
  cases hk : s.iters.get? k with
  | none => exact h
  | some it => exact hcall it

theorem System.onIter_length (s : System) (k : Nat)
    (call : onDiskArray → onDiskIterator → onDiskArray × onDiskIterator) :
    (s.onIter k call).iters.length = s.iters.length := by
  unfold System.onIter
  cases hk : s.iters.get? k with
  | none => rfl
  | some it => simp

theorem Iterate_unattached (a : onDiskArray) (i j : Nat) (it : onDiskIterator)
    (h : a.Iterate i j = .ok it) : it.page = none := by
  unfold onDiskArray.Iterate at h
  split at h
  · cases h
  · cases h; rfl

theorem ReverseIterate_unattached (a : onDiskArray) (i j : Nat) (it : onDiskIterator)
    (h : a.ReverseIterate i j = .ok it) : it.page = none := by
  unfold onDiskArray.ReverseIterate at h
  split at h
  · cases h
  · cases h; rfl

theorem System.step_length (s : System) (c : Call) :
    (s.step c).iters.length ≤ s.iters.length + 1 := by
  cases c with
  | Iterate i j =>
    show (match s.ba.Iterate i j with
      | .ok it => ({ s with iters := s.iters ++ [it] } : System)
      | .error _ => s).iters.length ≤ _
    cases s.ba.Iterate i j with
    | error _ => exact Nat.le_succ _
    | ok it => simp
  | ReverseIterate i j =>
    show (match s.ba.ReverseIterate i j with
      | .ok it => ({ s with iters := s.iters ++ [it] } : System)
      | .error _ => s).iters.length ≤ _
    cases s.ba.ReverseIterate i j with
    | error _ => exact Nat.le_succ _
    | ok it => simp
  | Skip k n => exact Nat.le_of_eq (System.onIter_length _ _ _) |>.trans (Nat.le_succ _)
  | Next k => exact Nat.le_of_eq (System.onIter_length _ _ _) |>.trans (Nat.le_succ _)
  | SetValue k v => exact Nat.le_of_eq (System.onIter_length _ _ _) |>.trans (Nat.le_succ _)
  | Flush k => exact Nat.le_of_eq (System.onIter_length _ _ _) |>.trans (Nat.le_succ _)
  | Close k => exact Nat.le_of_eq (System.onIter_length _ _ _) |>.trans (Nat.le_succ _)
  | ValueAt i => exact Nat.le_succ _
  | SetValueAt i v => exact Nat.le_succ _

theorem System.step_pins (s : System) (c : Call) (h : PinInv s.ba (pins s.iters))
    (hl : s.iters.length < 2 ^ 32) : PinInv (s.step c).ba (pins (s.step c).iters) := by
  cases c with
  | Iterate i j =>
    show PinInv (match s.ba.Iterate i j with
      | .ok it => ({ s with iters := s.iters ++ [it] } : System)
      | .error _ => s).ba (pins (match s.ba.Iterate i j with
      | .ok it => ({ s with iters := s.iters ++ [it] } : System)
      | .error _ => s).iters)
    cases hi : s.ba.Iterate i j with
    | error _ => exact h
    | ok it =>
      dsimp only
      rw [pins_append_unattached _ _ (Iterate_unattached _ _ _ _ hi)]
      exact h
  | ReverseIterate i j =>
    show PinInv (match s.ba.ReverseIterate i j with
      | .ok it => ({ s with iters := s.iters ++ [it] } : System)
      | .error _ => s).ba (pins (match s.ba.ReverseIterate i j with
      | .ok it => ({ s with iters := s.iters ++ [it] } : System)
      | .error _ => s).iters)
    cases hi : s.ba.ReverseIterate i j with
    | error _ => exact h
    | ok it =>
      dsimp only
      rw [pins_append_unattached _ _ (ReverseIterate_unattached _ _ _ _ hi)]
      exact h
  | Skip k n =>
    exact System.onIter_pins s k _ h hl (fun Q it hb hq => (Skip_pins hq hb n).1)
  | Next k =>
    exact System.onIter_pins s k _ h hl (fun Q it hb hq => (Skip_pins hq hb 1).1)
  | SetValue k v =>
    refine System.onIter_pins s k _ h hl (fun Q it hb hq => ?_)
    obtain ⟨g1, g2, _⟩ := SetValue_pins it hq v
    rw [g2]; exact g1
  | Flush k =>
    exact System.onIter_pins s k _ h hl (fun Q it hb hq => flushPage_pins hq it.page)
  | Close k =>
    exact System.onIter_pins s k _ h hl (fun Q it hb hq => (Close_pins hq hb).1)
  | ValueAt i =>
    show PinInv (s.ba.ValueAt i).state (pins s.iters)
    rw [ValueAt_same]; exact h
  | SetValueAt i v =>
    exact (SetValueAt_pins h i v).1

theorem SetValue_keys (a : onDiskArray) (it : onDiskIterator) (v : Nat) :
    (onDiskIterator.SetValue a it v).state.1.cache.map Prod.fst = a.cache.map Prod.fst := by
  unfold onDiskIterator.SetValue
  split
  · rfl
  split
  · rfl
  split
  · rfl
  split
  · rfl
  split
  · rfl
  split
  · rfl
  split
  · rfl
  dsimp only
  split
  · rfl
  split
  · rfl
  exact cacheModify_keys _ _ _

theorem SetValueAt_keys (a : onDiskArray) (i v : Nat) :
    (a.SetValueAt i v).state.cache.map Prod.fst = a.cache.map Prod.fst := by
  unfold onDiskArray.SetValueAt
  split
  · rfl
  split
  · rfl
  split
  · rfl
  split
  · rfl
  dsimp only
  split
  · rfl
  split
  · rfl
  split
  · split
    · rfl
    · exact cacheModify_keys _ _ _
  · rfl

theorem System.step_nodup (s : System) (c : Call) (h : (s.ba.cache.map Prod.fst).Nodup) :
    ((s.step c).ba.cache.map Prod.fst).Nodup := by
  cases c with
  | Iterate i j =>
    show ((match s.ba.Iterate i j with
      | .ok it => ({ s with iters := s.iters ++ [it] } : System)
      | .error _ => s).ba.cache.map Prod.fst).Nodup
    cases s.ba.Iterate i j <;> exact h
  | ReverseIterate i j =>
    show ((match s.ba.ReverseIterate i j with
      | .ok it => ({ s with iters := s.iters ++ [it] } : System)
      | .error _ => s).ba.cache.map Prod.fst).Nodup
    cases s.ba.ReverseIterate i j <;> exact h
  | Skip k n => exact System.onIter_nodup s k _ h (fun it => Skip_nodup _ _ _ h)
  | Next k => exact System.onIter_nodup s k _ h (fun it => Skip_nodup _ _ _ h)
  | SetValue k v =>
    refine System.onIter_nodup s k _ h (fun it => ?_)
    show ((onDiskIterator.SetValue s.ba it v).state.1.cache.map Prod.fst).Nodup
    rw [SetValue_keys]; exact h
  | Flush k =>
    refine System.onIter_nodup s k _ h (fun it => ?_)
    show ((flushPage s.ba it.page).1.cache.map Prod.fst).Nodup
    rw [flushPage_keys]; exact h
  | Close k => exact System.onIter_nodup s k _ h (fun it => Close_nodup _ _ h)
  | ValueAt i =>
    show ((s.ba.ValueAt i).state.cache.map Prod.fst).Nodup
    rw [ValueAt_same]; exact h
  | SetValueAt i v =>
    show ((s.ba.SetValueAt i v).state.cache.map Prod.fst).Nodup
    rw [SetValueAt_keys]; exact h

theorem System.run_cons (s : System) (c : Call) (cs : List Call) :
    s.run (c :: cs) = (s.step c).run cs := rfl

/-- The pin invariant and the distinctness of the cache keys hold after every
sequence of calls, as long as fewer than `2^32` iterators exist. -/
theorem System.run_pins (cs : List Call) (s : System) (h : PinInv s.ba (pins s.iters))
    (hn : (s.ba.cache.map Prod.fst).Nodup) (hl : s.iters.length + cs.length < 2 ^ 32) :
    PinInv (s.run cs).ba (pins (s.run cs).iters) ∧
    ((s.run cs).ba.cache.map Prod.fst).Nodup := by
  induction cs generalizing s with
  | nil => exact ⟨h, hn⟩
  | cons c cs ih =>
    rw [System.run_cons]
    have h1 := System.step_length s c
    simp only [List.length_cons] at hl
    exact ih (s.step c) (System.step_pins s c h (by omega)) (System.step_nodup s c hn) (by omega)

theorem PinInv.fresh (a : onDiskArray) (h : a.cache = []) : PinInv a (pins []) := by
  constructor
  · intro k pg hk
    rw [h] at hk
    cases hk
  · intro k _
    rfl

theorem pins_unattached (l : List onDiskIterator) (h : ∀ it ∈ l, it.page = none) (k : Nat) :
    pins l k = 0 := by
  unfold pins
  rw [List.length_eq_zero, List.filter_eq_nil_iff]
  intro it hit
  rw [h it hit]
  simp

/-- C27: In every state reached from a freshly constructed paged array (empty
cache, no iterator) by fewer than `2^32` calls of Iterate, ReverseIterate, Skip,
Next, SetValue, iterator Flush, iterator Close, ValueAt and SetValueAt, whatever
the store answers and whether a call returns or panics: the keys of the cache
are distinct; every cached page is stored under its own offset, that offset is
a multiple of the page size, and its reference count is the number of iterators
attached to it, hence at least 1; when no iterator holds a page (as after
closing them all) the cache is empty; ValueAt leaves the array as it is and
SetValueAt leaves the keys of the cache as they are. -/
theorem C27_page_cache_invariant (ba : onDiskArray) (h0 : ba.cache = []) (cs : List Call)
    (hn : cs.length < 2 ^ 32) :
    ((System.run ⟨ba, []⟩ cs).ba.cache.map Prod.fst).Nodup ∧
    (∀ k pg, (k, pg) ∈ (System.run ⟨ba, []⟩ cs).ba.cache →
      pg.off = k ∧ k % (System.run ⟨ba, []⟩ cs).ba.psz = 0 ∧
      pg.refcnt = pins (System.run ⟨ba, []⟩ cs).iters k ∧ 1 ≤ pg.refcnt) ∧
    ((∀ it ∈ (System.run ⟨ba, []⟩ cs).iters, it.page = none) →
      (System.run ⟨ba, []⟩ cs).ba.cache = []) ∧
    (∀ i, ((System.run ⟨ba, []⟩ cs).ba.ValueAt i).state = (System.run ⟨ba, []⟩ cs).ba) ∧
    (∀ i v, ((System.run ⟨ba, []⟩ cs).ba.SetValueAt i v).state.cache.map Prod.fst =
      (System.run ⟨ba, []⟩ cs).ba.cache.map Prod.fst) := by
  have hs : PinInv (System.mk ba []).ba (pins (System.mk ba []).iters) := PinInv.fresh ba h0
  have hd : ((System.mk ba []).ba.cache.map Prod.fst).Nodup := by
    show (ba.cache.map Prod.fst).Nodup
    rw [h0]; exact List.nodup_nil
  obtain ⟨g1, g2⟩ := System.run_pins cs ⟨ba, []⟩ hs hd (by simpa using hn)
  refine ⟨g2, ?_, ?_, fun i => ValueAt_same _ i, fun i v => SetValueAt_keys _ i v⟩
  · intro k pg hm
    exact g1.1 k pg (cacheGet_of_mem _ g2 k pg hm)
  · intro hall
    apply cache_nil_of_get
    intro k
    cases hk : cacheGet (System.run ⟨ba, []⟩ cs).ba.cache k with
    | none => rfl
    | some pg =>
      obtain ⟨_, _, e3, e4⟩ := g1.1 k pg hk
      rw [pins_unattached _ hall k] at e3
      omega

theorem C27_page_cache_invariant_witness :
    exampleOnDisk.cache = [] ∧
    [Call.Iterate 0 4, Call.Next 0, Call.SetValue 0 5, Call.ReverseIterate 0 2, Call.Next 1,
      Call.Close 0].length < 2 ^ 32 ∧
    (System.run ⟨exampleOnDisk, []⟩ [Call.Iterate 0 4, Call.Next 0, Call.SetValue 0 5,
      Call.ReverseIterate 0 2, Call.Next 1, Call.Close 0]).ba.cache.map Prod.fst = [0] ∧
    (∀ k pg, (k, pg) ∈ (System.run ⟨exampleOnDisk, []⟩ [Call.Iterate 0 4, Call.Next 0,
        Call.SetValue 0 5, Call.ReverseIterate 0 2, Call.Next 1, Call.Close 0]).ba.cache →
      pg.off = k ∧
      k % (System.run ⟨exampleOnDisk, []⟩ [Call.Iterate 0 4, Call.Next 0, Call.SetValue 0 5,
        Call.ReverseIterate 0 2, Call.Next 1, Call.Close 0]).ba.psz = 0 ∧
      pg.refcnt = pins (System.run ⟨exampleOnDisk, []⟩ [Call.Iterate 0 4, Call.Next 0,
        Call.SetValue 0 5, Call.ReverseIterate 0 2, Call.Next 1, Call.Close 0]).iters k ∧
      1 ≤ pg.refcnt) :=
  ⟨rfl, by decide, by decide,
    (C27_page_cache_invariant exampleOnDisk rfl [Call.Iterate 0 4, Call.Next 0,
      Call.SetValue 0 5, Call.ReverseIterate 0 2, Call.Next 1, Call.Close 0] (by decide)).2.1⟩

end bigarray
